import Mathlib

/-!
# N-Queens search engines: a shallow embedding

The five engines of the repository (`BTSolver`, `BTFCSolver`, `BTFCDVOSolver`,
`AC3Solver`, `AC3DVOSolver`) are embedded as pure functions.

* `Solution` is `std::vector<int>`; an entry `-1` is an unassigned row.
* `uint64_t` values are natural numbers below `2^64`; the word operations
  (`shl1`, `not64`, `fullMask`) reduce modulo `2^64` explicitly.
* `std::stack` is a list whose head is the top; `std::queue` is a list whose
  head is the front.
* A `while` loop over a stack or a worklist takes a fuel argument and returns
  `none` when the fuel runs out; the fuel handed over by `solve` and by
  `enforceArcConsistency` is shown to be enough.
-/

namespace NQueens

/-! ## Data model -/

/-- The type `Solution` of `Solver.h`: one column per row, `-1` for an unassigned row. -/
abbrev Solution := List Int

/-- The observable members of an engine object: `solutions`, `firstSolutionTime`,
`foundFirst`, and the shared `workQueue` the engine points to.  The clock value written
into `firstSolutionTime` is modelled by the number of solutions held right after the
append that triggers the write; `stampWrites` counts the writes (ghost field). -/
structure Engine where
  solutions : List Solution
  firstSolutionTime : Option Nat
  foundFirst : Bool
  workQueue : List Solution
  stampWrites : Nat
deriving DecidableEq

/-- A freshly constructed engine (constructor initialiser list: `foundFirst(false)`),
attached to an empty work queue. -/
def Engine.fresh : Engine :=
  { solutions := [], firstSolutionTime := none, foundFirst := false, workQueue := [],
    stampWrites := 0 }

/-- The block `solutions.push_back(current.board); if (!foundFirst) ...` shared by the
five `solve` bodies. -/
def recordSolution (e : Engine) (b : Solution) : Engine :=
  let sols := e.solutions ++ [b]
  if e.foundFirst then { e with solutions := sols }
  else { e with solutions := sols, firstSolutionTime := some sols.length,
                foundFirst := true, stampWrites := e.stampWrites + 1 }

/-- The statement `workQueue->push(current.board)`. -/
def pushWork (e : Engine) (b : Solution) : Engine :=
  { e with workQueue := e.workQueue ++ [b] }

/-- The all-unassigned board `Solution(boardSize, -1)` of `main`. -/
def emptyBoard (n : Nat) : Solution := List.replicate n (-1)

/-! ## Word operations on `uint64_t` -/

/-- The word `0xFFFFFFFFFFFFFFFF`. -/
def wordMax : Nat := 18446744073709551615

/-- The expression `1ULL << k`, for `k < 64`.  For `k ≥ 64` the C++ shift is undefined;
the value here is then the shift taken modulo 2^64, which is 0, and says nothing about
the compiled program. -/
def shl1 (k : Nat) : Nat := (1 <<< k) % (wordMax + 1)

/-- The expression `~x` on a 64-bit word. -/
def not64 (x : Nat) : Nat := x ^^^ wordMax

/-- The expression `(1ULL << n) - 1`, with wrap-around subtraction, for `n ≤ 63`.  For
`n ≥ 64` it follows `shl1` and is 2^64 - 1, which says nothing about the compiled
program. -/
def fullMask (n : Nat) : Nat := (shl1 n + wordMax) % (wordMax + 1)

/-- The builtin `__builtin_ctzll`: index of the lowest set bit of a non-zero word. -/
def ctz64 (x : Nat) : Nat := ((List.range 64).find? (fun i => x.testBit i)).getD 64

/-- The loop `while (x) { count++; x &= x - 1; }` of `popcount`. -/
def popcountLoop : Nat → Nat → Nat → Nat
  | 0, _, count => count
  | fuel + 1, x, count =>
    if x = 0 then count else popcountLoop fuel (x &&& (x - 1)) (count + 1)

/-- The member `popcount` of `BTFCDVOSolver` and `AC3DVOSolver` (a word has at most
64 set bits, so 64 rounds end the loop). -/
def popcount (x : Nat) : Nat := popcountLoop 64 x 0

/-! ## Shared pieces of the five `solve` bodies -/

/-- The scan `int startRow = 0; for (i < n) if (initialState[i] == -1) { startRow = i; break; }`. -/
def findStartRow (n : Nat) (initialState : Solution) : Nat :=
  ((List.range n).find? (fun i => initialState.getD i 0 == -1)).getD 0

/-- The member `countAssigned` of the two dynamic-ordering engines. -/
def countAssigned (n : Nat) (board : Solution) : Nat :=
  ((List.range n).filter (fun i => board.getD i 0 != -1)).length

/-- What one engine does with a popped node: the cutoff test, the solution test, the
board it carries, and the successors it pushes (in push order; `none` when an inner
worklist loop ran out of fuel). -/
structure Policy (σ : Type) where
  atCutoff : σ → Bool
  isSolution : σ → Bool
  board : σ → Solution
  expand : σ → Option (List σ)

/-- The loop `while (!stateStack.empty())` common to the five engines.  The head of the
list is the top of the stack, so the successors pushed in ascending column order end up
reversed on top of the rest. -/
def searchLoop {σ : Type} (P : Policy σ) : Nat → List σ → Engine → Option Engine
  | _, [], e => some e
  | 0, _ :: _, _ => none
  | fuel + 1, cur :: rest, e =>
    if P.atCutoff cur then searchLoop P fuel rest (pushWork e (P.board cur))
    else if P.isSolution cur then searchLoop P fuel rest (recordSolution e (P.board cur))
    else match P.expand cur with
      | none => none
      | some succs => searchLoop P fuel (succs.reverse ++ rest) e

/-- Fuel handed to `searchLoop`: a bound on the number of nodes of a tree of height at
most `n` with at most `n` successors per node. -/
def searchFuel (n : Nat) : Nat := (n + 1) ^ (n + 1)

/-- The column loop `for (int col = 0; col < n; col++)` of an expansion: `f col` is
`some (some s)` when `s` is pushed, `some none` when the column is skipped. -/
def pushColumns {σ : Type} (f : Nat → Option (Option σ)) : List Nat → Option (List σ)
  | [] => some []
  | col :: cols =>
    match f col with
    | none => none
    | some r =>
      match pushColumns f cols with
      | none => none
      | some l => some (match r with | none => l | some s => s :: l)

/-! ## Attack table (`precomputeAttackMasks`, identical in the four domain engines) -/

/-- The body of the innermost loop of `precomputeAttackMasks`: the mask stored at
`attackMask[r1][r2][col]`. -/
def attackMaskEntry (n r1 r2 col : Nat) : Nat :=
  let mask := 0 ||| shl1 col
  let diagDist := ((r2 : Int) - (r1 : Int)).natAbs
  let mask := if col + diagDist < n then mask ||| shl1 (col + diagDist) else mask
  if (col : Int) - (diagDist : Int) ≥ 0 then mask ||| shl1 (col - diagDist) else mask

/-- The member `precomputeAttackMasks`: an `n × n × n` table, zero where `r1 == r2`. -/
def precomputeAttackMasks (n : Nat) : List (List (List Nat)) :=
  (List.range n).map fun r1 =>
    (List.range n).map fun r2 =>
      if r1 == r2 then List.replicate n 0
      else (List.range n).map fun col => attackMaskEntry n r1 r2 col

/-- The lookup `attackMask[r1][r2][col]`. -/
def attackAt (attackMask : List (List (List Nat))) (r1 r2 col : Nat) : Nat :=
  ((attackMask.getD r1 []).getD r2 []).getD col 0

/-! ## `BTSolver` -/

/-- The struct `SearchState` of `BTSolver.h`. -/
structure SearchState where
  board : Solution
  row : Nat
deriving DecidableEq

/-- The member `BTSolver::isSafe`: the column scan, then the diagonal scan, over the
rows before `row`. -/
def BTSolver.isSafe (board : Solution) (row : Nat) (col : Int) : Bool :=
  (List.range row).all (fun i => board.getD i 0 != col) &&
  (List.range row).all (fun i =>
    (board.getD i 0 - col).natAbs != ((i : Int) - (row : Int)).natAbs)

/-- One iteration body of `BTSolver::solve`. -/
def BTSolver.policy (n : Nat) (maxDepth : Int) : Policy SearchState where
  atCutoff cur := decide (maxDepth > 0) && decide ((cur.row : Int) = maxDepth)
  isSolution cur := cur.row == n
  board cur := cur.board
  expand cur := pushColumns (fun col =>
    some (if BTSolver.isSafe cur.board cur.row (col : Int)
          then some { board := cur.board.set cur.row (col : Int), row := cur.row + 1 }
          else none)) (List.range n)

/-- The member `BTSolver::solve`, run on an engine built with `boardSize = n`,
`initial = initialState` and `maxDepth`. -/
def BTSolver.solve (n : Nat) (initialState : Solution) (maxDepth : Int) (e : Engine) :
    Option Engine :=
  searchLoop (BTSolver.policy n maxDepth) (searchFuel n)
    [{ board := initialState, row := findStartRow n initialState }] e

/-! ## `BTFCSolver` -/

/-- The struct `FCSearchState` (and the identical `AC3SearchState`). -/
structure FCSearchState where
  board : Solution
  row : Nat
  domains : List Nat
deriving DecidableEq

/-- The member `BTFCSolver::initializeDomains`: rows before `startRow` keep the value
`0` of `std::vector<uint64_t> domains(n)`. -/
def BTFCSolver.initializeDomains (n : Nat) (attackMask : List (List (List Nat)))
    (board : Solution) (startRow : Nat) : List Nat :=
  (List.range n).map fun row =>
    if row < startRow then 0
    else (List.range row).foldl (fun available prevRow =>
      if board.getD prevRow 0 != -1 then
        available &&& not64 (attackAt attackMask prevRow row (board.getD prevRow 0).toNat)
      else available) (fullMask n)

/-- The forward check of `BTFCSolver::solve`: some row after `row` is wiped out. -/
def BTFCSolver.causesWipeout (n : Nat) (attackMask : List (List (List Nat)))
    (domains : List Nat) (row col : Nat) : Bool :=
  ((List.range n).filter (fun futureRow => row + 1 ≤ futureRow)).any fun futureRow =>
    (domains.getD futureRow 0 &&& not64 (attackAt attackMask row futureRow col)) == 0

/-- The update `newDomains[futureRow] &= ~attackMask[current.row][futureRow][col]` for
`futureRow` from `current.row + 1` to `n - 1` (in `BTFCSolver` and `AC3Solver`). -/
def pruneFuture (n : Nat) (attackMask : List (List (List Nat)))
    (domains : List Nat) (row col : Nat) : List Nat :=
  (List.range n).map fun r =>
    if row + 1 ≤ r then domains.getD r 0 &&& not64 (attackAt attackMask row r col)
    else domains.getD r 0

/-- One iteration body of `BTFCSolver::solve`. -/
def BTFCSolver.policy (n : Nat) (attackMask : List (List (List Nat))) (maxDepth : Int) :
    Policy FCSearchState where
  atCutoff cur := decide (maxDepth > 0) && decide ((cur.row : Int) = maxDepth)
  isSolution cur := cur.row == n
  board cur := cur.board
  expand cur := pushColumns (fun col =>
    some (if (cur.domains.getD cur.row 0 &&& shl1 col) == 0 then none
          else if BTFCSolver.causesWipeout n attackMask cur.domains cur.row col then none
          else some { board := cur.board.set cur.row (col : Int), row := cur.row + 1,
                      domains := pruneFuture n attackMask cur.domains cur.row col }))
    (List.range n)

/-- The member `BTFCSolver::solve` (the constructor has run `precomputeAttackMasks`). -/
def BTFCSolver.solve (n : Nat) (initialState : Solution) (maxDepth : Int) (e : Engine) :
    Option Engine :=
  let attackMask := precomputeAttackMasks n
  let startRow := findStartRow n initialState
  searchLoop (BTFCSolver.policy n attackMask maxDepth) (searchFuel n)
    [{ board := initialState, row := startRow,
       domains := BTFCSolver.initializeDomains n attackMask initialState startRow }] e

/-! ## `BTFCDVOSolver` -/

/-- The struct `DVOSearchState` (and the identical `AC3DVOSearchState`). -/
structure DVOSearchState where
  board : Solution
  domains : List Nat
deriving DecidableEq

/-- The member `initializeDomains` of `BTFCDVOSolver` and of `AC3DVOSolver` (same text). -/
def BTFCDVOSolver.initializeDomains (n : Nat) (attackMask : List (List (List Nat)))
    (board : Solution) : List Nat :=
  (List.range n).foldl (fun domains row =>
    if board.getD row 0 != -1 then
      (List.range n).map fun otherRow =>
        if otherRow == row then 0
        else domains.getD otherRow 0 &&&
          not64 (attackAt attackMask row otherRow (board.getD row 0).toNat)
    else domains) (List.replicate n (fullMask n))

/-- The member `selectMRVRow` of `BTFCDVOSolver` and of `AC3DVOSolver` (same text):
the pair carried by the fold is `(bestRow, minDomainSize)`. -/
def selectMRVRow (n : Nat) (board : Solution) (domains : List Nat) : Int :=
  ((List.range n).foldl (fun (best : Int × Nat) row =>
    if board.getD row 0 != -1 then best
    else
      let domainSize := popcount (domains.getD row 0)
      if domainSize < best.2 then ((row : Int), domainSize) else best)
    ((-1 : Int), n + 1)).1

/-- The forward check of `BTFCDVOSolver::solve`: some other unassigned row is wiped out. -/
def BTFCDVOSolver.causesWipeout (n : Nat) (attackMask : List (List (List Nat)))
    (board : Solution) (domains : List Nat) (row col : Nat) : Bool :=
  ((List.range n).filter (fun futureRow =>
      !(board.getD futureRow 0 != -1) && !(futureRow == row))).any fun futureRow =>
    (domains.getD futureRow 0 &&& not64 (attackAt attackMask row futureRow col)) == 0

/-- The domain update of `BTFCDVOSolver::solve`, ending with `newDomains[row] = 0`. -/
def BTFCDVOSolver.pruneOthers (n : Nat) (attackMask : List (List (List Nat)))
    (board : Solution) (domains : List Nat) (row col : Nat) : List Nat :=
  (List.range n).map fun r =>
    if r == row then 0
    else if board.getD r 0 != -1 then domains.getD r 0
    else domains.getD r 0 &&& not64 (attackAt attackMask row r col)

/-- One iteration body of `BTFCDVOSolver::solve`. -/
def BTFCDVOSolver.policy (n : Nat) (attackMask : List (List (List Nat))) (maxDepth : Int) :
    Policy DVOSearchState where
  atCutoff cur := decide (maxDepth > 0) && decide ((countAssigned n cur.board : Int) = maxDepth)
  isSolution cur := countAssigned n cur.board == n
  board cur := cur.board
  expand cur :=
    let row := selectMRVRow n cur.board cur.domains
    if row == -1 then some []
    else pushColumns (fun col =>
      some (if (cur.domains.getD row.toNat 0 &&& shl1 col) == 0 then none
            else if BTFCDVOSolver.causesWipeout n attackMask cur.board cur.domains row.toNat col
            then none
            else some { board := cur.board.set row.toNat (col : Int),
                        domains := BTFCDVOSolver.pruneOthers n attackMask cur.board
                                     cur.domains row.toNat col }))
      (List.range n)

/-- The member `BTFCDVOSolver::solve`. -/
def BTFCDVOSolver.solve (n : Nat) (initialState : Solution) (maxDepth : Int) (e : Engine) :
    Option Engine :=
  let attackMask := precomputeAttackMasks n
  searchLoop (BTFCDVOSolver.policy n attackMask maxDepth) (searchFuel n)
    [{ board := initialState,
       domains := BTFCDVOSolver.initializeDomains n attackMask initialState }] e

/-! ## `AC3Solver` -/

/-- The member `AC3Solver::initializeDomains`. -/
def AC3Solver.initializeDomains (n : Nat) (attackMask : List (List (List Nat)))
    (board : Solution) (startRow : Nat) : List Nat :=
  (List.range n).foldl (fun domains row =>
    if board.getD row 0 != -1 then
      (List.range n).map fun otherRow =>
        if startRow ≤ otherRow && otherRow != row then
          domains.getD otherRow 0 &&&
            not64 (attackAt attackMask row otherRow (board.getD row 0).toNat)
        else domains.getD otherRow 0
    else domains) (List.replicate n (fullMask n))

/-- The loop `while (testDomain)` of `revise`; the result is `toRemove`. -/
def reviseLoop (attackMask : List (List (List Nat))) (row1 row2 domain2 : Nat) :
    Nat → Nat → Nat → Nat
  | 0, _, toRemove => toRemove
  | fuel + 1, testDomain, toRemove =>
    if testDomain = 0 then toRemove
    else
      let col1 := ctz64 testDomain
      let compatible := domain2 &&& not64 (attackAt attackMask row1 row2 col1)
      reviseLoop attackMask row1 row2 domain2 fuel (testDomain &&& (testDomain - 1))
        (if compatible = 0 then toRemove ||| shl1 col1 else toRemove)

/-- The member `AC3Solver::revise`: the returned pair is the `bool` result and the
vector `domains` after the call. -/
def AC3Solver.revise (attackMask : List (List (List Nat))) (row1 row2 : Nat)
    (domains : List Nat) : Bool × List Nat :=
  let domain1 := domains.getD row1 0
  let domain2 := domains.getD row2 0
  let toRemove := reviseLoop attackMask row1 row2 domain2 64 domain1 0
  if toRemove ≠ 0 then (true, domains.set row1 (domains.getD row1 0 &&& not64 toRemove))
  else (false, domains)

/-- The member `AC3DVOSolver::revise`: the body of `AC3Solver::revise` behind the guard
`if (board[row1] != -1 || board[row2] != -1) return false;`. -/
def AC3DVOSolver.revise (attackMask : List (List (List Nat))) (board : Solution)
    (row1 row2 : Nat) (domains : List Nat) : Bool × List Nat :=
  if board.getD row1 0 != -1 || board.getD row2 0 != -1 then (false, domains)
  else AC3Solver.revise attackMask row1 row2 domains

/-- The initial worklist of `enforceArcConsistency`: the pairs of distinct unassigned
rows from `startRow` on, in the order of the two nested loops. -/
def initialWorklist (n : Nat) (board : Solution) (startRow : Nat) : List (Nat × Nat) :=
  ((List.range n).filter (fun i => startRow ≤ i)).flatMap fun i =>
    if board.getD i 0 != -1 then []
    else ((List.range n).filter (fun j => startRow ≤ j)).filterMap fun j =>
      if i != j && board.getD j 0 == -1 then some (i, j) else none

/-- The arcs `(k, row1)` pushed after a successful `revise(row1, row2)`. -/
def requeueArcs (n : Nat) (board : Solution) (startRow row1 row2 : Nat) : List (Nat × Nat) :=
  ((List.range n).filter (fun k => startRow ≤ k)).filterMap fun k =>
    if k != row1 && k != row2 && board.getD k 0 == -1 then some (k, row1) else none

/-- The loop `while (!worklist.empty())` of `enforceArcConsistency`, over the `revise`
of the engine at hand.  The result is the returned `bool` with the final `domains`. -/
def enforceLoop (rev : Nat → Nat → List Nat → Bool × List Nat) (n : Nat) (board : Solution)
    (startRow : Nat) : Nat → List (Nat × Nat) → List Nat → Option (Bool × List Nat)
  | _, [], domains => some (true, domains)
  | 0, _ :: _, _ => none
  | fuel + 1, (row1, row2) :: rest, domains =>
    let r := rev row1 row2 domains
    if r.1 then
      if r.2.getD row1 0 = 0 then some (false, r.2)
      else enforceLoop rev n board startRow fuel
             (rest ++ requeueArcs n board startRow row1 row2) r.2
    else enforceLoop rev n board startRow fuel rest r.2

/-- Fuel handed to `enforceLoop`: a pop either shortens the worklist or lowers one domain
word, and a lowered word pays for the fewer than `n` arcs pushed after it. -/
def enforceFuel (n : Nat) (worklist : List (Nat × Nat)) (domains : List Nat) : Nat :=
  worklist.length + n * domains.sum

/-- The member `AC3Solver::enforceArcConsistency`. -/
def AC3Solver.enforceArcConsistency (n : Nat) (attackMask : List (List (List Nat)))
    (domains : List Nat) (board : Solution) (startRow : Nat) : Option (Bool × List Nat) :=
  enforceLoop (AC3Solver.revise attackMask) n board startRow
    (enforceFuel n (initialWorklist n board startRow) domains)
    (initialWorklist n board startRow) domains

/-- One iteration body of `AC3Solver::solve`. -/
def AC3Solver.policy (n : Nat) (attackMask : List (List (List Nat))) (maxDepth : Int) :
    Policy FCSearchState where
  atCutoff cur := decide (maxDepth > 0) && decide ((cur.row : Int) = maxDepth)
  isSolution cur := cur.row == n
  board cur := cur.board
  expand cur := pushColumns (fun col =>
    if (cur.domains.getD cur.row 0 &&& shl1 col) == 0 then some none
    else
      let newBoard := cur.board.set cur.row (col : Int)
      match AC3Solver.enforceArcConsistency n attackMask
              (pruneFuture n attackMask cur.domains cur.row col) newBoard (cur.row + 1) with
      | none => none
      | some (true, newDomains) =>
        some (some { board := newBoard, row := cur.row + 1, domains := newDomains })
      | some (false, _) => some none)
    (List.range n)

/-- The member `AC3Solver::solve`. -/
def AC3Solver.solve (n : Nat) (initialState : Solution) (maxDepth : Int) (e : Engine) :
    Option Engine :=
  let attackMask := precomputeAttackMasks n
  let startRow := findStartRow n initialState
  searchLoop (AC3Solver.policy n attackMask maxDepth) (searchFuel n)
    [{ board := initialState, row := startRow,
       domains := AC3Solver.initializeDomains n attackMask initialState startRow }] e

/-! ## `AC3DVOSolver` -/

/-- The member `AC3DVOSolver::enforceArcConsistency` (all rows, guarded `revise`). -/
def AC3DVOSolver.enforceArcConsistency (n : Nat) (attackMask : List (List (List Nat)))
    (domains : List Nat) (board : Solution) : Option (Bool × List Nat) :=
  enforceLoop (AC3DVOSolver.revise attackMask board) n board 0
    (enforceFuel n (initialWorklist n board 0) domains)
    (initialWorklist n board 0) domains

/-- The domain update of `AC3DVOSolver::solve`: `newDomains[row] = 0`, then every other
row loses the columns attacked from `(row, col)`. -/
def AC3DVOSolver.pruneOthers (n : Nat) (attackMask : List (List (List Nat)))
    (domains : List Nat) (row col : Nat) : List Nat :=
  (List.range n).map fun r =>
    if r == row then 0
    else domains.getD r 0 &&& not64 (attackAt attackMask row r col)

/-- One iteration body of `AC3DVOSolver::solve`. -/
def AC3DVOSolver.policy (n : Nat) (attackMask : List (List (List Nat))) (maxDepth : Int) :
    Policy DVOSearchState where
  atCutoff cur := decide (maxDepth > 0) && decide ((countAssigned n cur.board : Int) = maxDepth)
  isSolution cur := countAssigned n cur.board == n
  board cur := cur.board
  expand cur :=
    let row := selectMRVRow n cur.board cur.domains
    if row == -1 then some []
    else pushColumns (fun col =>
      if (cur.domains.getD row.toNat 0 &&& shl1 col) == 0 then some none
      else
        let newBoard := cur.board.set row.toNat (col : Int)
        match AC3DVOSolver.enforceArcConsistency n attackMask
                (AC3DVOSolver.pruneOthers n attackMask cur.domains row.toNat col) newBoard with
        | none => none
        | some (true, newDomains) => some (some { board := newBoard, domains := newDomains })
        | some (false, _) => some none)
      (List.range n)

/-- The member `AC3DVOSolver::solve`. -/
def AC3DVOSolver.solve (n : Nat) (initialState : Solution) (maxDepth : Int) (e : Engine) :
    Option Engine :=
  let attackMask := precomputeAttackMasks n
  searchLoop (AC3DVOSolver.policy n attackMask maxDepth) (searchFuel n)
    [{ board := initialState,
       domains := BTFCDVOSolver.initializeDomains n attackMask initialState }] e


/-! ## `main.cpp`: the factory and the two run modes -/

/-- The engine classes that `spawnSolver` can construct. -/
inductive SolverKind where
  | BT
  | BTFC
  | BTFCDVO
  | AC3
  | AC3DVO
deriving DecidableEq

/-- The function `spawnSolver`: the class constructed for a strategy identifier, `none`
for the `nullptr` returned on an unknown identifier. -/
def spawnSolver (solverType : String) : Option SolverKind :=
  if solverType = "BT" then some SolverKind.BT
  else if solverType = "BT-FC" then some SolverKind.BTFC
  else if solverType = "BT-FC-DVO" then some SolverKind.BTFCDVO
  else if solverType = "AC3" then some SolverKind.AC3
  else if solverType = "AC3-DVO" then some SolverKind.AC3DVO
  else none

/-- The virtual call `solver->solve()` on an engine of the given class, built with
`boardSize = n`, `initialState` and `maxDepth`. -/
def SolverKind.solve (kind : SolverKind) (n : Nat) (initialState : Solution) (maxDepth : Int)
    (e : Engine) : Option Engine :=
  match kind with
  | SolverKind.BT => BTSolver.solve n initialState maxDepth e
  | SolverKind.BTFC => BTFCSolver.solve n initialState maxDepth e
  | SolverKind.BTFCDVO => BTFCDVOSolver.solve n initialState maxDepth e
  | SolverKind.AC3 => AC3Solver.solve n initialState maxDepth e
  | SolverKind.AC3DVO => AC3DVOSolver.solve n initialState maxDepth e

/-- The function `workerThread`, run to the end by one thread: pop a board, build a fresh
engine on it (no cutoff, no queue), solve, append the engine to `solvers`; stop when the
queue is empty. -/
def workerThread (kind : SolverKind) (n : Nat) : List Solution → Option (List Engine)
  | [] => some []
  | initialState :: workQueue =>
    match kind.solve n initialState 0 Engine.fresh with
    | none => none
    | some solver =>
      match workerThread kind n workQueue with
      | none => none
      | some solvers => some (solver :: solvers)

/-- The parallel branch of `main`, with the worker threads run one after the other: the
seed engine fills the queue, the workers drain it, and `allSolutions` collects the
solution lists of the worker engines in order. -/
def parallelSolutions (kind : SolverKind) (n : Nat) (domainGranularity : Int) :
    Option (List Solution) :=
  match kind.solve n (emptyBoard n) domainGranularity Engine.fresh with
  | none => none
  | some seedSolver =>
    match workerThread kind n seedSolver.workQueue with
    | none => none
    | some solvers => some (solvers.flatMap (fun solver => solver.solutions))

/-- The sequential branch of `main`: one engine on the all-unassigned board. -/
def singleSolutions (kind : SolverKind) (n : Nat) : Option (List Solution) :=
  match kind.solve n (emptyBoard n) 0 Engine.fresh with
  | none => none
  | some solver => some solver.solutions

/-- The list `allSolutions` that `main` ends with: the parallel branch is taken when
`config.nThreads > 1` (`config.isParallel`). -/
def mainSolutions (kind : SolverKind) (n : Nat) (nThreads domainGranularity : Int) :
    Option (List Solution) :=
  if nThreads > 1 then parallelSolutions kind n domainGranularity
  else singleSolutions kind n

/-! ## The node each `solve` pushes before its loop -/

/-- The node `SearchState(initialState, startRow)` pushed by `BTSolver::solve`. -/
def BTSolver.initialNode (n : Nat) (initialState : Solution) : SearchState :=
  { board := initialState, row := findStartRow n initialState }

/-- The node `FCSearchState(initialState, startRow, initialDomains)` pushed by
`BTFCSolver::solve`. -/
def BTFCSolver.initialNode (n : Nat) (attackMask : List (List (List Nat)))
    (initialState : Solution) : FCSearchState :=
  { board := initialState, row := findStartRow n initialState,
    domains := BTFCSolver.initializeDomains n attackMask initialState
      (findStartRow n initialState) }

/-- The node `AC3SearchState(initialState, startRow, initialDomains)` pushed by
`AC3Solver::solve`. -/
def AC3Solver.initialNode (n : Nat) (attackMask : List (List (List Nat)))
    (initialState : Solution) : FCSearchState :=
  { board := initialState, row := findStartRow n initialState,
    domains := AC3Solver.initializeDomains n attackMask initialState
      (findStartRow n initialState) }

/-- The node `DVOSearchState(initialState, initialDomains)` pushed by
`BTFCDVOSolver::solve` and, with the same text, by `AC3DVOSolver::solve`. -/
def BTFCDVOSolver.initialNode (n : Nat) (attackMask : List (List (List Nat)))
    (initialState : Solution) : DVOSearchState :=
  { board := initialState,
    domains := BTFCDVOSolver.initializeDomains n attackMask initialState }

/-! ## Specification vocabulary -/

/-- A queen on `(r1, c1)` attacks the square `(r2, c2)` of another row: same column or
same diagonal. -/
def Attacks (r1 : Nat) (c1 : Int) (r2 : Nat) (c2 : Int) : Prop :=
  c1 = c2 ∨ (c1 - c2).natAbs = ((r1 : Int) - (r2 : Int)).natAbs

/-- The first `k` rows of `b` hold columns in `[0, n)` and no two of them attack each
other. -/
def PrefixOK (n : Nat) (b : Solution) (k : Nat) : Prop :=
  (∀ i, i < k → 0 ≤ b.getD i 0 ∧ b.getD i 0 < (n : Int)) ∧
  ∀ i j, i < k → j < k → i ≠ j → ¬ Attacks i (b.getD i 0) j (b.getD j 0)

/-- A valid complete placement of `n` queens: `n` columns in `[0, n)`, pairwise distinct,
no two rows on a common diagonal. -/
def Valid (n : Nat) (s : Solution) : Prop :=
  s.length = n ∧ PrefixOK n s n

/-- Two word-sized masks: every bit of `a` is a bit of `b`. -/
def MaskSubset (a b : Nat) : Prop := ∀ i, a.testBit i = true → b.testBit i = true

/-- The number of set bits of a 64-bit word. -/
def bitCount (x : Nat) : Nat := (List.range 64).countP (fun i => x.testBit i)

/-- Two nodes share no completion. -/
def Disjoint2 {σ : Type} (Ext : σ → Solution → Prop) (a b : σ) : Prop :=
  ∀ s, ¬ (Ext a s ∧ Ext b s)

/-- Proof obligations of one engine towards the common stack loop: `Inv` holds of every
node on the stack, `Ext x s` says that the complete placement `s` lies below node `x`,
`ht` bounds the height of the tree below a node and `B` the number of successors. -/
structure Policy.Wf {σ : Type} (P : Policy σ) (Inv : σ → Prop) (Ext : σ → Solution → Prop)
    (ht : σ → Nat) (B : Nat) : Prop where
  leaf : ∀ x, Inv x → P.atCutoff x = false → P.isSolution x = true →
    ∀ s, Ext x s ↔ s = P.board x
  branch : ∀ x, Inv x → P.atCutoff x = false → P.isSolution x = false →
    ∃ succs, P.expand x = some succs ∧ succs.length ≤ B ∧
      (∀ c, c ∈ succs → Inv c ∧ ht c < ht x) ∧
      (∀ s, Ext x s ↔ ∃ c, c ∈ succs ∧ Ext c s) ∧
      succs.Pairwise (Disjoint2 Ext)

/-- Stack invariant of `BTSolver` (rows up to `m` only: `m` is the cutoff of a seed
run, or `n` when there is none). -/
def BTSolver.Inv (n m : Nat) (x : SearchState) : Prop :=
  x.board.length = n ∧ x.row ≤ n ∧ x.row ≤ m ∧ PrefixOK n x.board x.row

/-- The valid placements below a `BTSolver` node: those that agree with its board on the
rows already branched on. -/
def BTSolver.Ext (n : Nat) (x : SearchState) (s : Solution) : Prop :=
  Valid n s ∧ ∀ i, i < x.row → s.getD i 0 = x.board.getD i 0

/-- The cutoff `maxDepth` of a run and the row bound `m` of its invariant fit together:
no cutoff and `m = n`, or a seed run that stops at depth `m` with `1 ≤ m ≤ n`. -/
def CutoffFits (n : Nat) (maxDepth : Int) (m : Nat) : Prop :=
  (maxDepth ≤ 0 ∧ m = n) ∨ (maxDepth = (m : Int) ∧ 0 < m ∧ m ≤ n)

/-- Stack invariant of the static-order domain engines (`BTFCSolver`, `AC3Solver`): the
rows before `row` hold a legal partial placement, and every column left in the domain of a
later row is in range and not attacked from those rows. -/
def FCInv (n m : Nat) (x : FCSearchState) : Prop :=
  x.board.length = n ∧ x.domains.length = n ∧ x.row ≤ n ∧ x.row ≤ m ∧
  PrefixOK n x.board x.row ∧
  ∀ r c, x.row ≤ r → r < n → (x.domains.getD r 0).testBit c = true →
    c < n ∧ ∀ i, i < x.row → ¬ Attacks i (x.board.getD i 0) r (c : Int)

/-- The valid placements below a node of a static-order domain engine. -/
def FCExt (n : Nat) (x : FCSearchState) (s : Solution) : Prop :=
  Valid n s ∧ (∀ i, i < x.row → s.getD i 0 = x.board.getD i 0) ∧
  ∀ r, x.row ≤ r → r < n → (x.domains.getD r 0).testBit (s.getD r 0).toNat = true

/-- What the worklist loop needs from a `revise`: it only touches `domains[row1]`, only
clears bits, lowers the word when it reports a change, reports every change, and never
clears a column that has a support in `domains[row2]`. -/
structure ReviseOK (am : List (List (List Nat)))
    (rev : Nat → Nat → List Nat → Bool × List Nat) : Prop where
  length : ∀ r1 r2 D, (rev r1 r2 D).2.length = D.length
  other : ∀ r1 r2 D k, k ≠ r1 → (rev r1 r2 D).2.getD k 0 = D.getD k 0
  subset : ∀ r1 r2 D, MaskSubset ((rev r1 r2 D).2.getD r1 0) (D.getD r1 0)
  same : ∀ r1 r2 D, (rev r1 r2 D).1 = false → (rev r1 r2 D).2 = D
  drops : ∀ r1 r2 D, (rev r1 r2 D).1 = true → r1 < D.length → (rev r1 r2 D).2.sum < D.sum
  keeps : ∀ r1 r2 D c c2, c < 64 → c2 < 64 → (D.getD r1 0).testBit c = true →
    (D.getD r2 0).testBit c2 = true → (attackAt am r1 r2 c).testBit c2 = false →
    ((rev r1 r2 D).2.getD r1 0).testBit c = true

/-- The assigned rows of `b` hold columns in `[0, n)` and no two of them attack each
other. -/
def AssignedOK (n : Nat) (b : Solution) : Prop :=
  (∀ i, i < n → b.getD i 0 ≠ -1 → 0 ≤ b.getD i 0 ∧ b.getD i 0 < (n : Int)) ∧
  ∀ i j, i < n → j < n → i ≠ j → b.getD i 0 ≠ -1 → b.getD j 0 ≠ -1 →
    ¬ Attacks i (b.getD i 0) j (b.getD j 0)

/-- Stack invariant of the dynamic-order engines (`BTFCDVOSolver`, `AC3DVOSolver`): the
assigned rows hold a legal partial placement, and every column left in the domain of an
unassigned row is in range and not attacked from an assigned row. -/
def DVOInv (n m : Nat) (x : DVOSearchState) : Prop :=
  x.board.length = n ∧ x.domains.length = n ∧ countAssigned n x.board ≤ m ∧
  AssignedOK n x.board ∧
  ∀ r c, r < n → x.board.getD r 0 = -1 → (x.domains.getD r 0).testBit c = true →
    c < n ∧ ∀ i, i < n → x.board.getD i 0 ≠ -1 → ¬ Attacks i (x.board.getD i 0) r (c : Int)

/-- The valid placements below a node of a dynamic-order engine. -/
def DVOExt (n : Nat) (x : DVOSearchState) (s : Solution) : Prop :=
  Valid n s ∧ ∀ r, r < n →
    (x.board.getD r 0 ≠ -1 → s.getD r 0 = x.board.getD r 0) ∧
    (x.board.getD r 0 = -1 → (x.domains.getD r 0).testBit (s.getD r 0).toNat = true)

/-- The placement `s` agrees with the board `b` on every row that `b` assigns. -/
def Agrees (n : Nat) (b s : Solution) : Prop :=
  ∀ i, i < n → b.getD i 0 ≠ -1 → s.getD i 0 = b.getD i 0

/-- Every row from `row` on is unassigned. -/
def TailUnassigned (n : Nat) (board : Solution) (row : Nat) : Prop :=
  ∀ i, row ≤ i → i < n → board.getD i 0 = -1

/-- The arc `(i, j)` is consistent in `D`: every column left for row `i` has a support in
row `j`, a column of `D[j]` that `attackMask[i][j][c]` does not hold. -/
def ArcOK (am : List (List (List Nat))) (D : List Nat) (i j : Nat) : Prop :=
  ∀ c, (D.getD i 0).testBit c = true →
    ∃ c2, (D.getD j 0).testBit c2 = true ∧ (attackAt am i j c).testBit c2 = false

/-- Reference check used to count placements: the column `c` of a new row does not attack
the columns `qs` of the rows before it, the first of them `dist` rows away. -/
def safeFrom (c : Nat) : Nat → List Nat → Bool
  | _, [] => true
  | dist, q :: qs =>
    (q != c) && (q + dist != c) && (c + dist != q) && safeFrom c (dist - 1) qs

/-- Reference enumeration used to count placements: all legal placements of queens on the
first `k` rows of an `n`-column board, row by row. -/
def placements (n : Nat) : Nat → List (List Nat)
  | 0 => [[]]
  | k + 1 => (placements n k).flatMap (fun qs =>
      ((List.range n).filter (fun c => safeFrom c k qs)).map (fun c => qs ++ [c]))

/-- A list of columns as a board. -/
def castSol (qs : List Nat) : Solution := List.map (fun (c : Nat) => (c : Int)) qs

/-- The nodes that the stack loop started on `root` pushes: the root itself, and every
successor pushed while expanding a pushed node that passed the cutoff test and the
solution test. -/
inductive Reach {σ : Type} (P : Policy σ) (root : σ) : σ → Prop where
  | root : Reach P root root
  | push {x c : σ} {succs : List σ} : Reach P root x → P.atCutoff x = false →
      P.isSolution x = false → P.expand x = some succs → c ∈ succs → Reach P root c

/-- The runs of the worklist loop of `enforceArcConsistency`, pop by pop: started on the
worklist `w` with the domains `D`, the loop returns `r` after `k` pops.  It returns `true`
from an empty worklist only, and `false` only at a `revise` that reports a change and
leaves `domains[row1]` empty; after any other `revise` it goes on, with the arcs
`(k, row1)` appended when a change was reported. -/
inductive EnforceRun (rev : Nat → Nat → List Nat → Bool × List Nat) (n : Nat)
    (board : Solution) (startRow : Nat) :
    List (Nat × Nat) → List Nat → Nat → Bool × List Nat → Prop where
  | done (D : List Nat) : EnforceRun rev n board startRow [] D 0 (true, D)
  | wipeout {row1 row2 : Nat} {rest : List (Nat × Nat)} {D : List Nat} :
      (rev row1 row2 D).1 = true → (rev row1 row2 D).2.getD row1 0 = 0 →
      EnforceRun rev n board startRow ((row1, row2) :: rest) D 1 (false, (rev row1 row2 D).2)
  | requeue {row1 row2 : Nat} {rest : List (Nat × Nat)} {D : List Nat} {k : Nat}
      {r : Bool × List Nat} :
      (rev row1 row2 D).1 = true → (rev row1 row2 D).2.getD row1 0 ≠ 0 →
      EnforceRun rev n board startRow (rest ++ requeueArcs n board startRow row1 row2)
        (rev row1 row2 D).2 k r →
      EnforceRun rev n board startRow ((row1, row2) :: rest) D (k + 1) r
  | unchanged {row1 row2 : Nat} {rest : List (Nat × Nat)} {D : List Nat} {k : Nat}
      {r : Bool × List Nat} :
      (rev row1 row2 D).1 = false →
      EnforceRun rev n board startRow rest (rev row1 row2 D).2 k r →
      EnforceRun rev n board startRow ((row1, row2) :: rest) D (k + 1) r

/-- Two boards that give some row two different columns: no placement agrees with both. -/
def Clash (n : Nat) (b b' : Solution) : Prop :=
  ∃ r, r < n ∧ b.getD r 0 ≠ -1 ∧ b'.getD r 0 ≠ -1 ∧ b.getD r 0 ≠ b'.getD r 0

/-! ## Word-level facts -/

theorem wordMax_eq : wordMax = 2 ^ 64 - 1 := by decide

theorem shl1_eq {k : Nat} (hk : k < 64) : shl1 k = 2 ^ k := by
  unfold shl1
  rw [Nat.one_shiftLeft, wordMax_eq]
  apply Nat.mod_eq_of_lt
  have : 2 ^ k < 2 ^ 64 := Nat.pow_lt_pow_right (by decide) hk
  omega

theorem testBit_shl1 {k : Nat} (hk : k < 64) (i : Nat) :
    (shl1 k).testBit i = decide (k = i) := by
  rw [shl1_eq hk, Nat.testBit_two_pow]

theorem testBit_wordMax (i : Nat) : wordMax.testBit i = decide (i < 64) := by
  rw [wordMax_eq, Nat.testBit_two_pow_sub_one]

theorem testBit_not64 (x i : Nat) :
    (not64 x).testBit i = (x.testBit i ^^ decide (i < 64)) := by
  unfold not64
  rw [Nat.testBit_xor, testBit_wordMax]

theorem testBit_and_not64 (d m i : Nat) (hi : i < 64) :
    (d &&& not64 m).testBit i = (d.testBit i && !m.testBit i) := by
  rw [Nat.testBit_land, testBit_not64]
  simp [hi]

theorem fullMask_eq {n : Nat} (hn : n ≤ 63) : fullMask n = 2 ^ n - 1 := by
  unfold fullMask
  rw [shl1_eq (by omega), wordMax_eq]
  have h1 : 2 ^ n < 2 ^ 64 := Nat.pow_lt_pow_right (by decide) (by omega)
  have h2 : 0 < 2 ^ n := Nat.two_pow_pos n
  have h3 : 2 ^ n + (2 ^ 64 - 1) = (2 ^ n - 1) + 1 * (2 ^ 64 - 1 + 1) := by omega
  rw [h3, Nat.add_mul_mod_self_right]
  apply Nat.mod_eq_of_lt
  omega

theorem testBit_fullMask {n : Nat} (hn : n ≤ 63) (i : Nat) :
    (fullMask n).testBit i = decide (i < n) := by
  rw [fullMask_eq hn, Nat.testBit_two_pow_sub_one]

theorem natAbs_test (a b : Int) (i j : Nat) (h : (a - b).natAbs = ((i:Int) - j).natAbs) (hij : i < j) (hab : a < b) :
    b - a = j - i := by omega

/-! ## The attack table -/

theorem getD_map_range {α : Type} (f : Nat → α) {i n : Nat} (h : i < n) (d : α) :
    ((List.range n).map f).getD i d = f i := by
  simp [List.getD_eq_getElem?_getD, List.getElem?_map, List.getElem?_range h]

theorem attackAt_precompute {n r1 r2 c : Nat} (h1 : r1 < n) (h2 : r2 < n) (hc : c < n)
    (hne : r1 ≠ r2) :
    attackAt (precomputeAttackMasks n) r1 r2 c = attackMaskEntry n r1 r2 c := by
  unfold attackAt precomputeAttackMasks
  rw [getD_map_range _ h1, getD_map_range _ h2]
  have : (r1 == r2) = false := by simpa using hne
  rw [this]
  simp only [Bool.false_eq_true, if_false]
  rw [getD_map_range _ hc]

theorem testBit_attackMaskEntry {n r1 r2 c : Nat} (hn : n ≤ 64) (hc : c < n) (k : Nat) :
    (attackMaskEntry n r1 r2 c).testBit k = true ↔ k < n ∧ Attacks r1 (c : Int) r2 (k : Int) := by
  unfold attackMaskEntry Attacks
  simp only []
  have hc64 : c < 64 := by omega
  by_cases hA : c + ((r2 : Int) - (r1 : Int)).natAbs < n
  · by_cases hB : (c : Int) - (((r2 : Int) - (r1 : Int)).natAbs : Int) ≥ 0
    · rw [if_pos hA, if_pos hB]
      simp only [Nat.testBit_lor, Nat.zero_testBit, Bool.false_or, Bool.or_eq_true]
      rw [testBit_shl1 hc64, testBit_shl1 (by omega), testBit_shl1 (by omega)]
      simp only [decide_eq_true_eq]
      omega
    · rw [if_pos hA, if_neg hB]
      simp only [Nat.testBit_lor, Nat.zero_testBit, Bool.false_or, Bool.or_eq_true]
      rw [testBit_shl1 hc64, testBit_shl1 (by omega)]
      simp only [decide_eq_true_eq]
      omega
  · by_cases hB : (c : Int) - (((r2 : Int) - (r1 : Int)).natAbs : Int) ≥ 0
    · rw [if_neg hA, if_pos hB]
      simp only [Nat.testBit_lor, Nat.zero_testBit, Bool.false_or, Bool.or_eq_true]
      rw [testBit_shl1 hc64, testBit_shl1 (by omega)]
      simp only [decide_eq_true_eq]
      omega
    · rw [if_neg hA, if_neg hB]
      simp only [Nat.testBit_lor, Nat.zero_testBit, Bool.false_or]
      rw [testBit_shl1 hc64]
      simp only [decide_eq_true_eq]
      omega

theorem testBit_attackAt {n r1 r2 c : Nat} (hn : n ≤ 64) (h1 : r1 < n) (h2 : r2 < n)
    (hc : c < n) (hne : r1 ≠ r2) (k : Nat) :
    (attackAt (precomputeAttackMasks n) r1 r2 c).testBit k = true ↔
      k < n ∧ Attacks r1 (c : Int) r2 (k : Int) := by
  rw [attackAt_precompute h1 h2 hc hne]
  exact testBit_attackMaskEntry hn hc k

theorem Attacks.symm {r1 r2 : Nat} {c1 c2 : Int} (h : Attacks r1 c1 r2 c2) :
    Attacks r2 c2 r1 c1 := by
  unfold Attacks at *
  omega

/-! ## Lowest set bit, `ctz64`, `popcount` -/

theorem testBit_clearLowest (k : Nat) : ∀ (x : Nat), x.testBit k = true →
    (∀ j, j < k → x.testBit j = false) → ∀ i,
    (x &&& (x - 1)).testBit i = (x.testBit i && decide (i ≠ k)) := by
  induction k with
  | zero =>
    intro x hk _ i
    have hodd : x % 2 = 1 := by simpa [Nat.testBit_zero] using hk
    cases i with
    | zero =>
      simp only [Nat.testBit_land, Nat.testBit_zero]
      have : (x - 1) % 2 = 0 := by omega
      simp [this]
    | succ j =>
      rw [Nat.testBit_land, Nat.testBit_succ, Nat.testBit_succ]
      have : (x - 1) / 2 = x / 2 := by omega
      simp [this]
  | succ k ih =>
    intro x hk hlow i
    have h0 : x % 2 = 0 := by
      have := hlow 0 (Nat.succ_pos k)
      simp [Nat.testBit_zero] at this
      omega
    have hpos : x ≠ 0 := by
      intro h
      simp [h] at hk
    cases i with
    | zero =>
      simp only [Nat.testBit_land, Nat.testBit_zero]
      simp [h0]
    | succ j =>
      have hhalf : (x - 1) / 2 = x / 2 - 1 := by omega
      have ih1 := ih (x / 2) (by simpa [Nat.testBit_succ] using hk)
        (fun j hj => by
          have := hlow (j + 1) (by omega)
          simpa [Nat.testBit_succ] using this) j
      rw [Nat.testBit_land] at ih1
      rw [Nat.testBit_land, Nat.testBit_succ, Nat.testBit_succ, hhalf, ih1]
      simp

theorem find_range_spec (p : Nat → Bool) : ∀ (m : Nat), (∃ i, i < m ∧ p i = true) →
    ∃ k, (List.range m).find? p = some k ∧ k < m ∧ p k = true ∧ ∀ j, j < k → p j = false := by
  intro m
  induction m with
  | zero => rintro ⟨i, hi, _⟩; omega
  | succ m ih =>
    rintro ⟨i, hi, hp⟩
    rw [List.range_succ, List.find?_append]
    by_cases hex : ∃ i, i < m ∧ p i = true
    · obtain ⟨k, hk, hkm, hpk, hlow⟩ := ih hex
      exact ⟨k, by simp [hk], by omega, hpk, hlow⟩
    · have hall : ∀ j, j < m → p j = false := by
        intro j hj
        by_contra hc
        exact hex ⟨j, hj, by simpa using hc⟩
      have him : i = m := by
        by_contra hne
        have := hall i (by omega)
        rw [this] at hp
        exact Bool.noConfusion hp
      subst him
      have hnone : (List.range i).find? p = none := by
        rw [List.find?_eq_none]
        intro x hx
        have := hall x (List.mem_range.mp hx)
        simp [this]
      refine ⟨i, ?_, by omega, hp, hall⟩
      simp [hnone, hp]

theorem exists_bit_lt_64 {x : Nat} (h0 : x ≠ 0) (hx : x < 2 ^ 64) :
    ∃ i, i < 64 ∧ x.testBit i = true := by
  obtain ⟨i, hi⟩ := Nat.ne_zero_implies_bit_true h0
  refine ⟨i, ?_, hi⟩
  by_contra hge
  have hle : 2 ^ 64 ≤ 2 ^ i := Nat.pow_le_pow_right (by decide) (by omega)
  have := Nat.testBit_lt_two_pow (Nat.lt_of_lt_of_le hx hle)
  rw [this] at hi
  exact Bool.noConfusion hi

theorem ctz64_spec {x : Nat} (h0 : x ≠ 0) (hx : x < 2 ^ 64) :
    ctz64 x < 64 ∧ x.testBit (ctz64 x) = true ∧ ∀ j, j < ctz64 x → x.testBit j = false := by
  obtain ⟨k, hk, hk64, hbit, hlow⟩ := find_range_spec (fun i => x.testBit i) 64
    (exists_bit_lt_64 h0 hx)
  have : ctz64 x = k := by unfold ctz64; rw [hk]; rfl
  rw [this]
  exact ⟨hk64, hbit, hlow⟩

theorem testBit_clear_ctz {x : Nat} (h0 : x ≠ 0) (hx : x < 2 ^ 64) (i : Nat) :
    (x &&& (x - 1)).testBit i = (x.testBit i && decide (i ≠ ctz64 x)) := by
  obtain ⟨_, hbit, hlow⟩ := ctz64_spec h0 hx
  exact testBit_clearLowest (ctz64 x) x hbit hlow i

theorem and_pred_lt_two_pow {x : Nat} (hx : x < 2 ^ 64) : x &&& (x - 1) < 2 ^ 64 :=
  Nat.lt_of_le_of_lt Nat.and_le_left hx

theorem countP_range_clear (p q : Nat → Bool) (k : Nat) (hqk : q k = false)
    (hpq : ∀ i, p i = (q i || decide (i = k))) :
    ∀ m, k < m → (List.range m).countP p = (List.range m).countP q + 1 := by
  intro m
  induction m with
  | zero => intro h; omega
  | succ m ih =>
    intro hkm
    rw [List.range_succ, List.countP_append, List.countP_append]
    by_cases hk : k < m
    · rw [ih hk]
      have : p m = q m := by rw [hpq m]; simp; omega
      simp [List.countP_cons, this]
      omega
    · have hkeq : k = m := by omega
      subst hkeq
      have hsame : (List.range k).countP p = (List.range k).countP q := by
        apply List.countP_congr
        intro i hi
        have : i ≠ k := by have := List.mem_range.mp hi; omega
        rw [hpq i]; simp [this]
      rw [hsame]
      have hp : p k = true := by rw [hpq k]; simp
      simp [List.countP_cons, hp, hqk]

theorem bitCount_clear {x : Nat} (h0 : x ≠ 0) (hx : x < 2 ^ 64) :
    bitCount x = bitCount (x &&& (x - 1)) + 1 := by
  obtain ⟨h64, hbit, _⟩ := ctz64_spec h0 hx
  unfold bitCount
  apply countP_range_clear _ _ (ctz64 x) _ _ 64 h64
  · rw [testBit_clear_ctz h0 hx]; simp
  · intro i
    rw [testBit_clear_ctz h0 hx]
    by_cases hi : i = ctz64 x
    · subst hi; simp [hbit]
    · simp [hi]

theorem popcountLoop_eq : ∀ (fuel x count : Nat), x < 2 ^ 64 → bitCount x ≤ fuel →
    popcountLoop fuel x count = count + bitCount x := by
  intro fuel
  induction fuel with
  | zero =>
    intro x count _ h
    have : bitCount x = 0 := by omega
    simp [popcountLoop, this]
  | succ fuel ih =>
    intro x count hx h
    unfold popcountLoop
    by_cases h0 : x = 0
    · subst h0
      simp [bitCount]
    · rw [if_neg h0]
      have hc := bitCount_clear h0 hx
      rw [ih _ _ (and_pred_lt_two_pow hx) (by omega)]
      omega

theorem bitCount_le_64 (x : Nat) : bitCount x ≤ 64 := by
  unfold bitCount
  have := List.countP_le_length (fun i => x.testBit i) (l := List.range 64)
  simpa using this

theorem popcount_eq {x : Nat} (hx : x < 2 ^ 64) : popcount x = bitCount x := by
  unfold popcount
  rw [popcountLoop_eq 64 x 0 hx (bitCount_le_64 x)]
  simp

theorem countP_range_le (p : Nat → Bool) (n : Nat) (hp : ∀ i, p i = true → i < n) :
    ∀ m, (List.range m).countP p ≤ n := by
  intro m
  induction m with
  | zero => simp
  | succ m ih =>
    by_cases hm : m < n
    · have := List.countP_le_length p (l := List.range (m + 1))
      simp at this
      omega
    · rw [List.range_succ, List.countP_append]
      have : p m = false := by
        by_contra hc
        have := hp m (by simpa using hc)
        omega
      simp [List.countP_cons, this]
      exact ih

theorem bitCount_le {x n : Nat} (hbits : ∀ i, x.testBit i = true → i < n) : bitCount x ≤ n :=
  countP_range_le _ n hbits 64

/-! ## The stack loop -/

theorem searchLoop_nil {σ : Type} (P : Policy σ) (fuel : Nat) (e : Engine) :
    searchLoop P fuel [] e = some e := by
  cases fuel <;> rfl

theorem searchLoop_cons {σ : Type} (P : Policy σ) (fuel : Nat) (cur : σ) (rest : List σ)
    (e : Engine) :
    searchLoop P (fuel + 1) (cur :: rest) e =
      if P.atCutoff cur then searchLoop P fuel rest (pushWork e (P.board cur))
      else if P.isSolution cur then searchLoop P fuel rest (recordSolution e (P.board cur))
      else match P.expand cur with
        | none => none
        | some succs => searchLoop P fuel (succs.reverse ++ rest) e := rfl

theorem recordSolution_solutions (e : Engine) (b : Solution) :
    (recordSolution e b).solutions = e.solutions ++ [b] := by
  unfold recordSolution
  split <;> rfl

theorem recordSolution_workQueue (e : Engine) (b : Solution) :
    (recordSolution e b).workQueue = e.workQueue := by
  unfold recordSolution
  split <;> rfl

theorem sum_succs_lt {σ : Type} (B h : Nat) (ht : σ → Nat) (succs : List σ)
    (hlen : succs.length ≤ B) (hlt : ∀ c, c ∈ succs → ht c < h) :
    (succs.map (fun x => (B + 1) ^ ht x)).sum + 1 ≤ (B + 1) ^ h := by
  cases h with
  | zero =>
    cases succs with
    | nil => simp
    | cons c cs => have := hlt c (List.mem_cons_self _ _); omega
  | succ h =>
    have hterm : ∀ y ∈ succs.map (fun x => (B + 1) ^ ht x), y ≤ (B + 1) ^ h := by
      intro y hy
      obtain ⟨c, hc, rfl⟩ := List.mem_map.mp hy
      exact Nat.pow_le_pow_right (by omega) (by have := hlt c hc; omega)
    have hs := List.sum_le_card_nsmul _ _ hterm
    simp only [List.length_map, smul_eq_mul] at hs
    have hB : succs.length * (B + 1) ^ h ≤ B * (B + 1) ^ h := Nat.mul_le_mul_right _ hlen
    have hpos : 1 ≤ (B + 1) ^ h := Nat.one_le_pow _ _ (by omega)
    have hexp : (B + 1) ^ (h + 1) = B * (B + 1) ^ h + (B + 1) ^ h := by ring
    omega

/-- Enough fuel: the loop returns. -/
theorem searchLoop_terminates {σ : Type} {P : Policy σ} {Inv : σ → Prop}
    {Ext : σ → Solution → Prop} {ht : σ → Nat} {B : Nat} (W : P.Wf Inv Ext ht B) :
    ∀ (fuel : Nat) (stack : List σ) (e : Engine), (∀ x, x ∈ stack → Inv x) →
      (stack.map (fun x => (B + 1) ^ ht x)).sum ≤ fuel →
      ∃ e', searchLoop P fuel stack e = some e' := by
  intro fuel
  induction fuel with
  | zero =>
    intro stack e _ hsum
    cases stack with
    | nil => exact ⟨e, rfl⟩
    | cons x rest =>
      have : 1 ≤ (B + 1) ^ ht x := Nat.one_le_pow _ _ (by omega)
      simp only [List.map_cons, List.sum_cons] at hsum
      omega
  | succ fuel ih =>
    intro stack e hinv hsum
    cases stack with
    | nil => exact ⟨e, rfl⟩
    | cons x rest =>
      have hx := hinv x (List.mem_cons_self _ _)
      have hrest : ∀ y, y ∈ rest → Inv y := fun y hy => hinv y (List.mem_cons_of_mem _ hy)
      have hpos : 1 ≤ (B + 1) ^ ht x := Nat.one_le_pow _ _ (by omega)
      simp only [List.map_cons, List.sum_cons] at hsum
      rw [searchLoop_cons]
      by_cases hc : P.atCutoff x = true
      · rw [if_pos hc]
        exact ih rest _ hrest (by omega)
      · rw [if_neg hc]
        by_cases hs : P.isSolution x = true
        · rw [if_pos hs]
          exact ih rest _ hrest (by omega)
        · rw [if_neg hs]
          obtain ⟨succs, hexp, hlen, hsucc, _, _⟩ :=
            W.branch x hx (by simpa using hc) (by simpa using hs)
          rw [hexp]
          have hb := sum_succs_lt B (ht x) ht succs hlen (fun c hc => (hsucc c hc).2)
          apply ih
          · intro y hy
            rcases List.mem_append.mp hy with h | h
            · exact (hsucc y (List.mem_reverse.mp h)).1
            · exact hrest y h
          · rw [List.map_append, List.sum_append, List.map_reverse, List.sum_reverse]
            omega

/-- Without a cutoff, the loop appends to `solutions` each completion below the stack
exactly once, and leaves the work queue alone. -/
theorem searchLoop_solutions {σ : Type} {P : Policy σ} {Inv : σ → Prop}
    {Ext : σ → Solution → Prop} {ht : σ → Nat} {B : Nat} (W : P.Wf Inv Ext ht B)
    (hcut : ∀ x, P.atCutoff x = false) :
    ∀ (fuel : Nat) (stack : List σ) (e e' : Engine), searchLoop P fuel stack e = some e' →
      (∀ x, x ∈ stack → Inv x) → stack.Pairwise (Disjoint2 Ext) →
      ∃ L, e'.solutions = e.solutions ++ L ∧ e'.workQueue = e.workQueue ∧ L.Nodup ∧
        ∀ s, s ∈ L ↔ ∃ x, x ∈ stack ∧ Ext x s := by
  intro fuel
  induction fuel with
  | zero =>
    intro stack e e' hrun _ _
    cases stack with
    | nil =>
      have : e' = e := by simpa [searchLoop] using hrun.symm
      subst this
      exact ⟨[], by simp, rfl, List.nodup_nil, by simp⟩
    | cons x rest => simp [searchLoop] at hrun
  | succ fuel ih =>
    intro stack e e' hrun hinv hpw
    cases stack with
    | nil =>
      have : e' = e := by simpa [searchLoop] using hrun.symm
      subst this
      exact ⟨[], by simp, rfl, List.nodup_nil, by simp⟩
    | cons x rest =>
      have hx := hinv x (List.mem_cons_self _ _)
      have hrest : ∀ y, y ∈ rest → Inv y := fun y hy => hinv y (List.mem_cons_of_mem _ hy)
      obtain ⟨hxrest, hpwrest⟩ := List.pairwise_cons.mp hpw
      rw [searchLoop_cons, hcut x] at hrun
      simp only [Bool.false_eq_true, if_false] at hrun
      by_cases hs : P.isSolution x = true
      · rw [if_pos hs] at hrun
        obtain ⟨L, hsol, hq, hnd, hmem⟩ := ih rest _ e' hrun hrest hpwrest
        have hleaf := W.leaf x hx (hcut x) hs
        refine ⟨P.board x :: L, ?_, ?_, ?_, ?_⟩
        · rw [hsol, recordSolution_solutions]; simp
        · rw [hq, recordSolution_workQueue]
        · refine List.nodup_cons.mpr ⟨?_, hnd⟩
          intro hin
          obtain ⟨y, hy, hext⟩ := (hmem _).mp hin
          exact hxrest y hy _ ⟨(hleaf _).mpr rfl, hext⟩
        · intro s
          constructor
          · intro h
            rcases List.mem_cons.mp h with h | h
            · exact ⟨x, List.mem_cons_self _ _, (hleaf s).mpr h⟩
            · obtain ⟨y, hy, hext⟩ := (hmem s).mp h
              exact ⟨y, List.mem_cons_of_mem _ hy, hext⟩
          · rintro ⟨y, hy, hext⟩
            rcases List.mem_cons.mp hy with h | h
            · subst h
              exact List.mem_cons.mpr (Or.inl ((hleaf s).mp hext))
            · exact List.mem_cons_of_mem _ ((hmem s).mpr ⟨y, h, hext⟩)
      · rw [if_neg hs] at hrun
        obtain ⟨succs, hexp, _, hsucc, hiff, hpws⟩ :=
          W.branch x hx (hcut x) (by simpa using hs)
        rw [hexp] at hrun
        simp only [] at hrun
        have hpw2 : (succs.reverse ++ rest).Pairwise (Disjoint2 Ext) := by
          rw [List.pairwise_append]
          refine ⟨?_, hpwrest, ?_⟩
          · rw [List.pairwise_reverse]
            exact hpws.imp (fun {a b} h s hab => h s ⟨hab.2, hab.1⟩)
          · intro c hc y hy s hcy
            exact hxrest y hy s ⟨(hiff s).mpr ⟨c, List.mem_reverse.mp hc, hcy.1⟩, hcy.2⟩
        have hinv2 : ∀ y, y ∈ succs.reverse ++ rest → Inv y := by
          intro y hy
          rcases List.mem_append.mp hy with h | h
          · exact (hsucc y (List.mem_reverse.mp h)).1
          · exact hrest y h
        obtain ⟨L, hsol, hq, hnd, hmem⟩ := ih _ e e' hrun hinv2 hpw2
        refine ⟨L, hsol, hq, hnd, ?_⟩
        intro s
        rw [hmem s]
        constructor
        · rintro ⟨y, hy, hext⟩
          rcases List.mem_append.mp hy with h | h
          · exact ⟨x, List.mem_cons_self _ _, (hiff s).mpr ⟨y, List.mem_reverse.mp h, hext⟩⟩
          · exact ⟨y, List.mem_cons_of_mem _ h, hext⟩
        · rintro ⟨y, hy, hext⟩
          rcases List.mem_cons.mp hy with h | h
          · subst h
            obtain ⟨c, hc, hce⟩ := (hiff s).mp hext
            exact ⟨c, List.mem_append.mpr (Or.inl (List.mem_reverse.mpr hc)), hce⟩
          · exact ⟨y, List.mem_append.mpr (Or.inr h), hext⟩

/-- A seed run in which no node below the cutoff is complete: nothing is recorded, and
every completion below the stack lies below a queued cutoff node. -/
theorem searchLoop_seed {σ : Type} {P : Policy σ} {Inv : σ → Prop}
    {Ext : σ → Solution → Prop} {ht : σ → Nat} {B : Nat} (W : P.Wf Inv Ext ht B)
    (hnosol : ∀ x, Inv x → P.atCutoff x = false → P.isSolution x = false) :
    ∀ (fuel : Nat) (stack : List σ) (e e' : Engine), searchLoop P fuel stack e = some e' →
      (∀ x, x ∈ stack → Inv x) →
      ∃ Q, e'.workQueue = e.workQueue ++ Q ∧ e'.solutions = e.solutions ∧
        (∀ b, b ∈ Q → ∃ x, Inv x ∧ P.atCutoff x = true ∧ P.board x = b) ∧
        ∀ s, (∃ x, x ∈ stack ∧ Ext x s) →
          ∃ x, Inv x ∧ P.atCutoff x = true ∧ Ext x s ∧ P.board x ∈ Q := by
  intro fuel
  induction fuel with
  | zero =>
    intro stack e e' hrun _
    cases stack with
    | nil =>
      have : e' = e := by simpa [searchLoop] using hrun.symm
      subst this
      exact ⟨[], by simp, rfl, by simp, by simp⟩
    | cons x rest => simp [searchLoop] at hrun
  | succ fuel ih =>
    intro stack e e' hrun hinv
    cases stack with
    | nil =>
      have : e' = e := by simpa [searchLoop] using hrun.symm
      subst this
      exact ⟨[], by simp, rfl, by simp, by simp⟩
    | cons x rest =>
      have hx := hinv x (List.mem_cons_self _ _)
      have hrest : ∀ y, y ∈ rest → Inv y := fun y hy => hinv y (List.mem_cons_of_mem _ hy)
      rw [searchLoop_cons] at hrun
      by_cases hc : P.atCutoff x = true
      · rw [if_pos hc] at hrun
        obtain ⟨Q, hq, hsol, hQ, hcov⟩ := ih rest _ e' hrun hrest
        refine ⟨P.board x :: Q, ?_, ?_, ?_, ?_⟩
        · rw [hq]; simp [pushWork]
        · rw [hsol]; rfl
        · intro b hb
          rcases List.mem_cons.mp hb with h | h
          · exact ⟨x, hx, hc, h.symm⟩
          · exact hQ b h
        · rintro s ⟨y, hy, hext⟩
          rcases List.mem_cons.mp hy with h | h
          · subst h
            exact ⟨y, hx, hc, hext, List.mem_cons_self _ _⟩
          · obtain ⟨z, hz1, hz2, hz3, hz4⟩ := hcov s ⟨y, h, hext⟩
            exact ⟨z, hz1, hz2, hz3, List.mem_cons_of_mem _ hz4⟩
      · have hc' : P.atCutoff x = false := by simpa using hc
        have hs := hnosol x hx hc'
        rw [if_neg hc, hs] at hrun
        simp only [Bool.false_eq_true, if_false] at hrun
        obtain ⟨succs, hexp, _, hsucc, hiff, _⟩ := W.branch x hx hc' hs
        rw [hexp] at hrun
        simp only [] at hrun
        have hinv2 : ∀ y, y ∈ succs.reverse ++ rest → Inv y := by
          intro y hy
          rcases List.mem_append.mp hy with h | h
          · exact (hsucc y (List.mem_reverse.mp h)).1
          · exact hrest y h
        obtain ⟨Q, hq, hsol, hQ, hcov⟩ := ih _ e e' hrun hinv2
        refine ⟨Q, hq, hsol, hQ, ?_⟩
        rintro s ⟨y, hy, hext⟩
        apply hcov s
        rcases List.mem_cons.mp hy with h | h
        · subst h
          obtain ⟨c, hc, hce⟩ := (hiff s).mp hext
          exact ⟨c, List.mem_append.mpr (Or.inl (List.mem_reverse.mpr hc)), hce⟩
        · exact ⟨y, List.mem_append.mpr (Or.inr h), hext⟩

/-! ## Lists and column loops -/

theorem getD_set_eq {α : Type} (l : List α) {i : Nat} (a d : α) (h : i < l.length) :
    (l.set i a).getD i d = a := by
  simp [List.getD_eq_getElem?_getD, List.getElem?_set, h]

theorem getD_set_ne {α : Type} (l : List α) {i j : Nat} (a d : α) (h : i ≠ j) :
    (l.set i a).getD j d = l.getD j d := by
  simp [List.getD_eq_getElem?_getD, List.getElem?_set, h]

theorem list_eq_of_getD {α : Type} {l1 l2 : List α} {n : Nat} (d : α) (h1 : l1.length = n)
    (h2 : l2.length = n) (h : ∀ i, i < n → l1.getD i d = l2.getD i d) : l1 = l2 := by
  apply List.ext_getElem (by omega)
  intro i hi1 hi2
  have := h i (by omega)
  simpa [List.getD_eq_getElem?_getD, List.getElem?_eq_getElem, hi1, hi2] using this

theorem pushColumns_total {σ : Type} (f : Nat → Option (Option σ)) (g : Nat → Option σ) :
    ∀ (cols : List Nat), (∀ c, c ∈ cols → f c = some (g c)) →
      pushColumns f cols = some (cols.filterMap g) := by
  intro cols
  induction cols with
  | nil => intro _; rfl
  | cons c cs ih =>
    intro h
    have hc := h c (List.mem_cons_self _ _)
    have hcs := ih (fun c' hc' => h c' (List.mem_cons_of_mem _ hc'))
    unfold pushColumns
    rw [hc, hcs]
    cases hg : g c <;> simp [List.filterMap_cons, hg]

theorem succs_of_columns {σ : Type} (Ext : σ → Solution → Prop) (g : Nat → Option σ) (n : Nat) :
    ((List.range n).filterMap g).length ≤ n ∧
    (∀ c, c ∈ (List.range n).filterMap g ↔ ∃ col, col < n ∧ g col = some c) ∧
    ((∀ col1 col2 c1 c2, col1 < n → col2 < n → col1 ≠ col2 → g col1 = some c1 →
        g col2 = some c2 → Disjoint2 Ext c1 c2) →
      ((List.range n).filterMap g).Pairwise (Disjoint2 Ext)) := by
  refine ⟨?_, ?_, ?_⟩
  · have := List.length_filterMap_le g (List.range n)
    simpa using this
  · intro c
    simp [List.mem_filterMap, List.mem_range]
  · intro h
    rw [List.pairwise_filterMap]
    have hnd : (List.range n).Pairwise (fun a b => a ≠ b) := List.nodup_range n
    refine List.Pairwise.imp_of_mem ?_ hnd
    intro a b ha hb hab c1 hc1 c2 hc2
    exact h a b c1 c2 (List.mem_range.mp ha) (List.mem_range.mp hb) hab hc1 hc2

/-! ## `BTSolver` -/

theorem isSafe_iff (board : Solution) (row : Nat) (col : Int) :
    BTSolver.isSafe board row col = true ↔
      ∀ i, i < row → ¬ Attacks i (board.getD i 0) row col := by
  unfold BTSolver.isSafe Attacks
  simp only [Bool.and_eq_true, List.all_eq_true, List.mem_range, bne_iff_ne, ne_eq]
  constructor
  · rintro ⟨h1, h2⟩ i hi
    have := h1 i hi
    have := h2 i hi
    tauto
  · intro h
    exact ⟨fun i hi => fun hc => h i hi (Or.inl hc), fun i hi => fun hc => h i hi (Or.inr hc)⟩

theorem prefixOK_set {n : Nat} {b : Solution} {row : Nat} {col : Nat} (hlen : b.length = n)
    (hrow : row < n) (hcol : col < n) (hp : PrefixOK n b row)
    (hsafe : ∀ i, i < row → ¬ Attacks i (b.getD i 0) row (col : Int)) :
    PrefixOK n (b.set row (col : Int)) (row + 1) := by
  have hget : ∀ i, i < row + 1 → (b.set row (col : Int)).getD i 0 =
      if i = row then (col : Int) else b.getD i 0 := by
    intro i _
    by_cases h : i = row
    · subst h; rw [if_pos rfl]; exact getD_set_eq b _ _ (by omega)
    · rw [if_neg h]; exact getD_set_ne b _ _ (fun h' => h h'.symm)
  refine ⟨?_, ?_⟩
  · intro i hi
    rw [hget i hi]
    by_cases h : i = row
    · rw [if_pos h]; omega
    · rw [if_neg h]; exact hp.1 i (by omega)
  · intro i j hi hj hij
    rw [hget i hi, hget j hj]
    by_cases h1 : i = row
    · have h2 : j ≠ row := by omega
      rw [if_pos h1, if_neg h2]
      subst h1
      exact fun h => hsafe j (by omega) h.symm
    · rw [if_neg h1]
      by_cases h2 : j = row
      · rw [if_pos h2]
        subst h2
        exact hsafe i (by omega)
      · rw [if_neg h2]
        exact hp.2 i j (by omega) (by omega) hij

theorem BTSolver.wf_bt (n : Nat) (maxDepth : Int) (m : Nat) (hm : CutoffFits n maxDepth m) :
    (BTSolver.policy n maxDepth).Wf (BTSolver.Inv n m) (BTSolver.Ext n)
      (fun x => n - x.row) n := by
  constructor
  · rintro x ⟨hlen, hrn, _, hp⟩ _ hsol s
    have hrow : x.row = n := by simpa [BTSolver.policy] using hsol
    show BTSolver.Ext n x s ↔ s = x.board
    unfold BTSolver.Ext
    rw [hrow]
    constructor
    · rintro ⟨⟨hl, _⟩, hag⟩
      exact list_eq_of_getD 0 hl hlen hag
    · rintro rfl
      exact ⟨⟨hlen, hrow ▸ hp⟩, fun _ _ => rfl⟩
  · rintro x ⟨hlen, hrn, hrm, hp⟩ hcut hsol
    have hrow : x.row ≠ n := by simpa [BTSolver.policy] using hsol
    have hrowm : x.row < m := by
      rcases hm with ⟨_, h2⟩ | ⟨h1, _, _⟩
      · omega
      · have : ¬ ((x.row : Int) = maxDepth) := by
          simp only [BTSolver.policy, Bool.and_eq_false_imp, decide_eq_true_eq,
            decide_eq_false_iff_not] at hcut
          exact hcut (by omega)
        omega
    let g : Nat → Option SearchState := fun col =>
      if BTSolver.isSafe x.board x.row (col : Int)
      then some { board := x.board.set x.row (col : Int), row := x.row + 1 } else none
    have hexp : (BTSolver.policy n maxDepth).expand x = some ((List.range n).filterMap g) :=
      pushColumns_total _ g _ (fun _ _ => rfl)
    obtain ⟨hlen2, hmem, hpw⟩ := succs_of_columns (BTSolver.Ext n) g n
    have hg : ∀ col c, g col = some c → BTSolver.isSafe x.board x.row (col : Int) = true ∧
        c = { board := x.board.set x.row (col : Int), row := x.row + 1 } := by
      intro col c h
      simp only [g] at h
      split at h
      · rename_i hs
        exact ⟨hs, by simpa using h.symm⟩
      · exact Option.noConfusion h
    refine ⟨_, hexp, hlen2, ?_, ?_, ?_⟩
    · intro c hc
      obtain ⟨col, hcol, hgc⟩ := (hmem c).mp hc
      obtain ⟨hs, rfl⟩ := hg col c hgc
      refine ⟨⟨by simpa using hlen, by show x.row + 1 ≤ n; omega, by show x.row + 1 ≤ m; omega,
        ?_⟩, by show n - (x.row + 1) < n - x.row; omega⟩
      exact prefixOK_set hlen (by omega) hcol hp ((isSafe_iff _ _ _).mp hs)
    · intro s
      constructor
      · rintro ⟨hv, hag⟩
        have hsr := hv.2.1 x.row (by omega)
        have hk : ((s.getD x.row 0).toNat : Int) = s.getD x.row 0 := Int.toNat_of_nonneg hsr.1
        have hsafe : BTSolver.isSafe x.board x.row ((s.getD x.row 0).toNat : Int) = true := by
          rw [isSafe_iff, hk]
          intro i hi
          rw [← hag i hi]
          exact hv.2.2 i x.row (by omega) (by omega) (by omega)
        refine ⟨_, (hmem _).mpr ⟨(s.getD x.row 0).toNat, by omega, by simp only [g]; rw [if_pos hsafe]⟩,
          hv, ?_⟩
        intro i hi
        show s.getD i 0 = (x.board.set x.row _).getD i 0
        by_cases h : i = x.row
        · subst h; rw [getD_set_eq _ _ _ (by omega), hk]
        · rw [getD_set_ne _ _ _ (fun h' => h h'.symm)]
          exact hag i (by have : i < x.row + 1 := hi; omega)
      · rintro ⟨c, hc, hv, hag⟩
        obtain ⟨col, _, hgc⟩ := (hmem c).mp hc
        obtain ⟨_, rfl⟩ := hg col c hgc
        refine ⟨hv, fun i hi => ?_⟩
        have := hag i (by show i < x.row + 1; omega)
        rwa [show ({ board := x.board.set x.row (col : Int), row := x.row + 1 } :
          SearchState).board = x.board.set x.row (col : Int) from rfl,
          getD_set_ne _ _ _ (by omega)] at this
    · apply hpw
      intro col1 col2 c1 c2 _ _ hne h1 h2 s hs
      obtain ⟨_, rfl⟩ := hg col1 c1 h1
      obtain ⟨_, rfl⟩ := hg col2 c2 h2
      have e1 := hs.1.2 x.row (by show x.row < x.row + 1; omega)
      have e2 := hs.2.2 x.row (by show x.row < x.row + 1; omega)
      simp only [] at e1 e2
      rw [getD_set_eq _ _ _ (by omega)] at e1 e2
      omega

/-! ## Runs from a root node -/

theorem Policy.Wf.strengthen {σ : Type} {P : Policy σ} {Inv : σ → Prop}
    {Ext : σ → Solution → Prop} {ht : σ → Nat} {B : Nat} (W : P.Wf Inv Ext ht B)
    (J : σ → Prop)
    (hJ : ∀ x succs, Inv x → J x → P.atCutoff x = false → P.isSolution x = false →
      P.expand x = some succs → ∀ c, c ∈ succs → J c) :
    P.Wf (fun x => Inv x ∧ J x) Ext ht B := by
  constructor
  · intro x hx hc hs s
    exact W.leaf x hx.1 hc hs s
  · intro x hx hc hs
    obtain ⟨succs, hexp, hlen, hsucc, hiff, hpw⟩ := W.branch x hx.1 hc hs
    exact ⟨succs, hexp, hlen,
      fun c hcs => ⟨⟨(hsucc c hcs).1, hJ x succs hx.1 hx.2 hc hs hexp c hcs⟩, (hsucc c hcs).2⟩,
      hiff, hpw⟩

theorem search_from_root {σ : Type} {P : Policy σ} {Inv : σ → Prop}
    {Ext : σ → Solution → Prop} {ht : σ → Nat} {B : Nat} (W : P.Wf Inv Ext ht B)
    (hcut : ∀ x, P.atCutoff x = false) (root : σ) (hroot : Inv root) (fuel : Nat)
    (hfuel : (B + 1) ^ ht root ≤ fuel) (e : Engine) :
    ∃ e' L, searchLoop P fuel [root] e = some e' ∧ e'.solutions = e.solutions ++ L ∧
      e'.workQueue = e.workQueue ∧ L.Nodup ∧ ∀ s, s ∈ L ↔ Ext root s := by
  have hinv : ∀ x, x ∈ [root] → Inv x := by
    intro x hx
    rw [List.mem_singleton.mp hx]
    exact hroot
  obtain ⟨e', he'⟩ := searchLoop_terminates W fuel [root] e hinv (by simpa using hfuel)
  obtain ⟨L, h1, h2, h3, h4⟩ := searchLoop_solutions W hcut fuel [root] e e' he' hinv
    (List.pairwise_singleton _ _)
  refine ⟨e', L, he', h1, h2, h3, ?_⟩
  intro s
  rw [h4 s]
  simp

theorem seed_from_root {σ : Type} {P : Policy σ} {Inv : σ → Prop}
    {Ext : σ → Solution → Prop} {ht : σ → Nat} {B : Nat} (W : P.Wf Inv Ext ht B)
    (hnosol : ∀ x, Inv x → P.atCutoff x = false → P.isSolution x = false)
    (root : σ) (hroot : Inv root) (fuel : Nat)
    (hfuel : (B + 1) ^ ht root ≤ fuel) (e : Engine) :
    ∃ e' Q, searchLoop P fuel [root] e = some e' ∧ e'.workQueue = e.workQueue ++ Q ∧
      e'.solutions = e.solutions ∧
      (∀ b, b ∈ Q → ∃ x, Inv x ∧ P.atCutoff x = true ∧ P.board x = b) ∧
      ∀ s, Ext root s → ∃ x, Inv x ∧ P.atCutoff x = true ∧ Ext x s ∧ P.board x ∈ Q := by
  have hinv : ∀ x, x ∈ [root] → Inv x := by
    intro x hx
    rw [List.mem_singleton.mp hx]
    exact hroot
  obtain ⟨e', he'⟩ := searchLoop_terminates W fuel [root] e hinv (by simpa using hfuel)
  obtain ⟨Q, h1, h2, h3, h4⟩ := searchLoop_seed W hnosol fuel [root] e e' he' hinv
  exact ⟨e', Q, he', h1, h2, h3, fun s hs => h4 s ⟨root, List.mem_singleton.mpr rfl, hs⟩⟩

theorem searchFuel_ge (n h : Nat) (hh : h ≤ n) : (n + 1) ^ h ≤ searchFuel n :=
  Nat.pow_le_pow_right (by omega) (by omega)

theorem getD_emptyBoard (n i : Nat) (hi : i < n) : (emptyBoard n).getD i 0 = -1 := by
  simp [emptyBoard, List.getD_eq_getElem?_getD, List.getElem?_replicate, hi]

theorem findStartRow_emptyBoard (n : Nat) : findStartRow n (emptyBoard n) = 0 := by
  unfold findStartRow
  cases n with
  | zero => rfl
  | succ n =>
    obtain ⟨k, hk, _, _, hlow⟩ := find_range_spec
      (fun i => (emptyBoard (n + 1)).getD i 0 == -1) (n + 1)
      ⟨0, by omega, by
        show ((emptyBoard (n + 1)).getD 0 0 == -1) = true
        rw [getD_emptyBoard _ _ (by omega)]
        rfl⟩
    rw [hk]
    show k = 0
    by_contra hne
    have hpos : 0 < k := Nat.pos_of_ne_zero hne
    have : ((emptyBoard (n + 1)).getD 0 0 == -1) = false := hlow 0 hpos
    rw [getD_emptyBoard _ _ (by omega)] at this
    exact Bool.noConfusion this

theorem prefixOK_zero (n : Nat) (b : Solution) : PrefixOK n b 0 :=
  ⟨fun i hi => absurd hi (Nat.not_lt_zero i), fun i _ hi => absurd hi (Nat.not_lt_zero i)⟩

theorem atCutoff_zero_BT (n : Nat) (x : SearchState) :
    (BTSolver.policy n 0).atCutoff x = false := by
  simp [BTSolver.policy]

/-- `BTSolver` from the all-unassigned board, no cutoff: the run ends and lists every
valid placement exactly once. -/
theorem BTSolver.solve_spec_bt (n : Nat) (e : Engine) :
    ∃ e' L, BTSolver.solve n (emptyBoard n) 0 e = some e' ∧
      e'.solutions = e.solutions ++ L ∧ e'.workQueue = e.workQueue ∧ L.Nodup ∧
      ∀ s, s ∈ L ↔ Valid n s := by
  have W := BTSolver.wf_bt n 0 n (Or.inl ⟨le_refl _, rfl⟩)
  have hroot : BTSolver.Inv n n { board := emptyBoard n, row := 0 } :=
    ⟨by simp [emptyBoard], Nat.zero_le _, Nat.zero_le _, prefixOK_zero _ _⟩
  obtain ⟨e', L, h1, h2, h3, h4, h5⟩ := search_from_root W (atCutoff_zero_BT n) _ hroot
    (searchFuel n) (searchFuel_ge n _ (by show n - 0 ≤ n; omega)) e
  refine ⟨e', L, ?_, h2, h3, h4, ?_⟩
  · unfold BTSolver.solve
    rw [findStartRow_emptyBoard]
    exact h1
  · intro s
    rw [h5 s]
    unfold BTSolver.Ext
    constructor
    · exact fun h => h.1
    · exact fun h => ⟨h, fun i hi => absurd hi (Nat.not_lt_zero i)⟩

/-! ## Domain words -/

theorem and_shl1_eq_zero (d : Nat) {col : Nat} (h : col < 64) :
    ((d &&& shl1 col) == 0) = !d.testBit col := by
  rw [shl1_eq h, Nat.and_two_pow]
  have hp : 0 < 2 ^ col := Nat.two_pow_pos col
  cases hb : d.testBit col
  · simp
  · simp only [Bool.toNat_true, one_mul, Bool.not_true, beq_eq_false_iff_ne, ne_eq]
    omega

theorem testBit_and_not64_iff {d : Nat} (m : Nat) (hd : ∀ i, d.testBit i = true → i < 64)
    (c : Nat) :
    (d &&& not64 m).testBit c = true ↔ d.testBit c = true ∧ m.testBit c = false := by
  by_cases hc : c < 64
  · rw [testBit_and_not64 d m c hc]
    simp
  · have : d.testBit c = false := by
      by_contra h
      exact hc (hd c (by simpa using h))
    simp [Nat.testBit_land, this]

theorem ne_zero_of_testBit {x c : Nat} (h : x.testBit c = true) : x ≠ 0 := by
  rintro rfl
  simp at h

theorem testBit_pruned {n r1 r2 col : Nat} {d : Nat} (hn : n ≤ 63) (h1 : r1 < n)
    (h2 : r2 < n) (hcol : col < n) (hne : r1 ≠ r2) (hd : ∀ i, d.testBit i = true → i < n)
    (c : Nat) :
    (d &&& not64 (attackAt (precomputeAttackMasks n) r1 r2 col)).testBit c = true ↔
      d.testBit c = true ∧ ¬ Attacks r1 (col : Int) r2 (c : Int) := by
  rw [testBit_and_not64_iff _ (fun i hi => by have := hd i hi; omega)]
  constructor
  · rintro ⟨hb, hm⟩
    refine ⟨hb, fun hatt => ?_⟩
    have := (testBit_attackAt (by omega) h1 h2 hcol hne c).mpr ⟨hd c hb, hatt⟩
    rw [this] at hm
    exact Bool.noConfusion hm
  · rintro ⟨hb, hatt⟩
    refine ⟨hb, ?_⟩
    by_contra hm
    exact hatt ((testBit_attackAt (by omega) h1 h2 hcol hne c).mp (by simpa using hm)).2

theorem getD_pruneFuture {n r : Nat} (am : List (List (List Nat))) (domains : List Nat)
    (row col : Nat) (hr : r < n) :
    (pruneFuture n am domains row col).getD r 0 =
      if row + 1 ≤ r then domains.getD r 0 &&& not64 (attackAt am row r col)
      else domains.getD r 0 := by
  unfold pruneFuture
  rw [getD_map_range _ hr]

theorem length_pruneFuture (n : Nat) (am : List (List (List Nat))) (domains : List Nat)
    (row col : Nat) : (pruneFuture n am domains row col).length = n := by
  simp [pruneFuture]

theorem causesWipeout_false_iff (n : Nat) (am : List (List (List Nat))) (domains : List Nat)
    (row col : Nat) :
    BTFCSolver.causesWipeout n am domains row col = false ↔
      ∀ f, row < f → f < n → domains.getD f 0 &&& not64 (attackAt am row f col) ≠ 0 := by
  unfold BTFCSolver.causesWipeout
  rw [Bool.eq_false_iff]
  simp only [ne_eq, List.any_eq_true, List.mem_filter, List.mem_range, decide_eq_true_eq,
    beq_iff_eq, not_exists, not_and, and_imp]
  constructor
  · intro h f hf hfn
    exact h f hfn (by omega)
  · intro h f hfn hf
    exact h f (by omega) hfn

theorem toNat_col {n : Nat} {v : Int} (h0 : 0 ≤ v) (hn : v < (n : Int)) :
    v.toNat < n ∧ ((v.toNat : Nat) : Int) = v := by
  constructor <;> omega

/-! ## `BTFCSolver` -/

theorem fc_child_inv {n m : Nat} {x : FCSearchState} {col : Nat} {nd : List Nat}
    (hn : n ≤ 63) (hinv : FCInv n m x) (hrow : x.row < n) (hrowm : x.row < m)
    (hbit : (x.domains.getD x.row 0).testBit col = true) (hlen : nd.length = n)
    (hsub : ∀ r c, x.row + 1 ≤ r → r < n → (nd.getD r 0).testBit c = true →
      (x.domains.getD r 0 &&& not64 (attackAt (precomputeAttackMasks n) x.row r col)).testBit c
        = true) :
    FCInv n m { board := x.board.set x.row (col : Int), row := x.row + 1, domains := nd } := by
  obtain ⟨hbl, hdl, _, _, hp, hdom⟩ := hinv
  have hc := hdom x.row col (le_refl _) hrow hbit
  refine ⟨by simpa using hbl, hlen, by show x.row + 1 ≤ n; omega, by show x.row + 1 ≤ m; omega,
    prefixOK_set hbl hrow hc.1 hp hc.2, ?_⟩
  intro r c hr hrn hb
  have hr' : x.row + 1 ≤ r := hr
  have h1 := hsub r c hr' hrn hb
  have hdr : ∀ i, (x.domains.getD r 0).testBit i = true → i < n :=
    fun i hi => (hdom r i (by omega) hrn hi).1
  rw [testBit_pruned hn hrow hrn hc.1 (by omega) hdr] at h1
  have h2 := hdom r c (by omega) hrn h1.1
  refine ⟨h2.1, ?_⟩
  intro i hi
  have hi' : i < x.row + 1 := hi
  show ¬ Attacks i ((x.board.set x.row (col : Int)).getD i 0) r (c : Int)
  by_cases h : i = x.row
  · subst h
    rw [getD_set_eq _ _ _ (by omega)]
    exact h1.2
  · rw [getD_set_ne _ _ _ (fun h' => h h'.symm)]
    exact h2.2 i (by omega)

theorem fc_ext_col {n : Nat} {x : FCSearchState} {col : Nat} {nd : List Nat} {s : Solution}
    (hbl : x.board.length = n) (hrow : x.row < n)
    (h : FCExt n { board := x.board.set x.row (col : Int), row := x.row + 1, domains := nd } s) :
    s.getD x.row 0 = (col : Int) := by
  have := h.2.1 x.row (by show x.row < x.row + 1; omega)
  rwa [show ({ board := x.board.set x.row (col : Int), row := x.row + 1, domains := nd } :
    FCSearchState).board = x.board.set x.row (col : Int) from rfl,
    getD_set_eq _ _ _ (by omega)] at this

theorem fc_ext_parent {n : Nat} {x : FCSearchState} {col : Nat} {nd : List Nat} {s : Solution}
    (hbl : x.board.length = n) (hrow : x.row < n)
    (hbit : (x.domains.getD x.row 0).testBit col = true)
    (hsub : ∀ r c, x.row + 1 ≤ r → r < n → (nd.getD r 0).testBit c = true →
      (x.domains.getD r 0).testBit c = true)
    (h : FCExt n { board := x.board.set x.row (col : Int), row := x.row + 1, domains := nd } s) :
    FCExt n x s ∧ s.getD x.row 0 = (col : Int) := by
  obtain ⟨hv, hag, hd⟩ := h
  have hcol : s.getD x.row 0 = (col : Int) := by
    have := hag x.row (by show x.row < x.row + 1; omega)
    rwa [show ({ board := x.board.set x.row (col : Int), row := x.row + 1, domains := nd } :
      FCSearchState).board = x.board.set x.row (col : Int) from rfl,
      getD_set_eq _ _ _ (by omega)] at this
  refine ⟨⟨hv, ?_, ?_⟩, hcol⟩
  · intro i hi
    have := hag i (by show i < x.row + 1; omega)
    rwa [show ({ board := x.board.set x.row (col : Int), row := x.row + 1, domains := nd } :
      FCSearchState).board = x.board.set x.row (col : Int) from rfl,
      getD_set_ne _ _ _ (by omega)] at this
  · intro r hr hrn
    by_cases h : r = x.row
    · subst h
      rw [hcol]
      simpa using hbit
    · exact hsub r _ (by omega) hrn (hd r (by show x.row + 1 ≤ r; omega) hrn)

theorem fc_ext_child {n : Nat} {x : FCSearchState} {D : List Nat} {s : Solution}
    (hbl : x.board.length = n) (hrow : x.row < n) (h : FCExt n x s)
    (hkeep : ∀ r, x.row + 1 ≤ r → r < n → (D.getD r 0).testBit (s.getD r 0).toNat = true) :
    FCExt n { board := x.board.set x.row (((s.getD x.row 0).toNat : Nat) : Int),
              row := x.row + 1, domains := D } s := by
  obtain ⟨hv, hag, hd⟩ := h
  have hk := toNat_col (hv.2.1 x.row hrow).1 (hv.2.1 x.row hrow).2
  refine ⟨hv, ?_, fun r hr hrn => hkeep r hr hrn⟩
  intro i hi
  have hi' : i < x.row + 1 := hi
  show s.getD i 0 = (x.board.set x.row _).getD i 0
  by_cases h : i = x.row
  · subst h; rw [getD_set_eq _ _ _ (by omega), hk.2]
  · rw [getD_set_ne _ _ _ (fun h' => h h'.symm)]
    exact hag i (by omega)

theorem fc_leaf {n m : Nat} {x : FCSearchState} (hinv : FCInv n m x) (hrow : x.row = n)
    (s : Solution) : FCExt n x s ↔ s = x.board := by
  obtain ⟨hbl, _, _, _, hp, _⟩ := hinv
  unfold FCExt
  rw [hrow]
  constructor
  · rintro ⟨⟨hl, _⟩, hag, _⟩
    exact list_eq_of_getD 0 hl hbl hag
  · rintro rfl
    exact ⟨⟨hbl, hrow ▸ hp⟩, fun _ _ => rfl, fun r hr hrn => by omega⟩

theorem fc_row_lt {n m : Nat} {maxDepth : Int} {row : Nat} (hm : CutoffFits n maxDepth m)
    (hrn : row ≤ n) (hrm : row ≤ m)
    (hcut : (decide (maxDepth > 0) && decide ((row : Int) = maxDepth)) = false)
    (hsol : (row == n) = false) : row < n ∧ row < m := by
  have hrow : row ≠ n := by simpa using hsol
  rcases hm with ⟨_, h2⟩ | ⟨h1, _, _⟩
  · omega
  · have : ¬ ((row : Int) = maxDepth) := by
      simp only [Bool.and_eq_false_imp, decide_eq_true_eq, decide_eq_false_iff_not] at hcut
      exact hcut (by omega)
    omega

theorem BTFCSolver.wf_btfc (n : Nat) (hn : n ≤ 63) (maxDepth : Int) (m : Nat)
    (hm : CutoffFits n maxDepth m) :
    (BTFCSolver.policy n (precomputeAttackMasks n) maxDepth).Wf (FCInv n m) (FCExt n)
      (fun x => n - x.row) n := by
  constructor
  · intro x hinv _ hsol s
    exact fc_leaf hinv (by simpa [BTFCSolver.policy] using hsol) s
  · intro x hinv hcut hsol
    obtain ⟨hrow, hrowm⟩ := fc_row_lt hm hinv.2.2.1 hinv.2.2.2.1 hcut hsol
    have hbl := hinv.1
    have hdom := hinv.2.2.2.2.2
    let am := precomputeAttackMasks n
    let g : Nat → Option FCSearchState := fun col =>
      if (x.domains.getD x.row 0 &&& shl1 col) == 0 then none
      else if BTFCSolver.causesWipeout n am x.domains x.row col then none
      else some { board := x.board.set x.row (col : Int), row := x.row + 1,
                  domains := pruneFuture n am x.domains x.row col }
    have hexp : (BTFCSolver.policy n am maxDepth).expand x = some ((List.range n).filterMap g) :=
      pushColumns_total _ g _ (fun _ _ => rfl)
    obtain ⟨hlen2, hmem, hpw⟩ := succs_of_columns (FCExt n) g n
    have hg : ∀ col c, col < n → g col = some c →
        (x.domains.getD x.row 0).testBit col = true ∧
        BTFCSolver.causesWipeout n am x.domains x.row col = false ∧
        c = { board := x.board.set x.row (col : Int), row := x.row + 1,
              domains := pruneFuture n am x.domains x.row col } := by
      intro col c hcol h
      simp only [g] at h
      rw [and_shl1_eq_zero _ (by omega)] at h
      cases hb : (x.domains.getD x.row 0).testBit col
      · rw [hb] at h
        exact Option.noConfusion h
      · cases hw : BTFCSolver.causesWipeout n am x.domains x.row col
        · rw [hb, hw] at h
          exact ⟨rfl, rfl, (Option.some.inj h).symm⟩
        · rw [hb, hw] at h
          exact Option.noConfusion h
    have hsubset : ∀ col r c, x.row + 1 ≤ r → r < n →
        ((pruneFuture n am x.domains x.row col).getD r 0).testBit c = true →
        (x.domains.getD r 0 &&& not64 (attackAt am x.row r col)).testBit c = true := by
      intro col r c hr hrn hb
      rwa [getD_pruneFuture am _ _ _ hrn, if_pos hr] at hb
    refine ⟨_, hexp, hlen2, ?_, ?_, ?_⟩
    · intro c hc
      obtain ⟨col, hcol, hgc⟩ := (hmem c).mp hc
      obtain ⟨hbit, _, rfl⟩ := hg col c hcol hgc
      exact ⟨fc_child_inv hn hinv hrow hrowm hbit (length_pruneFuture _ _ _ _ _)
        (hsubset col), by show n - (x.row + 1) < n - x.row; omega⟩
    · intro s
      constructor
      · intro hext
        obtain ⟨hv, hag, hd⟩ := hext
        have hk := toNat_col (hv.2.1 x.row hrow).1 (hv.2.1 x.row hrow).2
        have hbit := hd x.row (le_refl _) hrow
        have hkeep : ∀ r, x.row + 1 ≤ r → r < n →
            (x.domains.getD r 0 &&& not64 (attackAt am x.row r (s.getD x.row 0).toNat)).testBit
              (s.getD r 0).toNat = true := by
          intro r hr hrn
          have hkr := toNat_col (hv.2.1 r hrn).1 (hv.2.1 r hrn).2
          rw [testBit_pruned hn hrow hrn hk.1 (by omega)
            (fun i hi => (hdom r i (by omega) hrn hi).1)]
          refine ⟨hd r (by omega) hrn, ?_⟩
          rw [hk.2, hkr.2]
          exact hv.2.2 x.row r hrow hrn (by omega)
        have hnw : BTFCSolver.causesWipeout n am x.domains x.row (s.getD x.row 0).toNat
            = false := by
          rw [causesWipeout_false_iff]
          intro f hf hfn
          exact ne_zero_of_testBit (hkeep f (by omega) hfn)
        refine ⟨_, (hmem _).mpr ⟨(s.getD x.row 0).toNat, hk.1, ?_⟩,
          fc_ext_child hbl hrow ⟨hv, hag, hd⟩
            (D := pruneFuture n am x.domains x.row (s.getD x.row 0).toNat) ?_⟩
        · simp only [g]
          rw [and_shl1_eq_zero _ (by omega), hbit, hnw]
          simp
        · intro r hr hrn
          rw [getD_pruneFuture am _ _ _ hrn, if_pos hr]
          exact hkeep r hr hrn
      · rintro ⟨c, hc, hext⟩
        obtain ⟨col, hcol, hgc⟩ := (hmem c).mp hc
        obtain ⟨hbit, _, rfl⟩ := hg col c hcol hgc
        refine (fc_ext_parent hbl hrow hbit ?_ hext).1
        intro r c hr hrn hb
        have := hsubset col r c hr hrn hb
        rw [Nat.testBit_land] at this
        simp only [Bool.and_eq_true] at this
        exact this.1
    · apply hpw
      intro col1 col2 c1 c2 hc1 hc2 hne h1 h2 s hs
      obtain ⟨_, _, rfl⟩ := hg col1 c1 hc1 h1
      obtain ⟨_, _, rfl⟩ := hg col2 c2 hc2 h2
      have e1 := fc_ext_col hbl hrow hs.1
      have e2 := fc_ext_col hbl hrow hs.2
      omega

/-! ## `revise` -/

theorem shl1_ge {k : Nat} (hk : 64 ≤ k) : shl1 k = 0 := by
  unfold shl1
  rw [Nat.one_shiftLeft, wordMax_eq]
  apply Nat.mod_eq_zero_of_dvd
  exact Nat.pow_dvd_pow 2 hk

theorem ctz64_cases (x : Nat) :
    ctz64 x = 64 ∨ (ctz64 x < 64 ∧ x.testBit (ctz64 x) = true) := by
  unfold ctz64
  cases h : (List.range 64).find? (fun i => x.testBit i) with
  | none => exact Or.inl rfl
  | some k =>
    right
    have h1 := List.mem_range.mp (List.mem_of_find?_eq_some h)
    have h2 := List.find?_some h
    exact ⟨h1, h2⟩

theorem testBit_shl1_ctz {td c : Nat} (h : (shl1 (ctz64 td)).testBit c = true) :
    c < 64 ∧ td.testBit c = true ∧ c = ctz64 td := by
  rcases ctz64_cases td with h64 | ⟨hlt, hbit⟩
  · rw [h64, shl1_ge (le_refl _)] at h
    simp at h
  · rw [testBit_shl1 hlt] at h
    have : ctz64 td = c := by simpa using h
    subst this
    exact ⟨hlt, hbit, rfl⟩

theorem reviseLoop_sound (am : List (List (List Nat))) (row1 row2 domain2 : Nat) :
    ∀ (fuel td tr c : Nat),
      (reviseLoop am row1 row2 domain2 fuel td tr).testBit c = true →
      tr.testBit c = true ∨
        (c < 64 ∧ td.testBit c = true ∧ domain2 &&& not64 (attackAt am row1 row2 c) = 0) := by
  intro fuel
  induction fuel with
  | zero => intro td tr c h; exact Or.inl h
  | succ fuel ih =>
    intro td tr c h
    unfold reviseLoop at h
    by_cases h0 : td = 0
    · rw [if_pos h0] at h
      exact Or.inl h
    · rw [if_neg h0] at h
      simp only [] at h
      rcases ih _ _ c h with h1 | ⟨h1, h2, h3⟩
      · by_cases hcomp : domain2 &&& not64 (attackAt am row1 row2 (ctz64 td)) = 0
        · rw [if_pos hcomp, Nat.testBit_lor] at h1
          rcases Bool.or_eq_true _ _ |>.mp h1 with h1 | h1
          · exact Or.inl h1
          · obtain ⟨hc, hb, heq⟩ := testBit_shl1_ctz h1
            exact Or.inr ⟨hc, hb, heq ▸ hcomp⟩
        · rw [if_neg hcomp] at h1
          exact Or.inl h1
      · rw [Nat.testBit_land] at h2
        exact Or.inr ⟨h1, (Bool.and_eq_true _ _ |>.mp h2).1, h3⟩

theorem sum_set_lt : ∀ (l : List Nat) (i v : Nat), i < l.length → v < l.getD i 0 →
    (l.set i v).sum < l.sum := by
  intro l
  induction l with
  | nil => intro i v h; simp at h
  | cons a l ih =>
    intro i v hi hv
    cases i with
    | zero =>
      simp only [List.set_cons_zero, List.sum_cons]
      have : v < a := by simpa using hv
      omega
    | succ i =>
      simp only [List.set_cons_succ, List.sum_cons]
      have := ih i v (by simpa using hi) (by simpa using hv)
      omega

theorem revise_changed (am : List (List (List Nat))) (row1 row2 : Nat) (D : List Nat) :
    (AC3Solver.revise am row1 row2 D =
      (true, D.set row1 (D.getD row1 0 &&&
        not64 (reviseLoop am row1 row2 (D.getD row2 0) 64 (D.getD row1 0) 0))) ∧
      reviseLoop am row1 row2 (D.getD row2 0) 64 (D.getD row1 0) 0 ≠ 0) ∨
    (AC3Solver.revise am row1 row2 D = (false, D)) := by
  unfold AC3Solver.revise
  simp only []
  by_cases h : reviseLoop am row1 row2 (D.getD row2 0) 64 (D.getD row1 0) 0 ≠ 0
  · rw [if_pos h]
    exact Or.inl ⟨rfl, h⟩
  · rw [if_neg h]
    exact Or.inr rfl

theorem AC3Solver.revise_ok_ac3 (am : List (List (List Nat))) :
    ReviseOK am (AC3Solver.revise am) := by
  constructor
  · intro r1 r2 D
    rcases revise_changed am r1 r2 D with ⟨h, _⟩ | h <;> rw [h] <;> simp
  · intro r1 r2 D k hk
    rcases revise_changed am r1 r2 D with ⟨h, _⟩ | h <;> rw [h]
    exact getD_set_ne _ _ _ (fun h' => hk h'.symm)
  · intro r1 r2 D c hc
    rcases revise_changed am r1 r2 D with ⟨h, _⟩ | h <;> rw [h] at hc
    · by_cases hlen : r1 < D.length
      · simp only [] at hc
        rw [getD_set_eq _ _ _ hlen, Nat.testBit_land] at hc
        exact (Bool.and_eq_true _ _ |>.mp hc).1
      · simp only [] at hc
        rwa [List.set_eq_of_length_le (by omega)] at hc
    · exact hc
  · intro r1 r2 D hf
    rcases revise_changed am r1 r2 D with ⟨h, _⟩ | h <;> rw [h] at hf ⊢
    exact Bool.noConfusion hf
  · intro r1 r2 D ht hlen
    rcases revise_changed am r1 r2 D with ⟨h, hne⟩ | h <;> rw [h] at ht ⊢
    · apply sum_set_lt _ _ _ hlen
      obtain ⟨c, hc⟩ := Nat.ne_zero_implies_bit_true hne
      rcases reviseLoop_sound am r1 r2 _ 64 _ 0 c hc with h0 | ⟨h64, hb, _⟩
      · simp at h0
      · apply Nat.lt_of_le_of_ne Nat.and_le_left
        intro heq
        have := testBit_and_not64 (D.getD r1 0)
          (reviseLoop am r1 r2 (D.getD r2 0) 64 (D.getD r1 0) 0) c h64
        rw [heq, hb, hc] at this
        exact Bool.noConfusion this
    · exact Bool.noConfusion ht
  · intro r1 r2 D c c2 hc hc2 hb hb2 hatt
    rcases revise_changed am r1 r2 D with ⟨h, _⟩ | h <;> rw [h]
    · by_cases hlen : r1 < D.length
      · simp only []
        rw [getD_set_eq _ _ _ hlen, testBit_and_not64 _ _ _ hc, hb]
        simp only [Bool.true_and, Bool.not_eq_true']
        by_contra hrem
        rcases reviseLoop_sound am r1 r2 _ 64 _ 0 c ((Bool.not_eq_false _).mp hrem)
          with h0 | ⟨_, _, hz⟩
        · simp at h0
        · have := testBit_and_not64 (D.getD r2 0) (attackAt am r1 r2 c) c2 hc2
          rw [hz, hb2, hatt] at this
          simp at this
      · simp only []
        rwa [List.set_eq_of_length_le (by omega)]
    · exact hb

theorem AC3DVOSolver.revise_ok_ac3dvo (am : List (List (List Nat))) (board : Solution) :
    ReviseOK am (AC3DVOSolver.revise am board) := by
  have H := AC3Solver.revise_ok_ac3 am
  have hcases : ∀ r1 r2 D, AC3DVOSolver.revise am board r1 r2 D = (false, D) ∨
      AC3DVOSolver.revise am board r1 r2 D = AC3Solver.revise am r1 r2 D := by
    intro r1 r2 D
    unfold AC3DVOSolver.revise
    split
    · exact Or.inl rfl
    · exact Or.inr rfl
  constructor
  · intro r1 r2 D
    rcases hcases r1 r2 D with h | h <;> rw [h]
    exact H.length r1 r2 D
  · intro r1 r2 D k hk
    rcases hcases r1 r2 D with h | h <;> rw [h]
    exact H.other r1 r2 D k hk
  · intro r1 r2 D
    rcases hcases r1 r2 D with h | h <;> rw [h]
    · exact fun _ h => h
    · exact H.subset r1 r2 D
  · intro r1 r2 D
    rcases hcases r1 r2 D with h | h <;> rw [h]
    · exact fun _ => rfl
    · exact H.same r1 r2 D
  · intro r1 r2 D
    rcases hcases r1 r2 D with h | h <;> rw [h]
    · exact fun h => Bool.noConfusion h
    · exact H.drops r1 r2 D
  · intro r1 r2 D c c2 hc hc2 hb hb2 hatt
    rcases hcases r1 r2 D with h | h <;> rw [h]
    · exact hb
    · exact H.keeps r1 r2 D c c2 hc hc2 hb hb2 hatt

/-! ## The worklist loop of `enforceArcConsistency` -/

theorem mem_requeueArcs {n : Nat} {board : Solution} {startRow row1 row2 : Nat}
    {a : Nat × Nat} (h : a ∈ requeueArcs n board startRow row1 row2) :
    a.2 = row1 ∧ startRow ≤ a.1 ∧ a.1 < n ∧ a.1 ≠ row1 ∧ a.1 ≠ row2 ∧
      board.getD a.1 0 = -1 := by
  unfold requeueArcs at h
  obtain ⟨k, hk, hsome⟩ := List.mem_filterMap.mp h
  obtain ⟨hkn, hks⟩ := List.mem_filter.mp hk
  have hkn' := List.mem_range.mp hkn
  have hks' : startRow ≤ k := by simpa using hks
  split at hsome
  · rename_i hcond
    have ha : a = (k, row1) := (Option.some.inj hsome).symm
    subst ha
    simp only [Bool.and_eq_true, bne_iff_ne, ne_eq, beq_iff_eq] at hcond
    exact ⟨rfl, hks', hkn', hcond.1.1, hcond.1.2, hcond.2⟩
  · exact Option.noConfusion hsome

theorem length_requeueArcs (n : Nat) (board : Solution) (startRow row1 row2 : Nat) :
    (requeueArcs n board startRow row1 row2).length ≤ n := by
  unfold requeueArcs
  have h1 := List.length_filterMap_le
    (fun k => if (k != row1 && k != row2 && board.getD k 0 == -1) = true
      then some (k, row1) else none)
    ((List.range n).filter (fun k => decide (startRow ≤ k)))
  have h2 := List.length_filter_le (fun k => decide (startRow ≤ k)) (List.range n)
  simp only [List.length_range] at h2
  omega

theorem mem_initialWorklist {n : Nat} {board : Solution} {startRow : Nat} {a : Nat × Nat} :
    a ∈ initialWorklist n board startRow ↔
      startRow ≤ a.1 ∧ a.1 < n ∧ startRow ≤ a.2 ∧ a.2 < n ∧ a.1 ≠ a.2 ∧
      board.getD a.1 0 = -1 ∧ board.getD a.2 0 = -1 := by
  unfold initialWorklist
  rw [List.mem_flatMap]
  constructor
  · rintro ⟨i, hi, hmem⟩
    obtain ⟨hin, his⟩ := List.mem_filter.mp hi
    have hin' := List.mem_range.mp hin
    have his' : startRow ≤ i := by simpa using his
    split at hmem
    · exact absurd hmem (List.not_mem_nil _)
    · rename_i hbi
      obtain ⟨j, hj, hsome⟩ := List.mem_filterMap.mp hmem
      obtain ⟨hjn, hjs⟩ := List.mem_filter.mp hj
      have hjn' := List.mem_range.mp hjn
      have hjs' : startRow ≤ j := by simpa using hjs
      split at hsome
      · rename_i hcond
        have ha : a = (i, j) := (Option.some.inj hsome).symm
        subst ha
        simp only [Bool.and_eq_true, bne_iff_ne, ne_eq, beq_iff_eq] at hcond
        simp only [bne_iff_ne, ne_eq, Decidable.not_not] at hbi
        exact ⟨his', hin', hjs', hjn', hcond.1, hbi, hcond.2⟩
      · exact Option.noConfusion hsome
  · rintro ⟨h1, h2, h3, h4, h5, h6, h7⟩
    refine ⟨a.1, List.mem_filter.mpr ⟨List.mem_range.mpr h2, by simpa using h1⟩, ?_⟩
    have hb : ¬ ((board.getD a.1 0 != -1) = true) := by rw [h6]; decide
    rw [if_neg hb]
    refine List.mem_filterMap.mpr ⟨a.2,
      List.mem_filter.mpr ⟨List.mem_range.mpr h4, by simpa using h3⟩, ?_⟩
    have hc : (a.1 != a.2 && board.getD a.2 0 == -1) = true := by
      rw [h7]
      simp only [Bool.and_eq_true, bne_iff_ne, ne_eq, beq_self_eq_true, and_true]
      exact h5
    rw [if_pos hc]

theorem enforceLoop_nil (rev : Nat → Nat → List Nat → Bool × List Nat) (n : Nat)
    (board : Solution) (startRow fuel : Nat) (D : List Nat) :
    enforceLoop rev n board startRow fuel [] D = some (true, D) := by
  cases fuel <;> rfl

theorem enforceLoop_cons (rev : Nat → Nat → List Nat → Bool × List Nat) (n : Nat)
    (board : Solution) (startRow fuel row1 row2 : Nat) (rest : List (Nat × Nat))
    (D : List Nat) :
    enforceLoop rev n board startRow (fuel + 1) ((row1, row2) :: rest) D =
      if (rev row1 row2 D).1 = true then
        if (rev row1 row2 D).2.getD row1 0 = 0 then some (false, (rev row1 row2 D).2)
        else enforceLoop rev n board startRow fuel
               (rest ++ requeueArcs n board startRow row1 row2) (rev row1 row2 D).2
      else enforceLoop rev n board startRow fuel rest (rev row1 row2 D).2 := rfl

theorem ReviseOK.subset_all {am : List (List (List Nat))}
    {rev : Nat → Nat → List Nat → Bool × List Nat} (h : ReviseOK am rev) (r1 r2 : Nat)
    (D : List Nat) (k : Nat) : MaskSubset ((rev r1 r2 D).2.getD k 0) (D.getD k 0) := by
  by_cases hk : k = r1
  · subst hk; exact h.subset k r2 D
  · rw [h.other r1 r2 D k hk]; exact fun _ h => h

/-- Enough fuel: the worklist loop returns, and the domains it leaves are subsets of the
domains it was given. -/
theorem enforceLoop_terminates {am : List (List (List Nat))}
    {rev : Nat → Nat → List Nat → Bool × List Nat} (hrev : ReviseOK am rev) (n : Nat)
    (board : Solution) (startRow : Nat) :
    ∀ (fuel : Nat) (w : List (Nat × Nat)) (D : List Nat), D.length = n →
      (∀ a, a ∈ w → a.1 < n) → w.length + n * D.sum ≤ fuel →
      ∃ ok D', enforceLoop rev n board startRow fuel w D = some (ok, D') ∧
        D'.length = n ∧ ∀ k, MaskSubset (D'.getD k 0) (D.getD k 0) := by
  intro fuel
  induction fuel with
  | zero =>
    intro w D hlen _ hf
    cases w with
    | nil => exact ⟨true, D, rfl, hlen, fun _ _ h => h⟩
    | cons a rest => simp at hf
  | succ fuel ih =>
    intro w D hlen harc hf
    cases w with
    | nil => exact ⟨true, D, rfl, hlen, fun _ _ h => h⟩
    | cons a rest =>
      obtain ⟨row1, row2⟩ := a
      have hr1 : row1 < n := harc (row1, row2) (List.mem_cons_self _ _)
      have hrest : ∀ a, a ∈ rest → a.1 < n := fun a ha => harc a (List.mem_cons_of_mem _ ha)
      have hlen' : (rev row1 row2 D).2.length = n := by rw [hrev.length, hlen]
      simp only [List.length_cons] at hf
      rw [enforceLoop_cons]
      by_cases hch : (rev row1 row2 D).1 = true
      · rw [if_pos hch]
        by_cases hz : (rev row1 row2 D).2.getD row1 0 = 0
        · rw [if_pos hz]
          exact ⟨false, _, rfl, hlen', fun k => hrev.subset_all row1 row2 D k⟩
        · rw [if_neg hz]
          have hdrop := hrev.drops row1 row2 D hch (by omega)
          have hq := length_requeueArcs n board startRow row1 row2
          have hmul : n * (rev row1 row2 D).2.sum + n ≤ n * D.sum := by
            have : n * ((rev row1 row2 D).2.sum + 1) ≤ n * D.sum := Nat.mul_le_mul_left n hdrop
            rw [Nat.mul_add, Nat.mul_one] at this
            exact this
          obtain ⟨ok, D', h1, h2, h3⟩ := ih (rest ++ requeueArcs n board startRow row1 row2)
            (rev row1 row2 D).2 hlen'
            (by
              intro a ha
              rcases List.mem_append.mp ha with h | h
              · exact hrest a h
              · exact (mem_requeueArcs h).2.2.1)
            (by rw [List.length_append]; omega)
          exact ⟨ok, D', h1, h2,
            fun k c hc => hrev.subset_all row1 row2 D k c (h3 k c hc)⟩
      · rw [if_neg hch]
        have hsame := hrev.same row1 row2 D (by simpa using hch)
        rw [hsame]
        exact ih rest D hlen hrest (by omega)

/-- No false pruning: columns `S r` that support one another across the rows `R` of the
worklist survive the loop, which therefore reports success. -/
theorem enforceLoop_keeps {am : List (List (List Nat))}
    {rev : Nat → Nat → List Nat → Bool × List Nat} (hrev : ReviseOK am rev) (n : Nat)
    (board : Solution) (startRow : Nat) (R : Nat → Prop) (S : Nat → Nat)
    (hS : ∀ r, R r → S r < 64)
    (hcompat : ∀ r1 r2, R r1 → R r2 → r1 ≠ r2 →
      (attackAt am r1 r2 (S r1)).testBit (S r2) = false)
    (hR : ∀ k, startRow ≤ k → k < n → board.getD k 0 = -1 → R k) :
    ∀ (fuel : Nat) (w : List (Nat × Nat)) (D : List Nat) (ok : Bool) (D' : List Nat),
      enforceLoop rev n board startRow fuel w D = some (ok, D') →
      (∀ a, a ∈ w → R a.1 ∧ R a.2 ∧ a.1 ≠ a.2) →
      (∀ r, R r → (D.getD r 0).testBit (S r) = true) →
      ok = true ∧ ∀ r, R r → (D'.getD r 0).testBit (S r) = true := by
  intro fuel
  induction fuel with
  | zero =>
    intro w D ok D' hrun _ hbits
    cases w with
    | nil =>
      rw [enforceLoop_nil] at hrun
      have := Option.some.inj hrun
      rw [Prod.mk.injEq] at this
      exact ⟨this.1.symm, this.2 ▸ hbits⟩
    | cons a rest => exact Option.noConfusion hrun
  | succ fuel ih =>
    intro w D ok D' hrun harc hbits
    cases w with
    | nil =>
      rw [enforceLoop_nil] at hrun
      have := Option.some.inj hrun
      rw [Prod.mk.injEq] at this
      exact ⟨this.1.symm, this.2 ▸ hbits⟩
    | cons a rest =>
      obtain ⟨row1, row2⟩ := a
      obtain ⟨hR1, hR2, hne⟩ := harc (row1, row2) (List.mem_cons_self _ _)
      have hrest : ∀ a, a ∈ rest → R a.1 ∧ R a.2 ∧ a.1 ≠ a.2 :=
        fun a ha => harc a (List.mem_cons_of_mem _ ha)
      have hbits' : ∀ r, R r → ((rev row1 row2 D).2.getD r 0).testBit (S r) = true := by
        intro r hr
        by_cases h : r = row1
        · subst h
          exact hrev.keeps r row2 D (S r) (S row2) (hS r hr) (hS row2 hR2) (hbits r hr)
            (hbits row2 hR2) (hcompat r row2 hr hR2 hne)
        · rw [hrev.other row1 row2 D r h]
          exact hbits r hr
      rw [enforceLoop_cons] at hrun
      by_cases hch : (rev row1 row2 D).1 = true
      · rw [if_pos hch] at hrun
        have hz : ¬ (rev row1 row2 D).2.getD row1 0 = 0 :=
          ne_zero_of_testBit (hbits' row1 hR1)
        rw [if_neg hz] at hrun
        apply ih _ _ ok D' hrun _ hbits'
        intro a ha
        rcases List.mem_append.mp ha with h | h
        · exact hrest a h
        · obtain ⟨h1, h2, h3, h4, _, h6⟩ := mem_requeueArcs h
          exact ⟨hR a.1 h2 h3 h6, h1 ▸ hR1, h1 ▸ h4⟩
      · rw [if_neg hch] at hrun
        exact ih _ _ ok D' hrun hrest hbits'

/-! ## `AC3Solver` -/

theorem AC3Solver.enforce_total_ac3 (n : Nat) (am : List (List (List Nat))) (D : List Nat)
    (board : Solution) (startRow : Nat) (hlen : D.length = n) :
    ∃ ok D', AC3Solver.enforceArcConsistency n am D board startRow = some (ok, D') ∧
      D'.length = n ∧ ∀ k, MaskSubset (D'.getD k 0) (D.getD k 0) := by
  unfold AC3Solver.enforceArcConsistency enforceFuel
  exact enforceLoop_terminates (AC3Solver.revise_ok_ac3 am) n board startRow _ _ D hlen
    (fun a ha => (mem_initialWorklist.mp ha).2.1) (le_refl _)

theorem AC3Solver.enforce_keeps_ac3 (n : Nat) (am : List (List (List Nat))) (D : List Nat)
    (board : Solution) (startRow : Nat) (R : Nat → Prop) (S : Nat → Nat)
    (hS : ∀ r, R r → S r < 64)
    (hcompat : ∀ r1 r2, R r1 → R r2 → r1 ≠ r2 →
      (attackAt am r1 r2 (S r1)).testBit (S r2) = false)
    (hR : ∀ k, startRow ≤ k → k < n → board.getD k 0 = -1 → R k)
    (hbits : ∀ r, R r → (D.getD r 0).testBit (S r) = true) (ok : Bool) (D' : List Nat)
    (hrun : AC3Solver.enforceArcConsistency n am D board startRow = some (ok, D')) :
    ok = true ∧ ∀ r, R r → (D'.getD r 0).testBit (S r) = true := by
  unfold AC3Solver.enforceArcConsistency at hrun
  refine enforceLoop_keeps (AC3Solver.revise_ok_ac3 am) n board startRow R S hS hcompat hR
    _ _ D ok D' hrun ?_ hbits
  intro a ha
  obtain ⟨h1, h2, h3, h4, h5, h6, h7⟩ := mem_initialWorklist.mp ha
  exact ⟨hR a.1 h1 h2 h6, hR a.2 h3 h4 h7, h5⟩

theorem valid_compat {n : Nat} {s : Solution} (hn : n ≤ 63) (hv : Valid n s) {r1 r2 : Nat}
    (h1 : r1 < n) (h2 : r2 < n) (hne : r1 ≠ r2) :
    (attackAt (precomputeAttackMasks n) r1 r2 (s.getD r1 0).toNat).testBit
      (s.getD r2 0).toNat = false := by
  have hk1 := toNat_col (hv.2.1 r1 h1).1 (hv.2.1 r1 h1).2
  have hk2 := toNat_col (hv.2.1 r2 h2).1 (hv.2.1 r2 h2).2
  by_contra hc
  have := (testBit_attackAt (by omega) h1 h2 hk1.1 hne _).mp ((Bool.not_eq_false _).mp hc)
  rw [hk1.2, hk2.2] at this
  exact hv.2.2 r1 r2 h1 h2 hne this.2

theorem AC3Solver.wf_ac3 (n : Nat) (hn : n ≤ 63) (maxDepth : Int) (m : Nat)
    (hm : CutoffFits n maxDepth m) :
    (AC3Solver.policy n (precomputeAttackMasks n) maxDepth).Wf (FCInv n m) (FCExt n)
      (fun x => n - x.row) n := by
  constructor
  · intro x hinv _ hsol s
    exact fc_leaf hinv (by simpa [AC3Solver.policy] using hsol) s
  · intro x hinv hcut hsol
    obtain ⟨hrow, hrowm⟩ := fc_row_lt hm hinv.2.2.1 hinv.2.2.2.1 hcut hsol
    have hbl := hinv.1
    have hdom := hinv.2.2.2.2.2
    let am := precomputeAttackMasks n
    let enf : Nat → Option (Bool × List Nat) := fun col =>
      AC3Solver.enforceArcConsistency n am (pruneFuture n am x.domains x.row col)
        (x.board.set x.row (col : Int)) (x.row + 1)
    let g : Nat → Option FCSearchState := fun col =>
      if (x.domains.getD x.row 0 &&& shl1 col) == 0 then none
      else match enf col with
        | some (true, nd) =>
          some { board := x.board.set x.row (col : Int), row := x.row + 1, domains := nd }
        | _ => none
    have henf : ∀ col, ∃ ok D', enf col = some (ok, D') ∧ D'.length = n ∧
        ∀ k, MaskSubset (D'.getD k 0) ((pruneFuture n am x.domains x.row col).getD k 0) :=
      fun col => AC3Solver.enforce_total_ac3 n am _ _ _ (length_pruneFuture _ _ _ _ _)
    have hexp : (AC3Solver.policy n am maxDepth).expand x = some ((List.range n).filterMap g) := by
      apply pushColumns_total
      intro col _
      obtain ⟨ok, D', he, _, _⟩ := henf col
      have he' : AC3Solver.enforceArcConsistency n am (pruneFuture n am x.domains x.row col)
          (x.board.set x.row (col : Int)) (x.row + 1) = some (ok, D') := he
      simp only [g, enf]
      rw [he']
      by_cases hb : ((x.domains.getD x.row 0 &&& shl1 col) == 0) = true
      · rw [if_pos hb, if_pos hb]
      · rw [if_neg hb, if_neg hb]
        cases ok <;> rfl
    obtain ⟨hlen2, hmem, hpw⟩ := succs_of_columns (FCExt n) g n
    have hg : ∀ col c, col < n → g col = some c →
        (x.domains.getD x.row 0).testBit col = true ∧
        ∃ nd, enf col = some (true, nd) ∧
        c = { board := x.board.set x.row (col : Int), row := x.row + 1, domains := nd } := by
      intro col c hcol h
      simp only [g] at h
      rw [and_shl1_eq_zero _ (by omega)] at h
      cases hb : (x.domains.getD x.row 0).testBit col
      · rw [hb] at h
        exact Option.noConfusion h
      · rw [hb] at h
        obtain ⟨ok, D', he, _, _⟩ := henf col
        rw [he] at h
        cases ok
        · exact Option.noConfusion h
        · exact ⟨rfl, D', he, (Option.some.inj h).symm⟩
    have hsubset : ∀ col nd r c, enf col = some (true, nd) → x.row + 1 ≤ r → r < n →
        (nd.getD r 0).testBit c = true →
        (x.domains.getD r 0 &&& not64 (attackAt am x.row r col)).testBit c = true := by
      intro col nd r c he hr hrn hb
      obtain ⟨ok, D', he', _, hsub⟩ := henf col
      rw [he] at he'
      have heq : nd = D' := (Prod.mk.inj (Option.some.inj he')).2
      subst heq
      have := hsub r c hb
      rwa [getD_pruneFuture am _ _ _ hrn, if_pos hr] at this
    have hlenof : ∀ col nd, enf col = some (true, nd) → nd.length = n := by
      intro col nd he
      obtain ⟨ok, D', he', hl, _⟩ := henf col
      rw [he] at he'
      rw [(Prod.mk.inj (Option.some.inj he')).2]
      exact hl
    refine ⟨_, hexp, hlen2, ?_, ?_, ?_⟩
    · intro c hc
      obtain ⟨col, hcol, hgc⟩ := (hmem c).mp hc
      obtain ⟨hbit, nd, he, rfl⟩ := hg col c hcol hgc
      exact ⟨fc_child_inv hn hinv hrow hrowm hbit (hlenof col nd he)
        (hsubset col nd · · he), by show n - (x.row + 1) < n - x.row; omega⟩
    · intro s
      constructor
      · intro hext
        obtain ⟨hv, hag, hd⟩ := hext
        have hk := toNat_col (hv.2.1 x.row hrow).1 (hv.2.1 x.row hrow).2
        have hbit := hd x.row (le_refl _) hrow
        have hkeep : ∀ r, x.row + 1 ≤ r ∧ r < n →
            ((pruneFuture n am x.domains x.row (s.getD x.row 0).toNat).getD r 0).testBit
              (s.getD r 0).toNat = true := by
          rintro r ⟨hr, hrn⟩
          have hkr := toNat_col (hv.2.1 r hrn).1 (hv.2.1 r hrn).2
          rw [getD_pruneFuture am _ _ _ hrn, if_pos hr,
            testBit_pruned hn hrow hrn hk.1 (by omega)
              (fun i hi => (hdom r i (by omega) hrn hi).1)]
          refine ⟨hd r (by omega) hrn, ?_⟩
          rw [hk.2, hkr.2]
          exact hv.2.2 x.row r hrow hrn (by omega)
        obtain ⟨ok, D', he, _, _⟩ := henf (s.getD x.row 0).toNat
        obtain ⟨hok, hkept⟩ := AC3Solver.enforce_keeps_ac3 n am _ _ (x.row + 1)
          (fun r => x.row + 1 ≤ r ∧ r < n) (fun r => (s.getD r 0).toNat)
          (fun r hr => by
            show (s.getD r 0).toNat < 64
            have := (toNat_col (hv.2.1 r hr.2).1 (hv.2.1 r hr.2).2).1
            omega)
          (fun r1 r2 h1 h2 hne => valid_compat hn hv h1.2 h2.2 hne)
          (fun k hk hkn _ => ⟨hk, hkn⟩) hkeep ok D' he
        subst hok
        refine ⟨_, (hmem _).mpr ⟨(s.getD x.row 0).toNat, hk.1, ?_⟩,
          fc_ext_child hbl hrow ⟨hv, hag, hd⟩ (D := D') (fun r hr hrn => hkept r ⟨hr, hrn⟩)⟩
        simp only [g]
        rw [and_shl1_eq_zero _ (by omega), hbit, he]
        rfl
      · rintro ⟨c, hc, hext⟩
        obtain ⟨col, hcol, hgc⟩ := (hmem c).mp hc
        obtain ⟨hbit, nd, he, rfl⟩ := hg col c hcol hgc
        refine (fc_ext_parent hbl hrow hbit ?_ hext).1
        intro r c hr hrn hb
        have := hsubset col nd r c he hr hrn hb
        rw [Nat.testBit_land] at this
        exact (Bool.and_eq_true _ _ |>.mp this).1
    · apply hpw
      intro col1 col2 c1 c2 hc1 hc2 hne h1 h2 s hs
      obtain ⟨_, nd1, _, rfl⟩ := hg col1 c1 hc1 h1
      obtain ⟨_, nd2, _, rfl⟩ := hg col2 c2 hc2 h2
      have e1 := fc_ext_col hbl hrow hs.1
      have e2 := fc_ext_col hbl hrow hs.2
      omega

/-! ## `countAssigned` and `selectMRVRow` -/

theorem countAssigned_le (n : Nat) (b : Solution) : countAssigned n b ≤ n := by
  unfold countAssigned
  have := List.length_filter_le (fun i => b.getD i 0 != -1) (List.range n)
  simpa using this

theorem countAssigned_eq_iff (n : Nat) (b : Solution) :
    countAssigned n b = n ↔ ∀ i, i < n → b.getD i 0 ≠ -1 := by
  unfold countAssigned
  have h := List.filter_length_eq_length (p := fun i => b.getD i 0 != -1) (l := List.range n)
  rw [List.length_range] at h
  rw [h]
  constructor
  · intro h i hi
    have := h i (List.mem_range.mpr hi)
    exact bne_iff_ne.mp this
  · intro h i hi
    exact bne_iff_ne.mpr (h i (List.mem_range.mp hi))

theorem countAssigned_set {n : Nat} {b : Solution} {row : Nat} {v : Int} (hrow : row < n)
    (hlen : b.length = n) (hun : b.getD row 0 = -1) (hv : v ≠ -1) :
    countAssigned n (b.set row v) = countAssigned n b + 1 := by
  unfold countAssigned
  rw [← List.countP_eq_length_filter, ← List.countP_eq_length_filter]
  apply countP_range_clear _ _ row _ _ n hrow
  · rw [hun]; rfl
  · intro i
    by_cases h : i = row
    · subst h
      rw [getD_set_eq _ _ _ (by omega), hun]
      simp [hv]
    · rw [getD_set_ne _ _ _ (fun h' => h h'.symm)]
      simp [h]

theorem exists_unassigned {n : Nat} {b : Solution} (h : countAssigned n b ≠ n) :
    ∃ r, r < n ∧ b.getD r 0 = -1 := by
  by_contra hc
  apply h
  rw [countAssigned_eq_iff]
  intro i hi hb
  exact hc ⟨i, hi, hb⟩

theorem foldl_mrv (n : Nat) (b : Solution) (D : List Nat) :
    ∀ (l : List Nat) (best : Int × Nat),
      (∀ r, r ∈ l → r < n) →
      (∀ r, r ∈ l → b.getD r 0 = -1 → popcount (D.getD r 0) ≤ n) →
      ((best.1 = -1 ∧ best.2 = n + 1) ∨
        (∃ r : Nat, best.1 = (r : Int) ∧ r < n ∧ b.getD r 0 = -1 ∧ best.2 ≤ n)) →
      let res := l.foldl (fun (best : Int × Nat) row =>
        if b.getD row 0 != -1 then best
        else
          let domainSize := popcount (D.getD row 0)
          if domainSize < best.2 then ((row : Int), domainSize) else best) best
      ((res.1 = -1 ∧ res.2 = n + 1) ∨
        (∃ r : Nat, res.1 = (r : Int) ∧ r < n ∧ b.getD r 0 = -1 ∧ res.2 ≤ n)) ∧
      (((∃ r : Nat, best.1 = (r : Int) ∧ r < n ∧ b.getD r 0 = -1 ∧ best.2 ≤ n) ∨
        ∃ r, r ∈ l ∧ b.getD r 0 = -1) →
        ∃ r : Nat, res.1 = (r : Int) ∧ r < n ∧ b.getD r 0 = -1 ∧ res.2 ≤ n) := by
  intro l
  induction l with
  | nil =>
    intro best _ _ hP
    refine ⟨hP, ?_⟩
    rintro (h | ⟨r, hr, _⟩)
    · exact h
    · exact absurd hr (List.not_mem_nil _)
  | cons a l ih =>
    intro best hl hpop hP
    simp only [List.foldl_cons]
    have hl' : ∀ r, r ∈ l → r < n := fun r hr => hl r (List.mem_cons_of_mem _ hr)
    have hpop' : ∀ r, r ∈ l → b.getD r 0 = -1 → popcount (D.getD r 0) ≤ n :=
      fun r hr => hpop r (List.mem_cons_of_mem _ hr)
    by_cases ha : b.getD a 0 = -1
    · have hcond : ¬ ((b.getD a 0 != -1) = true) := by rw [ha]; decide
      rw [if_neg hcond]
      have hpa := hpop a (List.mem_cons_self _ _) ha
      have han := hl a (List.mem_cons_self _ _)
      have hnew : ∃ r : Nat,
          (if popcount (D.getD a 0) < best.2 then ((a : Int), popcount (D.getD a 0))
            else best).1 = (r : Int) ∧ r < n ∧ b.getD r 0 = -1 ∧
          (if popcount (D.getD a 0) < best.2 then ((a : Int), popcount (D.getD a 0))
            else best).2 ≤ n := by
        by_cases hlt : popcount (D.getD a 0) < best.2
        · rw [if_pos hlt]
          exact ⟨a, rfl, han, ha, hpa⟩
        · rw [if_neg hlt]
          rcases hP with ⟨_, h2⟩ | h
          · omega
          · exact h
      obtain ⟨h1, h2⟩ := ih _ hl' hpop' (Or.inr hnew)
      exact ⟨h1, fun _ => h2 (Or.inl hnew)⟩
    · have hcond : (b.getD a 0 != -1) = true := bne_iff_ne.mpr ha
      rw [if_pos hcond]
      obtain ⟨h1, h2⟩ := ih best hl' hpop' hP
      refine ⟨h1, ?_⟩
      rintro (h | ⟨r, hr, hb⟩)
      · exact h2 (Or.inl h)
      · rcases List.mem_cons.mp hr with h | h
        · subst h; exact absurd hb ha
        · exact h2 (Or.inr ⟨r, h, hb⟩)

theorem selectMRVRow_spec {n : Nat} {b : Solution} {D : List Nat}
    (hpop : ∀ r, r < n → b.getD r 0 = -1 → popcount (D.getD r 0) ≤ n)
    (hex : ∃ r, r < n ∧ b.getD r 0 = -1) :
    ∃ r : Nat, selectMRVRow n b D = (r : Int) ∧ r < n ∧ b.getD r 0 = -1 := by
  obtain ⟨_, h2⟩ := foldl_mrv n b D (List.range n) ((-1 : Int), n + 1)
    (fun r hr => List.mem_range.mp hr) (fun r hr => hpop r (List.mem_range.mp hr))
    (Or.inl ⟨rfl, rfl⟩)
  obtain ⟨r0, hr0, hb0⟩ := hex
  obtain ⟨r, h1, h2, h3, _⟩ := h2 (Or.inr ⟨r0, List.mem_range.mpr hr0, hb0⟩)
  exact ⟨r, h1, h2, h3⟩

theorem popcount_le {x n : Nat} (hn : n ≤ 63) (hbits : ∀ i, x.testBit i = true → i < n) :
    popcount x ≤ n := by
  have hx : x < 2 ^ 64 := by
    apply Nat.lt_pow_two_of_testBit
    intro i hi
    by_contra hc
    have := hbits i ((Bool.not_eq_false _).mp hc)
    omega
  rw [popcount_eq hx]
  exact bitCount_le hbits

/-! ## Nodes of the dynamic-order engines -/

theorem getD_set_ite (b : Solution) {r : Nat} (v : Int) (hr : r < b.length) (i : Nat) :
    (b.set r v).getD i 0 = if i = r then v else b.getD i 0 := by
  by_cases h : i = r
  · subst h; rw [if_pos rfl]; exact getD_set_eq b _ _ hr
  · rw [if_neg h]; exact getD_set_ne b _ _ (fun h' => h h'.symm)

theorem dvo_child_inv {n m : Nat} {x : DVOSearchState} {r col : Nat} {nd : List Nat}
    (hn : n ≤ 63) (hinv : DVOInv n m x) (hr : r < n) (hun : x.board.getD r 0 = -1)
    (hcm : countAssigned n x.board < m)
    (hbit : (x.domains.getD r 0).testBit col = true) (hlen : nd.length = n)
    (hsub : ∀ r' c, r' < n → r' ≠ r → x.board.getD r' 0 = -1 →
      (nd.getD r' 0).testBit c = true →
      (x.domains.getD r' 0 &&& not64 (attackAt (precomputeAttackMasks n) r r' col)).testBit c
        = true) :
    DVOInv n m { board := x.board.set r (col : Int), domains := nd } := by
  obtain ⟨hbl, hdl, _, hok, hdom⟩ := hinv
  have hc := hdom r col hr hun hbit
  have hget := getD_set_ite x.board (col : Int) (by omega : r < x.board.length)
  have hcolne : (col : Int) ≠ -1 := by omega
  refine ⟨by simpa using hbl, hlen, ?_, ⟨?_, ?_⟩, ?_⟩
  · show countAssigned n (x.board.set r (col : Int)) ≤ m
    rw [countAssigned_set hr hbl hun hcolne]
    omega
  · intro i hi hne
    show 0 ≤ (x.board.set r (col : Int)).getD i 0 ∧ (x.board.set r (col : Int)).getD i 0 < n
    have hne' : (x.board.set r (col : Int)).getD i 0 ≠ -1 := hne
    rw [hget i] at hne' ⊢
    by_cases h : i = r
    · rw [if_pos h]; omega
    · rw [if_neg h] at hne' ⊢; exact hok.1 i hi hne'
  · intro i j hi hj hij hni hnj
    show ¬ Attacks i ((x.board.set r (col : Int)).getD i 0) j
      ((x.board.set r (col : Int)).getD j 0)
    have hni' : (x.board.set r (col : Int)).getD i 0 ≠ -1 := hni
    have hnj' : (x.board.set r (col : Int)).getD j 0 ≠ -1 := hnj
    rw [hget i] at hni' ⊢
    rw [hget j] at hnj' ⊢
    by_cases h1 : i = r
    · have h2 : j ≠ r := by omega
      rw [if_pos h1]
      rw [if_neg h2] at hnj' ⊢
      subst h1
      exact fun h => hc.2 j hj hnj' h.symm
    · rw [if_neg h1] at hni' ⊢
      by_cases h2 : j = r
      · rw [if_pos h2]
        subst h2
        exact hc.2 i hi hni'
      · rw [if_neg h2] at hnj' ⊢
        exact hok.2 i j hi hj hij hni' hnj'
  · intro r' c hr' hun' hb
    have hun'' : (x.board.set r (col : Int)).getD r' 0 = -1 := hun'
    rw [hget r'] at hun''
    have hne : r' ≠ r := by
      intro h
      rw [if_pos h] at hun''
      exact hcolne hun''
    rw [if_neg hne] at hun''
    have h1 := hsub r' c hr' hne hun'' hb
    rw [testBit_pruned hn hr hr' hc.1 (fun h => hne h.symm)
      (fun i hi => (hdom r' i hr' hun'' hi).1)] at h1
    have h2 := hdom r' c hr' hun'' h1.1
    refine ⟨h2.1, ?_⟩
    intro i hi hni
    show ¬ Attacks i ((x.board.set r (col : Int)).getD i 0) r' (c : Int)
    have hni' : (x.board.set r (col : Int)).getD i 0 ≠ -1 := hni
    rw [hget i] at hni' ⊢
    by_cases h : i = r
    · rw [if_pos h]; subst h; exact h1.2
    · rw [if_neg h] at hni' ⊢; exact h2.2 i hi hni'

theorem dvo_ext_col {n : Nat} {x : DVOSearchState} {r col : Nat} {nd : List Nat}
    {s : Solution} (hbl : x.board.length = n) (hr : r < n)
    (h : DVOExt n { board := x.board.set r (col : Int), domains := nd } s) :
    s.getD r 0 = (col : Int) := by
  have h1 := (h.2 r hr).1
  have hb : ({ board := x.board.set r (col : Int), domains := nd } : DVOSearchState).board.getD
      r 0 = (col : Int) := getD_set_eq _ _ _ (by omega)
  rw [hb] at h1
  exact h1 (by omega)

theorem dvo_ext_parent {n : Nat} {x : DVOSearchState} {r col : Nat} {nd : List Nat}
    {s : Solution} (hbl : x.board.length = n) (hr : r < n) (hun : x.board.getD r 0 = -1)
    (hbit : (x.domains.getD r 0).testBit col = true)
    (hsub : ∀ r' c, r' < n → r' ≠ r → x.board.getD r' 0 = -1 →
      (nd.getD r' 0).testBit c = true → (x.domains.getD r' 0).testBit c = true)
    (h : DVOExt n { board := x.board.set r (col : Int), domains := nd } s) :
    DVOExt n x s := by
  have hcol := dvo_ext_col hbl hr h
  have hget := getD_set_ite x.board (col : Int) (by omega : r < x.board.length)
  refine ⟨h.1, fun r' hr' => ⟨?_, ?_⟩⟩
  · intro hne
    have hrr : r' ≠ r := fun h => hne (h ▸ hun)
    have h1 := (h.2 r' hr').1
    have hb : ({ board := x.board.set r (col : Int), domains := nd } :
        DVOSearchState).board.getD r' 0 = x.board.getD r' 0 := by
      show (x.board.set r (col : Int)).getD r' 0 = _
      rw [hget r', if_neg hrr]
    rw [hb] at h1
    exact h1 hne
  · intro hun'
    by_cases hrr : r' = r
    · subst hrr
      rw [hcol]
      simpa using hbit
    · have h2 := (h.2 r' hr').2
      have hb : ({ board := x.board.set r (col : Int), domains := nd } :
          DVOSearchState).board.getD r' 0 = x.board.getD r' 0 := by
        show (x.board.set r (col : Int)).getD r' 0 = _
        rw [hget r', if_neg hrr]
      rw [hb] at h2
      exact hsub r' _ hr' hrr hun' (h2 hun')

theorem dvo_ext_child {n : Nat} {x : DVOSearchState} {r : Nat} {D : List Nat} {s : Solution}
    (hbl : x.board.length = n) (hr : r < n) (hun : x.board.getD r 0 = -1)
    (h : DVOExt n x s)
    (hkeep : ∀ r', r' < n → r' ≠ r → x.board.getD r' 0 = -1 →
      (D.getD r' 0).testBit (s.getD r' 0).toNat = true) :
    DVOExt n { board := x.board.set r (((s.getD r 0).toNat : Nat) : Int), domains := D } s := by
  obtain ⟨hv, hag⟩ := h
  have hk := toNat_col (hv.2.1 r hr).1 (hv.2.1 r hr).2
  have hget := getD_set_ite x.board (((s.getD r 0).toNat : Nat) : Int)
    (by omega : r < x.board.length)
  refine ⟨hv, fun r' hr' => ?_⟩
  show ((x.board.set r _).getD r' 0 ≠ -1 → s.getD r' 0 = (x.board.set r _).getD r' 0) ∧
    ((x.board.set r _).getD r' 0 = -1 → (D.getD r' 0).testBit (s.getD r' 0).toNat = true)
  rw [hget r']
  by_cases hrr : r' = r
  · subst hrr
    rw [if_pos rfl]
    exact ⟨fun _ => hk.2.symm, fun h => by omega⟩
  · rw [if_neg hrr]
    exact ⟨(hag r' hr').1, fun h => hkeep r' hr' hrr h⟩

theorem dvo_leaf {n m : Nat} {x : DVOSearchState} (hinv : DVOInv n m x)
    (hfull : countAssigned n x.board = n) (s : Solution) : DVOExt n x s ↔ s = x.board := by
  obtain ⟨hbl, _, _, hok, _⟩ := hinv
  have hall := (countAssigned_eq_iff n x.board).mp hfull
  constructor
  · rintro ⟨⟨hl, _⟩, hag⟩
    exact list_eq_of_getD 0 hl hbl (fun i hi => (hag i hi).1 (hall i hi))
  · rintro rfl
    refine ⟨⟨hbl, fun i hi => hok.1 i hi (hall i hi),
      fun i j hi hj hij => hok.2 i j hi hj hij (hall i hi) (hall j hj)⟩, fun r hr => ⟨fun _ => rfl,
      fun h => absurd h (hall r hr)⟩⟩

theorem dvo_count_lt {n m : Nat} {maxDepth : Int} {k : Nat} (hm : CutoffFits n maxDepth m)
    (hkn : k ≤ n) (hkm : k ≤ m)
    (hcut : (decide (maxDepth > 0) && decide ((k : Int) = maxDepth)) = false)
    (hsol : (k == n) = false) : k < n ∧ k < m :=
  fc_row_lt hm hkn hkm hcut hsol

theorem dvo_select {n m : Nat} {x : DVOSearchState} (hn : n ≤ 63) (hinv : DVOInv n m x)
    (hlt : countAssigned n x.board < n) :
    ∃ r : Nat, selectMRVRow n x.board x.domains = (r : Int) ∧ r < n ∧ x.board.getD r 0 = -1 := by
  apply selectMRVRow_spec
  · intro r hr hun
    exact popcount_le hn (fun i hi => (hinv.2.2.2.2 r i hr hun hi).1)
  · exact exists_unassigned (by omega)

/-! ## `BTFCDVOSolver` -/

theorem getD_pruneOthers {n r' : Nat} (am : List (List (List Nat))) (board : Solution)
    (domains : List Nat) (row col : Nat) (hr : r' < n) :
    (BTFCDVOSolver.pruneOthers n am board domains row col).getD r' 0 =
      if r' == row then 0
      else if board.getD r' 0 != -1 then domains.getD r' 0
      else domains.getD r' 0 &&& not64 (attackAt am row r' col) := by
  unfold BTFCDVOSolver.pruneOthers
  rw [getD_map_range _ hr]

theorem dvo_causesWipeout_false_iff (n : Nat) (am : List (List (List Nat))) (board : Solution)
    (domains : List Nat) (row col : Nat) :
    BTFCDVOSolver.causesWipeout n am board domains row col = false ↔
      ∀ f, f < n → board.getD f 0 = -1 → f ≠ row →
        domains.getD f 0 &&& not64 (attackAt am row f col) ≠ 0 := by
  unfold BTFCDVOSolver.causesWipeout
  rw [Bool.eq_false_iff]
  simp only [ne_eq, List.any_eq_true, List.mem_filter, List.mem_range, Bool.and_eq_true,
    Bool.not_eq_true', bne_eq_false_iff_eq, beq_eq_false_iff_ne, beq_iff_eq, not_exists,
    not_and, and_imp]

theorem BTFCDVOSolver.wf_btfcdvo (n : Nat) (hn : n ≤ 63) (maxDepth : Int) (m : Nat)
    (hm : CutoffFits n maxDepth m) :
    (BTFCDVOSolver.policy n (precomputeAttackMasks n) maxDepth).Wf (DVOInv n m) (DVOExt n)
      (fun x => n - countAssigned n x.board) n := by
  constructor
  · intro x hinv _ hsol s
    exact dvo_leaf hinv (by simpa [BTFCDVOSolver.policy] using hsol) s
  · intro x hinv hcut hsol
    obtain ⟨hcn, hcm⟩ := dvo_count_lt hm (countAssigned_le n x.board) hinv.2.2.1 hcut hsol
    obtain ⟨r, hsel, hr, hun⟩ := dvo_select hn hinv hcn
    have hbl := hinv.1
    have hdom := hinv.2.2.2.2
    let am := precomputeAttackMasks n
    let g : Nat → Option DVOSearchState := fun col =>
      if (x.domains.getD r 0 &&& shl1 col) == 0 then none
      else if BTFCDVOSolver.causesWipeout n am x.board x.domains r col then none
      else some { board := x.board.set r (col : Int),
                  domains := BTFCDVOSolver.pruneOthers n am x.board x.domains r col }
    have hexp : (BTFCDVOSolver.policy n am maxDepth).expand x =
        some ((List.range n).filterMap g) := by
      have hne : (((r : Nat) : Int) == -1) = false := by
        rw [beq_eq_false_iff_ne]; omega
      simp only [BTFCDVOSolver.policy, hsel, hne, Int.toNat_ofNat, Bool.false_eq_true, if_false]
      exact pushColumns_total _ g _ (fun _ _ => rfl)
    obtain ⟨hlen2, hmem, hpw⟩ := succs_of_columns (DVOExt n) g n
    have hg : ∀ col c, col < n → g col = some c →
        (x.domains.getD r 0).testBit col = true ∧
        c = { board := x.board.set r (col : Int),
              domains := BTFCDVOSolver.pruneOthers n am x.board x.domains r col } := by
      intro col c hcol h
      simp only [g] at h
      rw [and_shl1_eq_zero _ (by omega)] at h
      cases hb : (x.domains.getD r 0).testBit col
      · rw [hb] at h
        exact Option.noConfusion h
      · cases hw : BTFCDVOSolver.causesWipeout n am x.board x.domains r col
        · rw [hb, hw] at h
          exact ⟨rfl, (Option.some.inj h).symm⟩
        · rw [hb, hw] at h
          exact Option.noConfusion h
    have hprune : ∀ col r', r' < n → r' ≠ r → x.board.getD r' 0 = -1 →
        (BTFCDVOSolver.pruneOthers n am x.board x.domains r col).getD r' 0 =
          x.domains.getD r' 0 &&& not64 (attackAt am r r' col) := by
      intro col r' hr' hne hun'
      rw [getD_pruneOthers am _ _ _ _ hr']
      have h1 : (r' == r) = false := by simpa using hne
      have h2 : (x.board.getD r' 0 != -1) = false := by rw [hun']; rfl
      rw [h1, h2]
      simp only [Bool.false_eq_true, if_false]
    refine ⟨_, hexp, hlen2, ?_, ?_, ?_⟩
    · intro c hc
      obtain ⟨col, hcol, hgc⟩ := (hmem c).mp hc
      obtain ⟨hbit, rfl⟩ := hg col c hcol hgc
      refine ⟨dvo_child_inv hn hinv hr hun hcm hbit (by simp [BTFCDVOSolver.pruneOthers]) ?_, ?_⟩
      · intro r' c hr' hne hun' hb
        rwa [hprune col r' hr' hne hun'] at hb
      · show n - countAssigned n (x.board.set r (col : Int)) < n - countAssigned n x.board
        rw [countAssigned_set hr hbl hun (by omega)]
        omega
    · intro s
      constructor
      · intro hext
        obtain ⟨hv, hag⟩ := hext
        have hk := toNat_col (hv.2.1 r hr).1 (hv.2.1 r hr).2
        have hbit := (hag r hr).2 hun
        have hkeep : ∀ r', r' < n → r' ≠ r → x.board.getD r' 0 = -1 →
            (x.domains.getD r' 0 &&& not64 (attackAt am r r' (s.getD r 0).toNat)).testBit
              (s.getD r' 0).toNat = true := by
          intro r' hr' hne hun'
          have hkr := toNat_col (hv.2.1 r' hr').1 (hv.2.1 r' hr').2
          rw [testBit_pruned hn hr hr' hk.1 (fun h => hne h.symm)
            (fun i hi => (hdom r' i hr' hun' hi).1)]
          refine ⟨(hag r' hr').2 hun', ?_⟩
          rw [hk.2, hkr.2]
          exact hv.2.2 r r' hr hr' (fun h => hne h.symm)
        have hnw : BTFCDVOSolver.causesWipeout n am x.board x.domains r (s.getD r 0).toNat
            = false := by
          rw [dvo_causesWipeout_false_iff]
          intro f hf hb hne
          exact ne_zero_of_testBit (hkeep f hf hne hb)
        refine ⟨_, (hmem _).mpr ⟨(s.getD r 0).toNat, hk.1, ?_⟩,
          dvo_ext_child hbl hr hun ⟨hv, hag⟩
            (D := BTFCDVOSolver.pruneOthers n am x.board x.domains r (s.getD r 0).toNat) ?_⟩
        · simp only [g]
          rw [and_shl1_eq_zero _ (by omega), hbit, hnw]
          simp
        · intro r' hr' hne hun'
          rw [hprune _ r' hr' hne hun']
          exact hkeep r' hr' hne hun'
      · rintro ⟨c, hc, hext⟩
        obtain ⟨col, hcol, hgc⟩ := (hmem c).mp hc
        obtain ⟨hbit, rfl⟩ := hg col c hcol hgc
        refine dvo_ext_parent hbl hr hun hbit ?_ hext
        intro r' c hr' hne hun' hb
        rw [hprune col r' hr' hne hun', Nat.testBit_land] at hb
        exact (Bool.and_eq_true _ _ |>.mp hb).1
    · apply hpw
      intro col1 col2 c1 c2 hc1 hc2 hne h1 h2 s hs
      obtain ⟨_, rfl⟩ := hg col1 c1 hc1 h1
      obtain ⟨_, rfl⟩ := hg col2 c2 hc2 h2
      have e1 := dvo_ext_col hbl hr hs.1
      have e2 := dvo_ext_col hbl hr hs.2
      omega

/-! ## `AC3DVOSolver` -/

theorem AC3DVOSolver.enforce_total_ac3dvo (n : Nat) (am : List (List (List Nat))) (D : List Nat)
    (board : Solution) (hlen : D.length = n) :
    ∃ ok D', AC3DVOSolver.enforceArcConsistency n am D board = some (ok, D') ∧
      D'.length = n ∧ ∀ k, MaskSubset (D'.getD k 0) (D.getD k 0) := by
  unfold AC3DVOSolver.enforceArcConsistency enforceFuel
  exact enforceLoop_terminates (AC3DVOSolver.revise_ok_ac3dvo am board) n board 0 _ _ D hlen
    (fun a ha => (mem_initialWorklist.mp ha).2.1) (le_refl _)

theorem AC3DVOSolver.enforce_keeps_ac3dvo (n : Nat) (am : List (List (List Nat))) (D : List Nat)
    (board : Solution) (R : Nat → Prop) (S : Nat → Nat)
    (hS : ∀ r, R r → S r < 64)
    (hcompat : ∀ r1 r2, R r1 → R r2 → r1 ≠ r2 →
      (attackAt am r1 r2 (S r1)).testBit (S r2) = false)
    (hR : ∀ k, k < n → board.getD k 0 = -1 → R k)
    (hbits : ∀ r, R r → (D.getD r 0).testBit (S r) = true) (ok : Bool) (D' : List Nat)
    (hrun : AC3DVOSolver.enforceArcConsistency n am D board = some (ok, D')) :
    ok = true ∧ ∀ r, R r → (D'.getD r 0).testBit (S r) = true := by
  unfold AC3DVOSolver.enforceArcConsistency at hrun
  refine enforceLoop_keeps (AC3DVOSolver.revise_ok_ac3dvo am board) n board 0 R S hS hcompat
    (fun k _ hk hb => hR k hk hb) _ _ D ok D' hrun ?_ hbits
  intro a ha
  obtain ⟨_, h2, _, h4, h5, h6, h7⟩ := mem_initialWorklist.mp ha
  exact ⟨hR a.1 h2 h6, hR a.2 h4 h7, h5⟩

theorem getD_pruneOthers_ac3 {n r' : Nat} (am : List (List (List Nat)))
    (domains : List Nat) (row col : Nat) (hr : r' < n) (hne : r' ≠ row) :
    (AC3DVOSolver.pruneOthers n am domains row col).getD r' 0 =
      domains.getD r' 0 &&& not64 (attackAt am row r' col) := by
  unfold AC3DVOSolver.pruneOthers
  rw [getD_map_range _ hr]
  have h1 : (r' == row) = false := by simpa using hne
  rw [h1]
  simp only [Bool.false_eq_true, if_false]

theorem AC3DVOSolver.wf_ac3dvo (n : Nat) (hn : n ≤ 63) (maxDepth : Int) (m : Nat)
    (hm : CutoffFits n maxDepth m) :
    (AC3DVOSolver.policy n (precomputeAttackMasks n) maxDepth).Wf (DVOInv n m) (DVOExt n)
      (fun x => n - countAssigned n x.board) n := by
  constructor
  · intro x hinv _ hsol s
    exact dvo_leaf hinv (by simpa [AC3DVOSolver.policy] using hsol) s
  · intro x hinv hcut hsol
    obtain ⟨hcn, hcm⟩ := dvo_count_lt hm (countAssigned_le n x.board) hinv.2.2.1 hcut hsol
    obtain ⟨r, hsel, hr, hun⟩ := dvo_select hn hinv hcn
    have hbl := hinv.1
    have hdom := hinv.2.2.2.2
    let am := precomputeAttackMasks n
    let enf : Nat → Option (Bool × List Nat) := fun col =>
      AC3DVOSolver.enforceArcConsistency n am (AC3DVOSolver.pruneOthers n am x.domains r col)
        (x.board.set r (col : Int))
    let g : Nat → Option DVOSearchState := fun col =>
      if (x.domains.getD r 0 &&& shl1 col) == 0 then none
      else match enf col with
        | some (true, nd) => some { board := x.board.set r (col : Int), domains := nd }
        | _ => none
    have henf : ∀ col, ∃ ok D', enf col = some (ok, D') ∧ D'.length = n ∧
        ∀ k, MaskSubset (D'.getD k 0)
          ((AC3DVOSolver.pruneOthers n am x.domains r col).getD k 0) :=
      fun col => AC3DVOSolver.enforce_total_ac3dvo n am _ _ (by simp [AC3DVOSolver.pruneOthers])
    have hexp : (AC3DVOSolver.policy n am maxDepth).expand x =
        some ((List.range n).filterMap g) := by
      have hne : (((r : Nat) : Int) == -1) = false := by
        rw [beq_eq_false_iff_ne]; omega
      simp only [AC3DVOSolver.policy, hsel, hne, Int.toNat_ofNat, Bool.false_eq_true, if_false]
      apply pushColumns_total
      intro col _
      obtain ⟨ok, D', he, _, _⟩ := henf col
      have he' : AC3DVOSolver.enforceArcConsistency n am
          (AC3DVOSolver.pruneOthers n am x.domains r col)
          (x.board.set r (col : Int)) = some (ok, D') := he
      simp only [g, enf]
      rw [he']
      by_cases hb : ((x.domains.getD r 0 &&& shl1 col) == 0) = true
      · rw [if_pos hb, if_pos hb]
      · rw [if_neg hb, if_neg hb]
        cases ok <;> rfl
    obtain ⟨hlen2, hmem, hpw⟩ := succs_of_columns (DVOExt n) g n
    have hg : ∀ col c, col < n → g col = some c →
        (x.domains.getD r 0).testBit col = true ∧
        ∃ nd, enf col = some (true, nd) ∧
        c = { board := x.board.set r (col : Int), domains := nd } := by
      intro col c hcol h
      simp only [g] at h
      rw [and_shl1_eq_zero _ (by omega)] at h
      cases hb : (x.domains.getD r 0).testBit col
      · rw [hb] at h
        exact Option.noConfusion h
      · rw [hb] at h
        obtain ⟨ok, D', he, _, _⟩ := henf col
        rw [he] at h
        cases ok
        · exact Option.noConfusion h
        · exact ⟨rfl, D', he, (Option.some.inj h).symm⟩
    have hsubset : ∀ col nd r' c, enf col = some (true, nd) → r' < n → r' ≠ r →
        (nd.getD r' 0).testBit c = true →
        (x.domains.getD r' 0 &&& not64 (attackAt am r r' col)).testBit c = true := by
      intro col nd r' c he hr' hne hb
      obtain ⟨ok, D', he', _, hsub⟩ := henf col
      rw [he] at he'
      have heq : nd = D' := (Prod.mk.inj (Option.some.inj he')).2
      subst heq
      have := hsub r' c hb
      rwa [getD_pruneOthers_ac3 am _ _ _ hr' hne] at this
    have hlenof : ∀ col nd, enf col = some (true, nd) → nd.length = n := by
      intro col nd he
      obtain ⟨ok, D', he', hl, _⟩ := henf col
      rw [he] at he'
      rw [(Prod.mk.inj (Option.some.inj he')).2]
      exact hl
    refine ⟨_, hexp, hlen2, ?_, ?_, ?_⟩
    · intro c hc
      obtain ⟨col, hcol, hgc⟩ := (hmem c).mp hc
      obtain ⟨hbit, nd, he, rfl⟩ := hg col c hcol hgc
      refine ⟨dvo_child_inv hn hinv hr hun hcm hbit (hlenof col nd he)
        (fun r' c hr' hne _ hb => hsubset col nd r' c he hr' hne hb), ?_⟩
      show n - countAssigned n (x.board.set r (col : Int)) < n - countAssigned n x.board
      rw [countAssigned_set hr hbl hun (by omega)]
      omega
    · intro s
      constructor
      · intro hext
        obtain ⟨hv, hag⟩ := hext
        have hk := toNat_col (hv.2.1 r hr).1 (hv.2.1 r hr).2
        have hbit := (hag r hr).2 hun
        have hget := getD_set_ite x.board (((s.getD r 0).toNat : Nat) : Int)
          (by omega : r < x.board.length)
        have hkeep : ∀ r', (r' < n ∧ r' ≠ r ∧ x.board.getD r' 0 = -1) →
            ((AC3DVOSolver.pruneOthers n am x.domains r (s.getD r 0).toNat).getD r' 0).testBit
              (s.getD r' 0).toNat = true := by
          rintro r' ⟨hr', hne, hun'⟩
          have hkr := toNat_col (hv.2.1 r' hr').1 (hv.2.1 r' hr').2
          rw [getD_pruneOthers_ac3 am _ _ _ hr' hne,
            testBit_pruned hn hr hr' hk.1 (fun h => hne h.symm)
              (fun i hi => (hdom r' i hr' hun' hi).1)]
          refine ⟨(hag r' hr').2 hun', ?_⟩
          rw [hk.2, hkr.2]
          exact hv.2.2 r r' hr hr' (fun h => hne h.symm)
        obtain ⟨ok, D', he, _, _⟩ := henf (s.getD r 0).toNat
        obtain ⟨hok, hkept⟩ := AC3DVOSolver.enforce_keeps_ac3dvo n am _ _
          (fun r' => r' < n ∧ r' ≠ r ∧ x.board.getD r' 0 = -1) (fun r' => (s.getD r' 0).toNat)
          (fun r' hr' => by
            show (s.getD r' 0).toNat < 64
            have := (toNat_col (hv.2.1 r' hr'.1).1 (hv.2.1 r' hr'.1).2).1
            omega)
          (fun r1 r2 h1 h2 hne => valid_compat hn hv h1.1 h2.1 hne)
          (fun k hk hb => by
            rw [hget k] at hb
            by_cases h : k = r
            · rw [if_pos h] at hb; omega
            · rw [if_neg h] at hb; exact ⟨hk, h, hb⟩)
          hkeep ok D' he
        subst hok
        refine ⟨_, (hmem _).mpr ⟨(s.getD r 0).toNat, hk.1, ?_⟩,
          dvo_ext_child hbl hr hun ⟨hv, hag⟩ (D := D')
            (fun r' hr' hne hun' => hkept r' ⟨hr', hne, hun'⟩)⟩
        simp only [g]
        rw [and_shl1_eq_zero _ (by omega), hbit, he]
        rfl
      · rintro ⟨c, hc, hext⟩
        obtain ⟨col, hcol, hgc⟩ := (hmem c).mp hc
        obtain ⟨hbit, nd, he, rfl⟩ := hg col c hcol hgc
        refine dvo_ext_parent hbl hr hun hbit ?_ hext
        intro r' c hr' hne _ hb
        have := hsubset col nd r' c he hr' hne hb
        rw [Nat.testBit_land] at this
        exact (Bool.and_eq_true _ _ |>.mp this).1
    · apply hpw
      intro col1 col2 c1 c2 hc1 hc2 hne h1 h2 s hs
      obtain ⟨_, nd1, _, rfl⟩ := hg col1 c1 hc1 h1
      obtain ⟨_, nd2, _, rfl⟩ := hg col2 c2 hc2 h2
      have e1 := dvo_ext_col hbl hr hs.1
      have e2 := dvo_ext_col hbl hr hs.2
      omega

/-! ## `initializeDomains` -/

theorem testBit_foldl_prune (cond : Nat → Bool) (mask : Nat → Nat) :
    ∀ (l : List Nat) (init : Nat), (∀ i, init.testBit i = true → i < 64) → ∀ c,
      (l.foldl (fun a p => if cond p then a &&& not64 (mask p) else a) init).testBit c = true ↔
        init.testBit c = true ∧ ∀ p, p ∈ l → cond p = true → (mask p).testBit c = false := by
  intro l
  induction l with
  | nil => intro init _ c; simp
  | cons a l ih =>
    intro init hinit c
    rw [List.foldl_cons]
    by_cases ha : cond a = true
    · rw [if_pos ha, ih _ (fun i hi => by
        rw [Nat.testBit_land] at hi
        exact hinit i (Bool.and_eq_true _ _ |>.mp hi).1) c, testBit_and_not64_iff _ hinit]
      constructor
      · rintro ⟨⟨h1, h2⟩, h3⟩
        refine ⟨h1, fun p hp hc => ?_⟩
        rcases List.mem_cons.mp hp with h | h
        · subst h; exact h2
        · exact h3 p h hc
      · rintro ⟨h1, h2⟩
        exact ⟨⟨h1, h2 a (List.mem_cons_self _ _) ha⟩,
          fun p hp hc => h2 p (List.mem_cons_of_mem _ hp) hc⟩
    · rw [if_neg ha, ih _ hinit c]
      constructor
      · rintro ⟨h1, h3⟩
        refine ⟨h1, fun p hp hc => ?_⟩
        rcases List.mem_cons.mp hp with h | h
        · subst h; exact absurd hc ha
        · exact h3 p h hc
      · rintro ⟨h1, h2⟩
        exact ⟨h1, fun p hp hc => h2 p (List.mem_cons_of_mem _ hp) hc⟩

theorem testBit_foldl_prune_zero (cond : Nat → Bool) (mask : Nat → Nat) (r : Nat) :
    ∀ (l : List Nat) (init : Nat), (∀ i, init.testBit i = true → i < 64) → ∀ c,
      (l.foldl (fun a p => if cond p then (if r == p then 0 else a &&& not64 (mask p)) else a)
        init).testBit c = true ↔
        init.testBit c = true ∧
          ∀ p, p ∈ l → cond p = true → p ≠ r ∧ (mask p).testBit c = false := by
  intro l
  induction l with
  | nil => intro init _ c; simp
  | cons a l ih =>
    intro init hinit c
    rw [List.foldl_cons]
    by_cases ha : cond a = true
    · rw [if_pos ha]
      by_cases hra : r = a
      · have : (r == a) = true := by simpa using hra
        rw [this, if_pos rfl, ih 0 (fun i hi => by simp at hi) c]
        constructor
        · rintro ⟨h1, _⟩; simp at h1
        · rintro ⟨_, h2⟩
          exact absurd hra.symm (h2 a (List.mem_cons_self _ _) ha).1
      · have : (r == a) = false := by simpa using hra
        rw [this]
        simp only [Bool.false_eq_true, if_false]
        rw [ih _ (fun i hi => by
          rw [Nat.testBit_land] at hi
          exact hinit i (Bool.and_eq_true _ _ |>.mp hi).1) c, testBit_and_not64_iff _ hinit]
        constructor
        · rintro ⟨⟨h1, h2⟩, h3⟩
          refine ⟨h1, fun p hp hc => ?_⟩
          rcases List.mem_cons.mp hp with h | h
          · subst h; exact ⟨fun h => hra h.symm, h2⟩
          · exact h3 p h hc
        · rintro ⟨h1, h2⟩
          exact ⟨⟨h1, (h2 a (List.mem_cons_self _ _) ha).2⟩,
            fun p hp hc => h2 p (List.mem_cons_of_mem _ hp) hc⟩
    · rw [if_neg ha, ih _ hinit c]
      constructor
      · rintro ⟨h1, h3⟩
        refine ⟨h1, fun p hp hc => ?_⟩
        rcases List.mem_cons.mp hp with h | h
        · subst h; exact absurd hc ha
        · exact h3 p h hc
      · rintro ⟨h1, h2⟩
        exact ⟨h1, fun p hp hc => h2 p (List.mem_cons_of_mem _ hp) hc⟩

theorem getD_foldl_rows (n : Nat) (cond : Nat → Bool) (h : Nat → Nat → Nat → Nat) :
    ∀ (l : List Nat) (D : List Nat), D.length = n →
      (l.foldl (fun D a => if cond a then (List.range n).map (fun r => h a r (D.getD r 0))
        else D) D).length = n ∧
      ∀ r, r < n →
        (l.foldl (fun D a => if cond a then (List.range n).map (fun r => h a r (D.getD r 0))
          else D) D).getD r 0 =
        l.foldl (fun v a => if cond a then h a r v else v) (D.getD r 0) := by
  intro l
  induction l with
  | nil => intro D hD; exact ⟨hD, fun r _ => rfl⟩
  | cons a l ih =>
    intro D hD
    rw [List.foldl_cons]
    by_cases ha : cond a = true
    · rw [if_pos ha]
      obtain ⟨h1, h2⟩ := ih ((List.range n).map (fun r => h a r (D.getD r 0))) (by simp)
      refine ⟨h1, fun r hr => ?_⟩
      rw [h2 r hr, getD_map_range _ hr, List.foldl_cons, if_pos ha]
    · rw [if_neg ha]
      obtain ⟨h1, h2⟩ := ih D hD
      refine ⟨h1, fun r hr => ?_⟩
      rw [h2 r hr, List.foldl_cons, if_neg ha]

theorem getD_replicate_lt {α : Type} (n : Nat) (a d : α) {r : Nat} (hr : r < n) :
    (List.replicate n a).getD r d = a := by
  simp [List.getD_eq_getElem?_getD, List.getElem?_replicate, hr]

theorem fullMask_bits {n : Nat} (hn : n ≤ 63) (i : Nat) (h : (fullMask n).testBit i = true) :
    i < 64 := by
  rw [testBit_fullMask hn] at h
  have : i < n := by simpa using h
  omega

/-- The bits of `BTFCSolver::initializeDomains`. -/
theorem BTFCSolver.testBit_initializeDomains_btfc {n : Nat} (hn : n ≤ 63)
    (am : List (List (List Nat))) (b : Solution) (startRow : Nat) {r : Nat} (hr : r < n)
    (hsr : startRow ≤ r) (c : Nat) :
    ((BTFCSolver.initializeDomains n am b startRow).getD r 0).testBit c = true ↔
      c < n ∧ ∀ p, p < r → b.getD p 0 ≠ -1 →
        (attackAt am p r (b.getD p 0).toNat).testBit c = false := by
  unfold BTFCSolver.initializeDomains
  rw [getD_map_range _ hr, if_neg (by omega)]
  rw [testBit_foldl_prune (fun p => b.getD p 0 != -1)
    (fun p => attackAt am p r (b.getD p 0).toNat) _ _ (fullMask_bits hn) c,
    testBit_fullMask hn]
  simp only [decide_eq_true_eq, List.mem_range, bne_iff_ne, ne_eq]

theorem BTFCSolver.length_initializeDomains_btfc (n : Nat) (am : List (List (List Nat)))
    (b : Solution) (startRow : Nat) :
    (BTFCSolver.initializeDomains n am b startRow).length = n := by
  simp [BTFCSolver.initializeDomains]

/-- The bits of `AC3Solver::initializeDomains`. -/
theorem AC3Solver.testBit_initializeDomains_ac3 {n : Nat} (hn : n ≤ 63)
    (am : List (List (List Nat))) (b : Solution) (startRow : Nat) {r : Nat} (hr : r < n)
    (hsr : startRow ≤ r) (c : Nat) :
    (AC3Solver.initializeDomains n am b startRow).length = n ∧
    (((AC3Solver.initializeDomains n am b startRow).getD r 0).testBit c = true ↔
      c < n ∧ ∀ p, p < n → b.getD p 0 ≠ -1 → p ≠ r →
        (attackAt am p r (b.getD p 0).toNat).testBit c = false) := by
  unfold AC3Solver.initializeDomains
  obtain ⟨h1, h2⟩ := getD_foldl_rows n (fun row => b.getD row 0 != -1)
    (fun row otherRow v => if startRow ≤ otherRow && otherRow != row then
      v &&& not64 (attackAt am row otherRow (b.getD row 0).toNat) else v)
    (List.range n) (List.replicate n (fullMask n)) (by simp)
  refine ⟨h1, ?_⟩
  rw [h2 r hr, getD_replicate_lt _ _ _ hr]
  have hfold : ∀ (l : List Nat) (v : Nat),
      l.foldl (fun v a => if (b.getD a 0 != -1) = true then
        (if (decide (startRow ≤ r) && r != a) = true then
          v &&& not64 (attackAt am a r (b.getD a 0).toNat) else v) else v) v =
      l.foldl (fun v a => if (b.getD a 0 != -1 && r != a) = true then
        v &&& not64 (attackAt am a r (b.getD a 0).toNat) else v) v := by
    intro l
    induction l with
    | nil => intro v; rfl
    | cons a l ih =>
      intro v
      rw [List.foldl_cons, List.foldl_cons, ← ih]
      congr 1
      have : decide (startRow ≤ r) = true := by simpa using hsr
      rw [this]
      cases h1 : (b.getD a 0 != -1) <;> cases h2 : (r != a) <;> simp
  rw [hfold, testBit_foldl_prune (fun p => b.getD p 0 != -1 && r != p)
    (fun p => attackAt am p r (b.getD p 0).toNat) _ _ (fullMask_bits hn) c,
    testBit_fullMask hn]
  simp only [decide_eq_true_eq, List.mem_range, Bool.and_eq_true, bne_iff_ne, ne_eq, and_imp]
  constructor
  · rintro ⟨h1, h2⟩
    exact ⟨h1, fun p hp hb hne => h2 p hp hb (fun h => hne h.symm)⟩
  · rintro ⟨h1, h2⟩
    exact ⟨h1, fun p hp hb hne => h2 p hp hb (fun h => hne h.symm)⟩

/-- The bits of `initializeDomains` in the two dynamic-order engines. -/
theorem BTFCDVOSolver.testBit_initializeDomains_btfcdvo {n : Nat} (hn : n ≤ 63)
    (am : List (List (List Nat))) (b : Solution) {r : Nat} (hr : r < n) (c : Nat) :
    (BTFCDVOSolver.initializeDomains n am b).length = n ∧
    (((BTFCDVOSolver.initializeDomains n am b).getD r 0).testBit c = true ↔
      c < n ∧ ∀ p, p < n → b.getD p 0 ≠ -1 →
        p ≠ r ∧ (attackAt am p r (b.getD p 0).toNat).testBit c = false) := by
  unfold BTFCDVOSolver.initializeDomains
  obtain ⟨h1, h2⟩ := getD_foldl_rows n (fun row => b.getD row 0 != -1)
    (fun row otherRow v => if otherRow == row then 0 else
      v &&& not64 (attackAt am row otherRow (b.getD row 0).toNat))
    (List.range n) (List.replicate n (fullMask n)) (by simp)
  refine ⟨h1, ?_⟩
  rw [h2 r hr, getD_replicate_lt _ _ _ hr]
  rw [testBit_foldl_prune_zero (fun p => b.getD p 0 != -1)
    (fun p => attackAt am p r (b.getD p 0).toNat) r _ _ (fullMask_bits hn) c,
    testBit_fullMask hn]
  simp only [decide_eq_true_eq, List.mem_range, bne_iff_ne, ne_eq]

theorem AC3Solver.length_initializeDomains_ac3 (n : Nat) (am : List (List (List Nat)))
    (b : Solution) (startRow : Nat) :
    (AC3Solver.initializeDomains n am b startRow).length = n := by
  unfold AC3Solver.initializeDomains
  exact (getD_foldl_rows n (fun row => b.getD row 0 != -1)
    (fun row otherRow v => if startRow ≤ otherRow && otherRow != row then
      v &&& not64 (attackAt am row otherRow (b.getD row 0).toNat) else v)
    (List.range n) (List.replicate n (fullMask n)) (by simp)).1

theorem BTFCDVOSolver.length_initializeDomains_btfcdvo (n : Nat) (am : List (List (List Nat)))
    (b : Solution) : (BTFCDVOSolver.initializeDomains n am b).length = n := by
  unfold BTFCDVOSolver.initializeDomains
  exact (getD_foldl_rows n (fun row => b.getD row 0 != -1)
    (fun row otherRow v => if otherRow == row then 0 else
      v &&& not64 (attackAt am row otherRow (b.getD row 0).toNat))
    (List.range n) (List.replicate n (fullMask n)) (by simp)).1

/-! ## Root nodes -/

theorem findStartRow_spec (n : Nat) (b : Solution) :
    findStartRow n b ≤ n ∧ ∀ i, i < findStartRow n b → b.getD i 0 ≠ -1 := by
  unfold findStartRow
  by_cases hex : ∃ i, i < n ∧ (fun i => b.getD i 0 == -1) i = true
  · obtain ⟨k, hk, hkn, _, hlow⟩ := find_range_spec (fun i => b.getD i 0 == -1) n hex
    rw [hk]
    refine ⟨by show k ≤ n; omega, fun i hi => ?_⟩
    have hi' : i < k := hi
    have hf : (b.getD i 0 == -1) = false := hlow i hi'
    intro h
    rw [h] at hf
    exact absurd hf (by decide)
  · have hnone : (List.range n).find? (fun i => b.getD i 0 == -1) = none := by
      rw [List.find?_eq_none]
      intro i hi hc
      exact hex ⟨i, List.mem_range.mp hi, hc⟩
    rw [hnone]
    exact ⟨Nat.zero_le _, fun i hi => absurd hi (Nat.not_lt_zero i)⟩

theorem findStartRow_of_tail {n : Nat} {b : Solution} {d : Nat} (hd : d < n)
    (hpre : ∀ i, i < d → b.getD i 0 ≠ -1) (htail : b.getD d 0 = -1) :
    findStartRow n b = d := by
  unfold findStartRow
  obtain ⟨k, hk, _, hbk, hlow⟩ := find_range_spec (fun i => b.getD i 0 == -1) n
    ⟨d, hd, by show (b.getD d 0 == -1) = true; rw [htail]; rfl⟩
  rw [hk]
  show k = d
  have hbk' : b.getD k 0 = -1 := by simpa using hbk
  by_contra hne
  rcases Nat.lt_or_gt_of_ne hne with h | h
  · exact hpre k h hbk'
  · have hf : (b.getD d 0 == -1) = false := hlow d h
    rw [htail] at hf
    exact absurd hf (by decide)

theorem prefixOK_of_assigned {n : Nat} {b : Solution} {k : Nat} (hk : k ≤ n)
    (hok : AssignedOK n b) (hpre : ∀ i, i < k → b.getD i 0 ≠ -1) : PrefixOK n b k :=
  ⟨fun i hi => hok.1 i (by omega) (hpre i hi),
   fun i j hi hj hij => hok.2 i j (by omega) (by omega) hij (hpre i hi) (hpre j hj)⟩

theorem assignedOK_emptyBoard (n : Nat) : AssignedOK n (emptyBoard n) :=
  ⟨fun i hi h => absurd (getD_emptyBoard n i hi) h,
   fun i _ hi _ _ h _ => absurd (getD_emptyBoard n i hi) h⟩

theorem agrees_emptyBoard (n : Nat) (s : Solution) : Agrees n (emptyBoard n) s :=
  fun i hi h => absurd (getD_emptyBoard n i hi) h

theorem not_attacks_of_bit {n p r : Nat} (hn : n ≤ 63) (hp : p < n) (hr : r < n)
    (hpr : p ≠ r) {v : Int} (hv0 : 0 ≤ v) (hvn : v < (n : Int)) {c : Nat} (hc : c < n)
    (h : (attackAt (precomputeAttackMasks n) p r v.toNat).testBit c = false) :
    ¬ Attacks p v r (c : Int) := by
  have hk := toNat_col hv0 hvn
  intro hatt
  have := (testBit_attackAt (by omega) hp hr hk.1 hpr c).mpr ⟨hc, by rw [hk.2]; exact hatt⟩
  rw [this] at h
  exact Bool.noConfusion h

theorem bit_of_valid {n p r : Nat} (hn : n ≤ 63) {s b : Solution} (hv : Valid n s)
    (hag : Agrees n b s) (hp : p < n) (hr : r < n) (hpr : p ≠ r) (hb : b.getD p 0 ≠ -1) :
    (attackAt (precomputeAttackMasks n) p r (b.getD p 0).toNat).testBit (s.getD r 0).toNat
      = false := by
  rw [← hag p hp hb]
  exact valid_compat hn hv hp hr hpr

theorem BTSolver.root_inv_bt {n : Nat} {b : Solution} (hlen : b.length = n)
    (hok : AssignedOK n b) :
    BTSolver.Inv n n { board := b, row := findStartRow n b } :=
  have h := findStartRow_spec n b
  ⟨hlen, h.1, h.1, prefixOK_of_assigned h.1 hok h.2⟩

theorem BTFCSolver.root_inv_btfc {n : Nat} (hn : n ≤ 63) {b : Solution} (hlen : b.length = n)
    (hok : AssignedOK n b) :
    FCInv n n { board := b, row := findStartRow n b,
                domains := BTFCSolver.initializeDomains n (precomputeAttackMasks n) b
                  (findStartRow n b) } := by
  have h := findStartRow_spec n b
  refine ⟨hlen, BTFCSolver.length_initializeDomains_btfc _ _ _ _, h.1, h.1,
    prefixOK_of_assigned h.1 hok h.2, ?_⟩
  intro r c hsr hr hb
  have hsr' : findStartRow n b ≤ r := hsr
  have hb' := (BTFCSolver.testBit_initializeDomains_btfc hn _ b _ hr hsr' c).mp hb
  refine ⟨hb'.1, fun i hi => ?_⟩
  have hi' : i < findStartRow n b := hi
  have hbi := h.2 i hi'
  have hrange := hok.1 i (by omega) hbi
  exact not_attacks_of_bit hn (by omega) hr (by omega) hrange.1 hrange.2 hb'.1
    (hb'.2 i (by omega) hbi)

theorem BTFCSolver.root_ext_btfc {n : Nat} (hn : n ≤ 63) {b s : Solution} (hv : Valid n s)
    (hag : Agrees n b s) :
    FCExt n { board := b, row := findStartRow n b,
              domains := BTFCSolver.initializeDomains n (precomputeAttackMasks n) b
                (findStartRow n b) } s := by
  have h := findStartRow_spec n b
  refine ⟨hv, fun i hi => hag i (by have : i < findStartRow n b := hi; omega) (h.2 i hi), ?_⟩
  intro r hsr hr
  have hsr' : findStartRow n b ≤ r := hsr
  refine (BTFCSolver.testBit_initializeDomains_btfc hn _ b _ hr hsr' _).mpr
    ⟨(toNat_col (hv.2.1 r hr).1 (hv.2.1 r hr).2).1, fun p hp hb => ?_⟩
  exact bit_of_valid hn hv hag (by omega) hr (by omega) hb

theorem AC3Solver.root_inv_ac3 {n : Nat} (hn : n ≤ 63) {b : Solution} (hlen : b.length = n)
    (hok : AssignedOK n b) :
    FCInv n n { board := b, row := findStartRow n b,
                domains := AC3Solver.initializeDomains n (precomputeAttackMasks n) b
                  (findStartRow n b) } := by
  have h := findStartRow_spec n b
  refine ⟨hlen, AC3Solver.length_initializeDomains_ac3 _ _ _ _, h.1, h.1,
    prefixOK_of_assigned h.1 hok h.2, ?_⟩
  · intro r c hsr hr hb
    have hsr' : findStartRow n b ≤ r := hsr
    have hb' := (AC3Solver.testBit_initializeDomains_ac3 hn _ b _ hr hsr' c).2.mp hb
    refine ⟨hb'.1, fun i hi => ?_⟩
    have hi' : i < findStartRow n b := hi
    have hbi := h.2 i hi'
    have hrange := hok.1 i (by omega) hbi
    exact not_attacks_of_bit hn (by omega) hr (by omega) hrange.1 hrange.2 hb'.1
      (hb'.2 i (by omega) hbi (by omega))

theorem AC3Solver.root_ext_ac3 {n : Nat} (hn : n ≤ 63) {b s : Solution} (hv : Valid n s)
    (hag : Agrees n b s) :
    FCExt n { board := b, row := findStartRow n b,
              domains := AC3Solver.initializeDomains n (precomputeAttackMasks n) b
                (findStartRow n b) } s := by
  have h := findStartRow_spec n b
  refine ⟨hv, fun i hi => hag i (by have : i < findStartRow n b := hi; omega) (h.2 i hi), ?_⟩
  intro r hsr hr
  have hsr' : findStartRow n b ≤ r := hsr
  refine (AC3Solver.testBit_initializeDomains_ac3 hn _ b _ hr hsr' _).2.mpr
    ⟨(toNat_col (hv.2.1 r hr).1 (hv.2.1 r hr).2).1, fun p hp hb hne => ?_⟩
  exact bit_of_valid hn hv hag hp hr hne hb

theorem DVO.root_inv_dvo {n : Nat} (hn : n ≤ 63) {b : Solution} (hlen : b.length = n)
    (hok : AssignedOK n b) (m : Nat) (hm : countAssigned n b ≤ m) :
    DVOInv n m { board := b,
                 domains := BTFCDVOSolver.initializeDomains n (precomputeAttackMasks n) b } := by
  refine ⟨hlen, BTFCDVOSolver.length_initializeDomains_btfcdvo _ _ _, hm, hok, ?_⟩
  · intro r c hr _ hb
    have hb' := (BTFCDVOSolver.testBit_initializeDomains_btfcdvo hn _ b hr c).2.mp hb
    refine ⟨hb'.1, fun i hi hbi => ?_⟩
    have hrange := hok.1 i hi hbi
    have := hb'.2 i hi hbi
    exact not_attacks_of_bit hn hi hr this.1 hrange.1 hrange.2 hb'.1 this.2

theorem DVO.root_ext_dvo {n : Nat} (hn : n ≤ 63) {b s : Solution} (hv : Valid n s)
    (hag : Agrees n b s) :
    DVOExt n { board := b,
               domains := BTFCDVOSolver.initializeDomains n (precomputeAttackMasks n) b } s := by
  refine ⟨hv, fun r hr => ⟨fun hb => hag r hr hb, fun hun => ?_⟩⟩
  refine (BTFCDVOSolver.testBit_initializeDomains_btfcdvo hn _ b hr _).2.mpr
    ⟨(toNat_col (hv.2.1 r hr).1 (hv.2.1 r hr).2).1, fun p hp hb => ?_⟩
  have hne : p ≠ r := fun h => hb (h ▸ hun)
  exact ⟨hne, bit_of_valid hn hv hag hp hr hne hb⟩

/-! ## Worker runs and seed runs -/

theorem mem_pushColumns {σ : Type} (f : Nat → Option (Option σ)) :
    ∀ (cols : List Nat) (l : List σ), pushColumns f cols = some l → ∀ c, c ∈ l →
      ∃ col, col ∈ cols ∧ f col = some (some c) := by
  intro cols
  induction cols with
  | nil =>
    intro l h c hc
    have : l = [] := (Option.some.inj h).symm
    subst this
    exact absurd hc (List.not_mem_nil _)
  | cons a cols ih =>
    intro l h c hc
    unfold pushColumns at h
    cases hfa : f a with
    | none => rw [hfa] at h; exact Option.noConfusion h
    | some r =>
      rw [hfa] at h
      cases hrec : pushColumns f cols with
      | none => rw [hrec] at h; exact Option.noConfusion h
      | some l' =>
        rw [hrec] at h
        have hl := (Option.some.inj h).symm
        cases r with
        | none =>
          have : l = l' := hl
          subst this
          obtain ⟨col, h1, h2⟩ := ih l hrec c hc
          exact ⟨col, List.mem_cons_of_mem _ h1, h2⟩
        | some s =>
          have : l = s :: l' := hl
          subst this
          rcases List.mem_cons.mp hc with h1 | h1
          · subst h1
            exact ⟨a, List.mem_cons_self _ _, hfa⟩
          · obtain ⟨col, h2, h3⟩ := ih l' hrec c h1
            exact ⟨col, List.mem_cons_of_mem _ h2, h3⟩

theorem tail_set {n : Nat} {b : Solution} {row : Nat} (v : Int)
    (h : TailUnassigned n b row) : TailUnassigned n (b.set row v) (row + 1) := by
  intro i hi hin
  rw [getD_set_ne _ _ _ (by omega)]
  exact h i (by omega) hin

theorem BTSolver.tail_step_bt (n : Nat) (maxDepth : Int) (x : SearchState)
    (succs : List SearchState) (hJ : TailUnassigned n x.board x.row)
    (hexp : (BTSolver.policy n maxDepth).expand x = some succs) :
    ∀ c, c ∈ succs → TailUnassigned n c.board c.row := by
  intro c hc
  obtain ⟨col, _, hf⟩ := mem_pushColumns _ _ _ hexp c hc
  split at hf
  · have := Option.some.inj (Option.some.inj hf)
    subst this
    exact tail_set _ hJ
  · exact Option.noConfusion (Option.some.inj hf)

theorem BTFCSolver.tail_step_btfc (n : Nat) (am : List (List (List Nat))) (maxDepth : Int)
    (x : FCSearchState) (succs : List FCSearchState) (hJ : TailUnassigned n x.board x.row)
    (hexp : (BTFCSolver.policy n am maxDepth).expand x = some succs) :
    ∀ c, c ∈ succs → TailUnassigned n c.board c.row := by
  intro c hc
  obtain ⟨col, _, hf⟩ := mem_pushColumns _ _ _ hexp c hc
  split at hf
  · exact Option.noConfusion (Option.some.inj hf)
  · split at hf
    · exact Option.noConfusion (Option.some.inj hf)
    · have := Option.some.inj (Option.some.inj hf)
      subst this
      exact tail_set _ hJ

theorem AC3Solver.tail_step_ac3 (n : Nat) (am : List (List (List Nat))) (maxDepth : Int)
    (x : FCSearchState) (succs : List FCSearchState) (hJ : TailUnassigned n x.board x.row)
    (hexp : (AC3Solver.policy n am maxDepth).expand x = some succs) :
    ∀ c, c ∈ succs → TailUnassigned n c.board c.row := by
  intro c hc
  obtain ⟨col, _, hf⟩ := mem_pushColumns _ _ _ hexp c hc
  split at hf
  · exact Option.noConfusion (Option.some.inj hf)
  · dsimp only at hf
    split at hf
    · exact Option.noConfusion hf
    · have := Option.some.inj (Option.some.inj hf)
      subst this
      exact tail_set _ hJ
    · exact Option.noConfusion (Option.some.inj hf)

theorem assignedOK_of_prefixOK {n : Nat} {b : Solution} {k : Nat} (hp : PrefixOK n b k)
    (ht : TailUnassigned n b k) : AssignedOK n b := by
  have hlt : ∀ i, i < n → b.getD i 0 ≠ -1 → i < k := by
    intro i hi hb
    by_contra hc
    exact hb (ht i (by omega) hi)
  exact ⟨fun i hi hb => hp.1 i (hlt i hi hb),
    fun i j hi hj hij hbi hbj => hp.2 i j (hlt i hi hbi) (hlt j hj hbj) hij⟩

theorem agrees_of_prefixOK {n : Nat} {b s : Solution} {k : Nat}
    (hag : ∀ i, i < k → s.getD i 0 = b.getD i 0) (ht : TailUnassigned n b k) :
    Agrees n b s := by
  intro i hi hb
  by_cases h : i < k
  · exact hag i h
  · exact absurd (ht i (by omega) hi) hb

theorem tail_emptyBoard (n : Nat) : TailUnassigned n (emptyBoard n) 0 :=
  fun i _ hi => getD_emptyBoard n i hi

theorem cutoff_false_of_zero (k : Nat) :
    (decide ((0 : Int) > 0) && decide ((k : Int) = 0)) = false := by
  simp

theorem seed_nosol {n d k : Nat} (hd1 : 1 ≤ d) (hdn : d ≤ n) (hk : k ≤ d)
    (hcut : (decide (((d : Nat) : Int) > 0) && decide ((k : Int) = ((d : Nat) : Int))) = false) :
    (k == n) = false := by
  have h1 : decide (((d : Nat) : Int) > 0) = true := by simp; omega
  rw [h1, Bool.true_and] at hcut
  have : ¬ ((k : Int) = (d : Int)) := by simpa using hcut
  rw [beq_eq_false_iff_ne]
  omega

/-- `BTSolver` on a board whose assigned rows are legal, no cutoff: the run ends and adds
only valid placements, each once, among them every valid placement that agrees with the
board. -/
theorem BTSolver.worker_spec_bt (n : Nat) (b : Solution) (hlen : b.length = n)
    (hok : AssignedOK n b) (e0 : Engine) :
    ∃ e L, BTSolver.solve n b 0 e0 = some e ∧ e.solutions = e0.solutions ++ L ∧
      e.workQueue = e0.workQueue ∧ L.Nodup ∧ (∀ s, s ∈ L → Valid n s) ∧
      ∀ s, Valid n s → Agrees n b s → s ∈ L := by
  have W := BTSolver.wf_bt n 0 n (Or.inl ⟨le_refl _, rfl⟩)
  have hs := findStartRow_spec n b
  obtain ⟨e, L, h1, h2, h3, h4, h5⟩ := search_from_root W (atCutoff_zero_BT n) _
    (BTSolver.root_inv_bt hlen hok) (searchFuel n)
    (searchFuel_ge n _ (by show n - findStartRow n b ≤ n; omega)) e0
  refine ⟨e, L, h1, h2, h3, h4, fun s hsL => ((h5 s).mp hsL).1, fun s hv hag => ?_⟩
  exact (h5 s).mpr ⟨hv, fun i hi => hag i (by have : i < findStartRow n b := hi; omega)
    (hs.2 i hi)⟩

/-- A `BTSolver` seed run from the all-unassigned board with cutoff `d`, `1 ≤ d ≤ n`. -/
theorem BTSolver.seed_spec_bt (n d : Nat) (hd1 : 1 ≤ d) (hdn : d ≤ n) (e0 : Engine) :
    ∃ e Q, BTSolver.solve n (emptyBoard n) (d : Int) e0 = some e ∧
      e.workQueue = e0.workQueue ++ Q ∧ e.solutions = e0.solutions ∧
      (∀ b, b ∈ Q → b.length = n ∧ AssignedOK n b) ∧
      ∀ s, Valid n s → ∃ b, b ∈ Q ∧ Agrees n b s := by
  have W := (BTSolver.wf_bt n (d : Int) d (Or.inr ⟨rfl, hd1, hdn⟩)).strengthen
    (fun x => TailUnassigned n x.board x.row)
    (fun x succs _ hJ _ _ hexp => BTSolver.tail_step_bt n _ x succs hJ hexp)
  have hroot : BTSolver.Inv n d { board := emptyBoard n, row := 0 } ∧
      TailUnassigned n (emptyBoard n) 0 :=
    ⟨⟨by simp [emptyBoard], Nat.zero_le _, Nat.zero_le _, prefixOK_zero _ _⟩, tail_emptyBoard n⟩
  obtain ⟨e, Q, h1, h2, h3, h4, h5⟩ := seed_from_root W
    (fun x hx hcut => seed_nosol hd1 hdn hx.1.2.2.1 hcut) _ hroot
    (searchFuel n) (searchFuel_ge n _ (by show n - 0 ≤ n; omega)) e0
  refine ⟨e, Q, ?_, h2, h3, ?_, ?_⟩
  · unfold BTSolver.solve
    rw [findStartRow_emptyBoard]
    exact h1
  · intro b hb
    obtain ⟨x, hx, _, rfl⟩ := h4 b hb
    exact ⟨hx.1.1, assignedOK_of_prefixOK hx.1.2.2.2 hx.2⟩
  · intro s hv
    obtain ⟨x, hx, _, hext, hq⟩ := h5 s ⟨hv, fun i hi => absurd hi (Nat.not_lt_zero i)⟩
    exact ⟨_, hq, agrees_of_prefixOK hext.2 hx.2⟩

theorem FCInv.bound {n m : Nat} {x : FCSearchState} (h : FCInv n n x) (hm : x.row ≤ m) :
    FCInv n m x :=
  ⟨h.1, h.2.1, h.2.2.1, hm, h.2.2.2.2.1, h.2.2.2.2.2⟩

theorem countAssigned_emptyBoard (n : Nat) : countAssigned n (emptyBoard n) = 0 := by
  unfold countAssigned
  rw [List.length_eq_zero, List.filter_eq_nil_iff]
  intro i hi
  rw [getD_emptyBoard n i (List.mem_range.mp hi)]
  decide

theorem atCutoff_zero_BTFC (n : Nat) (am : List (List (List Nat))) (x : FCSearchState) :
    (BTFCSolver.policy n am 0).atCutoff x = false := by
  simp [BTFCSolver.policy]

theorem atCutoff_zero_AC3 (n : Nat) (am : List (List (List Nat))) (x : FCSearchState) :
    (AC3Solver.policy n am 0).atCutoff x = false := by
  simp [AC3Solver.policy]

theorem atCutoff_zero_BTFCDVO (n : Nat) (am : List (List (List Nat))) (x : DVOSearchState) :
    (BTFCDVOSolver.policy n am 0).atCutoff x = false := by
  simp [BTFCDVOSolver.policy]

theorem atCutoff_zero_AC3DVO (n : Nat) (am : List (List (List Nat))) (x : DVOSearchState) :
    (AC3DVOSolver.policy n am 0).atCutoff x = false := by
  simp [AC3DVOSolver.policy]

/-- `BTFCSolver` on a board whose assigned rows are legal, no cutoff. -/
theorem BTFCSolver.worker_spec_btfc (n : Nat) (hn : n ≤ 63) (b : Solution) (hlen : b.length = n)
    (hok : AssignedOK n b) (e0 : Engine) :
    ∃ e L, BTFCSolver.solve n b 0 e0 = some e ∧ e.solutions = e0.solutions ++ L ∧
      e.workQueue = e0.workQueue ∧ L.Nodup ∧ (∀ s, s ∈ L → Valid n s) ∧
      ∀ s, Valid n s → Agrees n b s → s ∈ L := by
  have W := BTFCSolver.wf_btfc n hn 0 n (Or.inl ⟨le_refl _, rfl⟩)
  have hs := findStartRow_spec n b
  obtain ⟨e, L, h1, h2, h3, h4, h5⟩ := search_from_root W (atCutoff_zero_BTFC n _) _
    (BTFCSolver.root_inv_btfc hn hlen hok) (searchFuel n)
    (searchFuel_ge n _ (by show n - findStartRow n b ≤ n; omega)) e0
  exact ⟨e, L, h1, h2, h3, h4, fun s hsL => ((h5 s).mp hsL).1,
    fun s hv hag => (h5 s).mpr (BTFCSolver.root_ext_btfc hn hv hag)⟩

/-- `AC3Solver` on a board whose assigned rows are legal, no cutoff. -/
theorem AC3Solver.worker_spec_ac3 (n : Nat) (hn : n ≤ 63) (b : Solution) (hlen : b.length = n)
    (hok : AssignedOK n b) (e0 : Engine) :
    ∃ e L, AC3Solver.solve n b 0 e0 = some e ∧ e.solutions = e0.solutions ++ L ∧
      e.workQueue = e0.workQueue ∧ L.Nodup ∧ (∀ s, s ∈ L → Valid n s) ∧
      ∀ s, Valid n s → Agrees n b s → s ∈ L := by
  have W := AC3Solver.wf_ac3 n hn 0 n (Or.inl ⟨le_refl _, rfl⟩)
  have hs := findStartRow_spec n b
  obtain ⟨e, L, h1, h2, h3, h4, h5⟩ := search_from_root W (atCutoff_zero_AC3 n _) _
    (AC3Solver.root_inv_ac3 hn hlen hok) (searchFuel n)
    (searchFuel_ge n _ (by show n - findStartRow n b ≤ n; omega)) e0
  exact ⟨e, L, h1, h2, h3, h4, fun s hsL => ((h5 s).mp hsL).1,
    fun s hv hag => (h5 s).mpr (AC3Solver.root_ext_ac3 hn hv hag)⟩

/-- `BTFCDVOSolver` on a board whose assigned rows are legal, no cutoff. -/
theorem BTFCDVOSolver.worker_spec_btfcdvo (n : Nat) (hn : n ≤ 63) (b : Solution)
    (hlen : b.length = n) (hok : AssignedOK n b) (e0 : Engine) :
    ∃ e L, BTFCDVOSolver.solve n b 0 e0 = some e ∧ e.solutions = e0.solutions ++ L ∧
      e.workQueue = e0.workQueue ∧ L.Nodup ∧ (∀ s, s ∈ L → Valid n s) ∧
      ∀ s, Valid n s → Agrees n b s → s ∈ L := by
  have W := BTFCDVOSolver.wf_btfcdvo n hn 0 n (Or.inl ⟨le_refl _, rfl⟩)
  obtain ⟨e, L, h1, h2, h3, h4, h5⟩ := search_from_root W (atCutoff_zero_BTFCDVO n _) _
    (DVO.root_inv_dvo hn hlen hok n (countAssigned_le n b)) (searchFuel n)
    (searchFuel_ge n _ (by show n - countAssigned n b ≤ n; omega)) e0
  exact ⟨e, L, h1, h2, h3, h4, fun s hsL => ((h5 s).mp hsL).1,
    fun s hv hag => (h5 s).mpr (DVO.root_ext_dvo hn hv hag)⟩

/-- `AC3DVOSolver` on a board whose assigned rows are legal, no cutoff. -/
theorem AC3DVOSolver.worker_spec_ac3dvo (n : Nat) (hn : n ≤ 63) (b : Solution)
    (hlen : b.length = n) (hok : AssignedOK n b) (e0 : Engine) :
    ∃ e L, AC3DVOSolver.solve n b 0 e0 = some e ∧ e.solutions = e0.solutions ++ L ∧
      e.workQueue = e0.workQueue ∧ L.Nodup ∧ (∀ s, s ∈ L → Valid n s) ∧
      ∀ s, Valid n s → Agrees n b s → s ∈ L := by
  have W := AC3DVOSolver.wf_ac3dvo n hn 0 n (Or.inl ⟨le_refl _, rfl⟩)
  obtain ⟨e, L, h1, h2, h3, h4, h5⟩ := search_from_root W (atCutoff_zero_AC3DVO n _) _
    (DVO.root_inv_dvo hn hlen hok n (countAssigned_le n b)) (searchFuel n)
    (searchFuel_ge n _ (by show n - countAssigned n b ≤ n; omega)) e0
  exact ⟨e, L, h1, h2, h3, h4, fun s hsL => ((h5 s).mp hsL).1,
    fun s hv hag => (h5 s).mpr (DVO.root_ext_dvo hn hv hag)⟩

/-- A `BTFCSolver` seed run from the all-unassigned board with cutoff `d`, `1 ≤ d ≤ n`. -/
theorem BTFCSolver.seed_spec_btfc (n : Nat) (hn : n ≤ 63) (d : Nat) (hd1 : 1 ≤ d) (hdn : d ≤ n)
    (e0 : Engine) :
    ∃ e Q, BTFCSolver.solve n (emptyBoard n) (d : Int) e0 = some e ∧
      e.workQueue = e0.workQueue ++ Q ∧ e.solutions = e0.solutions ∧
      (∀ b, b ∈ Q → b.length = n ∧ AssignedOK n b) ∧
      ∀ s, Valid n s → ∃ b, b ∈ Q ∧ Agrees n b s := by
  have W := (BTFCSolver.wf_btfc n hn (d : Int) d (Or.inr ⟨rfl, hd1, hdn⟩)).strengthen
    (fun x => TailUnassigned n x.board x.row)
    (fun x succs _ hJ _ _ hexp => BTFCSolver.tail_step_btfc n _ _ x succs hJ hexp)
  have h0 := findStartRow_emptyBoard n
  have hroot := (BTFCSolver.root_inv_btfc hn (b := emptyBoard n) (by simp [emptyBoard])
    (assignedOK_emptyBoard n)).bound (m := d) (by show findStartRow n (emptyBoard n) ≤ d; omega)
  obtain ⟨e, Q, h1, h2, h3, h4, h5⟩ := seed_from_root W
    (fun x hx hcut => seed_nosol hd1 hdn hx.1.2.2.2.1 hcut) _
    ⟨hroot, by show TailUnassigned n (emptyBoard n) (findStartRow n (emptyBoard n))
               rw [h0]; exact tail_emptyBoard n⟩
    (searchFuel n)
    (searchFuel_ge n _ (by show n - findStartRow n (emptyBoard n) ≤ n; omega)) e0
  refine ⟨e, Q, h1, h2, h3, ?_, ?_⟩
  · intro b hb
    obtain ⟨x, hx, _, rfl⟩ := h4 b hb
    exact ⟨hx.1.1, assignedOK_of_prefixOK hx.1.2.2.2.2.1 hx.2⟩
  · intro s hv
    obtain ⟨x, hx, _, hext, hq⟩ := h5 s (BTFCSolver.root_ext_btfc hn hv (agrees_emptyBoard n s))
    exact ⟨_, hq, agrees_of_prefixOK hext.2.1 hx.2⟩

/-- An `AC3Solver` seed run from the all-unassigned board with cutoff `d`, `1 ≤ d ≤ n`. -/
theorem AC3Solver.seed_spec_ac3 (n : Nat) (hn : n ≤ 63) (d : Nat) (hd1 : 1 ≤ d) (hdn : d ≤ n)
    (e0 : Engine) :
    ∃ e Q, AC3Solver.solve n (emptyBoard n) (d : Int) e0 = some e ∧
      e.workQueue = e0.workQueue ++ Q ∧ e.solutions = e0.solutions ∧
      (∀ b, b ∈ Q → b.length = n ∧ AssignedOK n b) ∧
      ∀ s, Valid n s → ∃ b, b ∈ Q ∧ Agrees n b s := by
  have W := (AC3Solver.wf_ac3 n hn (d : Int) d (Or.inr ⟨rfl, hd1, hdn⟩)).strengthen
    (fun x => TailUnassigned n x.board x.row)
    (fun x succs _ hJ _ _ hexp => AC3Solver.tail_step_ac3 n _ _ x succs hJ hexp)
  have h0 := findStartRow_emptyBoard n
  have hroot := (AC3Solver.root_inv_ac3 hn (b := emptyBoard n) (by simp [emptyBoard])
    (assignedOK_emptyBoard n)).bound (m := d) (by show findStartRow n (emptyBoard n) ≤ d; omega)
  obtain ⟨e, Q, h1, h2, h3, h4, h5⟩ := seed_from_root W
    (fun x hx hcut => seed_nosol hd1 hdn hx.1.2.2.2.1 hcut) _
    ⟨hroot, by show TailUnassigned n (emptyBoard n) (findStartRow n (emptyBoard n))
               rw [h0]; exact tail_emptyBoard n⟩
    (searchFuel n)
    (searchFuel_ge n _ (by show n - findStartRow n (emptyBoard n) ≤ n; omega)) e0
  refine ⟨e, Q, h1, h2, h3, ?_, ?_⟩
  · intro b hb
    obtain ⟨x, hx, _, rfl⟩ := h4 b hb
    exact ⟨hx.1.1, assignedOK_of_prefixOK hx.1.2.2.2.2.1 hx.2⟩
  · intro s hv
    obtain ⟨x, hx, _, hext, hq⟩ := h5 s (AC3Solver.root_ext_ac3 hn hv (agrees_emptyBoard n s))
    exact ⟨_, hq, agrees_of_prefixOK hext.2.1 hx.2⟩

theorem dvo_agrees {n : Nat} {x : DVOSearchState} {s : Solution} (h : DVOExt n x s) :
    Agrees n x.board s :=
  fun i hi hb => (h.2 i hi).1 hb

/-- A `BTFCDVOSolver` seed run from the all-unassigned board with cutoff `d`. -/
theorem BTFCDVOSolver.seed_spec_btfcdvo (n : Nat) (hn : n ≤ 63) (d : Nat) (hd1 : 1 ≤ d)
    (hdn : d ≤ n) (e0 : Engine) :
    ∃ e Q, BTFCDVOSolver.solve n (emptyBoard n) (d : Int) e0 = some e ∧
      e.workQueue = e0.workQueue ++ Q ∧ e.solutions = e0.solutions ∧
      (∀ b, b ∈ Q → b.length = n ∧ AssignedOK n b) ∧
      ∀ s, Valid n s → ∃ b, b ∈ Q ∧ Agrees n b s := by
  have W := BTFCDVOSolver.wf_btfcdvo n hn (d : Int) d (Or.inr ⟨rfl, hd1, hdn⟩)
  have hroot := DVO.root_inv_dvo hn (b := emptyBoard n) (by simp [emptyBoard])
    (assignedOK_emptyBoard n) d (by rw [countAssigned_emptyBoard]; omega)
  obtain ⟨e, Q, h1, h2, h3, h4, h5⟩ := seed_from_root W
    (fun x hx hcut => seed_nosol hd1 hdn hx.2.2.1 hcut) _ hroot (searchFuel n)
    (searchFuel_ge n _ (by show n - countAssigned n (emptyBoard n) ≤ n; omega)) e0
  refine ⟨e, Q, h1, h2, h3, ?_, ?_⟩
  · intro b hb
    obtain ⟨x, hx, _, rfl⟩ := h4 b hb
    exact ⟨hx.1, hx.2.2.2.1⟩
  · intro s hv
    obtain ⟨x, _, _, hext, hq⟩ := h5 s (DVO.root_ext_dvo hn hv (agrees_emptyBoard n s))
    exact ⟨_, hq, dvo_agrees hext⟩

/-- An `AC3DVOSolver` seed run from the all-unassigned board with cutoff `d`. -/
theorem AC3DVOSolver.seed_spec_ac3dvo (n : Nat) (hn : n ≤ 63) (d : Nat) (hd1 : 1 ≤ d)
    (hdn : d ≤ n) (e0 : Engine) :
    ∃ e Q, AC3DVOSolver.solve n (emptyBoard n) (d : Int) e0 = some e ∧
      e.workQueue = e0.workQueue ++ Q ∧ e.solutions = e0.solutions ∧
      (∀ b, b ∈ Q → b.length = n ∧ AssignedOK n b) ∧
      ∀ s, Valid n s → ∃ b, b ∈ Q ∧ Agrees n b s := by
  have W := AC3DVOSolver.wf_ac3dvo n hn (d : Int) d (Or.inr ⟨rfl, hd1, hdn⟩)
  have hroot := DVO.root_inv_dvo hn (b := emptyBoard n) (by simp [emptyBoard])
    (assignedOK_emptyBoard n) d (by rw [countAssigned_emptyBoard]; omega)
  obtain ⟨e, Q, h1, h2, h3, h4, h5⟩ := seed_from_root W
    (fun x hx hcut => seed_nosol hd1 hdn hx.2.2.1 hcut) _ hroot (searchFuel n)
    (searchFuel_ge n _ (by show n - countAssigned n (emptyBoard n) ≤ n; omega)) e0
  refine ⟨e, Q, h1, h2, h3, ?_, ?_⟩
  · intro b hb
    obtain ⟨x, hx, _, rfl⟩ := h4 b hb
    exact ⟨hx.1, hx.2.2.2.1⟩
  · intro s hv
    obtain ⟨x, _, _, hext, hq⟩ := h5 s (DVO.root_ext_dvo hn hv (agrees_emptyBoard n s))
    exact ⟨_, hq, dvo_agrees hext⟩

/-! ## The five engines at once -/

theorem SolverKind.worker_spec_all (kind : SolverKind) (n : Nat) (hn : n ≤ 63) (b : Solution)
    (hlen : b.length = n) (hok : AssignedOK n b) (e0 : Engine) :
    ∃ e L, kind.solve n b 0 e0 = some e ∧ e.solutions = e0.solutions ++ L ∧
      e.workQueue = e0.workQueue ∧ L.Nodup ∧ (∀ s, s ∈ L → Valid n s) ∧
      ∀ s, Valid n s → Agrees n b s → s ∈ L := by
  cases kind
  · exact BTSolver.worker_spec_bt n b hlen hok e0
  · exact BTFCSolver.worker_spec_btfc n hn b hlen hok e0
  · exact BTFCDVOSolver.worker_spec_btfcdvo n hn b hlen hok e0
  · exact AC3Solver.worker_spec_ac3 n hn b hlen hok e0
  · exact AC3DVOSolver.worker_spec_ac3dvo n hn b hlen hok e0

theorem SolverKind.seed_spec_all (kind : SolverKind) (n : Nat) (hn : n ≤ 63) (d : Nat)
    (hd1 : 1 ≤ d) (hdn : d ≤ n) (e0 : Engine) :
    ∃ e Q, kind.solve n (emptyBoard n) (d : Int) e0 = some e ∧
      e.workQueue = e0.workQueue ++ Q ∧ e.solutions = e0.solutions ∧
      (∀ b, b ∈ Q → b.length = n ∧ AssignedOK n b) ∧
      ∀ s, Valid n s → ∃ b, b ∈ Q ∧ Agrees n b s := by
  cases kind
  · exact BTSolver.seed_spec_bt n d hd1 hdn e0
  · exact BTFCSolver.seed_spec_btfc n hn d hd1 hdn e0
  · exact BTFCDVOSolver.seed_spec_btfcdvo n hn d hd1 hdn e0
  · exact AC3Solver.seed_spec_ac3 n hn d hd1 hdn e0
  · exact AC3DVOSolver.seed_spec_ac3dvo n hn d hd1 hdn e0

/-- One engine from the all-unassigned board, no cutoff: the run ends and its solution
list holds every valid placement exactly once. -/
theorem SolverKind.solve_spec_all (kind : SolverKind) (n : Nat) (hn : n ≤ 63) (e0 : Engine) :
    ∃ e L, kind.solve n (emptyBoard n) 0 e0 = some e ∧ e.solutions = e0.solutions ++ L ∧
      e.workQueue = e0.workQueue ∧ L.Nodup ∧ ∀ s, s ∈ L ↔ Valid n s := by
  obtain ⟨e, L, h1, h2, h3, h4, h5, h6⟩ := kind.worker_spec_all n hn (emptyBoard n)
    (by simp [emptyBoard]) (assignedOK_emptyBoard n) e0
  exact ⟨e, L, h1, h2, h3, h4, fun s => ⟨h5 s, fun hv => h6 s hv (agrees_emptyBoard n s)⟩⟩

theorem single_spec (kind : SolverKind) (n : Nat) (hn : n ≤ 63) :
    ∃ L, singleSolutions kind n = some L ∧ L.Nodup ∧ ∀ s, s ∈ L ↔ Valid n s := by
  obtain ⟨e, L, h1, h2, _, h4, h5⟩ := kind.solve_spec_all n hn Engine.fresh
  refine ⟨L, ?_, h4, h5⟩
  unfold singleSolutions
  rw [h1]
  show some e.solutions = some L
  rw [h2]
  rfl

theorem workerThread_spec (kind : SolverKind) (n : Nat) (hn : n ≤ 63) :
    ∀ (Q : List Solution), (∀ b, b ∈ Q → b.length = n ∧ AssignedOK n b) →
      ∃ solvers, workerThread kind n Q = some solvers ∧
        (∀ s, s ∈ solvers.flatMap (fun solver => solver.solutions) → Valid n s) ∧
        ∀ s b, b ∈ Q → Valid n s → Agrees n b s →
          s ∈ solvers.flatMap (fun solver => solver.solutions) := by
  intro Q
  induction Q with
  | nil => intro _; exact ⟨[], rfl, by simp, by simp⟩
  | cons b Q ih =>
    intro hQ
    obtain ⟨hlen, hok⟩ := hQ b (List.mem_cons_self _ _)
    obtain ⟨e, L, h1, h2, _, _, h5, h6⟩ := kind.worker_spec_all n hn b hlen hok Engine.fresh
    obtain ⟨solvers, g1, g2, g3⟩ := ih (fun b' hb' => hQ b' (List.mem_cons_of_mem _ hb'))
    have hsol : e.solutions = L := by rw [h2]; rfl
    refine ⟨e :: solvers, ?_, ?_, ?_⟩
    · unfold workerThread
      rw [h1, g1]
    · intro s hs
      rw [List.flatMap_cons, List.mem_append] at hs
      rcases hs with h | h
      · exact h5 s (hsol ▸ h)
      · exact g2 s h
    · intro s b' hb' hv hag
      rw [List.flatMap_cons, List.mem_append]
      rcases List.mem_cons.mp hb' with h | h
      · subst h
        exact Or.inl (hsol ▸ h6 s hv hag)
      · exact Or.inr (g3 s b' h hv hag)

/-- Parallel mode with a cutoff `d`, `1 ≤ d ≤ n`: the run ends and the merged list holds
exactly the valid placements. -/
theorem parallel_spec (kind : SolverKind) (n : Nat) (hn : n ≤ 63) (d : Nat) (hd1 : 1 ≤ d)
    (hdn : d ≤ n) :
    ∃ merged, parallelSolutions kind n (d : Int) = some merged ∧
      ∀ s, s ∈ merged ↔ Valid n s := by
  obtain ⟨e, Q, h1, h2, _, h4, h5⟩ := kind.seed_spec_all n hn d hd1 hdn Engine.fresh
  have hq : e.workQueue = Q := by rw [h2]; rfl
  obtain ⟨solvers, g1, g2, g3⟩ := workerThread_spec kind n hn Q h4
  refine ⟨_, ?_, fun s => ⟨g2 s, fun hv => ?_⟩⟩
  · unfold parallelSolutions
    rw [h1]
    show (match workerThread kind n e.workQueue with
      | none => none
      | some solvers => some (solvers.flatMap (fun solver => solver.solutions))) = _
    rw [hq, g1]
  · obtain ⟨b, hb, hag⟩ := h5 s hv
    exact g3 s b hb hv hag

/-! ## Arc consistency after `enforceArcConsistency` -/

theorem reviseLoop_mono (am : List (List (List Nat))) (row1 row2 domain2 : Nat) :
    ∀ (fuel td tr c : Nat), tr.testBit c = true →
      (reviseLoop am row1 row2 domain2 fuel td tr).testBit c = true := by
  intro fuel
  induction fuel with
  | zero => intro td tr c h; exact h
  | succ fuel ih =>
    intro td tr c h
    unfold reviseLoop
    by_cases h0 : td = 0
    · rw [if_pos h0]; exact h
    · rw [if_neg h0]
      apply ih
      split
      · rw [Nat.testBit_lor, h]; rfl
      · exact h

theorem reviseLoop_complete (am : List (List (List Nat))) (row1 row2 domain2 : Nat) :
    ∀ (fuel td tr c : Nat), td < 2 ^ 64 → bitCount td ≤ fuel → td.testBit c = true →
      domain2 &&& not64 (attackAt am row1 row2 c) = 0 →
      (reviseLoop am row1 row2 domain2 fuel td tr).testBit c = true := by
  intro fuel
  induction fuel with
  | zero =>
    intro td tr c htd hfuel hc _
    have h0 : td ≠ 0 := ne_zero_of_testBit hc
    have := bitCount_clear h0 htd
    omega
  | succ fuel ih =>
    intro td tr c htd hfuel hc hz
    have h0 : td ≠ 0 := ne_zero_of_testBit hc
    have hcount := bitCount_clear h0 htd
    obtain ⟨h64, _, _⟩ := ctz64_spec h0 htd
    unfold reviseLoop
    rw [if_neg h0]
    by_cases hcc : c = ctz64 td
    · apply reviseLoop_mono
      rw [← hcc, if_pos hz, Nat.testBit_lor, testBit_shl1 (hcc ▸ h64)]
      simp
    · apply ih _ _ c (and_pred_lt_two_pow htd) (by omega) _ hz
      rw [testBit_clear_ctz h0 htd, hc]
      simpa using hcc

theorem AC3Solver.revise_supported (am : List (List (List Nat))) (r1 r2 : Nat) (D : List Nat)
    (h1 : D.getD r1 0 < 2 ^ 64) (h2 : D.getD r2 0 < 2 ^ 64) (c : Nat)
    (hc : ((AC3Solver.revise am r1 r2 D).2.getD r1 0).testBit c = true) :
    ∃ c2, (D.getD r2 0).testBit c2 = true ∧ (attackAt am r1 r2 c).testBit c2 = false := by
  have hbits1 : ∀ i, (D.getD r1 0).testBit i = true → i < 64 := by
    intro i hi
    by_contra hge
    have := Nat.testBit_lt_two_pow (Nat.lt_of_lt_of_le h1
      (Nat.pow_le_pow_right (by decide) (by omega : 64 ≤ i)))
    rw [this] at hi
    exact Bool.noConfusion hi
  have hbits2 : ∀ i, (D.getD r2 0).testBit i = true → i < 64 := by
    intro i hi
    by_contra hge
    have := Nat.testBit_lt_two_pow (Nat.lt_of_lt_of_le h2
      (Nat.pow_le_pow_right (by decide) (by omega : 64 ≤ i)))
    rw [this] at hi
    exact Bool.noConfusion hi
  have key : (D.getD r1 0).testBit c = true →
      (reviseLoop am r1 r2 (D.getD r2 0) 64 (D.getD r1 0) 0).testBit c = false →
      ∃ c2, (D.getD r2 0).testBit c2 = true ∧ (attackAt am r1 r2 c).testBit c2 = false := by
    intro hb hrem
    have hnz : D.getD r2 0 &&& not64 (attackAt am r1 r2 c) ≠ 0 := by
      intro hz
      have := reviseLoop_complete am r1 r2 (D.getD r2 0) 64 (D.getD r1 0) 0 c h1
        (bitCount_le_64 _) hb hz
      rw [this] at hrem
      exact Bool.noConfusion hrem
    obtain ⟨c2, hc2⟩ := Nat.ne_zero_implies_bit_true hnz
    exact ⟨c2, (testBit_and_not64_iff _ hbits2 c2).mp hc2⟩
  rcases revise_changed am r1 r2 D with ⟨h, _⟩ | h <;> rw [h] at hc
  · by_cases hlen : r1 < D.length
    · simp only [] at hc
      rw [getD_set_eq _ _ _ hlen] at hc
      have := (testBit_and_not64_iff _ hbits1 c).mp hc
      exact key this.1 this.2
    · simp only [] at hc
      rw [List.set_eq_of_length_le (by omega)] at hc
      have hzero : D.getD r1 0 = 0 := by
        simp [List.getD_eq_getElem?_getD, List.getElem?_eq_none (by omega : D.length ≤ r1)]
      rw [hzero] at hc
      simp at hc
  · simp only [] at hc
    apply key hc
    by_contra hrem
    have hunch : reviseLoop am r1 r2 (D.getD r2 0) 64 (D.getD r1 0) 0 = 0 := by
      unfold AC3Solver.revise at h
      simp only [] at h
      by_contra hne
      rw [if_pos hne] at h
      exact Bool.noConfusion (Prod.mk.inj h).1
    rw [hunch] at hrem
    simp at hrem

theorem lt_two_pow_of_bits {x n : Nat} (hn : n ≤ 64) (h : ∀ c, x.testBit c = true → c < n) :
    x < 2 ^ 64 := by
  apply Nat.lt_pow_two_of_testBit
  intro i hi
  by_contra hc
  have := h i ((Bool.not_eq_false _).mp hc)
  omega

theorem attack_symm {n r1 r2 c1 c2 : Nat} (hn : n ≤ 63) (h1 : r1 < n) (h2 : r2 < n)
    (hne : r1 ≠ r2) (hc1 : c1 < n) (hc2 : c2 < n) :
    (attackAt (precomputeAttackMasks n) r1 r2 c1).testBit c2 =
      (attackAt (precomputeAttackMasks n) r2 r1 c2).testBit c1 := by
  rw [Bool.eq_iff_iff, testBit_attackAt (by omega) h1 h2 hc1 hne,
    testBit_attackAt (by omega) h2 h1 hc2 (fun h => hne h.symm)]
  constructor
  · rintro ⟨_, h⟩; exact ⟨hc1, h.symm⟩
  · rintro ⟨_, h⟩; exact ⟨hc2, h.symm⟩

/-- When the worklist loop reports success, every arc between two distinct rows of `U`
is consistent, provided every such arc is on the worklist or consistent at the start. -/
theorem enforceLoop_consistent {n : Nat} (hn : n ≤ 63)
    {rev : Nat → Nat → List Nat → Bool × List Nat}
    (hrev : ReviseOK (precomputeAttackMasks n) rev) (board : Solution) (startRow : Nat)
    (hsupp : ∀ r1 r2 D, (startRow ≤ r1 ∧ r1 < n ∧ board.getD r1 0 = -1) →
      (startRow ≤ r2 ∧ r2 < n ∧ board.getD r2 0 = -1) →
      D.getD r1 0 < 2 ^ 64 → D.getD r2 0 < 2 ^ 64 → ∀ c,
      ((rev r1 r2 D).2.getD r1 0).testBit c = true →
      ∃ c2, (D.getD r2 0).testBit c2 = true ∧
        (attackAt (precomputeAttackMasks n) r1 r2 c).testBit c2 = false) :
    ∀ (fuel : Nat) (w : List (Nat × Nat)) (D D' : List Nat),
      enforceLoop rev n board startRow fuel w D = some (true, D') →
      (∀ a, a ∈ w → (startRow ≤ a.1 ∧ a.1 < n ∧ board.getD a.1 0 = -1) ∧
        (startRow ≤ a.2 ∧ a.2 < n ∧ board.getD a.2 0 = -1) ∧ a.1 ≠ a.2) →
      (∀ r, (startRow ≤ r ∧ r < n ∧ board.getD r 0 = -1) →
        ∀ c, (D.getD r 0).testBit c = true → c < n) →
      (∀ i j, (startRow ≤ i ∧ i < n ∧ board.getD i 0 = -1) →
        (startRow ≤ j ∧ j < n ∧ board.getD j 0 = -1) → i ≠ j →
        (i, j) ∈ w ∨ ArcOK (precomputeAttackMasks n) D i j) →
      ∀ i j, (startRow ≤ i ∧ i < n ∧ board.getD i 0 = -1) →
        (startRow ≤ j ∧ j < n ∧ board.getD j 0 = -1) → i ≠ j →
        ArcOK (precomputeAttackMasks n) D' i j := by
  intro fuel
  induction fuel with
  | zero =>
    intro w D D' hrun _ _ hI i j hi hj hij
    cases w with
    | nil =>
      rw [enforceLoop_nil] at hrun
      have := (Prod.mk.inj (Option.some.inj hrun)).2
      subst this
      rcases hI i j hi hj hij with h | h
      · exact absurd h (List.not_mem_nil _)
      · exact h
    | cons a rest => exact Option.noConfusion hrun
  | succ fuel ih =>
    intro w D D' hrun harc hbits hI i j hi hj hij
    cases w with
    | nil =>
      rw [enforceLoop_nil] at hrun
      have := (Prod.mk.inj (Option.some.inj hrun)).2
      subst this
      rcases hI i j hi hj hij with h | h
      · exact absurd h (List.not_mem_nil _)
      · exact h
    | cons a rest =>
      obtain ⟨row1, row2⟩ := a
      obtain ⟨hU1, hU2, hne⟩ := harc (row1, row2) (List.mem_cons_self _ _)
      have hrest := fun a ha => harc a (List.mem_cons_of_mem _ ha)
      have hw1 := lt_two_pow_of_bits (by omega : n ≤ 64) (hbits row1 hU1)
      have hw2 := lt_two_pow_of_bits (by omega : n ≤ 64) (hbits row2 hU2)
      have hbits' : ∀ r, (startRow ≤ r ∧ r < n ∧ board.getD r 0 = -1) →
          ∀ c, ((rev row1 row2 D).2.getD r 0).testBit c = true → c < n :=
        fun r hr c hc => hbits r hr c (hrev.subset_all row1 row2 D r c hc)
      have hpopped : ArcOK (precomputeAttackMasks n) (rev row1 row2 D).2 row1 row2 := by
        intro c hc
        obtain ⟨c2, h1, h2⟩ := hsupp row1 row2 D hU1 hU2 hw1 hw2 c hc
        exact ⟨c2, by rw [hrev.other row1 row2 D row2 (fun h => hne h.symm)]; exact h1, h2⟩
      rw [enforceLoop_cons] at hrun
      by_cases hch : (rev row1 row2 D).1 = true
      · rw [if_pos hch] at hrun
        by_cases hz : (rev row1 row2 D).2.getD row1 0 = 0
        · rw [if_pos hz] at hrun
          exact Bool.noConfusion (Prod.mk.inj (Option.some.inj hrun)).1
        · rw [if_neg hz] at hrun
          refine ih _ _ D' hrun ?_ hbits' ?_ i j hi hj hij
          · intro a ha
            rcases List.mem_append.mp ha with h | h
            · exact hrest a h
            · obtain ⟨h1, h2, h3, h4, _, h6⟩ := mem_requeueArcs h
              exact ⟨⟨h2, h3, h6⟩, h1 ▸ hU1, h1 ▸ h4⟩
          · intro i j hi hj hij
            by_cases hpop : i = row1 ∧ j = row2
            · obtain ⟨rfl, rfl⟩ := hpop
              exact Or.inr hpopped
            · rcases hI i j hi hj hij with h | h
              · rcases List.mem_cons.mp h with h | h
                · exact absurd ⟨(Prod.mk.inj h).1, (Prod.mk.inj h).2⟩ hpop
                · exact Or.inl (List.mem_append.mpr (Or.inl h))
              · by_cases hj1 : j = row1
                · subst hj1
                  by_cases hi2 : i = row2
                  · subst hi2
                    right
                    intro c hc
                    rw [hrev.other j i D i hij] at hc
                    obtain ⟨c2, hc2, hatt⟩ := h c hc
                    have hcn := hbits i hi c hc
                    have hc2n := hbits j hj c2 hc2
                    refine ⟨c2, ?_, hatt⟩
                    apply hrev.keeps j i D c2 c (by omega) (by omega) hc2 hc
                    rw [attack_symm hn hj.2.1 hi.2.1 (fun h => hij h.symm) hc2n hcn]
                    exact hatt
                  · left
                    apply List.mem_append.mpr
                    right
                    unfold requeueArcs
                    refine List.mem_filterMap.mpr ⟨i, List.mem_filter.mpr
                      ⟨List.mem_range.mpr hi.2.1, by simpa using hi.1⟩, ?_⟩
                    have hcond : (i != j && i != row2 && board.getD i 0 == -1) = true := by
                      rw [hi.2.2]
                      simp only [Bool.and_eq_true, bne_iff_ne, ne_eq, beq_self_eq_true,
                        and_true]
                      exact ⟨hij, hi2⟩
                    rw [if_pos hcond]
                · right
                  intro c hc
                  have hc' := hrev.subset_all row1 row2 D i c hc
                  obtain ⟨c2, hc2, hatt⟩ := h c hc'
                  exact ⟨c2, by rw [hrev.other row1 row2 D j hj1]; exact hc2, hatt⟩
      · rw [if_neg hch] at hrun
        have hsame := hrev.same row1 row2 D (by simpa using hch)
        rw [hsame] at hrun hpopped
        refine ih _ _ D' hrun hrest hbits ?_ i j hi hj hij
        intro i j hi hj hij
        by_cases hpop : i = row1 ∧ j = row2
        · obtain ⟨rfl, rfl⟩ := hpop
          exact Or.inr hpopped
        · rcases hI i j hi hj hij with h | h
          · rcases List.mem_cons.mp h with h | h
            · exact absurd ⟨(Prod.mk.inj h).1, (Prod.mk.inj h).2⟩ hpop
            · exact Or.inl h
          · exact Or.inr h

/-! ## Arc consistency of the two `enforceArcConsistency` members -/

theorem bits_of_lt {D : List Nat} {n : Nat} (h : ∀ d, d ∈ D → d < 2 ^ n) (r c : Nat)
    (hc : (D.getD r 0).testBit c = true) : c < n := by
  by_contra hge
  have hd : D.getD r 0 < 2 ^ n := by
    rw [List.getD_eq_getElem?_getD]
    cases hr : D[r]? with
    | none => exact Nat.two_pow_pos n
    | some d => exact h d (List.getElem?_mem hr)
  have := Nat.testBit_lt_two_pow (Nat.lt_of_lt_of_le hd
    (Nat.pow_le_pow_right (by decide) (by omega : n ≤ c)))
  rw [this] at hc
  exact Bool.noConfusion hc

theorem AC3Solver.enforce_consistent_ac3 {n : Nat} (hn : n ≤ 63) (board : Solution)
    (D : List Nat) (startRow : Nat) (hbits : ∀ d, d ∈ D → d < 2 ^ n) (D' : List Nat)
    (hrun : AC3Solver.enforceArcConsistency n (precomputeAttackMasks n) D board startRow
      = some (true, D')) (i j : Nat)
    (hi : startRow ≤ i ∧ i < n ∧ board.getD i 0 = -1)
    (hj : startRow ≤ j ∧ j < n ∧ board.getD j 0 = -1) (hij : i ≠ j) :
    ArcOK (precomputeAttackMasks n) D' i j := by
  unfold AC3Solver.enforceArcConsistency at hrun
  refine enforceLoop_consistent hn (AC3Solver.revise_ok_ac3 _) board startRow
    (fun r1 r2 D _ _ h1 h2 c hc => AC3Solver.revise_supported _ r1 r2 D h1 h2 c hc)
    _ _ D D' hrun ?_ (fun r _ c hc => bits_of_lt hbits r c hc) ?_ i j hi hj hij
  · intro a ha
    obtain ⟨h1, h2, h3, h4, h5, h6, h7⟩ := mem_initialWorklist.mp ha
    exact ⟨⟨h1, h2, h6⟩, ⟨h3, h4, h7⟩, h5⟩
  · intro i j hi hj hij
    exact Or.inl (mem_initialWorklist.mpr ⟨hi.1, hi.2.1, hj.1, hj.2.1, hij, hi.2.2, hj.2.2⟩)

theorem AC3DVOSolver.enforce_consistent_ac3dvo {n : Nat} (hn : n ≤ 63) (board : Solution)
    (D : List Nat) (hbits : ∀ d, d ∈ D → d < 2 ^ n) (D' : List Nat)
    (hrun : AC3DVOSolver.enforceArcConsistency n (precomputeAttackMasks n) D board
      = some (true, D')) (i j : Nat)
    (hi : i < n ∧ board.getD i 0 = -1) (hj : j < n ∧ board.getD j 0 = -1) (hij : i ≠ j) :
    ArcOK (precomputeAttackMasks n) D' i j := by
  unfold AC3DVOSolver.enforceArcConsistency at hrun
  refine enforceLoop_consistent hn (AC3DVOSolver.revise_ok_ac3dvo _ board) board 0 ?_
    _ _ D D' hrun ?_ (fun r _ c hc => bits_of_lt hbits r c hc) ?_ i j
    ⟨Nat.zero_le _, hi⟩ ⟨Nat.zero_le _, hj⟩ hij
  · intro r1 r2 D h1 h2 hw1 hw2 c hc
    have hguard : AC3DVOSolver.revise (precomputeAttackMasks n) board r1 r2 D =
        AC3Solver.revise (precomputeAttackMasks n) r1 r2 D := by
      unfold AC3DVOSolver.revise
      rw [h1.2.2, h2.2.2]
      rfl
    rw [hguard] at hc
    exact AC3Solver.revise_supported _ r1 r2 D hw1 hw2 c hc
  · intro a ha
    obtain ⟨h1, h2, h3, h4, h5, h6, h7⟩ := mem_initialWorklist.mp ha
    exact ⟨⟨h1, h2, h6⟩, ⟨h3, h4, h7⟩, h5⟩
  · intro i j hi hj hij
    exact Or.inl (mem_initialWorklist.mpr ⟨hi.1, hi.2.1, hj.1, hj.2.1, hij, hi.2.2, hj.2.2⟩)

/-! ## Solution counts -/

theorem count_eq_one_of_nodup {α : Type} [BEq α] [LawfulBEq α] (a : α) :
    ∀ (l : List α), l.Nodup → a ∈ l → l.count a = 1 := by
  intro l
  induction l with
  | nil => intro _ h; exact absurd h (List.not_mem_nil _)
  | cons b l ih =>
    intro hnd hmem
    obtain ⟨hb, hl⟩ := List.nodup_cons.mp hnd
    rw [List.count_cons]
    rcases List.mem_cons.mp hmem with h | h
    · subst h
      have : List.count a l = 0 := List.count_eq_zero.mpr hb
      simp [this]
    · have hne : (b == a) = false := by
        rw [beq_eq_false_iff_ne]
        intro hba
        exact hb (hba ▸ h)
      rw [ih hl h, hne]
      simp

theorem safeFrom_iff (c : Nat) : ∀ (qs : List Nat) (dist : Nat), qs.length ≤ dist →
    (safeFrom c dist qs = true ↔ ∀ i, i < qs.length →
      qs.getD i 0 ≠ c ∧ qs.getD i 0 + (dist - i) ≠ c ∧ c + (dist - i) ≠ qs.getD i 0) := by
  intro qs
  induction qs with
  | nil => intro dist _; simp [safeFrom]
  | cons q qs ih =>
    intro dist hd
    have hd' : qs.length ≤ dist - 1 := by simp only [List.length_cons] at hd; omega
    unfold safeFrom
    simp only [Bool.and_eq_true, bne_iff_ne, ne_eq, ih (dist - 1) hd', List.length_cons]
    constructor
    · rintro ⟨⟨⟨h1, h2⟩, h3⟩, h4⟩ i hi
      cases i with
      | zero => exact ⟨h1, h2, h3⟩
      | succ i =>
        have := h4 i (by omega)
        rw [List.getD_cons_succ, show dist - (i + 1) = dist - 1 - i by omega]
        exact this
    · intro h
      have h0 := h 0 (by omega)
      refine ⟨⟨⟨h0.1, h0.2.1⟩, h0.2.2⟩, fun i hi => ?_⟩
      have := h (i + 1) (by omega)
      rw [List.getD_cons_succ, show dist - (i + 1) = dist - 1 - i by omega] at this
      exact this

theorem getD_castSol (qs : List Nat) (i : Nat) :
    (castSol qs).getD i 0 = ((qs.getD i 0 : Nat) : Int) := by
  unfold castSol
  exact List.getD_map qs 0 (fun c : Nat => (c : Int))

theorem getD_concat_lt (qs : List Nat) (c : Nat) {i : Nat} (hi : i < qs.length) :
    (qs ++ [c]).getD i 0 = qs.getD i 0 := by
  rw [List.getD_eq_getElem?_getD, List.getD_eq_getElem?_getD, List.getElem?_append_left hi]

theorem getD_concat_eq (qs : List Nat) (c : Nat) : (qs ++ [c]).getD qs.length 0 = c := by
  rw [List.getD_eq_getElem?_getD, List.getElem?_append_right (le_refl _)]
  simp

theorem mem_placements (n : Nat) : ∀ (k : Nat) (qs : List Nat),
    qs ∈ placements n k ↔ qs.length = k ∧ PrefixOK n (castSol qs) k := by
  intro k
  induction k with
  | zero =>
    intro qs
    simp only [placements, List.mem_singleton]
    constructor
    · rintro rfl
      exact ⟨rfl, prefixOK_zero _ _⟩
    · rintro ⟨h, _⟩
      exact List.length_eq_zero.mp h
  | succ k ih =>
    intro qs
    simp only [placements, List.mem_flatMap, List.mem_map, List.mem_filter, List.mem_range]
    constructor
    · rintro ⟨qs0, hq0, c, ⟨hc, hsafe⟩, rfl⟩
      obtain ⟨hlen, hp⟩ := (ih qs0).mp hq0
      have hs := (safeFrom_iff c qs0 k (by omega)).mp hsafe
      have hget : ∀ i, i < k + 1 → (castSol (qs0 ++ [c])).getD i 0 =
          if i = k then (c : Int) else (castSol qs0).getD i 0 := by
        intro i hi
        rw [getD_castSol, getD_castSol]
        by_cases h : i = k
        · rw [if_pos h, h, ← hlen, getD_concat_eq]
        · rw [if_neg h, getD_concat_lt _ _ (by omega)]
      refine ⟨by simp [hlen], ⟨?_, ?_⟩⟩
      · intro i hi
        rw [hget i hi]
        by_cases h : i = k
        · rw [if_pos h]; omega
        · rw [if_neg h]; exact hp.1 i (by omega)
      · intro i j hi hj hij
        rw [hget i hi, hget j hj]
        by_cases h1 : i = k
        · have h2 : j ≠ k := by omega
          rw [if_pos h1, if_neg h2, getD_castSol]
          have := hs j (by omega)
          unfold Attacks
          omega
        · rw [if_neg h1]
          by_cases h2 : j = k
          · rw [if_pos h2, getD_castSol]
            have := hs i (by omega)
            unfold Attacks
            omega
          · rw [if_neg h2]
            exact hp.2 i j (by omega) (by omega) hij
    · rintro ⟨hlen, hp⟩
      rcases List.eq_nil_or_concat' qs with h | ⟨qs0, c, rfl⟩
      · subst h; simp at hlen
      · have hlen0 : qs0.length = k := by simpa using hlen
        have hlt : ∀ i, i < k → (castSol (qs0 ++ [c])).getD i 0 = (castSol qs0).getD i 0 := by
          intro i hi
          rw [getD_castSol, getD_castSol, getD_concat_lt _ _ (by omega)]
        have hk : (castSol (qs0 ++ [c])).getD k 0 = (c : Int) := by
          rw [getD_castSol, ← hlen0, getD_concat_eq]
        refine ⟨qs0, (ih qs0).mpr ⟨hlen0, ⟨?_, ?_⟩⟩, c, ⟨?_, ?_⟩, rfl⟩
        · intro i hi
          rw [← hlt i hi]
          exact hp.1 i (by omega)
        · intro i j hi hj hij
          rw [← hlt i hi, ← hlt j hj]
          exact hp.2 i j (by omega) (by omega) hij
        · have := hp.1 k (by omega)
          rw [hk] at this
          omega
        · rw [safeFrom_iff c qs0 k (by omega)]
          intro i hi
          have := hp.2 i k (by omega) (by omega) (by omega)
          rw [hlt i (by omega), hk, getD_castSol] at this
          unfold Attacks at this
          omega

theorem nodup_placements (n : Nat) : ∀ (k : Nat), (placements n k).Nodup := by
  intro k
  induction k with
  | zero => simp [placements]
  | succ k ih =>
    simp only [placements]
    rw [List.nodup_flatMap]
    refine ⟨fun qs _ => ?_, ?_⟩
    · apply List.Nodup.map
      · intro a b h
        have := List.append_inj_right' h rfl
        simpa using this
      · exact (List.nodup_range n).filter _
    · refine ih.imp ?_
      intro qs1 qs2 hne
      intro x h1 h2
      obtain ⟨c1, _, rfl⟩ := List.mem_map.mp h1
      obtain ⟨c2, _, h⟩ := List.mem_map.mp h2
      exact hne (List.append_inj_left' h rfl).symm

theorem castSol_injective : Function.Injective castSol := by
  unfold castSol
  exact List.map_injective_iff.mpr (fun a b h => by simpa using h)

theorem valid_iff_placement (n : Nat) (s : Solution) :
    Valid n s ↔ s ∈ (placements n n).map castSol := by
  rw [List.mem_map]
  constructor
  · rintro ⟨hlen, hp⟩
    refine ⟨s.map Int.toNat, ?_, ?_⟩
    · have hcast : castSol (s.map Int.toNat) = s := by
        apply list_eq_of_getD 0 (by simp [castSol, hlen]) hlen
        intro i hi
        rw [getD_castSol]
        have h0 : (s.map Int.toNat).getD i 0 = (s.getD i 0).toNat :=
          List.getD_map s 0 Int.toNat
        rw [h0]
        exact Int.toNat_of_nonneg (hp.1 i hi).1
      rw [mem_placements]
      exact ⟨by simp [hlen], hcast.symm ▸ hp⟩
    · apply list_eq_of_getD 0 (by simp [castSol, hlen]) hlen
      intro i hi
      rw [getD_castSol]
      have h0 : (s.map Int.toNat).getD i 0 = (s.getD i 0).toNat :=
        List.getD_map s 0 Int.toNat
      rw [h0]
      exact Int.toNat_of_nonneg (hp.1 i hi).1
  · rintro ⟨qs, hq, rfl⟩
    obtain ⟨hlen, hp⟩ := (mem_placements n n qs).mp hq
    exact ⟨by simp [castSol, hlen], hp⟩

theorem kind_count (kind : SolverKind) (n : Nat) (hn : n ≤ 63) :
    (kind.solve n (emptyBoard n) 0 Engine.fresh).map (fun e => e.solutions.length) =
      some (placements n n).length := by
  obtain ⟨e1, L1, h1, h2, _, h4, h5⟩ := kind.solve_spec_all n hn Engine.fresh
  rw [h1]
  have hs1 : e1.solutions = L1 := by rw [h2]; rfl
  have hnd : ((placements n n).map castSol).Nodup :=
    (nodup_placements n n).map castSol_injective
  have hperm : L1.Perm ((placements n n).map castSol) :=
    (List.perm_ext_iff_of_nodup h4 hnd).mpr
      (fun s => by rw [h5 s, valid_iff_placement n s])
  show some e1.solutions.length = some (placements n n).length
  rw [hs1, hperm.length_eq, List.length_map]

set_option maxRecDepth 1000000 in
theorem placement_counts :
    [1, 2, 3, 4, 5, 6, 7, 8].map (fun n => (placements n n).length) =
      [1, 0, 0, 2, 10, 4, 40, 92] := by
  decide!

/-! ## Claims C1 to C6: the solve runs -/

/-- C1: for each of the five strategies, an engine built on the all-unassigned board of
size N with depthCutoff 0 ends `solve()` with 1, 0, 0, 2, 10, 4, 40, 92 solutions for
N = 1, ..., 8. -/
theorem C1_solution_counts (kind : SolverKind) :
    [1, 2, 3, 4, 5, 6, 7, 8].map (fun n =>
      (kind.solve n (emptyBoard n) 0 Engine.fresh).map (fun e => e.solutions.length)) =
    [some 1, some 0, some 0, some 2, some 10, some 4, some 40, some 92] := by
  have h := fun n hn => kind_count kind n hn
  have hb := placement_counts
  simp only [List.map_cons, List.map_nil, List.cons.injEq, and_true] at hb ⊢
  rw [h 1 (by decide), h 2 (by decide), h 3 (by decide), h 4 (by decide), h 5 (by decide),
    h 6 (by decide), h 7 (by decide), h 8 (by decide)]
  obtain ⟨h1, h2, h3, h4, h5, h6, h7, h8⟩ := hb
  rw [h1, h2, h3, h4, h5, h6, h7, h8]
  exact ⟨rfl, rfl, rfl, rfl, rfl, rfl, rfl, rfl⟩

/-- C2: for every strategy and every board size n ≤ 63, `solve()` from the all-unassigned
board with depthCutoff 0 returns, and every board of its solution list has length n,
every entry in [0, n), pairwise distinct columns, and |board[i] - board[j]| ≠ |i - j|
for every pair of rows i ≠ j. -/
theorem C2_solutions_are_valid (kind : SolverKind) (n : Nat) (hn : n ≤ 63) :
    ∃ e, kind.solve n (emptyBoard n) 0 Engine.fresh = some e ∧
      ∀ board, board ∈ e.solutions →
        board.length = n ∧
        (∀ i, i < n → 0 ≤ board.getD i 0 ∧ board.getD i 0 < (n : Int)) ∧
        ∀ i j, i < n → j < n → i ≠ j →
          board.getD i 0 ≠ board.getD j 0 ∧
          (board.getD i 0 - board.getD j 0).natAbs ≠ ((i : Int) - (j : Int)).natAbs := by
  obtain ⟨e, L, h1, h2, _, _, h5⟩ := kind.solve_spec_all n hn Engine.fresh
  refine ⟨e, h1, fun board hb => ?_⟩
  have hL : e.solutions = L := by rw [h2]; rfl
  obtain ⟨hlen, hrange, hpair⟩ := (h5 board).mp (hL ▸ hb)
  refine ⟨hlen, hrange, fun i j hi hj hij => ?_⟩
  have := hpair i j hi hj hij
  unfold Attacks at this
  exact ⟨fun h => this (Or.inl h), fun h => this (Or.inr h)⟩

theorem C2_solutions_are_valid_witness :
    (4 ≤ 63) ∧ ∃ e, SolverKind.AC3DVO.solve 4 (emptyBoard 4) 0 Engine.fresh = some e ∧
      ∀ board, board ∈ e.solutions →
        board.length = 4 ∧
        (∀ i, i < 4 → 0 ≤ board.getD i 0 ∧ board.getD i 0 < ((4 : Nat) : Int)) ∧
        ∀ i j, i < 4 → j < 4 → i ≠ j →
          board.getD i 0 ≠ board.getD j 0 ∧
          (board.getD i 0 - board.getD j 0).natAbs ≠ ((i : Int) - (j : Int)).natAbs :=
  ⟨by decide, C2_solutions_are_valid SolverKind.AC3DVO 4 (by decide)⟩

/-- C3: no missed solutions.  For every strategy and every n ≤ 63, every valid n-queens
placement (length n, columns in [0, n), pairwise distinct, no two rows on a common
diagonal) occurs exactly once in the solution list that `solve()` produces from the
all-unassigned board with depthCutoff 0. -/
theorem C3_every_placement_once (kind : SolverKind) (n : Nat) (hn : n ≤ 63) :
    ∃ e, kind.solve n (emptyBoard n) 0 Engine.fresh = some e ∧
      ∀ s : Solution, s.length = n →
        (∀ i, i < n → 0 ≤ s.getD i 0 ∧ s.getD i 0 < (n : Int)) →
        (∀ i j, i < n → j < n → i ≠ j →
          s.getD i 0 ≠ s.getD j 0 ∧
          (s.getD i 0 - s.getD j 0).natAbs ≠ ((i : Int) - (j : Int)).natAbs) →
        e.solutions.count s = 1 := by
  obtain ⟨e, L, h1, h2, _, h4, h5⟩ := kind.solve_spec_all n hn Engine.fresh
  refine ⟨e, h1, fun s hlen hrange hpair => ?_⟩
  have hL : e.solutions = L := by rw [h2]; rfl
  rw [hL]
  apply count_eq_one_of_nodup s L h4
  rw [h5 s]
  refine ⟨hlen, hrange, fun i j hi hj hij hatt => ?_⟩
  have := hpair i j hi hj hij
  unfold Attacks at hatt
  rcases hatt with h | h
  · exact this.1 h
  · exact this.2 h

theorem C3_every_placement_once_witness :
    (4 ≤ 63) ∧ ∃ e, SolverKind.AC3.solve 4 (emptyBoard 4) 0 Engine.fresh = some e ∧
      ∀ s : Solution, s.length = 4 →
        (∀ i, i < 4 → 0 ≤ s.getD i 0 ∧ s.getD i 0 < ((4 : Nat) : Int)) →
        (∀ i j, i < 4 → j < 4 → i ≠ j →
          s.getD i 0 ≠ s.getD j 0 ∧
          (s.getD i 0 - s.getD j 0).natAbs ≠ ((i : Int) - (j : Int)).natAbs) →
        e.solutions.count s = 1 :=
  ⟨by decide, C3_every_placement_once SolverKind.AC3 4 (by decide)⟩

/-- C4: for every n ≤ 63, any two of the five strategies, run from the all-unassigned
board with depthCutoff 0, return the same set of boards. -/
theorem C4_same_solution_set (kind1 kind2 : SolverKind) (n : Nat) (hn : n ≤ 63) :
    ∃ e1 e2, kind1.solve n (emptyBoard n) 0 Engine.fresh = some e1 ∧
      kind2.solve n (emptyBoard n) 0 Engine.fresh = some e2 ∧
      ∀ s, s ∈ e1.solutions ↔ s ∈ e2.solutions := by
  obtain ⟨e1, L1, h1, h2, _, _, h5⟩ := kind1.solve_spec_all n hn Engine.fresh
  obtain ⟨e2, L2, g1, g2, _, _, g5⟩ := kind2.solve_spec_all n hn Engine.fresh
  have hs1 : e1.solutions = L1 := by rw [h2]; rfl
  have hs2 : e2.solutions = L2 := by rw [g2]; rfl
  exact ⟨e1, e2, h1, g1, fun s => by rw [hs1, hs2, h5 s, g5 s]⟩

theorem C4_same_solution_set_witness :
    (5 ≤ 63) ∧ ∃ e1 e2, SolverKind.BT.solve 5 (emptyBoard 5) 0 Engine.fresh = some e1 ∧
      SolverKind.AC3DVO.solve 5 (emptyBoard 5) 0 Engine.fresh = some e2 ∧
      ∀ s, s ∈ e1.solutions ↔ s ∈ e2.solutions :=
  ⟨by decide, C4_same_solution_set SolverKind.BT SolverKind.AC3DVO 5 (by decide)⟩

/-- C5, as stated, fails: with boardSize 1, two threads and depthCutoff 2 the seed engine
never reaches the cutoff, the queue stays empty and the merged list is empty, while the
single engine finds the placement `[0]`. -/
theorem C5_counterexample :
    mainSolutions SolverKind.BT 1 2 2 = some [] ∧
    singleSolutions SolverKind.BT 1 = some [[0]] ∧
    ¬ (∀ s : Solution, s ∈ ([] : List Solution) ↔ s ∈ [[(0 : Int)]]) := by
  refine ⟨by decide, by decide, fun h => ?_⟩
  have := (h [0]).mpr (List.mem_singleton.mpr rfl)
  exact absurd this (List.not_mem_nil _)

/-- C5, amended: for every strategy, every boardSize n ≤ 63, every nThreads > 1 and every
depthCutoff d with 1 ≤ d ≤ n, parallel mode ends, and the set of merged solutions equals
the set of solutions of a single engine run from the all-unassigned board with
depthCutoff 0. -/
theorem C5_parallel_same_set (kind : SolverKind) (n : Nat) (nThreads : Int) (d : Nat)
    (hn : n ≤ 63) (ht : nThreads > 1) (hd1 : 1 ≤ d) (hdn : d ≤ n) :
    ∃ merged single, mainSolutions kind n nThreads (d : Int) = some merged ∧
      singleSolutions kind n = some single ∧ ∀ s, s ∈ merged ↔ s ∈ single := by
  obtain ⟨merged, h1, h2⟩ := parallel_spec kind n hn d hd1 hdn
  obtain ⟨single, g1, _, g3⟩ := single_spec kind n hn
  refine ⟨merged, single, ?_, g1, fun s => by rw [h2 s, g3 s]⟩
  unfold mainSolutions
  rw [if_pos ht]
  exact h1

theorem C5_parallel_same_set_witness :
    (4 ≤ 63) ∧ ((2 : Int) > 1) ∧ (1 ≤ 2) ∧ (2 ≤ 4) ∧
    ∃ merged single, mainSolutions SolverKind.BTFCDVO 4 2 ((2 : Nat) : Int) = some merged ∧
      singleSolutions SolverKind.BTFCDVO 4 = some single ∧ ∀ s, s ∈ merged ↔ s ∈ single :=
  ⟨by decide, by decide, by decide, by decide,
    C5_parallel_same_set SolverKind.BTFCDVO 4 2 2 (by decide) (by decide) (by decide)
      (by decide)⟩

/-- C6: for each of the five strategies, an engine built with boardSize 0, the empty
board and depthCutoff 0 ends `solve()` with exactly one solution, the empty assignment. -/
theorem C6_empty_board (kind : SolverKind) :
    (kind.solve 0 [] 0 Engine.fresh).map (fun e => e.solutions) = some [[]] := by
  cases kind <;> decide

/-! ## Claims C7 to C10: the attack table and arc consistency -/

/-- C7: for n ≤ 63, distinct rows r1, r2 < n and a column c < n, bit k of
`attackMask[r1][r2][c]` is set iff k = c, or k = c + |r2 - r1| with k < n, or
k = c - |r2 - r1| with k ≥ 0; so for k < n the bit is set iff k = c or
|k - c| = |r2 - r1|, and no bit at a position ≥ n is set. -/
theorem C7_attack_mask_bits (n r1 r2 c : Nat) (hn : n ≤ 63) (h1 : r1 < n) (h2 : r2 < n)
    (hne : r1 ≠ r2) (hc : c < n) :
    (∀ k, (attackAt (precomputeAttackMasks n) r1 r2 c).testBit k = true ↔
      (k = c ∨ (k = c + ((r2 : Int) - (r1 : Int)).natAbs ∧ k < n) ∨
        ((k : Int) = (c : Int) - (((r2 : Int) - (r1 : Int)).natAbs : Int) ∧ (0 : Int) ≤ k))) ∧
    (∀ k, k < n → ((attackAt (precomputeAttackMasks n) r1 r2 c).testBit k = true ↔
      (k = c ∨ ((k : Int) - (c : Int)).natAbs = ((r2 : Int) - (r1 : Int)).natAbs))) ∧
    (∀ k, n ≤ k → (attackAt (precomputeAttackMasks n) r1 r2 c).testBit k = false) := by
  have key := testBit_attackAt (by omega : n ≤ 64) h1 h2 hc hne
  unfold Attacks at key
  refine ⟨fun k => ?_, fun k hk => ?_, fun k hk => ?_⟩
  · rw [key k]; omega
  · rw [key k]; omega
  · by_contra h
    have := (key k).mp ((Bool.not_eq_false _).mp h)
    omega

theorem C7_attack_mask_bits_witness :
    (4 ≤ 63) ∧ (0 < 4) ∧ (3 < 4) ∧ (0 ≠ 3) ∧ (1 < 4) ∧
    (∀ k, (attackAt (precomputeAttackMasks 4) 0 3 1).testBit k = true ↔
      (k = 1 ∨ (k = 1 + (((3 : Nat) : Int) - ((0 : Nat) : Int)).natAbs ∧ k < 4) ∨
        ((k : Int) = ((1 : Nat) : Int) - ((((3 : Nat) : Int) - ((0 : Nat) : Int)).natAbs : Int) ∧
          (0 : Int) ≤ k))) ∧
    (∀ k, k < 4 → ((attackAt (precomputeAttackMasks 4) 0 3 1).testBit k = true ↔
      (k = 1 ∨ ((k : Int) - ((1 : Nat) : Int)).natAbs =
        (((3 : Nat) : Int) - ((0 : Nat) : Int)).natAbs))) ∧
    (∀ k, 4 ≤ k → (attackAt (precomputeAttackMasks 4) 0 3 1).testBit k = false) :=
  ⟨by decide, by decide, by decide, by decide, by decide,
    C7_attack_mask_bits 4 0 3 1 (by decide) (by decide) (by decide) (by decide) (by decide)⟩

/-- C8: full arc consistency on success, for both AC-3 variants.  On a domain vector of
n ≤ 63 words below 2^n, whenever `enforceArcConsistency` returns true, for every ordered
pair of distinct unassigned rows the routine considers (rows from `startRow` on in
`AC3Solver`, all rows in `AC3DVOSolver`) and every column c left in `domains[row1]`,
`domains[row2]` holds a column that is not set in `attackMask[row1][row2][c]`. -/
theorem C8_arc_consistent_on_success (n : Nat) (hn : n ≤ 63) (board : Solution)
    (domains : List Nat) (startRow : Nat) (hbits : ∀ d, d ∈ domains → d < 2 ^ n) :
    (∀ newDomains,
      AC3Solver.enforceArcConsistency n (precomputeAttackMasks n) domains board startRow
        = some (true, newDomains) →
      ∀ row1 row2 c, startRow ≤ row1 → row1 < n → board.getD row1 0 = -1 →
        startRow ≤ row2 → row2 < n → board.getD row2 0 = -1 → row1 ≠ row2 →
        (newDomains.getD row1 0).testBit c = true →
        ∃ c2, (newDomains.getD row2 0).testBit c2 = true ∧
          (attackAt (precomputeAttackMasks n) row1 row2 c).testBit c2 = false) ∧
    (∀ newDomains,
      AC3DVOSolver.enforceArcConsistency n (precomputeAttackMasks n) domains board
        = some (true, newDomains) →
      ∀ row1 row2 c, row1 < n → board.getD row1 0 = -1 →
        row2 < n → board.getD row2 0 = -1 → row1 ≠ row2 →
        (newDomains.getD row1 0).testBit c = true →
        ∃ c2, (newDomains.getD row2 0).testBit c2 = true ∧
          (attackAt (precomputeAttackMasks n) row1 row2 c).testBit c2 = false) := by
  constructor
  · intro D' hrun row1 row2 c h1 h2 h3 h4 h5 h6 hne hc
    exact AC3Solver.enforce_consistent_ac3 hn board domains startRow hbits D' hrun row1 row2
      ⟨h1, h2, h3⟩ ⟨h4, h5, h6⟩ hne c hc
  · intro D' hrun row1 row2 c h2 h3 h5 h6 hne hc
    exact AC3DVOSolver.enforce_consistent_ac3dvo hn board domains hbits D' hrun row1 row2
      ⟨h2, h3⟩ ⟨h5, h6⟩ hne c hc

theorem C8_arc_consistent_on_success_witness :
    (4 ≤ 63) ∧ (∀ d, d ∈ [15, 15, 15, 15] → d < 2 ^ 4) ∧
    AC3Solver.enforceArcConsistency 4 (precomputeAttackMasks 4) [15, 15, 15, 15]
      [-1, -1, -1, -1] 0 = some (true, [15, 15, 15, 15]) ∧
    ∃ c2, (([15, 15, 15, 15] : List Nat).getD 2 0).testBit c2 = true ∧
      (attackAt (precomputeAttackMasks 4) 0 2 1).testBit c2 = false :=
  ⟨by decide, by decide, by decide,
    (C8_arc_consistent_on_success 4 (by decide) [-1, -1, -1, -1] [15, 15, 15, 15] 0
      (by decide)).1 [15, 15, 15, 15] (by decide) 0 2 1 (by decide) (by decide) (by decide)
      (by decide) (by decide) (by decide) (by decide) (by decide)⟩

/-- C9, as stated, fails on a board with a single unassigned row: on the 1 × 1 board
`enforceArcConsistency` returns true and leaves column 0 in the domain of row 0, but
there is no other unassigned row. -/
theorem C9_counterexample :
    AC3DVOSolver.enforceArcConsistency 1 (precomputeAttackMasks 1) [1] [-1]
      = some (true, [1]) ∧
    ([-1] : Solution).getD 0 0 = -1 ∧ (([1] : List Nat).getD 0 0).testBit 0 = true ∧
    ¬ ∃ row2 c2, row2 < 1 ∧ row2 ≠ 0 ∧ ([-1] : Solution).getD row2 0 = -1 ∧
      (([1] : List Nat).getD row2 0).testBit c2 = true ∧
      (attackAt (precomputeAttackMasks 1) 0 row2 0).testBit c2 = false := by
  refine ⟨by decide, by decide, by decide, ?_⟩
  rintro ⟨row2, c2, h1, h2, _⟩
  omega

/-- C9, amended: on a domain vector of n ≤ 63 words below 2^n on which
`enforceArcConsistency` returns true, for every unassigned row1 and every column c still
in `domains[row1]`, if the board has another unassigned row (one the routine considers),
then there is an unassigned row2 different from row1 and a column in `domains[row2]`
that is compatible with (row1, c), i.e. not set in `attackMask[row1][row2][c]`. -/
theorem C9_arc_invariant (n : Nat) (hn : n ≤ 63) (board : Solution) (domains : List Nat)
    (startRow : Nat) (hbits : ∀ d, d ∈ domains → d < 2 ^ n) :
    (∀ newDomains,
      AC3DVOSolver.enforceArcConsistency n (precomputeAttackMasks n) domains board
        = some (true, newDomains) →
      ∀ row1 c, row1 < n → board.getD row1 0 = -1 →
        (newDomains.getD row1 0).testBit c = true →
        (∃ r, r < n ∧ r ≠ row1 ∧ board.getD r 0 = -1) →
        ∃ row2 c2, row2 < n ∧ row2 ≠ row1 ∧ board.getD row2 0 = -1 ∧
          (newDomains.getD row2 0).testBit c2 = true ∧
          (attackAt (precomputeAttackMasks n) row1 row2 c).testBit c2 = false) ∧
    (∀ newDomains,
      AC3Solver.enforceArcConsistency n (precomputeAttackMasks n) domains board startRow
        = some (true, newDomains) →
      ∀ row1 c, startRow ≤ row1 → row1 < n → board.getD row1 0 = -1 →
        (newDomains.getD row1 0).testBit c = true →
        (∃ r, startRow ≤ r ∧ r < n ∧ r ≠ row1 ∧ board.getD r 0 = -1) →
        ∃ row2 c2, startRow ≤ row2 ∧ row2 < n ∧ row2 ≠ row1 ∧ board.getD row2 0 = -1 ∧
          (newDomains.getD row2 0).testBit c2 = true ∧
          (attackAt (precomputeAttackMasks n) row1 row2 c).testBit c2 = false) := by
  constructor
  · intro D' hrun row1 c h1 h2 hc hex
    obtain ⟨r, hr1, hr2, hr3⟩ := hex
    obtain ⟨c2, hc2, hatt⟩ := AC3DVOSolver.enforce_consistent_ac3dvo hn board domains hbits D' hrun
      row1 r ⟨h1, h2⟩ ⟨hr1, hr3⟩ (fun h => hr2 h.symm) c hc
    exact ⟨r, c2, hr1, hr2, hr3, hc2, hatt⟩
  · intro D' hrun row1 c h0 h1 h2 hc hex
    obtain ⟨r, hr0, hr1, hr2, hr3⟩ := hex
    obtain ⟨c2, hc2, hatt⟩ := AC3Solver.enforce_consistent_ac3 hn board domains startRow hbits D'
      hrun row1 r ⟨h0, h1, h2⟩ ⟨hr0, hr1, hr3⟩ (fun h => hr2 h.symm) c hc
    exact ⟨r, c2, hr0, hr1, hr2, hr3, hc2, hatt⟩

theorem C9_arc_invariant_witness :
    (4 ≤ 63) ∧ (∀ d, d ∈ [15, 15, 15, 15] → d < 2 ^ 4) ∧
    AC3DVOSolver.enforceArcConsistency 4 (precomputeAttackMasks 4) [15, 15, 15, 15]
      [-1, -1, -1, -1] = some (true, [15, 15, 15, 15]) ∧
    ∃ row2 c2, row2 < 4 ∧ row2 ≠ 0 ∧ ([-1, -1, -1, -1] : Solution).getD row2 0 = -1 ∧
      (([15, 15, 15, 15] : List Nat).getD row2 0).testBit c2 = true ∧
      (attackAt (precomputeAttackMasks 4) 0 row2 1).testBit c2 = false :=
  ⟨by decide, by decide, by decide,
    (C9_arc_invariant 4 (by decide) [-1, -1, -1, -1] [15, 15, 15, 15] 0 (by decide)).1
      [15, 15, 15, 15] (by decide) 0 1 (by decide) (by decide) (by decide)
      ⟨1, by decide, by decide, by decide⟩⟩

/-- C10: no false pruning by AC-3, for both variants.  If s is a valid complete n-queens
placement (n ≤ 63) that agrees with the board on its assigned rows and has bit s[r] set in
`domains[r]` for every unassigned row r on entry, then `enforceArcConsistency` returns
true and bit s[r] is still set in `domains[r]` for every unassigned row r on exit. -/
theorem C10_no_false_pruning (n : Nat) (hn : n ≤ 63) (board : Solution) (domains : List Nat)
    (startRow : Nat) (s : Solution) (hlen : domains.length = n) (hv : Valid n s)
    (hag : Agrees n board s)
    (hbits : ∀ r, r < n → board.getD r 0 = -1 →
      (domains.getD r 0).testBit (s.getD r 0).toNat = true) :
    (∃ newDomains,
      AC3Solver.enforceArcConsistency n (precomputeAttackMasks n) domains board startRow
        = some (true, newDomains) ∧
      ∀ r, r < n → board.getD r 0 = -1 →
        (newDomains.getD r 0).testBit (s.getD r 0).toNat = true) ∧
    (∃ newDomains,
      AC3DVOSolver.enforceArcConsistency n (precomputeAttackMasks n) domains board
        = some (true, newDomains) ∧
      ∀ r, r < n → board.getD r 0 = -1 →
        (newDomains.getD r 0).testBit (s.getD r 0).toNat = true) := by
  have hS : ∀ r, (r < n ∧ board.getD r 0 = -1) → (s.getD r 0).toNat < 64 := by
    intro r hr
    have := (toNat_col (hv.2.1 r hr.1).1 (hv.2.1 r hr.1).2).1
    omega
  constructor
  · obtain ⟨ok, D', hrun, _, _⟩ := AC3Solver.enforce_total_ac3 n (precomputeAttackMasks n)
      domains board startRow hlen
    obtain ⟨hok, hkept⟩ := AC3Solver.enforce_keeps_ac3 n _ domains board startRow
      (fun r => r < n ∧ board.getD r 0 = -1) (fun r => (s.getD r 0).toNat) hS
      (fun r1 r2 h1 h2 hne => valid_compat hn hv h1.1 h2.1 hne)
      (fun k _ hk hb => ⟨hk, hb⟩) (fun r hr => hbits r hr.1 hr.2) ok D' hrun
    subst hok
    exact ⟨D', hrun, fun r hr hb => hkept r ⟨hr, hb⟩⟩
  · obtain ⟨ok, D', hrun, _, _⟩ := AC3DVOSolver.enforce_total_ac3dvo n (precomputeAttackMasks n)
      domains board hlen
    obtain ⟨hok, hkept⟩ := AC3DVOSolver.enforce_keeps_ac3dvo n _ domains board
      (fun r => r < n ∧ board.getD r 0 = -1) (fun r => (s.getD r 0).toNat) hS
      (fun r1 r2 h1 h2 hne => valid_compat hn hv h1.1 h2.1 hne)
      (fun k hk hb => ⟨hk, hb⟩) (fun r hr => hbits r hr.1 hr.2) ok D' hrun
    subst hok
    exact ⟨D', hrun, fun r hr hb => hkept r ⟨hr, hb⟩⟩

theorem C10_no_false_pruning_witness :
    (4 ≤ 63) ∧ ([15, 15, 15, 15] : List Nat).length = 4 ∧ Valid 4 [1, 3, 0, 2] ∧
    Agrees 4 [-1, -1, -1, -1] [1, 3, 0, 2] ∧
    (∃ newDomains,
      AC3Solver.enforceArcConsistency 4 (precomputeAttackMasks 4) [15, 15, 15, 15]
        [-1, -1, -1, -1] 0 = some (true, newDomains) ∧
      ∀ r, r < 4 → ([-1, -1, -1, -1] : Solution).getD r 0 = -1 →
        (newDomains.getD r 0).testBit (([1, 3, 0, 2] : Solution).getD r 0).toNat = true) ∧
    (∃ newDomains,
      AC3DVOSolver.enforceArcConsistency 4 (precomputeAttackMasks 4) [15, 15, 15, 15]
        [-1, -1, -1, -1] = some (true, newDomains) ∧
      ∀ r, r < 4 → ([-1, -1, -1, -1] : Solution).getD r 0 = -1 →
        (newDomains.getD r 0).testBit (([1, 3, 0, 2] : Solution).getD r 0).toNat = true) :=
  have hpair : ∀ i, i < 4 → ∀ j, j < 4 → i ≠ j →
      ¬ Attacks i (([1, 3, 0, 2] : Solution).getD i 0) j (([1, 3, 0, 2] : Solution).getD j 0) := by
    unfold Attacks; decide
  have hv : Valid 4 [1, 3, 0, 2] :=
    ⟨rfl, by decide, fun i j hi hj hij => hpair i hi j hj hij⟩
  have hag : Agrees 4 [-1, -1, -1, -1] [1, 3, 0, 2] := by unfold Agrees; decide
  ⟨by decide, by decide, hv, hag,
    C10_no_false_pruning 4 (by decide) [-1, -1, -1, -1] [15, 15, 15, 15] 0 [1, 3, 0, 2]
      (by decide) hv hag (by decide)⟩
/-! ## Nodes on the stack: generic facts -/

/-- A property that holds of the root and is handed from an expanded node to its
successors holds of every node the loop pushes. -/
theorem Reach.inv {σ : Type} {P : Policy σ} {root : σ} (J : σ → Prop) (hroot : J root)
    (hstep : ∀ x succs, J x → P.atCutoff x = false → P.isSolution x = false →
      P.expand x = some succs → ∀ c, c ∈ succs → J c) :
    ∀ x, Reach P root x → J x := by
  intro x hx
  induction hx with
  | root => exact hroot
  | push _ hc hs he hm ih => exact hstep _ _ ih hc hs he _ hm

theorem pushWork_solutions (e : Engine) (b : Solution) :
    (pushWork e b).solutions = e.solutions := rfl

theorem pushWork_workQueue (e : Engine) (b : Solution) :
    (pushWork e b).workQueue = e.workQueue ++ [b] := rfl

/-- Every board the loop records or queues is the board of a pushed node: of one that
passed the cutoff test and was complete, or of one that met the cutoff. -/
theorem searchLoop_reach {σ : Type} (P : Policy σ) (root : σ) :
    ∀ (fuel : Nat) (stack : List σ) (e e' : Engine), searchLoop P fuel stack e = some e' →
      (∀ x, x ∈ stack → Reach P root x) →
      ∃ L Q, e'.solutions = e.solutions ++ L ∧ e'.workQueue = e.workQueue ++ Q ∧
        (∀ s, s ∈ L → ∃ x, Reach P root x ∧ P.atCutoff x = false ∧
          P.isSolution x = true ∧ P.board x = s) ∧
        (∀ b, b ∈ Q → ∃ x, Reach P root x ∧ P.atCutoff x = true ∧ P.board x = b) := by
  intro fuel
  induction fuel with
  | zero =>
    intro stack e e' hrun _
    cases stack with
    | nil =>
      have : e' = e := by simpa [searchLoop] using hrun.symm
      subst this
      exact ⟨[], [], by simp, by simp, by simp, by simp⟩
    | cons x rest => simp [searchLoop] at hrun
  | succ fuel ih =>
    intro stack e e' hrun hre
    cases stack with
    | nil =>
      have : e' = e := by simpa [searchLoop] using hrun.symm
      subst this
      exact ⟨[], [], by simp, by simp, by simp, by simp⟩
    | cons x rest =>
      have hx := hre x (List.mem_cons_self _ _)
      have hrest : ∀ y, y ∈ rest → Reach P root y :=
        fun y hy => hre y (List.mem_cons_of_mem _ hy)
      rw [searchLoop_cons] at hrun
      by_cases hc : P.atCutoff x = true
      · rw [if_pos hc] at hrun
        obtain ⟨L, Q, hsol, hq, hL, hQ⟩ := ih rest _ e' hrun hrest
        refine ⟨L, P.board x :: Q, ?_, ?_, hL, ?_⟩
        · rw [hsol, pushWork_solutions]
        · rw [hq, pushWork_workQueue, List.append_assoc]; rfl
        · intro b hb
          rcases List.mem_cons.mp hb with h | h
          · exact ⟨x, hx, hc, h.symm⟩
          · exact hQ b h
      · rw [if_neg hc] at hrun
        have hc' : P.atCutoff x = false := by simpa using hc
        by_cases hs : P.isSolution x = true
        · rw [if_pos hs] at hrun
          obtain ⟨L, Q, hsol, hq, hL, hQ⟩ := ih rest _ e' hrun hrest
          refine ⟨P.board x :: L, Q, ?_, ?_, ?_, hQ⟩
          · rw [hsol, recordSolution_solutions, List.append_assoc]; rfl
          · rw [hq, recordSolution_workQueue]
          · intro s hs'
            rcases List.mem_cons.mp hs' with h | h
            · exact ⟨x, hx, hc', hs, h.symm⟩
            · exact hL s h
        · rw [if_neg hs] at hrun
          have hs' : P.isSolution x = false := by simpa using hs
          cases hexp : P.expand x with
          | none => rw [hexp] at hrun; exact absurd hrun (by simp)
          | some succs =>
            rw [hexp] at hrun
            simp only [] at hrun
            apply ih _ e e' hrun
            intro y hy
            rcases List.mem_append.mp hy with h | h
            · exact Reach.push hx hc' hs' hexp (List.mem_reverse.mp h)
            · exact hrest y h

/-- Enough fuel: the loop returns, whenever an invariant of the stack nodes makes every
expansion return at most `B` successors of smaller height. -/
theorem searchLoop_total {σ : Type} {P : Policy σ} (J : σ → Prop) (ht : σ → Nat) (B : Nat)
    (hstep : ∀ x, J x → P.atCutoff x = false → P.isSolution x = false →
      ∃ succs, P.expand x = some succs ∧ succs.length ≤ B ∧
        ∀ c, c ∈ succs → J c ∧ ht c < ht x) :
    ∀ (fuel : Nat) (stack : List σ) (e : Engine), (∀ x, x ∈ stack → J x) →
      (stack.map (fun x => (B + 1) ^ ht x)).sum ≤ fuel →
      ∃ e', searchLoop P fuel stack e = some e' := by
  intro fuel
  induction fuel with
  | zero =>
    intro stack e _ hsum
    cases stack with
    | nil => exact ⟨e, rfl⟩
    | cons x rest =>
      have : 1 ≤ (B + 1) ^ ht x := Nat.one_le_pow _ _ (by omega)
      simp only [List.map_cons, List.sum_cons] at hsum
      omega
  | succ fuel ih =>
    intro stack e hinv hsum
    cases stack with
    | nil => exact ⟨e, rfl⟩
    | cons x rest =>
      have hx := hinv x (List.mem_cons_self _ _)
      have hrest : ∀ y, y ∈ rest → J y := fun y hy => hinv y (List.mem_cons_of_mem _ hy)
      have hpos : 1 ≤ (B + 1) ^ ht x := Nat.one_le_pow _ _ (by omega)
      simp only [List.map_cons, List.sum_cons] at hsum
      rw [searchLoop_cons]
      by_cases hc : P.atCutoff x = true
      · rw [if_pos hc]
        exact ih rest _ hrest (by omega)
      · rw [if_neg hc]
        by_cases hs : P.isSolution x = true
        · rw [if_pos hs]
          exact ih rest _ hrest (by omega)
        · rw [if_neg hs]
          obtain ⟨succs, hexp, hlen, hsucc⟩ :=
            hstep x hx (by simpa using hc) (by simpa using hs)
          rw [hexp]
          have hb := sum_succs_lt B (ht x) ht succs hlen (fun c hc => (hsucc c hc).2)
          apply ih
          · intro y hy
            rcases List.mem_append.mp hy with h | h
            · exact (hsucc y (List.mem_reverse.mp h)).1
            · exact hrest y h
          · rw [List.map_append, List.sum_append, List.map_reverse, List.sum_reverse]
            omega

/-- Two engines that differ in the cutoff test only run alike from a stack of nodes none
of whose descendants meets either cutoff. -/
theorem searchLoop_congr {σ : Type} (P1 P2 : Policy σ) (root : σ)
    (hsol : ∀ x, P2.isSolution x = P1.isSolution x) (hboard : ∀ x, P2.board x = P1.board x)
    (hexp : ∀ x, P2.expand x = P1.expand x)
    (hcut : ∀ x, Reach P1 root x → P1.atCutoff x = false ∧ P2.atCutoff x = false) :
    ∀ (fuel : Nat) (stack : List σ) (e : Engine), (∀ x, x ∈ stack → Reach P1 root x) →
      searchLoop P2 fuel stack e = searchLoop P1 fuel stack e := by
  intro fuel
  induction fuel with
  | zero =>
    intro stack e _
    cases stack <;> rfl
  | succ fuel ih =>
    intro stack e hre
    cases stack with
    | nil => rfl
    | cons x rest =>
      have hx := hre x (List.mem_cons_self _ _)
      have hrest : ∀ y, y ∈ rest → Reach P1 root y :=
        fun y hy => hre y (List.mem_cons_of_mem _ hy)
      rw [searchLoop_cons, searchLoop_cons, (hcut x hx).1, (hcut x hx).2, hsol x, hboard x,
        hexp x]
      simp only [Bool.false_eq_true, if_false]
      by_cases hs : P1.isSolution x = true
      · rw [if_pos hs, if_pos hs]
        exact ih rest _ hrest
      · rw [if_neg hs, if_neg hs]
        cases hex : P1.expand x with
        | none => rfl
        | some succs =>
          simp only []
          apply ih
          intro y hy
          rcases List.mem_append.mp hy with h | h
          · exact Reach.push hx (hcut x hx).1 (by simpa using hs) hex (List.mem_reverse.mp h)
          · exact hrest y h
/-! ## The successors of a node, engine by engine -/

theorem length_pushColumns {σ : Type} (f : Nat → Option (Option σ)) :
    ∀ (cols : List Nat) (l : List σ), pushColumns f cols = some l →
      l.length ≤ cols.length := by
  intro cols
  induction cols with
  | nil =>
    intro l h
    have : l = [] := (Option.some.inj h).symm
    subst this
    exact Nat.le_refl _
  | cons a cols ih =>
    intro l h
    unfold pushColumns at h
    cases hfa : f a with
    | none => rw [hfa] at h; exact Option.noConfusion h
    | some r =>
      rw [hfa] at h
      cases hrec : pushColumns f cols with
      | none => rw [hrec] at h; exact Option.noConfusion h
      | some l' =>
        rw [hrec] at h
        have hl := (Option.some.inj h).symm
        have := ih l' hrec
        cases r with
        | none =>
          have : l = l' := hl
          subst this
          simp only [List.length_cons]
          omega
        | some s =>
          have : l = s :: l' := hl
          subst this
          simp only [List.length_cons]
          omega

/-- The column loop pushes in the order of its columns. -/
theorem pairwise_pushColumns {σ : Type} (f : Nat → Option (Option σ)) :
    ∀ (cols : List Nat) (l : List σ), cols.Pairwise (fun a b => a < b) →
      pushColumns f cols = some l →
      l.Pairwise (fun a b => ∃ col1 col2, col1 < col2 ∧ f col1 = some (some a) ∧
        f col2 = some (some b)) := by
  intro cols
  induction cols with
  | nil =>
    intro l _ h
    have : l = [] := (Option.some.inj h).symm
    subst this
    exact List.Pairwise.nil
  | cons a cols ih =>
    intro l hpw h
    obtain ⟨ha, hpw'⟩ := List.pairwise_cons.mp hpw
    have h0 := h
    unfold pushColumns at h
    cases hfa : f a with
    | none => rw [hfa] at h; exact Option.noConfusion h
    | some r =>
      rw [hfa] at h
      cases hrec : pushColumns f cols with
      | none => rw [hrec] at h; exact Option.noConfusion h
      | some l' =>
        rw [hrec] at h
        have hl := (Option.some.inj h).symm
        have hih := ih l' hpw' hrec
        cases r with
        | none =>
          have : l = l' := hl
          subst this
          exact hih
        | some s =>
          have : l = s :: l' := hl
          subst this
          refine List.pairwise_cons.mpr ⟨?_, hih⟩
          intro b hb
          obtain ⟨col, hcol, hfc⟩ := mem_pushColumns f cols l' hrec b hb
          exact ⟨a, col, ha col hcol, hfa, hfc⟩

theorem pushColumns_isSome {σ : Type} (f : Nat → Option (Option σ)) :
    ∀ (cols : List Nat), (∀ col, col ∈ cols → ∃ r, f col = some r) →
      ∃ l, pushColumns f cols = some l := by
  intro cols
  induction cols with
  | nil => intro _; exact ⟨[], rfl⟩
  | cons a cols ih =>
    intro h
    obtain ⟨r, hr⟩ := h a (List.mem_cons_self _ _)
    obtain ⟨l, hl⟩ := ih (fun col hcol => h col (List.mem_cons_of_mem _ hcol))
    unfold pushColumns
    rw [hr, hl]
    exact ⟨_, rfl⟩

theorem range_pairwise_lt (n : Nat) : (List.range n).Pairwise (fun a b => a < b) :=
  List.pairwise_lt_range n

/-- The row returned by `selectMRVRow` is `-1` or an unassigned row of the board. -/
theorem selectMRVRow_cases (n : Nat) (board : Solution) (domains : List Nat) :
    selectMRVRow n board domains = -1 ∨
      ∃ r : Nat, r < n ∧ selectMRVRow n board domains = (r : Int) ∧ board.getD r 0 = -1 := by
  have key : ∀ (step : Int × Nat → Nat → Int × Nat),
      (∀ best row, step best row = best ∨
        ((step best row).1 = (row : Int) ∧ board.getD row 0 = -1)) →
      ∀ (l : List Nat) (best : Int × Nat), (∀ r, r ∈ l → r < n) →
        (best.1 = -1 ∨ ∃ r : Nat, r < n ∧ best.1 = (r : Int) ∧ board.getD r 0 = -1) →
        ((l.foldl step best).1 = -1 ∨
          ∃ r : Nat, r < n ∧ (l.foldl step best).1 = (r : Int) ∧ board.getD r 0 = -1) := by
    intro step hstep l
    induction l with
    | nil => intro best _ h; exact h
    | cons a l ih =>
      intro best hl h
      rw [List.foldl_cons]
      apply ih _ (fun r hr => hl r (List.mem_cons_of_mem _ hr))
      rcases hstep best a with h1 | ⟨h1, h2⟩
      · rw [h1]; exact h
      · exact Or.inr ⟨a, hl a (List.mem_cons_self _ _), h1, h2⟩
  unfold selectMRVRow
  apply key _ _ (List.range n) _ (fun r hr => List.mem_range.mp hr) (Or.inl rfl)
  intro best row
  by_cases hb : (board.getD row 0 != -1) = true
  · rw [if_pos hb]; exact Or.inl rfl
  · rw [if_neg hb]
    have hun : board.getD row 0 = -1 := by
      by_contra h
      exact hb (bne_iff_ne.mpr h)
    dsimp only
    by_cases hd : popcount (domains.getD row 0) < best.2
    · rw [if_pos hd]; exact Or.inr ⟨rfl, hun⟩
    · rw [if_neg hd]; exact Or.inl rfl

/-! ### Shape of a successor -/

theorem bt_child {n : Nat} {maxDepth : Int} {x : SearchState} {succs : List SearchState}
    (hexp : (BTSolver.policy n maxDepth).expand x = some succs) {c : SearchState}
    (hc : c ∈ succs) :
    ∃ col, col < n ∧ BTSolver.isSafe x.board x.row (col : Int) = true ∧
      c = { board := x.board.set x.row (col : Int), row := x.row + 1 } := by
  obtain ⟨col, hcol, hf⟩ := mem_pushColumns _ _ _ hexp c hc
  refine ⟨col, List.mem_range.mp hcol, ?_⟩
  split at hf
  · rename_i hs
    exact ⟨hs, (Option.some.inj (Option.some.inj hf)).symm⟩
  · exact Option.noConfusion (Option.some.inj hf)

theorem btfc_child {n : Nat} {am : List (List (List Nat))} {maxDepth : Int}
    {x : FCSearchState} {succs : List FCSearchState}
    (hexp : (BTFCSolver.policy n am maxDepth).expand x = some succs) {c : FCSearchState}
    (hc : c ∈ succs) :
    ∃ col, col < n ∧ ((x.domains.getD x.row 0 &&& shl1 col) == 0) = false ∧
      BTFCSolver.causesWipeout n am x.domains x.row col = false ∧
      c = { board := x.board.set x.row (col : Int), row := x.row + 1,
            domains := pruneFuture n am x.domains x.row col } := by
  obtain ⟨col, hcol, hf⟩ := mem_pushColumns _ _ _ hexp c hc
  refine ⟨col, List.mem_range.mp hcol, ?_⟩
  split at hf
  · exact Option.noConfusion (Option.some.inj hf)
  · rename_i h1
    split at hf
    · exact Option.noConfusion (Option.some.inj hf)
    · rename_i h2
      exact ⟨by simpa using h1, by simpa using h2,
        (Option.some.inj (Option.some.inj hf)).symm⟩

theorem ac3_child {n : Nat} {am : List (List (List Nat))} {maxDepth : Int}
    {x : FCSearchState} {succs : List FCSearchState}
    (hexp : (AC3Solver.policy n am maxDepth).expand x = some succs) {c : FCSearchState}
    (hc : c ∈ succs) :
    ∃ col newDomains, col < n ∧ ((x.domains.getD x.row 0 &&& shl1 col) == 0) = false ∧
      AC3Solver.enforceArcConsistency n am (pruneFuture n am x.domains x.row col)
        (x.board.set x.row (col : Int)) (x.row + 1) = some (true, newDomains) ∧
      c = { board := x.board.set x.row (col : Int), row := x.row + 1,
            domains := newDomains } := by
  obtain ⟨col, hcol, hf⟩ := mem_pushColumns _ _ _ hexp c hc
  split at hf
  · exact Option.noConfusion (Option.some.inj hf)
  · rename_i h1
    dsimp only at hf
    split at hf
    · exact Option.noConfusion hf
    · rename_i D' henf
      exact ⟨col, D', List.mem_range.mp hcol, by simpa using h1, henf,
        (Option.some.inj (Option.some.inj hf)).symm⟩
    · exact Option.noConfusion (Option.some.inj hf)

theorem btfcdvo_child {n : Nat} {am : List (List (List Nat))} {maxDepth : Int}
    {x : DVOSearchState} {succs : List DVOSearchState}
    (hexp : (BTFCDVOSolver.policy n am maxDepth).expand x = some succs) {c : DVOSearchState}
    (hc : c ∈ succs) :
    ∃ r col : Nat, r < n ∧ selectMRVRow n x.board x.domains = (r : Int) ∧
      x.board.getD r 0 = -1 ∧ col < n ∧ ((x.domains.getD r 0 &&& shl1 col) == 0) = false ∧
      BTFCDVOSolver.causesWipeout n am x.board x.domains r col = false ∧
      c = { board := x.board.set r (col : Int),
            domains := BTFCDVOSolver.pruneOthers n am x.board x.domains r col } := by
  rcases selectMRVRow_cases n x.board x.domains with hsel | ⟨r, hr, hsel, hun⟩
  · simp only [BTFCDVOSolver.policy, hsel] at hexp
    have : succs = [] := by simpa using hexp.symm
    subst this
    exact absurd hc (List.not_mem_nil _)
  · have hne : (((r : Nat) : Int) == -1) = false := by
      rw [beq_eq_false_iff_ne]; omega
    simp only [BTFCDVOSolver.policy, hsel, hne, Int.toNat_ofNat, Bool.false_eq_true,
      if_false] at hexp
    obtain ⟨col, hcol, hf⟩ := mem_pushColumns _ _ _ hexp c hc
    refine ⟨r, col, hr, hsel, hun, List.mem_range.mp hcol, ?_⟩
    split at hf
    · exact Option.noConfusion (Option.some.inj hf)
    · rename_i h1
      split at hf
      · exact Option.noConfusion (Option.some.inj hf)
      · rename_i h2
        exact ⟨by simpa using h1, by simpa using h2,
          (Option.some.inj (Option.some.inj hf)).symm⟩

theorem ac3dvo_child {n : Nat} {am : List (List (List Nat))} {maxDepth : Int}
    {x : DVOSearchState} {succs : List DVOSearchState}
    (hexp : (AC3DVOSolver.policy n am maxDepth).expand x = some succs) {c : DVOSearchState}
    (hc : c ∈ succs) :
    ∃ (r col : Nat) (newDomains : List Nat), r < n ∧
      selectMRVRow n x.board x.domains = (r : Int) ∧
      x.board.getD r 0 = -1 ∧ col < n ∧ ((x.domains.getD r 0 &&& shl1 col) == 0) = false ∧
      AC3DVOSolver.enforceArcConsistency n am
        (AC3DVOSolver.pruneOthers n am x.domains r col) (x.board.set r (col : Int))
        = some (true, newDomains) ∧
      c = { board := x.board.set r (col : Int), domains := newDomains } := by
  rcases selectMRVRow_cases n x.board x.domains with hsel | ⟨r, hr, hsel, hun⟩
  · simp only [AC3DVOSolver.policy, hsel] at hexp
    have : succs = [] := by simpa using hexp.symm
    subst this
    exact absurd hc (List.not_mem_nil _)
  · have hne : (((r : Nat) : Int) == -1) = false := by
      rw [beq_eq_false_iff_ne]; omega
    simp only [AC3DVOSolver.policy, hsel, hne, Int.toNat_ofNat, Bool.false_eq_true,
      if_false] at hexp
    obtain ⟨col, hcol, hf⟩ := mem_pushColumns _ _ _ hexp c hc
    split at hf
    · exact Option.noConfusion (Option.some.inj hf)
    · rename_i h1
      split at hf
      · exact Option.noConfusion hf
      · rename_i D' henf
        exact ⟨r, col, D', hr, hsel, hun, List.mem_range.mp hcol, by simpa using h1, henf,
          (Option.some.inj (Option.some.inj hf)).symm⟩
      · exact Option.noConfusion (Option.some.inj hf)
/-! ## Every run returns -/

theorem length_pruneOthers_ac3 (n : Nat) (am : List (List (List Nat))) (domains : List Nat)
    (row col : Nat) : (AC3DVOSolver.pruneOthers n am domains row col).length = n := by
  unfold AC3DVOSolver.pruneOthers
  simp

theorem bt_expand_total (n : Nat) (maxDepth : Int) (x : SearchState) :
    ∃ succs, (BTSolver.policy n maxDepth).expand x = some succs ∧ succs.length ≤ n := by
  obtain ⟨l, hl⟩ := pushColumns_isSome (fun col =>
    some (if BTSolver.isSafe x.board x.row (col : Int)
          then some ({ board := x.board.set x.row (col : Int), row := x.row + 1 } : SearchState)
          else none)) (List.range n) (fun _ _ => ⟨_, rfl⟩)
  refine ⟨l, hl, ?_⟩
  have := length_pushColumns _ _ _ hl
  simpa using this

theorem btfc_expand_total (n : Nat) (am : List (List (List Nat))) (maxDepth : Int)
    (x : FCSearchState) :
    ∃ succs, (BTFCSolver.policy n am maxDepth).expand x = some succs ∧ succs.length ≤ n := by
  obtain ⟨l, hl⟩ := pushColumns_isSome (fun col =>
    some (if (x.domains.getD x.row 0 &&& shl1 col) == 0 then none
          else if BTFCSolver.causesWipeout n am x.domains x.row col then none
          else some ({ board := x.board.set x.row (col : Int), row := x.row + 1,
                       domains := pruneFuture n am x.domains x.row col } : FCSearchState)))
    (List.range n) (fun _ _ => ⟨_, rfl⟩)
  refine ⟨l, hl, ?_⟩
  have := length_pushColumns _ _ _ hl
  simpa using this

theorem ac3_expand_total (n : Nat) (am : List (List (List Nat))) (maxDepth : Int)
    (x : FCSearchState) :
    ∃ succs, (AC3Solver.policy n am maxDepth).expand x = some succs ∧ succs.length ≤ n := by
  have hex : ∃ l, (AC3Solver.policy n am maxDepth).expand x = some l := by
    apply pushColumns_isSome
    intro col _
    by_cases hb : ((x.domains.getD x.row 0 &&& shl1 col) == 0) = true
    · rw [if_pos hb]; exact ⟨_, rfl⟩
    · rw [if_neg hb]
      obtain ⟨ok, D', hrun, _, _⟩ := AC3Solver.enforce_total_ac3 n am
        (pruneFuture n am x.domains x.row col) (x.board.set x.row (col : Int)) (x.row + 1)
        (length_pruneFuture n am x.domains x.row col)
      dsimp only
      rw [hrun]
      cases ok
      · exact ⟨_, rfl⟩
      · exact ⟨_, rfl⟩
  obtain ⟨l, hl⟩ := hex
  refine ⟨l, hl, ?_⟩
  have := length_pushColumns _ _ _ hl
  simpa using this

theorem btfcdvo_expand_total (n : Nat) (am : List (List (List Nat))) (maxDepth : Int)
    (x : DVOSearchState) :
    ∃ succs, (BTFCDVOSolver.policy n am maxDepth).expand x = some succs ∧
      succs.length ≤ n := by
  by_cases hsel : (selectMRVRow n x.board x.domains == -1) = true
  · refine ⟨[], ?_, Nat.zero_le _⟩
    simp only [BTFCDVOSolver.policy, hsel, if_true]
  · have hex : ∃ l, (BTFCDVOSolver.policy n am maxDepth).expand x = some l := by
      simp only [BTFCDVOSolver.policy, hsel, Bool.false_eq_true, if_false]
      exact pushColumns_isSome _ _ (fun _ _ => ⟨_, rfl⟩)
    obtain ⟨l, hl⟩ := hex
    refine ⟨l, hl, ?_⟩
    simp only [BTFCDVOSolver.policy, hsel, Bool.false_eq_true, if_false] at hl
    have := length_pushColumns _ _ _ hl
    simpa using this

theorem ac3dvo_expand_total (n : Nat) (am : List (List (List Nat))) (maxDepth : Int)
    (x : DVOSearchState) :
    ∃ succs, (AC3DVOSolver.policy n am maxDepth).expand x = some succs ∧
      succs.length ≤ n := by
  by_cases hsel : (selectMRVRow n x.board x.domains == -1) = true
  · refine ⟨[], ?_, Nat.zero_le _⟩
    simp only [AC3DVOSolver.policy, hsel, if_true]
  · have hex : ∃ l, (AC3DVOSolver.policy n am maxDepth).expand x = some l := by
      simp only [AC3DVOSolver.policy, hsel, Bool.false_eq_true, if_false]
      apply pushColumns_isSome
      intro col _
      by_cases hb : ((x.domains.getD (selectMRVRow n x.board x.domains).toNat 0
          &&& shl1 col) == 0) = true
      · rw [if_pos hb]; exact ⟨_, rfl⟩
      · rw [if_neg hb]
        obtain ⟨ok, D', hrun, _, _⟩ := AC3DVOSolver.enforce_total_ac3dvo n am
          (AC3DVOSolver.pruneOthers n am x.domains
            (selectMRVRow n x.board x.domains).toNat col)
          (x.board.set (selectMRVRow n x.board x.domains).toNat (col : Int))
          (length_pruneOthers_ac3 n am x.domains _ col)
        rw [hrun]
        cases ok
        · exact ⟨_, rfl⟩
        · exact ⟨_, rfl⟩
    obtain ⟨l, hl⟩ := hex
    refine ⟨l, hl, ?_⟩
    simp only [AC3DVOSolver.policy, hsel, Bool.false_eq_true, if_false] at hl
    have := length_pushColumns _ _ _ hl
    simpa using this

theorem findStartRow_le (n : Nat) (b : Solution) : findStartRow n b ≤ n := by
  unfold findStartRow
  cases h : (List.range n).find? (fun i => b.getD i 0 == -1) with
  | none => exact Nat.zero_le _
  | some i =>
    have := List.mem_of_find?_eq_some h
    have := List.mem_range.mp this
    show i ≤ n
    omega

theorem static_fuel (n row : Nat) (h : row ≤ n) :
    ([n - row].map (fun k => (n + 1) ^ k)).sum ≤ searchFuel n := by
  simp only [List.map_cons, List.map_nil, List.sum_cons, List.sum_nil, Nat.add_zero]
  exact searchFuel_ge n (n - row) (by omega)

/-- The loop of `BTSolver::solve` ends, whatever the board and the cutoff. -/
theorem bt_solve_total (n : Nat) (b : Solution) (maxDepth : Int) (e0 : Engine) :
    ∃ e, BTSolver.solve n b maxDepth e0 = some e := by
  apply searchLoop_total (fun x => x.row ≤ n) (fun x => n - x.row) n
  · intro x hJ _ hsol
    have hrow : x.row ≠ n := by simpa [BTSolver.policy] using hsol
    obtain ⟨succs, hexp, hlen⟩ := bt_expand_total n maxDepth x
    refine ⟨succs, hexp, hlen, fun c hc => ?_⟩
    obtain ⟨col, _, _, rfl⟩ := bt_child hexp hc
    have hJ' : x.row ≤ n := hJ
    exact ⟨by show x.row + 1 ≤ n; omega, by show n - (x.row + 1) < n - x.row; omega⟩
  · intro x hx
    rw [List.mem_singleton.mp hx]
    exact findStartRow_le n b
  · exact static_fuel n _ (findStartRow_le n b)

/-- The loop of `BTFCSolver::solve` ends, whatever the board and the cutoff. -/
theorem btfc_solve_total (n : Nat) (b : Solution) (maxDepth : Int) (e0 : Engine) :
    ∃ e, BTFCSolver.solve n b maxDepth e0 = some e := by
  apply searchLoop_total (fun x => x.row ≤ n) (fun x => n - x.row) n
  · intro x hJ _ hsol
    have hrow : x.row ≠ n := by simpa [BTFCSolver.policy] using hsol
    obtain ⟨succs, hexp, hlen⟩ := btfc_expand_total n (precomputeAttackMasks n) maxDepth x
    refine ⟨succs, hexp, hlen, fun c hc => ?_⟩
    obtain ⟨col, _, _, _, rfl⟩ := btfc_child hexp hc
    have hJ' : x.row ≤ n := hJ
    exact ⟨by show x.row + 1 ≤ n; omega, by show n - (x.row + 1) < n - x.row; omega⟩
  · intro x hx
    rw [List.mem_singleton.mp hx]
    exact findStartRow_le n b
  · exact static_fuel n _ (findStartRow_le n b)

/-- The loop of `AC3Solver::solve` ends, whatever the board and the cutoff. -/
theorem ac3_solve_total (n : Nat) (b : Solution) (maxDepth : Int) (e0 : Engine) :
    ∃ e, AC3Solver.solve n b maxDepth e0 = some e := by
  apply searchLoop_total (fun x => x.row ≤ n) (fun x => n - x.row) n
  · intro x hJ _ hsol
    have hrow : x.row ≠ n := by simpa [AC3Solver.policy] using hsol
    obtain ⟨succs, hexp, hlen⟩ := ac3_expand_total n (precomputeAttackMasks n) maxDepth x
    refine ⟨succs, hexp, hlen, fun c hc => ?_⟩
    obtain ⟨col, D', _, _, _, rfl⟩ := ac3_child hexp hc
    have hJ' : x.row ≤ n := hJ
    exact ⟨by show x.row + 1 ≤ n; omega, by show n - (x.row + 1) < n - x.row; omega⟩
  · intro x hx
    rw [List.mem_singleton.mp hx]
    exact findStartRow_le n b
  · exact static_fuel n _ (findStartRow_le n b)

theorem int_natCast_ne_neg_one (col : Nat) : ((col : Nat) : Int) ≠ -1 := by omega

theorem dvo_fuel (n k : Nat) :
    ([n - k].map (fun j => (n + 1) ^ j)).sum ≤ searchFuel n := by
  simp only [List.map_cons, List.map_nil, List.sum_cons, List.sum_nil, Nat.add_zero]
  exact searchFuel_ge n (n - k) (by omega)

/-- The loop of `BTFCDVOSolver::solve` ends, whatever the board of length `n` and the
cutoff. -/
theorem btfcdvo_solve_total (n : Nat) (b : Solution) (hlen : b.length = n) (maxDepth : Int)
    (e0 : Engine) : ∃ e, BTFCDVOSolver.solve n b maxDepth e0 = some e := by
  apply searchLoop_total (fun x => x.board.length = n)
    (fun x => n - countAssigned n x.board) n
  · intro x hJ _ hsol
    have hcnt : countAssigned n x.board ≠ n := by simpa [BTFCDVOSolver.policy] using hsol
    have hle := countAssigned_le n x.board
    obtain ⟨succs, hexp, hlen2⟩ :=
      btfcdvo_expand_total n (precomputeAttackMasks n) maxDepth x
    refine ⟨succs, hexp, hlen2, fun c hc => ?_⟩
    obtain ⟨r, col, hr, _, hun, _, _, _, rfl⟩ := btfcdvo_child hexp hc
    have hJ' : x.board.length = n := hJ
    refine ⟨by show (x.board.set r (col : Int)).length = n; rw [List.length_set]; exact hJ', ?_⟩
    show n - countAssigned n (x.board.set r (col : Int)) < n - countAssigned n x.board
    rw [countAssigned_set hr hJ' hun (int_natCast_ne_neg_one col)]
    omega
  · intro x hx
    rw [List.mem_singleton.mp hx]
    exact hlen
  · exact dvo_fuel n _

/-- The loop of `AC3DVOSolver::solve` ends, whatever the board of length `n` and the
cutoff. -/
theorem ac3dvo_solve_total (n : Nat) (b : Solution) (hlen : b.length = n) (maxDepth : Int)
    (e0 : Engine) : ∃ e, AC3DVOSolver.solve n b maxDepth e0 = some e := by
  apply searchLoop_total (fun x => x.board.length = n)
    (fun x => n - countAssigned n x.board) n
  · intro x hJ _ hsol
    have hcnt : countAssigned n x.board ≠ n := by simpa [AC3DVOSolver.policy] using hsol
    have hle := countAssigned_le n x.board
    obtain ⟨succs, hexp, hlen2⟩ :=
      ac3dvo_expand_total n (precomputeAttackMasks n) maxDepth x
    refine ⟨succs, hexp, hlen2, fun c hc => ?_⟩
    obtain ⟨r, col, D', hr, _, hun, _, _, _, rfl⟩ := ac3dvo_child hexp hc
    have hJ' : x.board.length = n := hJ
    refine ⟨by show (x.board.set r (col : Int)).length = n; rw [List.length_set]; exact hJ', ?_⟩
    show n - countAssigned n (x.board.set r (col : Int)) < n - countAssigned n x.board
    rw [countAssigned_set hr hJ' hun (int_natCast_ne_neg_one col)]
    omega
  · intro x hx
    rw [List.mem_singleton.mp hx]
    exact hlen
  · exact dvo_fuel n _

/-- Every engine returns from `solve()`, for every board size, every board of that
length and every cutoff. -/
theorem solve_total (kind : SolverKind) (n : Nat) (b : Solution) (hlen : b.length = n)
    (maxDepth : Int) (e0 : Engine) : ∃ e, kind.solve n b maxDepth e0 = some e := by
  cases kind
  · exact bt_solve_total n b maxDepth e0
  · exact btfc_solve_total n b maxDepth e0
  · exact btfcdvo_solve_total n b hlen maxDepth e0
  · exact ac3_solve_total n b maxDepth e0
  · exact ac3dvo_solve_total n b hlen maxDepth e0
/-! ## Claims C11 and C12: domain monotonicity and the MRV row -/

theorem MaskSubset.trans {a b c : Nat} (h1 : MaskSubset a b) (h2 : MaskSubset b c) :
    MaskSubset a c := fun i hi => h2 i (h1 i hi)

theorem maskSubset_zero (b : Nat) : MaskSubset 0 b := by
  intro i hi
  rw [Nat.zero_testBit] at hi
  exact Bool.noConfusion hi

theorem maskSubset_refl (a : Nat) : MaskSubset a a := fun _ h => h

theorem maskSubset_and (a m : Nat) : MaskSubset (a &&& m) a := by
  intro i hi
  rw [Nat.testBit_land] at hi
  exact (Bool.and_eq_true _ _ ▸ hi).1

/-- On 64-bit words, `MaskSubset a b` is the test `a & ~b == 0`. -/
theorem maskSubset_iff_and_not64 {a b : Nat} (ha : a < 2 ^ 64) :
    MaskSubset a b ↔ a &&& not64 b = 0 := by
  constructor
  · intro h
    apply Nat.eq_of_testBit_eq
    intro i
    rw [Nat.zero_testBit, Nat.testBit_land, testBit_not64]
    cases hai : a.testBit i
    · rfl
    · have hb := h i hai
      have hi : i < 64 := by
        by_contra hc
        have : a.testBit i = false :=
          Nat.testBit_lt_two_pow (Nat.lt_of_lt_of_le ha
            (Nat.pow_le_pow_right (by decide) (by omega)))
        rw [this] at hai
        exact Bool.noConfusion hai
      rw [hb]
      simp [hi]
  · intro h i hi
    have h1 : (a &&& not64 b).testBit i = false := by rw [h]; exact Nat.zero_testBit i
    rw [Nat.testBit_land, testBit_not64, hi] at h1
    have hi64 : i < 64 := by
      by_contra hc
      have : a.testBit i = false :=
        Nat.testBit_lt_two_pow (Nat.lt_of_lt_of_le ha
          (Nat.pow_le_pow_right (by decide) (by omega)))
      rw [this] at hi
      exact Bool.noConfusion hi
    cases hb : b.testBit i
    · rw [hb] at h1
      simp [hi64] at h1
    · rfl

theorem getD_map_range_ge {α : Type} (f : Nat → α) {i n : Nat} (h : n ≤ i) (d : α) :
    ((List.range n).map f).getD i d = d := by
  apply List.getD_eq_default
  simpa using h

theorem pruneFuture_subset (n : Nat) (am : List (List (List Nat))) (domains : List Nat)
    (row col r : Nat) :
    MaskSubset ((pruneFuture n am domains row col).getD r 0) (domains.getD r 0) := by
  by_cases hr : r < n
  · rw [getD_pruneFuture am domains row col hr]
    split
    · exact maskSubset_and _ _
    · exact maskSubset_refl _
  · unfold pruneFuture
    rw [getD_map_range_ge _ (by omega)]
    exact maskSubset_zero _

theorem pruneOthers_subset (n : Nat) (am : List (List (List Nat))) (board : Solution)
    (domains : List Nat) (row col r : Nat) :
    MaskSubset ((BTFCDVOSolver.pruneOthers n am board domains row col).getD r 0)
      (domains.getD r 0) := by
  by_cases hr : r < n
  · rw [getD_pruneOthers am board domains row col hr]
    split
    · exact maskSubset_zero _
    · split
      · exact maskSubset_refl _
      · exact maskSubset_and _ _
  · unfold BTFCDVOSolver.pruneOthers
    rw [getD_map_range_ge _ (by omega)]
    exact maskSubset_zero _

theorem pruneOthers_ac3_subset (n : Nat) (am : List (List (List Nat)))
    (domains : List Nat) (row col r : Nat) :
    MaskSubset ((AC3DVOSolver.pruneOthers n am domains row col).getD r 0)
      (domains.getD r 0) := by
  unfold AC3DVOSolver.pruneOthers
  by_cases hr : r < n
  · rw [getD_map_range _ hr]
    split
    · exact maskSubset_zero _
    · exact maskSubset_and _ _
  · rw [getD_map_range_ge _ (by omega)]
    exact maskSubset_zero _

theorem ac3_enforce_subset {n : Nat} {am : List (List (List Nat))} {D : List Nat}
    {board : Solution} {startRow : Nat} (hlen : D.length = n) {ok : Bool} {D' : List Nat}
    (hrun : AC3Solver.enforceArcConsistency n am D board startRow = some (ok, D')) :
    D'.length = n ∧ ∀ r, MaskSubset (D'.getD r 0) (D.getD r 0) := by
  obtain ⟨ok2, D2, hrun2, hl, hsub⟩ := AC3Solver.enforce_total_ac3 n am D board startRow hlen
  rw [hrun] at hrun2
  have h := Option.some.inj hrun2
  have hD : D' = D2 := congrArg Prod.snd h
  subst hD
  exact ⟨hl, hsub⟩

theorem ac3dvo_enforce_subset {n : Nat} {am : List (List (List Nat))} {D : List Nat}
    {board : Solution} (hlen : D.length = n) {ok : Bool} {D' : List Nat}
    (hrun : AC3DVOSolver.enforceArcConsistency n am D board = some (ok, D')) :
    D'.length = n ∧ ∀ r, MaskSubset (D'.getD r 0) (D.getD r 0) := by
  obtain ⟨ok2, D2, hrun2, hl, hsub⟩ := AC3DVOSolver.enforce_total_ac3dvo n am D board hlen
  rw [hrun] at hrun2
  have h := Option.some.inj hrun2
  have hD : D' = D2 := congrArg Prod.snd h
  subst hD
  exact ⟨hl, hsub⟩

/-- C11: domain monotonicity.  In each of the four domain-based engines, the expansion
of any node returns, and the domain mask of every row in every successor pushed is a
bitwise subset of the mask of that row in the expanded node (every bit set in the
successor is set in the parent; on 64-bit words this is `successor & ~parent = 0`, see
`maskSubset_iff_and_not64`).  In particular the masks left by `revise` and by
`enforceArcConsistency` are subsets of the masks they were given. -/
theorem C11_domain_monotonicity (n : Nat) (attackMask : List (List (List Nat)))
    (maxDepth : Int) :
    (∀ x : FCSearchState, ∃ succs,
      (BTFCSolver.policy n attackMask maxDepth).expand x = some succs ∧
      ∀ c, c ∈ succs → ∀ r, MaskSubset (c.domains.getD r 0) (x.domains.getD r 0)) ∧
    (∀ x : DVOSearchState, ∃ succs,
      (BTFCDVOSolver.policy n attackMask maxDepth).expand x = some succs ∧
      ∀ c, c ∈ succs → ∀ r, MaskSubset (c.domains.getD r 0) (x.domains.getD r 0)) ∧
    (∀ x : FCSearchState, ∃ succs,
      (AC3Solver.policy n attackMask maxDepth).expand x = some succs ∧
      ∀ c, c ∈ succs → ∀ r, MaskSubset (c.domains.getD r 0) (x.domains.getD r 0)) ∧
    (∀ x : DVOSearchState, ∃ succs,
      (AC3DVOSolver.policy n attackMask maxDepth).expand x = some succs ∧
      ∀ c, c ∈ succs → ∀ r, MaskSubset (c.domains.getD r 0) (x.domains.getD r 0)) ∧
    (∀ (row1 row2 : Nat) (domains : List Nat) (r : Nat),
      MaskSubset ((AC3Solver.revise attackMask row1 row2 domains).2.getD r 0)
        (domains.getD r 0)) ∧
    (∀ (board : Solution) (row1 row2 : Nat) (domains : List Nat) (r : Nat),
      MaskSubset ((AC3DVOSolver.revise attackMask board row1 row2 domains).2.getD r 0)
        (domains.getD r 0)) ∧
    (∀ (domains : List Nat) (board : Solution) (startRow : Nat), domains.length = n →
      ∃ ok newDomains,
        AC3Solver.enforceArcConsistency n attackMask domains board startRow
          = some (ok, newDomains) ∧
        ∀ r, MaskSubset (newDomains.getD r 0) (domains.getD r 0)) ∧
    (∀ (domains : List Nat) (board : Solution), domains.length = n →
      ∃ ok newDomains,
        AC3DVOSolver.enforceArcConsistency n attackMask domains board
          = some (ok, newDomains) ∧
        ∀ r, MaskSubset (newDomains.getD r 0) (domains.getD r 0)) := by
  refine ⟨?_, ?_, ?_, ?_, ?_, ?_, ?_, ?_⟩
  · intro x
    obtain ⟨succs, hexp, _⟩ := btfc_expand_total n attackMask maxDepth x
    refine ⟨succs, hexp, fun c hc r => ?_⟩
    obtain ⟨col, _, _, _, rfl⟩ := btfc_child hexp hc
    exact pruneFuture_subset n attackMask x.domains x.row col r
  · intro x
    obtain ⟨succs, hexp, _⟩ := btfcdvo_expand_total n attackMask maxDepth x
    refine ⟨succs, hexp, fun c hc r => ?_⟩
    obtain ⟨r0, col, _, _, _, _, _, _, rfl⟩ := btfcdvo_child hexp hc
    exact pruneOthers_subset n attackMask x.board x.domains r0 col r
  · intro x
    obtain ⟨succs, hexp, _⟩ := ac3_expand_total n attackMask maxDepth x
    refine ⟨succs, hexp, fun c hc r => ?_⟩
    obtain ⟨col, D', _, _, henf, rfl⟩ := ac3_child hexp hc
    exact ((ac3_enforce_subset (length_pruneFuture n attackMask x.domains x.row col) henf).2
      r).trans (pruneFuture_subset n attackMask x.domains x.row col r)
  · intro x
    obtain ⟨succs, hexp, _⟩ := ac3dvo_expand_total n attackMask maxDepth x
    refine ⟨succs, hexp, fun c hc r => ?_⟩
    obtain ⟨r0, col, D', _, _, _, _, _, henf, rfl⟩ := ac3dvo_child hexp hc
    exact ((ac3dvo_enforce_subset (length_pruneOthers_ac3 n attackMask x.domains r0 col)
      henf).2 r).trans (pruneOthers_ac3_subset n attackMask x.domains r0 col r)
  · intro row1 row2 domains r
    exact (AC3Solver.revise_ok_ac3 attackMask).subset_all row1 row2 domains r
  · intro board row1 row2 domains r
    exact (AC3DVOSolver.revise_ok_ac3dvo attackMask board).subset_all row1 row2 domains r
  · intro domains board startRow hlen
    obtain ⟨ok, D', hrun, _, hsub⟩ :=
      AC3Solver.enforce_total_ac3 n attackMask domains board startRow hlen
    exact ⟨ok, D', hrun, hsub⟩
  · intro domains board hlen
    obtain ⟨ok, D', hrun, _, hsub⟩ :=
      AC3DVOSolver.enforce_total_ac3dvo n attackMask domains board hlen
    exact ⟨ok, D', hrun, hsub⟩

theorem C11_domain_monotonicity_witness :
    ∃ succs, (BTFCSolver.policy 4 (precomputeAttackMasks 4) 0).expand
        { board := [-1, -1, -1, -1], row := 0, domains := [15, 15, 15, 15] } = some succs ∧
      ∀ c, c ∈ succs → ∀ r, MaskSubset (c.domains.getD r 0)
        (([15, 15, 15, 15] : List Nat).getD r 0) :=
  (C11_domain_monotonicity 4 (precomputeAttackMasks 4) 0).1
    { board := [-1, -1, -1, -1], row := 0, domains := [15, 15, 15, 15] }

theorem getD_mem_of_lt {l : List Nat} {r : Nat} (h : r < l.length) : l.getD r 0 ∈ l := by
  rw [List.getD_eq_getElem l 0 h]
  exact List.getElem_mem h

/-- The scan of `selectMRVRow` over the first `k` rows: either no row so far is
unassigned and the pair is still `(-1, n + 1)`, or it holds the first unassigned row of
least `popcount` together with that count. -/
theorem mrv_fold (n : Nat) (b : Solution) (D : List Nat)
    (step : Int × Nat → Nat → Int × Nat)
    (hstep : ∀ best row, step best row =
      if b.getD row 0 != -1 then best
      else if popcount (D.getD row 0) < best.2 then ((row : Int), popcount (D.getD row 0))
      else best)
    (hpop : ∀ r, r < n → b.getD r 0 = -1 → popcount (D.getD r 0) ≤ n) :
    ∀ k, k ≤ n →
      ((List.range k).foldl step ((-1 : Int), n + 1) = ((-1 : Int), n + 1) ∧
        ∀ r, r < k → b.getD r 0 ≠ -1) ∨
      ∃ best : Nat, best < k ∧
        (List.range k).foldl step ((-1 : Int), n + 1)
          = ((best : Int), popcount (D.getD best 0)) ∧
        b.getD best 0 = -1 ∧
        (∀ r, r < k → b.getD r 0 = -1 →
          popcount (D.getD best 0) ≤ popcount (D.getD r 0)) ∧
        (∀ r, r < best → b.getD r 0 = -1 →
          popcount (D.getD best 0) < popcount (D.getD r 0)) := by
  intro k
  induction k with
  | zero =>
    intro _
    exact Or.inl ⟨rfl, fun r hr => absurd hr (Nat.not_lt_zero r)⟩
  | succ k ih =>
    intro hk
    rw [List.range_succ, List.foldl_append, List.foldl_cons, List.foldl_nil, hstep]
    by_cases hb : (b.getD k 0 != -1) = true
    · rw [if_pos hb]
      have hne : b.getD k 0 ≠ -1 := bne_iff_ne.mp hb
      rcases ih (by omega) with ⟨hres, hall⟩ | ⟨best, hbk, hres, hbun, hmin, htie⟩
      · refine Or.inl ⟨hres, fun r hr => ?_⟩
        by_cases h : r = k
        · rw [h]; exact hne
        · exact hall r (by omega)
      · refine Or.inr ⟨best, by omega, hres, hbun, fun r hr hun => ?_, htie⟩
        by_cases h : r = k
        · rw [h] at hun; exact absurd hun hne
        · exact hmin r (by omega) hun
    · rw [if_neg hb]
      have hun : b.getD k 0 = -1 := by
        by_contra h
        exact hb (bne_iff_ne.mpr h)
      have hpk := hpop k (by omega) hun
      rcases ih (by omega) with ⟨hres, hall⟩ | ⟨best, hbk, hres, hbun, hmin, htie⟩
      · rw [hres]
        rw [if_pos (by show popcount (D.getD k 0) < n + 1; omega)]
        refine Or.inr ⟨k, by omega, rfl, hun, fun r hr hr' => ?_, fun r hr hr' => ?_⟩
        · by_cases h : r = k
          · rw [h]
          · exact absurd hr' (hall r (by omega))
        · exact absurd hr' (hall r hr)
      · rw [hres]
        by_cases hd : popcount (D.getD k 0) < popcount (D.getD best 0)
        · rw [if_pos hd]
          refine Or.inr ⟨k, by omega, rfl, hun, fun r hr hr' => ?_, fun r hr hr' => ?_⟩
          · by_cases h : r = k
            · rw [h]
            · have := hmin r (by omega) hr'
              omega
          · have := hmin r hr hr'
            omega
        · rw [if_neg hd]
          refine Or.inr ⟨best, by omega, rfl, hbun, fun r hr hr' => ?_, htie⟩
          by_cases h : r = k
          · rw [h]; omega
          · exact hmin r (by omega) hr'

/-- C12: MRV selection.  For a board and a domain vector of length n whose masks are
64-bit words with no bit at a position ≥ n: `popcount` is the exact number of set bits;
`selectMRVRow` returns -1 iff no row of the board is unassigned; and otherwise it returns
an unassigned row whose mask has the fewest set bits among the unassigned rows, the one
of lowest index among those tied for the minimum. -/
theorem C12_mrv_selection (n : Nat) (board : Solution) (domains : List Nat)
    (hb : board.length = n) (hd : domains.length = n)
    (hword : ∀ d, d ∈ domains → d < 2 ^ 64)
    (hbits : ∀ d, d ∈ domains → ∀ i, n ≤ i → d.testBit i = false) :
    (∀ r, r < n → popcount (domains.getD r 0) = bitCount (domains.getD r 0)) ∧
    (selectMRVRow n board domains = -1 ↔ ∀ r, r < n → board.getD r 0 ≠ -1) ∧
    ((∃ r, r < n ∧ board.getD r 0 = -1) →
      ∃ best : Nat, selectMRVRow n board domains = (best : Int) ∧ best < n ∧
        board.getD best 0 = -1 ∧
        (∀ r, r < n → board.getD r 0 = -1 →
          bitCount (domains.getD best 0) ≤ bitCount (domains.getD r 0)) ∧
        (∀ r, r < best → board.getD r 0 = -1 →
          bitCount (domains.getD best 0) < bitCount (domains.getD r 0))) := by
  have hpc : ∀ r, r < n → popcount (domains.getD r 0) = bitCount (domains.getD r 0) :=
    fun r hr => popcount_eq (hword _ (getD_mem_of_lt (by omega)))
  have hle : ∀ r, r < n → bitCount (domains.getD r 0) ≤ n := by
    intro r hr
    apply bitCount_le
    intro i hi
    by_contra hc
    have := hbits _ (getD_mem_of_lt (by omega : r < domains.length)) i (by omega)
    rw [this] at hi
    exact Bool.noConfusion hi
  have hfold := mrv_fold n board domains _ (fun _ _ => rfl)
    (fun r hr _ => by rw [hpc r hr]; exact hle r hr) n (Nat.le_refl n)
  have hsel : selectMRVRow n board domains =
      ((List.range n).foldl (fun (best : Int × Nat) row =>
        if board.getD row 0 != -1 then best
        else
          let domainSize := popcount (domains.getD row 0)
          if domainSize < best.2 then ((row : Int), domainSize) else best)
        ((-1 : Int), n + 1)).1 := rfl
  refine ⟨hpc, ?_, ?_⟩
  · rcases hfold with ⟨hres, hall⟩ | ⟨best, hbk, hres, hbun, _, _⟩
    · rw [hsel, hres]
      exact ⟨fun _ => hall, fun _ => rfl⟩
    · rw [hsel, hres]
      constructor
      · intro h
        have h' : ((best : Nat) : Int) = -1 := h
        omega
      · intro h
        exact absurd hbun (h best hbk)
  · rintro ⟨r, hr, hun⟩
    rcases hfold with ⟨_, hall⟩ | ⟨best, hbk, hres, hbun, hmin, htie⟩
    · exact absurd hun (hall r hr)
    · refine ⟨best, by rw [hsel, hres], hbk, hbun, fun r' hr' hun' => ?_,
        fun r' hr' hun' => ?_⟩
      · rw [← hpc best hbk, ← hpc r' hr']
        exact hmin r' hr' hun'
      · rw [← hpc best hbk, ← hpc r' (by omega)]
        exact htie r' hr' hun'

theorem C12_mrv_selection_witness :
    ([-1, 2, -1, -1] : Solution).length = 4 ∧ ([7, 0, 3, 5] : List Nat).length = 4 ∧
    selectMRVRow 4 [-1, 2, -1, -1] [7, 0, 3, 5] = ((2 : Nat) : Int) ∧
    (∃ best : Nat, selectMRVRow 4 [-1, 2, -1, -1] [7, 0, 3, 5] = (best : Int) ∧ best < 4 ∧
      ([-1, 2, -1, -1] : Solution).getD best 0 = -1 ∧
      (∀ r, r < 4 → ([-1, 2, -1, -1] : Solution).getD r 0 = -1 →
        bitCount (([7, 0, 3, 5] : List Nat).getD best 0)
          ≤ bitCount (([7, 0, 3, 5] : List Nat).getD r 0)) ∧
      (∀ r, r < best → ([-1, 2, -1, -1] : Solution).getD r 0 = -1 →
        bitCount (([7, 0, 3, 5] : List Nat).getD best 0)
          < bitCount (([7, 0, 3, 5] : List Nat).getD r 0))) :=
  ⟨rfl, rfl, by decide,
    (C12_mrv_selection 4 [-1, 2, -1, -1] [7, 0, 3, 5] rfl rfl (by decide)
      (by
        intro d hd i hi
        have h16 : d < 2 ^ 4 := by revert d; decide
        exact Nat.testBit_lt_two_pow (Nat.lt_of_lt_of_le h16
          (Nat.pow_le_pow_right (by decide) hi)))).2.2
      ⟨0, by decide, by decide⟩⟩
/-! ## Claims C13 and C14: the initial board and large cutoffs -/

/-- What a static-order engine keeps of the initial board `b` with first unassigned row
`k`: the row counter never drops below `k`, and the rows before `k` are never written. -/
theorem static_step {n k : Nat} {b xb : Solution} {xr : Nat} (col : Int)
    (hJ : k ≤ xr ∧ xr ≤ n ∧ ∀ i, i < k → xb.getD i 0 = b.getD i 0) (hrow : xr ≠ n) :
    k ≤ xr + 1 ∧ xr + 1 ≤ n ∧ ∀ i, i < k → (xb.set xr col).getD i 0 = b.getD i 0 := by
  obtain ⟨h1, h2, h3⟩ := hJ
  refine ⟨by omega, by omega, fun i hi => ?_⟩
  rw [getD_set_ne _ _ _ (by omega)]
  exact h3 i hi

theorem bt_reach_static (n : Nat) (maxDepth : Int) (b : Solution) (x : SearchState)
    (hx : Reach (BTSolver.policy n maxDepth) (BTSolver.initialNode n b) x) :
    findStartRow n b ≤ x.row ∧ x.row ≤ n ∧
      ∀ i, i < findStartRow n b → x.board.getD i 0 = b.getD i 0 := by
  refine Reach.inv (fun x => findStartRow n b ≤ x.row ∧ x.row ≤ n ∧
    ∀ i, i < findStartRow n b → x.board.getD i 0 = b.getD i 0)
    ⟨Nat.le_refl _, findStartRow_le n b, fun _ _ => rfl⟩ ?_ x hx
  intro y succs hJ _ hsol hexp c hc
  have hrow : y.row ≠ n := by simpa [BTSolver.policy] using hsol
  obtain ⟨col, _, _, rfl⟩ := bt_child hexp hc
  exact static_step _ hJ hrow

theorem btfc_reach_static (n : Nat) (am : List (List (List Nat))) (maxDepth : Int)
    (b : Solution) (x : FCSearchState)
    (hx : Reach (BTFCSolver.policy n am maxDepth) (BTFCSolver.initialNode n am b) x) :
    findStartRow n b ≤ x.row ∧ x.row ≤ n ∧
      ∀ i, i < findStartRow n b → x.board.getD i 0 = b.getD i 0 := by
  refine Reach.inv (fun x => findStartRow n b ≤ x.row ∧ x.row ≤ n ∧
    ∀ i, i < findStartRow n b → x.board.getD i 0 = b.getD i 0)
    ⟨Nat.le_refl _, findStartRow_le n b, fun _ _ => rfl⟩ ?_ x hx
  intro y succs hJ _ hsol hexp c hc
  have hrow : y.row ≠ n := by simpa [BTFCSolver.policy] using hsol
  obtain ⟨col, _, _, _, rfl⟩ := btfc_child hexp hc
  exact static_step _ hJ hrow

theorem ac3_reach_static (n : Nat) (am : List (List (List Nat))) (maxDepth : Int)
    (b : Solution) (x : FCSearchState)
    (hx : Reach (AC3Solver.policy n am maxDepth) (AC3Solver.initialNode n am b) x) :
    findStartRow n b ≤ x.row ∧ x.row ≤ n ∧
      ∀ i, i < findStartRow n b → x.board.getD i 0 = b.getD i 0 := by
  refine Reach.inv (fun x => findStartRow n b ≤ x.row ∧ x.row ≤ n ∧
    ∀ i, i < findStartRow n b → x.board.getD i 0 = b.getD i 0)
    ⟨Nat.le_refl _, findStartRow_le n b, fun _ _ => rfl⟩ ?_ x hx
  intro y succs hJ _ hsol hexp c hc
  have hrow : y.row ≠ n := by simpa [AC3Solver.policy] using hsol
  obtain ⟨col, D', _, _, _, rfl⟩ := ac3_child hexp hc
  exact static_step _ hJ hrow

theorem agrees_set {n : Nat} {b xb : Solution} {r : Nat} (col : Int)
    (hJ : Agrees n b xb) (hun : xb.getD r 0 = -1) : Agrees n b (xb.set r col) := by
  intro i hi hb
  have h := hJ i hi hb
  have hne : r ≠ i := by
    intro h'
    rw [h'] at hun
    rw [hun] at h
    exact hb h.symm
  rw [getD_set_ne _ _ _ hne]
  exact h

theorem btfcdvo_reach_agrees (n : Nat) (am : List (List (List Nat))) (maxDepth : Int)
    (b : Solution) (x : DVOSearchState)
    (hx : Reach (BTFCDVOSolver.policy n am maxDepth) (BTFCDVOSolver.initialNode n am b) x) :
    Agrees n b x.board := by
  refine Reach.inv (fun x => Agrees n b x.board) (fun _ _ _ => rfl) ?_ x hx
  intro y succs hJ _ _ hexp c hc
  obtain ⟨r, col, _, _, hun, _, _, _, rfl⟩ := btfcdvo_child hexp hc
  exact agrees_set _ hJ hun

theorem ac3dvo_reach_agrees (n : Nat) (am : List (List (List Nat))) (maxDepth : Int)
    (b : Solution) (x : DVOSearchState)
    (hx : Reach (AC3DVOSolver.policy n am maxDepth) (BTFCDVOSolver.initialNode n am b) x) :
    Agrees n b x.board := by
  refine Reach.inv (fun x => Agrees n b x.board) (fun _ _ _ => rfl) ?_ x hx
  intro y succs hJ _ _ hexp c hc
  obtain ⟨r, col, D', _, _, hun, _, _, _, rfl⟩ := ac3dvo_child hexp hc
  exact agrees_set _ hJ hun

/-- The solutions of a run on a fresh engine are boards of pushed nodes that passed the
cutoff test and the solution test. -/
theorem fresh_solutions {σ : Type} (P : Policy σ) (root : σ) (fuel : Nat) (e : Engine)
    (hrun : searchLoop P fuel [root] Engine.fresh = some e) :
    (∀ s, s ∈ e.solutions → ∃ x, Reach P root x ∧ P.atCutoff x = false ∧
      P.isSolution x = true ∧ P.board x = s) ∧
    (∀ b, b ∈ e.workQueue → ∃ x, Reach P root x ∧ P.atCutoff x = true ∧ P.board x = b) := by
  obtain ⟨L, Q, hsol, hq, hL, hQ⟩ := searchLoop_reach P root fuel [root] Engine.fresh e hrun
    (fun x hx => by rw [List.mem_singleton.mp hx]; exact Reach.root)
  have h1 : e.solutions = L := by rw [hsol]; rfl
  have h2 : e.workQueue = Q := by rw [hq]; rfl
  rw [h1, h2]
  exact ⟨hL, hQ⟩

theorem agrees_of_static {n : Nat} {b s : Solution}
    (ht : TailUnassigned n b (findStartRow n b))
    (h : ∀ i, i < findStartRow n b → s.getD i 0 = b.getD i 0) : Agrees n b s := by
  intro i hi hb
  by_cases hk : i < findStartRow n b
  · exact h i hk
  · exact absurd (ht i (by omega) hi) hb

/-- A valid placement uses every column: the columns of its rows are `n` distinct values
below `n`. -/
theorem valid_surj {n : Nat} {s : Solution} (hv : Valid n s) {v : Int} (h0 : 0 ≤ v)
    (hvn : v < (n : Int)) : ∃ r, r < n ∧ s.getD r 0 = v := by
  have hrange := hv.2.1
  let f : Fin n → Fin n := fun i =>
    ⟨(s.getD i 0).toNat, (toNat_col (hrange i i.2).1 (hrange i i.2).2).1⟩
  have hinj : Function.Injective f := by
    intro i j hij
    have h1 : (s.getD i 0).toNat = (s.getD j 0).toNat := congrArg Fin.val hij
    have hi := (toNat_col (hrange i i.2).1 (hrange i i.2).2).2
    have hj := (toNat_col (hrange j j.2).1 (hrange j j.2).2).2
    have h2 : s.getD i 0 = s.getD j 0 := by omega
    by_contra hne
    exact hv.2.2 i j i.2 j.2 (fun h => hne (Fin.ext h)) (Or.inl h2)
  obtain ⟨i, hi⟩ := (Finite.injective_iff_surjective.mp hinj) ⟨v.toNat, (toNat_col h0 hvn).1⟩
  refine ⟨i, i.2, ?_⟩
  have h1 : (s.getD i 0).toNat = v.toNat := congrArg Fin.val hi
  have h2 := (toNat_col (hrange i i.2).1 (hrange i i.2).2).2
  have h3 := (toNat_col h0 hvn).2
  omega

/-- The boards returned by `AC3Solver` agree with a legal initial board on every row it
assigns, wherever the assigned rows are: `initializeDomains` takes the column of an
assigned row out of every other row from `startRow` on, so a complete placement has to
put that column in the assigned row. -/
theorem ac3_agrees_all (n : Nat) (hn : n ≤ 63) (b : Solution) (hlen : b.length = n)
    (hok : AssignedOK n b) :
    ∃ e, AC3Solver.solve n b 0 Engine.fresh = some e ∧
      ∀ s, s ∈ e.solutions → Agrees n b s := by
  have W := AC3Solver.wf_ac3 n hn 0 n (Or.inl ⟨le_refl _, rfl⟩)
  have hs := findStartRow_spec n b
  obtain ⟨e, L, h1, h2, _, _, h5⟩ := search_from_root W (atCutoff_zero_AC3 n _) _
    (AC3Solver.root_inv_ac3 hn hlen hok) (searchFuel n)
    (searchFuel_ge n _ (by show n - findStartRow n b ≤ n; omega)) Engine.fresh
  refine ⟨e, h1, fun s hsL => ?_⟩
  have hL : e.solutions = L := by rw [h2]; rfl
  rw [hL] at hsL
  obtain ⟨hv, hpre, hdom⟩ := (h5 s).mp hsL
  intro a ha hba
  obtain ⟨h0, hlt⟩ := hok.1 a ha hba
  obtain ⟨r, hr, hsr⟩ := valid_surj hv h0 hlt
  by_cases hra : r = a
  · subst hra; exact hsr
  · exfalso
    by_cases hrk : r < findStartRow n b
    · have h3 : s.getD r 0 = b.getD r 0 := hpre r hrk
      have hbr := hs.2 r hrk
      exact hok.2 r a hr ha hra hbr hba (Or.inl (by rw [← h3, hsr]))
    · have hbit : ((AC3Solver.initializeDomains n (precomputeAttackMasks n) b
          (findStartRow n b)).getD r 0).testBit (s.getD r 0).toNat = true :=
        hdom r (by show findStartRow n b ≤ r; omega) hr
      have hb' := ((AC3Solver.testBit_initializeDomains_ac3 hn _ b _ hr (by omega) _).2.mp
        hbit).2 a ha hba (fun h => hra h.symm)
      have hsr0 := hv.2.1 r hr
      have hna := not_attacks_of_bit hn ha hr (fun h => hra h.symm) h0 hlt
        (toNat_col hsr0.1 hsr0.2).1 hb'
      apply hna
      left
      rw [(toNat_col hsr0.1 hsr0.2).2, hsr]

/-- `BTFCSolver` on a complete legal board returns that board only: the domain of a row
holds no column of an earlier row, and the board uses every column. -/
theorem btfc_agrees_complete (n : Nat) (hn : n ≤ 63) (b : Solution) (hlen : b.length = n)
    (hok : AssignedOK n b) (hfull : ∀ i, i < n → b.getD i 0 ≠ -1) :
    ∃ e, BTFCSolver.solve n b 0 Engine.fresh = some e ∧
      ∀ s, s ∈ e.solutions → Agrees n b s := by
  have W := BTFCSolver.wf_btfc n hn 0 n (Or.inl ⟨le_refl _, rfl⟩)
  have hs := findStartRow_spec n b
  obtain ⟨e, L, h1, h2, _, _, h5⟩ := search_from_root W (atCutoff_zero_BTFC n _) _
    (BTFCSolver.root_inv_btfc hn hlen hok) (searchFuel n)
    (searchFuel_ge n _ (by show n - findStartRow n b ≤ n; omega)) Engine.fresh
  refine ⟨e, h1, fun s hsL => ?_⟩
  have hL : e.solutions = L := by rw [h2]; rfl
  rw [hL] at hsL
  obtain ⟨hv, hpre, hdom⟩ := (h5 s).mp hsL
  have hvb : Valid n b :=
    ⟨hlen, fun i hi => hok.1 i hi (hfull i hi),
      fun i j hi hj hij => hok.2 i j hi hj hij (hfull i hi) (hfull j hj)⟩
  have hne : ∀ r, r < n → findStartRow n b ≤ r → ∀ p, p < r → b.getD p 0 ≠ s.getD r 0 := by
    intro r hr hsr p hp heq
    have hbit : ((BTFCSolver.initializeDomains n (precomputeAttackMasks n) b
        (findStartRow n b)).getD r 0).testBit (s.getD r 0).toNat = true := hdom r hsr hr
    have hb' := ((BTFCSolver.testBit_initializeDomains_btfc hn _ b _ hr hsr _).mp hbit).2 p hp
      (hfull p (by omega))
    obtain ⟨h0, hlt⟩ := hok.1 p (by omega) (hfull p (by omega))
    have hsr0 := hv.2.1 r hr
    have hna := not_attacks_of_bit hn (by omega : p < n) hr (by omega) h0 hlt
      (toNat_col hsr0.1 hsr0.2).1 hb'
    apply hna
    left
    rw [(toNat_col hsr0.1 hsr0.2).2]
    exact heq
  have key : ∀ k, k ≤ n → ∀ r, n - k ≤ r → r < n → s.getD r 0 = b.getD r 0 := by
    intro k
    induction k with
    | zero => intro _ r hr1 hr2; omega
    | succ k ih =>
      intro hk r hr1 hr2
      by_cases hrk : n - k ≤ r
      · exact ih (by omega) r hrk hr2
      · by_cases hrs : r < findStartRow n b
        · exact hpre r hrs
        · have hsr0 := hv.2.1 r hr2
          obtain ⟨j, hj, hbj⟩ := valid_surj hvb hsr0.1 hsr0.2
          rcases Nat.lt_trichotomy j r with h | h | h
          · exact absurd hbj (hne r hr2 (by omega) j h)
          · rw [← hbj, h]
          · have hsj := ih (by omega) j (by omega) hj
            exfalso
            exact hv.2.2 r j hr2 hj (by omega) (Or.inl (by rw [hsj, hbj]))
  intro a ha _
  exact key n (le_refl n) a (by omega) ha

theorem cutoff_false_of_lt {n k : Nat} {maxDepth : Int} (hk : k ≤ n)
    (hd : (n : Int) < maxDepth) :
    (decide (maxDepth > 0) && decide ((k : Int) = maxDepth)) = false := by
  have : ¬ ((k : Int) = maxDepth) := by omega
  simp [this]

theorem no_cutoff_queue {σ : Type} (P : Policy σ) (hcut : ∀ x, P.atCutoff x = false)
    (root : σ) (fuel : Nat) (e0 e : Engine) (hrun : searchLoop P fuel [root] e0 = some e) :
    e.workQueue = e0.workQueue := by
  obtain ⟨L, Q, _, hq, _, hQ⟩ := searchLoop_reach P root fuel [root] e0 e hrun
    (fun x hx => by rw [List.mem_singleton.mp hx]; exact Reach.root)
  have : Q = [] := by
    apply List.eq_nil_iff_forall_not_mem.mpr
    intro b hb
    obtain ⟨x, _, hx, _⟩ := hQ b hb
    rw [hcut x] at hx
    exact Bool.noConfusion hx
  rw [hq, this, List.append_nil]

theorem bt_large_cutoff (n : Nat) (b : Solution) (maxDepth : Int) (hd : (n : Int) < maxDepth)
    (e0 : Engine) : BTSolver.solve n b maxDepth e0 = BTSolver.solve n b 0 e0 := by
  apply searchLoop_congr (BTSolver.policy n 0) (BTSolver.policy n maxDepth)
    (BTSolver.initialNode n b) (fun _ => rfl) (fun _ => rfl) (fun _ => rfl)
  · intro x hx
    exact ⟨atCutoff_zero_BT n x, cutoff_false_of_lt (bt_reach_static n 0 b x hx).2.1 hd⟩
  · intro x hx
    rw [List.mem_singleton.mp hx]
    exact Reach.root

theorem btfc_large_cutoff (n : Nat) (b : Solution) (maxDepth : Int)
    (hd : (n : Int) < maxDepth) (e0 : Engine) :
    BTFCSolver.solve n b maxDepth e0 = BTFCSolver.solve n b 0 e0 := by
  apply searchLoop_congr (BTFCSolver.policy n (precomputeAttackMasks n) 0)
    (BTFCSolver.policy n (precomputeAttackMasks n) maxDepth)
    (BTFCSolver.initialNode n (precomputeAttackMasks n) b)
    (fun _ => rfl) (fun _ => rfl) (fun _ => rfl)
  · intro x hx
    exact ⟨atCutoff_zero_BTFC n _ x,
      cutoff_false_of_lt (btfc_reach_static n _ 0 b x hx).2.1 hd⟩
  · intro x hx
    rw [List.mem_singleton.mp hx]
    exact Reach.root

theorem ac3_large_cutoff (n : Nat) (b : Solution) (maxDepth : Int)
    (hd : (n : Int) < maxDepth) (e0 : Engine) :
    AC3Solver.solve n b maxDepth e0 = AC3Solver.solve n b 0 e0 := by
  apply searchLoop_congr (AC3Solver.policy n (precomputeAttackMasks n) 0)
    (AC3Solver.policy n (precomputeAttackMasks n) maxDepth)
    (AC3Solver.initialNode n (precomputeAttackMasks n) b)
    (fun _ => rfl) (fun _ => rfl) (fun _ => rfl)
  · intro x hx
    exact ⟨atCutoff_zero_AC3 n _ x,
      cutoff_false_of_lt (ac3_reach_static n _ 0 b x hx).2.1 hd⟩
  · intro x hx
    rw [List.mem_singleton.mp hx]
    exact Reach.root

theorem btfcdvo_large_cutoff (n : Nat) (b : Solution) (maxDepth : Int)
    (hd : (n : Int) < maxDepth) (e0 : Engine) :
    BTFCDVOSolver.solve n b maxDepth e0 = BTFCDVOSolver.solve n b 0 e0 := by
  apply searchLoop_congr (BTFCDVOSolver.policy n (precomputeAttackMasks n) 0)
    (BTFCDVOSolver.policy n (precomputeAttackMasks n) maxDepth)
    (BTFCDVOSolver.initialNode n (precomputeAttackMasks n) b)
    (fun _ => rfl) (fun _ => rfl) (fun _ => rfl)
  · intro x _
    exact ⟨atCutoff_zero_BTFCDVO n _ x, cutoff_false_of_lt (countAssigned_le n x.board) hd⟩
  · intro x hx
    rw [List.mem_singleton.mp hx]
    exact Reach.root

theorem ac3dvo_large_cutoff (n : Nat) (b : Solution) (maxDepth : Int)
    (hd : (n : Int) < maxDepth) (e0 : Engine) :
    AC3DVOSolver.solve n b maxDepth e0 = AC3DVOSolver.solve n b 0 e0 := by
  apply searchLoop_congr (AC3DVOSolver.policy n (precomputeAttackMasks n) 0)
    (AC3DVOSolver.policy n (precomputeAttackMasks n) maxDepth)
    (BTFCDVOSolver.initialNode n (precomputeAttackMasks n) b)
    (fun _ => rfl) (fun _ => rfl) (fun _ => rfl)
  · intro x _
    exact ⟨atCutoff_zero_AC3DVO n _ x, cutoff_false_of_lt (countAssigned_le n x.board) hd⟩
  · intro x hx
    rw [List.mem_singleton.mp hx]
    exact Reach.root

theorem large_cutoff (kind : SolverKind) (n : Nat) (b : Solution) (maxDepth : Int)
    (hd : (n : Int) < maxDepth) (e0 : Engine) :
    kind.solve n b maxDepth e0 = kind.solve n b 0 e0 := by
  cases kind
  · exact bt_large_cutoff n b maxDepth hd e0
  · exact btfc_large_cutoff n b maxDepth hd e0
  · exact btfcdvo_large_cutoff n b maxDepth hd e0
  · exact ac3_large_cutoff n b maxDepth hd e0
  · exact ac3dvo_large_cutoff n b maxDepth hd e0

theorem zero_cutoff_queue (kind : SolverKind) (n : Nat) (b : Solution) (e0 e : Engine)
    (hrun : kind.solve n b 0 e0 = some e) : e.workQueue = e0.workQueue := by
  cases kind
  · exact no_cutoff_queue _ (atCutoff_zero_BT n) _ _ e0 e hrun
  · exact no_cutoff_queue _ (atCutoff_zero_BTFC n _) _ _ e0 e hrun
  · exact no_cutoff_queue _ (atCutoff_zero_BTFCDVO n _) _ _ e0 e hrun
  · exact no_cutoff_queue _ (atCutoff_zero_AC3 n _) _ _ e0 e hrun
  · exact no_cutoff_queue _ (atCutoff_zero_AC3DVO n _) _ _ e0 e hrun

/-- C14, as stated, fails when depthCutoff equals boardSize: on the 1 × 1 board with
depthCutoff 1 the complete board `[0]` meets the cutoff test, which comes before the
solution test, so it is pushed to the queue and the solution list stays empty, while
depthCutoff 0 records the solution `[0]` and pushes nothing. -/
theorem C14_counterexample :
    (SolverKind.BT.solve 1 (emptyBoard 1) 1 Engine.fresh).map
      (fun e => (e.solutions, e.workQueue)) = some ([], [[0]]) ∧
    (SolverKind.BT.solve 1 (emptyBoard 1) 0 Engine.fresh).map
      (fun e => (e.solutions, e.workQueue)) = some ([[0]], []) := by
  constructor <;> decide

/-- C14, amended.  For every strategy and every board size n, an engine run from the
all-unassigned board with a depthCutoff greater than boardSize behaves as with no cutoff:
`solve()` returns, leaves the engine in the state that depthCutoff 0 leaves it in (so the
solution lists are equal), and pushes nothing to the shared queue. -/
theorem C14_cutoff_above_size (kind : SolverKind) (n : Nat) (maxDepth : Int)
    (hd : (n : Int) < maxDepth) (e0 : Engine) :
    ∃ e, kind.solve n (emptyBoard n) maxDepth e0 = some e ∧
      kind.solve n (emptyBoard n) 0 e0 = some e ∧ e.workQueue = e0.workQueue := by
  have hlen : (emptyBoard n).length = n := by simp [emptyBoard]
  obtain ⟨e, he⟩ := solve_total kind n (emptyBoard n) hlen 0 e0
  exact ⟨e, by rw [large_cutoff kind n _ maxDepth hd e0]; exact he, he,
    zero_cutoff_queue kind n _ e0 e he⟩

theorem C14_cutoff_above_size_witness :
    (((4 : Nat) : Int) < 5) ∧
    ∃ e, SolverKind.AC3.solve 4 (emptyBoard 4) 5 Engine.fresh = some e ∧
      SolverKind.AC3.solve 4 (emptyBoard 4) 0 Engine.fresh = some e ∧
      e.workQueue = Engine.fresh.workQueue :=
  ⟨by decide, C14_cutoff_above_size SolverKind.AC3 4 5 (by decide) Engine.fresh⟩
/-! ## Word-level facts for every board size -/

theorem testBit_shl1_gen (k i : Nat) :
    (shl1 k).testBit i = true ↔ k = i ∧ k < 64 := by
  by_cases hk : k < 64
  · rw [testBit_shl1 hk]
    simp [hk]
  · rw [shl1_ge (by omega), Nat.zero_testBit]
    constructor
    · intro h; exact Bool.noConfusion h
    · intro h; omega

theorem fullMask_ge {n : Nat} (hn : 64 ≤ n) : fullMask n = wordMax := by
  unfold fullMask
  rw [shl1_ge hn, Nat.zero_add]
  exact Nat.mod_eq_of_lt (Nat.lt_succ_self _)

/-- The bits of `(1ULL << n) - 1`: the positions below `n`, as far as the word goes. -/
theorem testBit_fullMask_gen (n c : Nat) :
    (fullMask n).testBit c = true ↔ c < n ∧ c < 64 := by
  by_cases hn : n ≤ 63
  · rw [testBit_fullMask hn]
    simp only [decide_eq_true_eq]
    omega
  · rw [fullMask_ge (by omega), testBit_wordMax]
    simp only [decide_eq_true_eq]
    omega

theorem testBit_attackMaskEntry64 {n r1 r2 c : Nat} (hc : c < n) (k : Nat) :
    (attackMaskEntry n r1 r2 c).testBit k = true ↔
      k < 64 ∧ k < n ∧ Attacks r1 (c : Int) r2 (k : Int) := by
  unfold attackMaskEntry Attacks
  simp only []
  by_cases hA : c + ((r2 : Int) - (r1 : Int)).natAbs < n
  · by_cases hB : (c : Int) - (((r2 : Int) - (r1 : Int)).natAbs : Int) ≥ 0
    · rw [if_pos hA, if_pos hB]
      simp only [Nat.testBit_lor, Nat.zero_testBit, Bool.false_or, Bool.or_eq_true,
        testBit_shl1_gen]
      omega
    · rw [if_pos hA, if_neg hB]
      simp only [Nat.testBit_lor, Nat.zero_testBit, Bool.false_or, Bool.or_eq_true,
        testBit_shl1_gen]
      omega
  · by_cases hB : (c : Int) - (((r2 : Int) - (r1 : Int)).natAbs : Int) ≥ 0
    · rw [if_neg hA, if_pos hB]
      simp only [Nat.testBit_lor, Nat.zero_testBit, Bool.false_or, Bool.or_eq_true,
        testBit_shl1_gen]
      omega
    · rw [if_neg hA, if_neg hB]
      simp only [Nat.testBit_lor, Nat.zero_testBit, Bool.false_or, testBit_shl1_gen]
      omega

theorem testBit_attackAt64 {n r1 r2 c : Nat} (h1 : r1 < n) (h2 : r2 < n) (hc : c < n)
    (hne : r1 ≠ r2) (k : Nat) :
    (attackAt (precomputeAttackMasks n) r1 r2 c).testBit k = true ↔
      k < 64 ∧ k < n ∧ Attacks r1 (c : Int) r2 (k : Int) := by
  rw [attackAt_precompute h1 h2 hc hne]
  exact testBit_attackMaskEntry64 hc k

/-- A column that survives the pruning by `(r1, col)` was in the mask and is not attacked
from `(r1, col)`; for every board size. -/
theorem testBit_pruned64 {n r1 r2 col : Nat} {d : Nat} (h1 : r1 < n) (h2 : r2 < n)
    (hcol : col < n) (hne : r1 ≠ r2) (hd : ∀ i, d.testBit i = true → i < n ∧ i < 64)
    (c : Nat)
    (h : (d &&& not64 (attackAt (precomputeAttackMasks n) r1 r2 col)).testBit c = true) :
    d.testBit c = true ∧ ¬ Attacks r1 (col : Int) r2 (c : Int) := by
  rw [testBit_and_not64_iff _ (fun i hi => (hd i hi).2)] at h
  obtain ⟨hb, hm⟩ := h
  refine ⟨hb, fun hatt => ?_⟩
  have := (testBit_attackAt64 h1 h2 hcol hne c).mpr ⟨(hd c hb).2, (hd c hb).1, hatt⟩
  rw [this] at hm
  exact Bool.noConfusion hm

/-- The test `domain & (1ULL << col)` passes only for a column of the word that is set. -/
theorem bit_of_and_shl1 {d col : Nat} (h : ((d &&& shl1 col) == 0) = false) :
    col < 64 ∧ d.testBit col = true := by
  have hcol : col < 64 := by
    by_contra hc
    rw [shl1_ge (by omega), Nat.and_zero] at h
    exact Bool.noConfusion h
  refine ⟨hcol, ?_⟩
  rw [and_shl1_eq_zero d hcol] at h
  cases hb : d.testBit col
  · rw [hb] at h; exact Bool.noConfusion h
  · rfl

/-! ## Domains of the all-unassigned board -/

theorem foldl_skip {α β : Type} (f : α → β → α) (cond : β → Bool) :
    ∀ (l : List β) (init : α), (∀ p, p ∈ l → cond p = false) →
      l.foldl (fun a p => if cond p then f a p else a) init = init := by
  intro l
  induction l with
  | nil => intro init _; rfl
  | cons a l ih =>
    intro init h
    rw [List.foldl_cons, h a (List.mem_cons_self _ _)]
    simp only [Bool.false_eq_true, if_false]
    exact ih init (fun p hp => h p (List.mem_cons_of_mem _ hp))

theorem emptyBoard_unassigned (n p : Nat) (hp : p < n) :
    ((emptyBoard n).getD p 0 != -1) = false := by
  rw [getD_emptyBoard n p hp]
  rfl

theorem btfc_init_empty (n : Nat) (am : List (List (List Nat))) {r : Nat} (hr : r < n) :
    (BTFCSolver.initializeDomains n am (emptyBoard n) 0).getD r 0 = fullMask n := by
  unfold BTFCSolver.initializeDomains
  rw [getD_map_range _ hr, if_neg (Nat.not_lt_zero r)]
  exact foldl_skip (fun available prevRow =>
      available &&& not64 (attackAt am prevRow r ((emptyBoard n).getD prevRow 0).toNat))
    (fun prevRow => (emptyBoard n).getD prevRow 0 != -1) (List.range r) (fullMask n)
    (fun p hp => emptyBoard_unassigned n p (by have := List.mem_range.mp hp; omega))

theorem ac3_init_empty (n : Nat) (am : List (List (List Nat))) (startRow : Nat) :
    AC3Solver.initializeDomains n am (emptyBoard n) startRow
      = List.replicate n (fullMask n) := by
  unfold AC3Solver.initializeDomains
  exact foldl_skip (fun domains row =>
      (List.range n).map fun otherRow =>
        if startRow ≤ otherRow && otherRow != row then
          domains.getD otherRow 0 &&&
            not64 (attackAt am row otherRow ((emptyBoard n).getD row 0).toNat)
        else domains.getD otherRow 0)
    (fun row => (emptyBoard n).getD row 0 != -1) (List.range n) _
    (fun p hp => emptyBoard_unassigned n p (List.mem_range.mp hp))

theorem dvo_init_empty (n : Nat) (am : List (List (List Nat))) :
    BTFCDVOSolver.initializeDomains n am (emptyBoard n) = List.replicate n (fullMask n) := by
  unfold BTFCDVOSolver.initializeDomains
  exact foldl_skip (fun domains row =>
      (List.range n).map fun otherRow =>
        if otherRow == row then 0
        else domains.getD otherRow 0 &&&
          not64 (attackAt am row otherRow ((emptyBoard n).getD row 0).toNat))
    (fun row => (emptyBoard n).getD row 0 != -1) (List.range n) _
    (fun p hp => emptyBoard_unassigned n p (List.mem_range.mp hp))
/-! ## Claims C16, C18 and C19: what `initializeDomains` returns -/

theorem findStartRow_le_unassigned {n : Nat} {b : Solution} {r : Nat}
    (hun : b.getD r 0 = -1) : findStartRow n b ≤ r := by
  by_contra h
  exact (findStartRow_spec n b).2 r (by omega) hun

theorem foldl_hit_zero (cond : Nat → Bool) (mask : Nat → Nat) (r : Nat) :
    ∀ (l : List Nat) (init : Nat), (init = 0 ∨ (r ∈ l ∧ cond r = true)) →
      l.foldl (fun a p => if cond p then (if r == p then 0 else a &&& not64 (mask p)) else a)
        init = 0 := by
  intro l
  induction l with
  | nil =>
    intro init h
    rcases h with h | ⟨h, _⟩
    · exact h
    · exact absurd h (List.not_mem_nil _)
  | cons a l ih =>
    intro init h
    rw [List.foldl_cons]
    apply ih
    by_cases hra : r = a
    · left
      subst hra
      rcases h with h | ⟨_, hc⟩
      · by_cases hc : cond r = true
        · rw [if_pos hc]; simp
        · rw [if_neg hc]; exact h
      · rw [if_pos hc]; simp
    · rcases h with h | ⟨hm, hc⟩
      · left
        rw [h]
        by_cases hc : cond a = true
        · rw [if_pos hc]
          have : (r == a) = false := by simpa using hra
          rw [this]
          simp
        · rw [if_neg hc]
      · right
        rcases List.mem_cons.mp hm with h' | h'
        · exact absurd h' hra
        · exact ⟨h', hc⟩

/-- In the dynamic-order engines `initializeDomains` leaves 0 in every assigned row. -/
theorem dvo_init_zero (n : Nat) (am : List (List (List Nat))) (b : Solution) {r : Nat}
    (hr : r < n) (hb : b.getD r 0 ≠ -1) :
    (BTFCDVOSolver.initializeDomains n am b).getD r 0 = 0 := by
  unfold BTFCDVOSolver.initializeDomains
  obtain ⟨_, h2⟩ := getD_foldl_rows n (fun row => b.getD row 0 != -1)
    (fun row otherRow v => if otherRow == row then 0 else
      v &&& not64 (attackAt am row otherRow (b.getD row 0).toNat))
    (List.range n) (List.replicate n (fullMask n)) (by simp)
  rw [h2 r hr]
  exact foldl_hit_zero (fun p => b.getD p 0 != -1)
    (fun p => attackAt am p r (b.getD p 0).toNat) r (List.range n) _
    (Or.inr ⟨List.mem_range.mpr hr, bne_iff_ne.mpr hb⟩)

theorem maskSubset_zero_eq {a : Nat} (h : MaskSubset a 0) : a = 0 := by
  apply Nat.eq_of_testBit_eq
  intro i
  rw [Nat.zero_testBit]
  cases hb : a.testBit i
  · rfl
  · have := h i hb
    rw [Nat.zero_testBit] at this
    exact Bool.noConfusion this

/-- The zero sentinel on the stack of `BTFCDVOSolver`. -/
theorem btfcdvo_reach_zero (n : Nat) (am : List (List (List Nat))) (maxDepth : Int)
    (b : Solution) (x : DVOSearchState)
    (hx : Reach (BTFCDVOSolver.policy n am maxDepth) (BTFCDVOSolver.initialNode n am b) x) :
    ∀ r, r < n → x.board.getD r 0 ≠ -1 → x.domains.getD r 0 = 0 := by
  refine Reach.inv (fun x => ∀ r, r < n → x.board.getD r 0 ≠ -1 → x.domains.getD r 0 = 0)
    (fun r hr hb => dvo_init_zero n am b hr hb) ?_ x hx
  intro y succs hJ _ _ hexp c hc
  obtain ⟨r0, col, _, _, _, _, _, _, rfl⟩ := btfcdvo_child hexp hc
  intro r hr hb
  show (BTFCDVOSolver.pruneOthers n am y.board y.domains r0 col).getD r 0 = 0
  rw [getD_pruneOthers am _ _ _ _ hr]
  by_cases h : r = r0
  · have : (r == r0) = true := by simpa using h
    rw [this]; rfl
  · have h1 : (r == r0) = false := by simpa using h
    have hb' : y.board.getD r 0 ≠ -1 := by
      have hb2 : (y.board.set r0 (col : Int)).getD r 0 ≠ -1 := hb
      rwa [getD_set_ne _ _ _ (fun h' => h h'.symm)] at hb2
    have h2 : (y.board.getD r 0 != -1) = true := bne_iff_ne.mpr hb'
    rw [h1, h2]
    simp only [Bool.false_eq_true, if_false, if_true]
    exact hJ r hr hb'

/-- The zero sentinel on the stack of `AC3DVOSolver`. -/
theorem ac3dvo_reach_zero (n : Nat) (am : List (List (List Nat))) (maxDepth : Int)
    (b : Solution) (x : DVOSearchState)
    (hx : Reach (AC3DVOSolver.policy n am maxDepth) (BTFCDVOSolver.initialNode n am b) x) :
    ∀ r, r < n → x.board.getD r 0 ≠ -1 → x.domains.getD r 0 = 0 := by
  refine Reach.inv (fun x => ∀ r, r < n → x.board.getD r 0 ≠ -1 → x.domains.getD r 0 = 0)
    (fun r hr hb => dvo_init_zero n am b hr hb) ?_ x hx
  intro y succs hJ _ _ hexp c hc
  obtain ⟨r0, col, D', _, _, _, _, _, henf, rfl⟩ := ac3dvo_child hexp hc
  intro r hr hb
  show D'.getD r 0 = 0
  have hsub := (ac3dvo_enforce_subset (length_pruneOthers_ac3 n am y.domains r0 col) henf).2 r
  apply maskSubset_zero_eq
  refine hsub.trans ?_
  unfold AC3DVOSolver.pruneOthers
  rw [getD_map_range _ hr]
  by_cases h : r = r0
  · have : (r == r0) = true := by simpa using h
    rw [this]
    exact maskSubset_refl _
  · have h1 : (r == r0) = false := by simpa using h
    have hb' : y.board.getD r 0 ≠ -1 := by
      have hb2 : (y.board.set r0 (col : Int)).getD r 0 ≠ -1 := hb
      rwa [getD_set_ne _ _ _ (fun h' => h h'.symm)] at hb2
    rw [h1, hJ r hr hb']
    simp only [Bool.false_eq_true, if_false, Nat.zero_and]
    exact maskSubset_refl _

/-- C16, as stated, fails for the two static-order domain engines, which never write 0
into an assigned row.  On the board `[-1, 0]` both `BTFCSolver::initializeDomains` and
`AC3Solver::initializeDomains` leave the full mask 3 in the assigned row 1; and on the
1 × 1 board the successor of the first node of either engine has row 0 assigned with
mask 1. -/
theorem C16_counterexample :
    ([-1, 0] : Solution).getD 1 0 ≠ -1 ∧
    (BTFCSolver.initializeDomains 2 (precomputeAttackMasks 2) [-1, 0]
      (findStartRow 2 [-1, 0])).getD 1 0 = 3 ∧
    (AC3Solver.initializeDomains 2 (precomputeAttackMasks 2) [-1, 0]
      (findStartRow 2 [-1, 0])).getD 1 0 = 3 ∧
    (∃ x, Reach (BTFCSolver.policy 1 (precomputeAttackMasks 1) 0)
        (BTFCSolver.initialNode 1 (precomputeAttackMasks 1) (emptyBoard 1)) x ∧
      x.board.getD 0 0 ≠ -1 ∧ x.domains.getD 0 0 ≠ 0) ∧
    (∃ x, Reach (AC3Solver.policy 1 (precomputeAttackMasks 1) 0)
        (AC3Solver.initialNode 1 (precomputeAttackMasks 1) (emptyBoard 1)) x ∧
      x.board.getD 0 0 ≠ -1 ∧ x.domains.getD 0 0 ≠ 0) := by
  have h1 : (BTFCSolver.policy 1 (precomputeAttackMasks 1) 0).expand
      (BTFCSolver.initialNode 1 (precomputeAttackMasks 1) (emptyBoard 1))
      = some [{ board := [0], row := 1, domains := [1] }] := by decide
  have h2 : (AC3Solver.policy 1 (precomputeAttackMasks 1) 0).expand
      (AC3Solver.initialNode 1 (precomputeAttackMasks 1) (emptyBoard 1))
      = some [{ board := [0], row := 1, domains := [1] }] := by decide
  exact ⟨by decide, by decide, by decide,
    ⟨_, Reach.push Reach.root (by decide) (by decide) h1 (List.mem_singleton.mpr rfl),
      by decide, by decide⟩,
    ⟨_, Reach.push Reach.root (by decide) (by decide) h2 (List.mem_singleton.mpr rfl),
      by decide, by decide⟩⟩

/-- C16, amended.  In the two dynamic-order engines (`BTFCDVOSolver`, `AC3DVOSolver`,
which share the text of `initializeDomains`), for every board size, every partial board
and every cutoff: every row that the board assigns has mask 0 in the vector returned by
`initializeDomains`, and every row that the board of a node pushed on the search stack
assigns has mask 0 in the domain vector of that node. -/
theorem C16_zero_sentinel (n : Nat) (attackMask : List (List (List Nat))) (maxDepth : Int)
    (initialState : Solution) :
    (∀ r, r < n → initialState.getD r 0 ≠ -1 →
      (BTFCDVOSolver.initializeDomains n attackMask initialState).getD r 0 = 0) ∧
    (∀ x, Reach (BTFCDVOSolver.policy n attackMask maxDepth)
        (BTFCDVOSolver.initialNode n attackMask initialState) x →
      ∀ r, r < n → x.board.getD r 0 ≠ -1 → x.domains.getD r 0 = 0) ∧
    (∀ x, Reach (AC3DVOSolver.policy n attackMask maxDepth)
        (BTFCDVOSolver.initialNode n attackMask initialState) x →
      ∀ r, r < n → x.board.getD r 0 ≠ -1 → x.domains.getD r 0 = 0) :=
  ⟨fun _ hr hb => dvo_init_zero n attackMask initialState hr hb,
    btfcdvo_reach_zero n attackMask maxDepth initialState,
    ac3dvo_reach_zero n attackMask maxDepth initialState⟩

theorem C16_zero_sentinel_witness :
    (1 < 4) ∧ ([-1, 2, -1, -1] : Solution).getD 1 0 ≠ -1 ∧
    (BTFCDVOSolver.initializeDomains 4 (precomputeAttackMasks 4) [-1, 2, -1, -1]).getD 1 0
      = 0 :=
  ⟨by decide, by decide,
    (C16_zero_sentinel 4 (precomputeAttackMasks 4) 0 [-1, 2, -1, -1]).1 1 (by decide)
      (by decide)⟩

/-- C18, as stated, fails for `BTFCSolver`, whose `initializeDomains` looks at the rows
before `row` only: on the board `[-1, 0]` the unassigned row 0 keeps column 0 although
`attackMask[1][0][board[1]]` holds it. -/
theorem C18_counterexample :
    ([-1, 0] : Solution).getD 0 0 = -1 ∧ ([-1, 0] : Solution).getD 1 0 ≠ -1 ∧
    ((BTFCSolver.initializeDomains 2 (precomputeAttackMasks 2) [-1, 0]
      (findStartRow 2 [-1, 0])).getD 0 0).testBit 0 = true ∧
    (attackAt (precomputeAttackMasks 2) 1 0 (([-1, 0] : Solution).getD 1 0).toNat).testBit 0
      = true := by
  decide

/-- C18, amended.  For every n ≤ 63, every partial board and every unassigned row r < n,
the mask that `initializeDomains` gives to row r (called as `solve` calls it, with the
first unassigned row as `startRow` in the static-order engines) has bit c set iff c < n
and c is not a bit of `attackMask[a][r][board[a]]` for any assigned row a: any assigned
row in `AC3Solver`, `BTFCDVOSolver` and `AC3DVOSolver`, but only the assigned rows
a < r in `BTFCSolver`. -/
theorem C18_domain_initialisation (n : Nat) (hn : n ≤ 63)
    (attackMask : List (List (List Nat))) (board : Solution) (r : Nat) (hr : r < n)
    (hun : board.getD r 0 = -1) (c : Nat) :
    (((BTFCSolver.initializeDomains n attackMask board (findStartRow n board)).getD r 0).testBit
        c = true ↔
      c < n ∧ ∀ a, a < r → board.getD a 0 ≠ -1 →
        (attackAt attackMask a r (board.getD a 0).toNat).testBit c = false) ∧
    (((AC3Solver.initializeDomains n attackMask board (findStartRow n board)).getD r 0).testBit
        c = true ↔
      c < n ∧ ∀ a, a < n → board.getD a 0 ≠ -1 →
        (attackAt attackMask a r (board.getD a 0).toNat).testBit c = false) ∧
    (((BTFCDVOSolver.initializeDomains n attackMask board).getD r 0).testBit c = true ↔
      c < n ∧ ∀ a, a < n → board.getD a 0 ≠ -1 →
        (attackAt attackMask a r (board.getD a 0).toNat).testBit c = false) := by
  have hsr := findStartRow_le_unassigned (n := n) hun
  have hne : ∀ a, board.getD a 0 ≠ -1 → a ≠ r := by
    intro a ha h
    rw [h] at ha
    exact ha hun
  refine ⟨BTFCSolver.testBit_initializeDomains_btfc hn attackMask board _ hr hsr c, ?_, ?_⟩
  · rw [(AC3Solver.testBit_initializeDomains_ac3 hn attackMask board _ hr hsr c).2]
    constructor
    · rintro ⟨h1, h2⟩
      exact ⟨h1, fun a ha hb => h2 a ha hb (hne a hb)⟩
    · rintro ⟨h1, h2⟩
      exact ⟨h1, fun a ha hb _ => h2 a ha hb⟩
  · rw [(BTFCDVOSolver.testBit_initializeDomains_btfcdvo hn attackMask board hr c).2]
    constructor
    · rintro ⟨h1, h2⟩
      exact ⟨h1, fun a ha hb => (h2 a ha hb).2⟩
    · rintro ⟨h1, h2⟩
      exact ⟨h1, fun a ha hb => ⟨hne a hb, h2 a ha hb⟩⟩

theorem C18_domain_initialisation_witness :
    (2 ≤ 63) ∧ (0 < 2) ∧ ([-1, 0] : Solution).getD 0 0 = -1 ∧
    (((AC3Solver.initializeDomains 2 (precomputeAttackMasks 2) [-1, 0]
        (findStartRow 2 [-1, 0])).getD 0 0).testBit 0 = true ↔
      0 < 2 ∧ ∀ a, a < 2 → ([-1, 0] : Solution).getD a 0 ≠ -1 →
        (attackAt (precomputeAttackMasks 2) a 0 (([-1, 0] : Solution).getD a 0).toNat).testBit 0
          = false) :=
  ⟨by decide, by decide, by decide,
    (C18_domain_initialisation 2 (by decide) (precomputeAttackMasks 2) [-1, 0] 0 (by decide)
      (by decide) 0).2.1⟩

/-- C19, as stated, fails from board size 65 on: a mask is a 64-bit word, so it has no
bit 64, although 64 < 65 asks for one.  The shift `1ULL << n` is defined in C++ only for
n < 64, which bounds the amended statement by 63. -/
theorem C19_counterexample :
    (64 < 65) ∧
    ((BTFCSolver.initializeDomains 65 (precomputeAttackMasks 65) (emptyBoard 65) 0).getD 0
      0).testBit 64 = false ∧
    ((AC3Solver.initializeDomains 65 (precomputeAttackMasks 65) (emptyBoard 65) 0).getD 0
      0).testBit 64 = false ∧
    ((BTFCDVOSolver.initializeDomains 65 (precomputeAttackMasks 65) (emptyBoard 65)).getD 0
      0).testBit 64 = false := by
  have h : (fullMask 65).testBit 64 = false := by decide
  refine ⟨by decide, ?_, ?_, ?_⟩
  · rw [btfc_init_empty 65 _ (by decide)]; exact h
  · rw [ac3_init_empty, getD_replicate_lt _ _ _ (by decide)]; exact h
  · rw [dvo_init_empty, getD_replicate_lt _ _ _ (by decide)]; exact h

/-- C19, amended.  For every board size n with 0 ≤ n ≤ 63, initialising domains from the
all-unassigned board of length n (in each of the four domain-based engines; the two
dynamic-order engines share the text of `initializeDomains`) yields, for every row r < n,
a mask in which exactly the bits 0..n-1 are set. -/
theorem C19_full_domains (n : Nat) (hn : n ≤ 63) (attackMask : List (List (List Nat)))
    (r : Nat) (hr : r < n) (c : Nat) :
    (((BTFCSolver.initializeDomains n attackMask (emptyBoard n)
        (findStartRow n (emptyBoard n))).getD r 0).testBit c = true ↔ c < n) ∧
    (((AC3Solver.initializeDomains n attackMask (emptyBoard n)
        (findStartRow n (emptyBoard n))).getD r 0).testBit c = true ↔ c < n) ∧
    (((BTFCDVOSolver.initializeDomains n attackMask (emptyBoard n)).getD r 0).testBit c = true
      ↔ c < n) := by
  have hfull : (fullMask n).testBit c = true ↔ c < n := by
    rw [testBit_fullMask_gen]
    omega
  refine ⟨?_, ?_, ?_⟩
  · rw [findStartRow_emptyBoard, btfc_init_empty n _ hr]; exact hfull
  · rw [ac3_init_empty, getD_replicate_lt _ _ _ hr]; exact hfull
  · rw [dvo_init_empty, getD_replicate_lt _ _ _ hr]; exact hfull

theorem C19_full_domains_witness :
    (63 ≤ 63) ∧ (62 < 63) ∧
    (((BTFCDVOSolver.initializeDomains 63 (precomputeAttackMasks 63) (emptyBoard 63)).getD 62
      0).testBit 62 = true ↔ 62 < 63) :=
  ⟨by decide, by decide,
    (C19_full_domains 63 (by decide) (precomputeAttackMasks 63) 62 (by decide) 62).2.2⟩
/-! ## Claim C17: domain bits mean legality -/

theorem not_attacks_iff (i : Nat) (v : Int) (r : Nat) (c : Int) :
    ¬ Attacks i v r c ↔ (v ≠ c ∧ (v - c).natAbs ≠ ((i : Int) - (r : Int)).natAbs) := by
  unfold Attacks
  constructor
  · intro h
    exact ⟨fun h1 => h (Or.inl h1), fun h2 => h (Or.inr h2)⟩
  · rintro ⟨h1, h2⟩ h
    rcases h with h | h
    · exact h1 h
    · exact h2 h

/-- The exact stack invariant of `BTFCSolver` below the all-unassigned board: the rows
before `row` are assigned, the others are not, and the mask of a row from `row` on holds
the columns below `n` that no row before `row` attacks. -/
theorem btfc_reach_exact (n : Nat) (hn : n ≤ 63) (maxDepth : Int) (x : FCSearchState)
    (hx : Reach (BTFCSolver.policy n (precomputeAttackMasks n) maxDepth)
      (BTFCSolver.initialNode n (precomputeAttackMasks n) (emptyBoard n)) x) :
    x.board.length = n ∧ x.row ≤ n ∧
    (∀ i, i < x.row → 0 ≤ x.board.getD i 0 ∧ x.board.getD i 0 < (n : Int)) ∧
    TailUnassigned n x.board x.row ∧
    ∀ r c, x.row ≤ r → r < n → ((x.domains.getD r 0).testBit c = true ↔
      c < n ∧ ∀ i, i < x.row → ¬ Attacks i (x.board.getD i 0) r (c : Int)) := by
  refine Reach.inv (fun x => x.board.length = n ∧ x.row ≤ n ∧
    (∀ i, i < x.row → 0 ≤ x.board.getD i 0 ∧ x.board.getD i 0 < (n : Int)) ∧
    TailUnassigned n x.board x.row ∧
    ∀ r c, x.row ≤ r → r < n → ((x.domains.getD r 0).testBit c = true ↔
      c < n ∧ ∀ i, i < x.row → ¬ Attacks i (x.board.getD i 0) r (c : Int))) ?_ ?_ x hx
  · have hrow : (BTFCSolver.initialNode n (precomputeAttackMasks n) (emptyBoard n)).row = 0 :=
      findStartRow_emptyBoard n
    refine ⟨by simp [BTFCSolver.initialNode, emptyBoard], by rw [hrow]; exact Nat.zero_le _,
      ?_, ?_, ?_⟩
    · intro i hi
      rw [hrow] at hi
      exact absurd hi (Nat.not_lt_zero i)
    · intro i _ hin
      exact getD_emptyBoard n i hin
    · intro r c _ hr
      show ((BTFCSolver.initializeDomains n (precomputeAttackMasks n) (emptyBoard n)
        (findStartRow n (emptyBoard n))).getD r 0).testBit c = true ↔ _
      rw [findStartRow_emptyBoard, btfc_init_empty n _ hr, testBit_fullMask hn, hrow]
      simp only [decide_eq_true_eq]
      constructor
      · intro h
        exact ⟨h, fun i hi => absurd hi (Nat.not_lt_zero i)⟩
      · intro h
        exact h.1
  · intro y succs hJ _ hsol hexp c hc
    obtain ⟨hlen, hrn, hrange, htail, hdom⟩ := hJ
    have hrow : y.row ≠ n := by simpa [BTFCSolver.policy] using hsol
    obtain ⟨col, hcol, hbit, _, rfl⟩ := btfc_child hexp hc
    have hget := getD_set_ite y.board (col : Int) (by omega : y.row < y.board.length)
    refine ⟨by show (y.board.set y.row (col : Int)).length = n; rw [List.length_set]; exact hlen,
      by show y.row + 1 ≤ n; omega, ?_, tail_set _ htail, ?_⟩
    · intro i hi
      show 0 ≤ (y.board.set y.row (col : Int)).getD i 0 ∧
        (y.board.set y.row (col : Int)).getD i 0 < (n : Int)
      have hi' : i < y.row + 1 := hi
      rw [hget i]
      by_cases h : i = y.row
      · rw [if_pos h]; omega
      · rw [if_neg h]; exact hrange i (by omega)
    · intro r c' hr hrn'
      have hr' : y.row + 1 ≤ r := hr
      show ((pruneFuture n (precomputeAttackMasks n) y.domains y.row col).getD r 0).testBit c'
        = true ↔ c' < n ∧ ∀ i, i < y.row + 1 →
          ¬ Attacks i ((y.board.set y.row (col : Int)).getD i 0) r (c' : Int)
      rw [getD_pruneFuture _ _ _ _ hrn', if_pos hr',
        testBit_pruned hn (by omega) hrn' hcol (by omega)
          (fun i hi => ((hdom r i (by omega) hrn').mp hi).1) c',
        hdom r c' (by omega) hrn']
      constructor
      · rintro ⟨⟨h1, h2⟩, h3⟩
        refine ⟨h1, fun i hi => ?_⟩
        rw [hget i]
        by_cases h : i = y.row
        · rw [if_pos h, h]; exact h3
        · rw [if_neg h]; exact h2 i (by omega)
      · rintro ⟨h1, h2⟩
        refine ⟨⟨h1, fun i hi => ?_⟩, ?_⟩
        · have := h2 i (by omega)
          rw [hget i, if_neg (by omega)] at this
          exact this
        · have := h2 y.row (by omega)
          rw [hget y.row, if_pos rfl] at this
          exact this

/-- The exact stack invariant of `BTFCDVOSolver` below the all-unassigned board: the mask
of an unassigned row holds the columns below `n` that no assigned row attacks. -/
theorem btfcdvo_reach_exact (n : Nat) (hn : n ≤ 63) (maxDepth : Int) (x : DVOSearchState)
    (hx : Reach (BTFCDVOSolver.policy n (precomputeAttackMasks n) maxDepth)
      (BTFCDVOSolver.initialNode n (precomputeAttackMasks n) (emptyBoard n)) x) :
    x.board.length = n ∧
    ∀ r c, r < n → x.board.getD r 0 = -1 → ((x.domains.getD r 0).testBit c = true ↔
      c < n ∧ ∀ i, i < n → x.board.getD i 0 ≠ -1 →
        ¬ Attacks i (x.board.getD i 0) r (c : Int)) := by
  refine Reach.inv (fun x => x.board.length = n ∧
    ∀ r c, r < n → x.board.getD r 0 = -1 → ((x.domains.getD r 0).testBit c = true ↔
      c < n ∧ ∀ i, i < n → x.board.getD i 0 ≠ -1 →
        ¬ Attacks i (x.board.getD i 0) r (c : Int))) ?_ ?_ x hx
  · refine ⟨by simp [BTFCDVOSolver.initialNode, emptyBoard], ?_⟩
    intro r c hr _
    show ((BTFCDVOSolver.initializeDomains n (precomputeAttackMasks n) (emptyBoard n)).getD r
      0).testBit c = true ↔ _
    rw [dvo_init_empty, getD_replicate_lt _ _ _ hr, testBit_fullMask hn]
    simp only [decide_eq_true_eq]
    constructor
    · intro h
      exact ⟨h, fun i hi hb => absurd (getD_emptyBoard n i hi) hb⟩
    · intro h
      exact h.1
  · intro y succs hJ _ _ hexp c hc
    obtain ⟨hlen, hdom⟩ := hJ
    obtain ⟨r0, col, hr0, _, hun0, hcol, _, _, rfl⟩ := btfcdvo_child hexp hc
    have hget := getD_set_ite y.board (col : Int) (by omega : r0 < y.board.length)
    have hcolne : (col : Int) ≠ -1 := by omega
    refine ⟨by show (y.board.set r0 (col : Int)).length = n; rw [List.length_set]; exact hlen,
      ?_⟩
    intro r c' hr hun
    have hun' : (y.board.set r0 (col : Int)).getD r 0 = -1 := hun
    rw [hget r] at hun'
    have hne : r ≠ r0 := by
      intro h
      rw [if_pos h] at hun'
      exact hcolne hun'
    rw [if_neg hne] at hun'
    show ((BTFCDVOSolver.pruneOthers n (precomputeAttackMasks n) y.board y.domains r0 col).getD
      r 0).testBit c' = true ↔ c' < n ∧ ∀ i, i < n →
        (y.board.set r0 (col : Int)).getD i 0 ≠ -1 →
        ¬ Attacks i ((y.board.set r0 (col : Int)).getD i 0) r (c' : Int)
    rw [getD_pruneOthers _ _ _ _ _ hr]
    have h1 : (r == r0) = false := by simpa using hne
    have h2 : (y.board.getD r 0 != -1) = false := by rw [hun']; rfl
    rw [h1, h2]
    simp only [Bool.false_eq_true, if_false]
    rw [testBit_pruned hn hr0 hr hcol (fun h => hne h.symm)
        (fun i hi => ((hdom r i hr hun').mp hi).1) c',
      hdom r c' hr hun']
    constructor
    · rintro ⟨⟨h1, h2⟩, h3⟩
      refine ⟨h1, fun i hi hb => ?_⟩
      rw [hget i] at hb ⊢
      by_cases h : i = r0
      · rw [if_pos h, h]; exact h3
      · rw [if_neg h] at hb ⊢; exact h2 i hi hb
    · rintro ⟨h1, h2⟩
      refine ⟨⟨h1, fun i hi hb => ?_⟩, ?_⟩
      · have hir : i ≠ r0 := by
          intro h
          rw [h] at hb
          exact hb hun0
        have := h2 i hi (by rw [hget i, if_neg hir]; exact hb)
        rw [hget i, if_neg hir] at this
        exact this
      · have := h2 r0 hr0 (by rw [hget r0, if_pos rfl]; exact hcolne)
        rw [hget r0, if_pos rfl] at this
        exact this

/-- C17: domain bits mean legality.  For the forward-checking engines (`BTFCSolver` and
`BTFCDVOSolver`) run from the all-unassigned board with n ≤ 63 and any cutoff, at every
node pushed on the stack and every row r < n that the node's board leaves unassigned, bit
c of `domains[r]` is set iff c < n and no assigned row i of the node's board has
board[i] = c or |board[i] - c| = |i - r|. -/
theorem C17_domain_bits_mean_legality (n : Nat) (hn : n ≤ 63) (maxDepth : Int) :
    (∀ x, Reach (BTFCSolver.policy n (precomputeAttackMasks n) maxDepth)
        (BTFCSolver.initialNode n (precomputeAttackMasks n) (emptyBoard n)) x →
      ∀ r, r < n → x.board.getD r 0 = -1 → ∀ c : Nat,
        ((x.domains.getD r 0).testBit c = true ↔
          c < n ∧ ∀ i, i < n → x.board.getD i 0 ≠ -1 →
            x.board.getD i 0 ≠ (c : Int) ∧
            (x.board.getD i 0 - (c : Int)).natAbs ≠ ((i : Int) - (r : Int)).natAbs)) ∧
    (∀ x, Reach (BTFCDVOSolver.policy n (precomputeAttackMasks n) maxDepth)
        (BTFCDVOSolver.initialNode n (precomputeAttackMasks n) (emptyBoard n)) x →
      ∀ r, r < n → x.board.getD r 0 = -1 → ∀ c : Nat,
        ((x.domains.getD r 0).testBit c = true ↔
          c < n ∧ ∀ i, i < n → x.board.getD i 0 ≠ -1 →
            x.board.getD i 0 ≠ (c : Int) ∧
            (x.board.getD i 0 - (c : Int)).natAbs ≠ ((i : Int) - (r : Int)).natAbs)) := by
  constructor
  · intro x hx r hr hun c
    obtain ⟨_, _, hrange, htail, hdom⟩ := btfc_reach_exact n hn maxDepth x hx
    have hrow : x.row ≤ r := by
      by_contra h
      have := (hrange r (by omega)).1
      rw [hun] at this
      omega
    rw [hdom r c hrow hr]
    constructor
    · rintro ⟨h1, h2⟩
      refine ⟨h1, fun i hi hb => ?_⟩
      have hix : i < x.row := by
        by_contra h
        exact hb (htail i (by omega) hi)
      exact (not_attacks_iff _ _ _ _).mp (h2 i hix)
    · rintro ⟨h1, h2⟩
      refine ⟨h1, fun i hi => ?_⟩
      have hb : x.board.getD i 0 ≠ -1 := by
        have := (hrange i hi).1
        omega
      exact (not_attacks_iff _ _ _ _).mpr (h2 i (by omega) hb)
  · intro x hx r hr hun c
    obtain ⟨_, hdom⟩ := btfcdvo_reach_exact n hn maxDepth x hx
    rw [hdom r c hr hun]
    constructor
    · rintro ⟨h1, h2⟩
      exact ⟨h1, fun i hi hb => (not_attacks_iff _ _ _ _).mp (h2 i hi hb)⟩
    · rintro ⟨h1, h2⟩
      exact ⟨h1, fun i hi hb => (not_attacks_iff _ _ _ _).mpr (h2 i hi hb)⟩

theorem C17_domain_bits_mean_legality_witness :
    (4 ≤ 63) ∧ (2 < 4) ∧
    ((BTFCDVOSolver.initialNode 4 (precomputeAttackMasks 4) (emptyBoard 4)).board.getD 2 0
      = -1) ∧
    (((BTFCDVOSolver.initialNode 4 (precomputeAttackMasks 4) (emptyBoard 4)).domains.getD 2
        0).testBit 3 = true ↔
      3 < 4 ∧ ∀ i, i < 4 →
        (BTFCDVOSolver.initialNode 4 (precomputeAttackMasks 4) (emptyBoard 4)).board.getD i 0
          ≠ -1 →
        (BTFCDVOSolver.initialNode 4 (precomputeAttackMasks 4) (emptyBoard 4)).board.getD i 0
          ≠ ((3 : Nat) : Int) ∧
        ((BTFCDVOSolver.initialNode 4 (precomputeAttackMasks 4) (emptyBoard 4)).board.getD i 0
          - ((3 : Nat) : Int)).natAbs ≠ ((i : Int) - ((2 : Nat) : Int)).natAbs) :=
  ⟨by decide, by decide, by decide,
    (C17_domain_bits_mean_legality 4 (by decide) 0).2 _ Reach.root 2 (by decide) (by decide)
      3⟩
/-! ## Seed runs for every board size -/

theorem fc_child_inv64 {n m : Nat} {x : FCSearchState} {col : Nat} {nd : List Nat}
    (hinv : FCInv n m x) (h64 : ∀ r c, (x.domains.getD r 0).testBit c = true → c < 64)
    (hrow : x.row < n) (hrowm : x.row < m)
    (hbit : (x.domains.getD x.row 0).testBit col = true) (hlen : nd.length = n)
    (hsub : ∀ r c, x.row + 1 ≤ r → r < n → (nd.getD r 0).testBit c = true →
      (x.domains.getD r 0 &&& not64 (attackAt (precomputeAttackMasks n) x.row r col)).testBit c
        = true) :
    FCInv n m { board := x.board.set x.row (col : Int), row := x.row + 1, domains := nd } := by
  obtain ⟨hbl, hdl, _, _, hp, hdom⟩ := hinv
  have hc := hdom x.row col (le_refl _) hrow hbit
  refine ⟨by simpa using hbl, hlen, by show x.row + 1 ≤ n; omega, by show x.row + 1 ≤ m; omega,
    prefixOK_set hbl hrow hc.1 hp hc.2, ?_⟩
  intro r c hr hrn hb
  have hr' : x.row + 1 ≤ r := hr
  have h1 := testBit_pruned64 hrow hrn hc.1 (by omega)
    (fun i hi => ⟨(hdom r i (by omega) hrn hi).1, h64 r i hi⟩) c (hsub r c hr' hrn hb)
  have h2 := hdom r c (by omega) hrn h1.1
  refine ⟨h2.1, ?_⟩
  intro i hi
  have hi' : i < x.row + 1 := hi
  show ¬ Attacks i ((x.board.set x.row (col : Int)).getD i 0) r (c : Int)
  by_cases h : i = x.row
  · subst h
    rw [getD_set_eq _ _ _ (by omega)]
    exact h1.2
  · rw [getD_set_ne _ _ _ (fun h' => h h'.symm)]
    exact h2.2 i (by omega)

theorem dvo_child_inv64 {n m : Nat} {x : DVOSearchState} {r col : Nat} {nd : List Nat}
    (hinv : DVOInv n m x) (h64 : ∀ r c, (x.domains.getD r 0).testBit c = true → c < 64)
    (hr : r < n) (hun : x.board.getD r 0 = -1)
    (hcm : countAssigned n x.board < m)
    (hbit : (x.domains.getD r 0).testBit col = true) (hlen : nd.length = n)
    (hsub : ∀ r' c, r' < n → r' ≠ r → x.board.getD r' 0 = -1 →
      (nd.getD r' 0).testBit c = true →
      (x.domains.getD r' 0 &&& not64 (attackAt (precomputeAttackMasks n) r r' col)).testBit c
        = true) :
    DVOInv n m { board := x.board.set r (col : Int), domains := nd } := by
  obtain ⟨hbl, hdl, _, hok, hdom⟩ := hinv
  have hc := hdom r col hr hun hbit
  have hget := getD_set_ite x.board (col : Int) (by omega : r < x.board.length)
  have hcolne : (col : Int) ≠ -1 := by omega
  refine ⟨by simpa using hbl, hlen, ?_, ⟨?_, ?_⟩, ?_⟩
  · show countAssigned n (x.board.set r (col : Int)) ≤ m
    rw [countAssigned_set hr hbl hun hcolne]
    omega
  · intro i hi hne
    show 0 ≤ (x.board.set r (col : Int)).getD i 0 ∧ (x.board.set r (col : Int)).getD i 0 < n
    have hne' : (x.board.set r (col : Int)).getD i 0 ≠ -1 := hne
    rw [hget i] at hne' ⊢
    by_cases h : i = r
    · rw [if_pos h]; omega
    · rw [if_neg h] at hne' ⊢; exact hok.1 i hi hne'
  · intro i j hi hj hij hni hnj
    show ¬ Attacks i ((x.board.set r (col : Int)).getD i 0) j
      ((x.board.set r (col : Int)).getD j 0)
    have hni' : (x.board.set r (col : Int)).getD i 0 ≠ -1 := hni
    have hnj' : (x.board.set r (col : Int)).getD j 0 ≠ -1 := hnj
    rw [hget i] at hni' ⊢
    rw [hget j] at hnj' ⊢
    by_cases h1 : i = r
    · have h2 : j ≠ r := by omega
      rw [if_pos h1]
      rw [if_neg h2] at hnj' ⊢
      subst h1
      exact fun h => hc.2 j hj hnj' h.symm
    · rw [if_neg h1] at hni' ⊢
      by_cases h2 : j = r
      · rw [if_pos h2]
        subst h2
        exact hc.2 i hi hni'
      · rw [if_neg h2] at hnj' ⊢
        exact hok.2 i j hi hj hij hni' hnj'
  · intro r' c hr' hun' hb
    have hun'' : (x.board.set r (col : Int)).getD r' 0 = -1 := hun'
    rw [hget r'] at hun''
    have hne : r' ≠ r := by
      intro h
      rw [if_pos h] at hun''
      exact hcolne hun''
    rw [if_neg hne] at hun''
    have h1 := testBit_pruned64 hr hr' hc.1 (fun h => hne h.symm)
      (fun i hi => ⟨(hdom r' i hr' hun'' hi).1, h64 r' i hi⟩) c (hsub r' c hr' hne hun'' hb)
    have h2 := hdom r' c hr' hun'' h1.1
    refine ⟨h2.1, ?_⟩
    intro i hi hni
    show ¬ Attacks i ((x.board.set r (col : Int)).getD i 0) r' (c : Int)
    have hni' : (x.board.set r (col : Int)).getD i 0 ≠ -1 := hni
    rw [hget i] at hni' ⊢
    by_cases h : i = r
    · rw [if_pos h]; subst h; exact h1.2
    · rw [if_neg h] at hni' ⊢; exact h2.2 i hi hni'

theorem cutoffFits_seed {n d : Nat} (hd1 : 1 ≤ d) (hdn : d ≤ n) :
    CutoffFits n ((d : Nat) : Int) d := Or.inr ⟨rfl, hd1, hdn⟩

theorem row_of_cutoff {d k : Nat}
    (h : (decide (((d : Nat) : Int) > 0) && decide ((k : Int) = ((d : Nat) : Int))) = true) :
    k = d := by
  simp only [Bool.and_eq_true, decide_eq_true_eq] at h
  omega

theorem countAssigned_step {n : Nat} {b : Solution} {row : Nat} (col : Nat)
    (hlen : b.length = n) (hrow : row < n) (ht : TailUnassigned n b row)
    (hc : countAssigned n b = row) :
    countAssigned n (b.set row (col : Int)) = row + 1 := by
  rw [countAssigned_set hrow hlen (ht row (Nat.le_refl _) hrow) (int_natCast_ne_neg_one col), hc]

/-- Stack invariant of a seed run of `BTSolver` from the all-unassigned board. -/
theorem bt_reach_seed (n d : Nat) (hd1 : 1 ≤ d) (hdn : d ≤ n) (x : SearchState)
    (hx : Reach (BTSolver.policy n (d : Int)) (BTSolver.initialNode n (emptyBoard n)) x) :
    BTSolver.Inv n d x ∧ TailUnassigned n x.board x.row ∧
      countAssigned n x.board = x.row := by
  refine Reach.inv (fun x => BTSolver.Inv n d x ∧ TailUnassigned n x.board x.row ∧
    countAssigned n x.board = x.row) ?_ ?_ x hx
  · have hrow : (BTSolver.initialNode n (emptyBoard n)).row = 0 := findStartRow_emptyBoard n
    refine ⟨⟨by simp [BTSolver.initialNode, emptyBoard], by rw [hrow]; exact Nat.zero_le _,
      by rw [hrow]; exact Nat.zero_le _, by rw [hrow]; exact prefixOK_zero n _⟩, ?_, ?_⟩
    · rw [hrow]; exact tail_emptyBoard n
    · rw [hrow]; exact countAssigned_emptyBoard n
  · intro y succs hJ hcut hsol hexp c hc
    obtain ⟨⟨hlen, hrn, hrm, hp⟩, htail, hcnt⟩ := hJ
    obtain ⟨hrow, hrowm⟩ := fc_row_lt (cutoffFits_seed hd1 hdn) hrn hrm hcut hsol
    obtain ⟨col, hcol, hsafe, rfl⟩ := bt_child hexp hc
    exact ⟨⟨by show (y.board.set y.row (col : Int)).length = n; rw [List.length_set]; exact hlen,
      by show y.row + 1 ≤ n; omega, by show y.row + 1 ≤ d; omega,
      prefixOK_set hlen hrow hcol hp ((isSafe_iff _ _ _).mp hsafe)⟩, tail_set _ htail,
      countAssigned_step col hlen hrow htail hcnt⟩

theorem fc_seed_start (n d : Nat) (D : List Nat) (hlen : D.length = n)
    (hD : ∀ r, r < n → D.getD r 0 = fullMask n) :
    FCInv n d { board := emptyBoard n, row := 0, domains := D } ∧
    (∀ r c, (D.getD r 0).testBit c = true → c < 64) := by
  have h64 : ∀ r c, (D.getD r 0).testBit c = true → c < 64 := by
    intro r c hb
    by_cases hr : r < n
    · rw [hD r hr] at hb
      exact ((testBit_fullMask_gen n c).mp hb).2
    · rw [List.getD_eq_default _ _ (by omega), Nat.zero_testBit] at hb
      exact Bool.noConfusion hb
  refine ⟨⟨by simp [emptyBoard], hlen, Nat.zero_le _, Nat.zero_le _, prefixOK_zero n _, ?_⟩, h64⟩
  intro r c _ hr hb
  have hb' : (D.getD r 0).testBit c = true := hb
  rw [hD r hr] at hb'
  exact ⟨((testBit_fullMask_gen n c).mp hb').1, fun i hi => absurd hi (Nat.not_lt_zero i)⟩

/-- One step of a static-order domain engine keeps the seed invariant, whenever the new
masks are subsets of the masks after the pruning by the new queen. -/
theorem fc_seed_step {n d : Nat} {x : FCSearchState} {col : Nat} {nd : List Nat}
    (hJ : FCInv n d x ∧ TailUnassigned n x.board x.row ∧
      (∀ r c, (x.domains.getD r 0).testBit c = true → c < 64) ∧
      countAssigned n x.board = x.row)
    (hrow : x.row < n) (hrowd : x.row < d)
    (hbit : ((x.domains.getD x.row 0 &&& shl1 col) == 0) = false) (hlen : nd.length = n)
    (hsub : ∀ r, MaskSubset (nd.getD r 0)
      ((pruneFuture n (precomputeAttackMasks n) x.domains x.row col).getD r 0)) :
    FCInv n d { board := x.board.set x.row (col : Int), row := x.row + 1, domains := nd } ∧
    TailUnassigned n (x.board.set x.row (col : Int)) (x.row + 1) ∧
    (∀ r c, (nd.getD r 0).testBit c = true → c < 64) ∧
    countAssigned n (x.board.set x.row (col : Int)) = x.row + 1 := by
  obtain ⟨hinv, htail, h64, hcnt⟩ := hJ
  refine ⟨fc_child_inv64 hinv h64 hrow hrowd (bit_of_and_shl1 hbit).2 hlen ?_, tail_set _ htail,
    ?_, countAssigned_step col hinv.1 hrow htail hcnt⟩
  · intro r c hr hrn hb
    have := hsub r c hb
    rwa [getD_pruneFuture _ _ _ _ hrn, if_pos hr] at this
  · intro r c hb
    exact h64 r c (pruneFuture_subset n _ x.domains x.row col r c (hsub r c hb))

theorem btfc_reach_seed (n d : Nat) (hd1 : 1 ≤ d) (hdn : d ≤ n) (x : FCSearchState)
    (hx : Reach (BTFCSolver.policy n (precomputeAttackMasks n) (d : Int))
      (BTFCSolver.initialNode n (precomputeAttackMasks n) (emptyBoard n)) x) :
    FCInv n d x ∧ TailUnassigned n x.board x.row ∧
      (∀ r c, (x.domains.getD r 0).testBit c = true → c < 64) ∧
      countAssigned n x.board = x.row := by
  refine Reach.inv (fun x => FCInv n d x ∧ TailUnassigned n x.board x.row ∧
      (∀ r c, (x.domains.getD r 0).testBit c = true → c < 64) ∧
      countAssigned n x.board = x.row) ?_ ?_ x hx
  · have hroot : BTFCSolver.initialNode n (precomputeAttackMasks n) (emptyBoard n) =
        { board := emptyBoard n, row := 0,
          domains := BTFCSolver.initializeDomains n (precomputeAttackMasks n) (emptyBoard n) 0 } := by
      unfold BTFCSolver.initialNode
      rw [findStartRow_emptyBoard]
    rw [hroot]
    obtain ⟨h1, h2⟩ := fc_seed_start n d _
      (BTFCSolver.length_initializeDomains_btfc n (precomputeAttackMasks n) (emptyBoard n) 0)
      (fun r hr => btfc_init_empty n _ hr)
    exact ⟨h1, tail_emptyBoard n, h2, countAssigned_emptyBoard n⟩
  · intro y succs hJ hcut hsol hexp c hc
    obtain ⟨hrow, hrowd⟩ :=
      fc_row_lt (cutoffFits_seed hd1 hdn) hJ.1.2.2.1 hJ.1.2.2.2.1 hcut hsol
    obtain ⟨col, _, hbit, _, rfl⟩ := btfc_child hexp hc
    exact fc_seed_step hJ hrow hrowd hbit (length_pruneFuture _ _ _ _ _)
      (fun r => maskSubset_refl _)

theorem ac3_reach_seed (n d : Nat) (hd1 : 1 ≤ d) (hdn : d ≤ n) (x : FCSearchState)
    (hx : Reach (AC3Solver.policy n (precomputeAttackMasks n) (d : Int))
      (AC3Solver.initialNode n (precomputeAttackMasks n) (emptyBoard n)) x) :
    FCInv n d x ∧ TailUnassigned n x.board x.row ∧
      (∀ r c, (x.domains.getD r 0).testBit c = true → c < 64) ∧
      countAssigned n x.board = x.row := by
  refine Reach.inv (fun x => FCInv n d x ∧ TailUnassigned n x.board x.row ∧
      (∀ r c, (x.domains.getD r 0).testBit c = true → c < 64) ∧
      countAssigned n x.board = x.row) ?_ ?_ x hx
  · have hroot : AC3Solver.initialNode n (precomputeAttackMasks n) (emptyBoard n) =
        { board := emptyBoard n, row := 0,
          domains := List.replicate n (fullMask n) } := by
      unfold AC3Solver.initialNode
      rw [findStartRow_emptyBoard, ac3_init_empty]
    rw [hroot]
    obtain ⟨h1, h2⟩ := fc_seed_start n d (List.replicate n (fullMask n)) (by simp)
      (fun r hr => getD_replicate_lt _ _ _ hr)
    exact ⟨h1, tail_emptyBoard n, h2, countAssigned_emptyBoard n⟩
  · intro y succs hJ hcut hsol hexp c hc
    obtain ⟨hrow, hrowd⟩ :=
      fc_row_lt (cutoffFits_seed hd1 hdn) hJ.1.2.2.1 hJ.1.2.2.2.1 hcut hsol
    obtain ⟨col, D', _, hbit, henf, rfl⟩ := ac3_child hexp hc
    obtain ⟨hl, hsub⟩ := ac3_enforce_subset (length_pruneFuture n _ y.domains y.row col) henf
    exact fc_seed_step hJ hrow hrowd hbit hl hsub

theorem dvo_seed_start (n d : Nat) :
    DVOInv n d (BTFCDVOSolver.initialNode n (precomputeAttackMasks n) (emptyBoard n)) ∧
    (∀ r c, ((BTFCDVOSolver.initialNode n (precomputeAttackMasks n)
      (emptyBoard n)).domains.getD r 0).testBit c = true → c < 64) := by
  have hroot : BTFCDVOSolver.initialNode n (precomputeAttackMasks n) (emptyBoard n) =
      { board := emptyBoard n, domains := List.replicate n (fullMask n) } := by
    unfold BTFCDVOSolver.initialNode
    rw [dvo_init_empty]
  rw [hroot]
  have h64 : ∀ r c, ((List.replicate n (fullMask n)).getD r 0).testBit c = true → c < 64 := by
    intro r c hb
    by_cases hr : r < n
    · rw [getD_replicate_lt _ _ _ hr] at hb
      exact ((testBit_fullMask_gen n c).mp hb).2
    · rw [List.getD_eq_default _ _ (by simpa using Nat.le_of_not_lt hr),
        Nat.zero_testBit] at hb
      exact Bool.noConfusion hb
  refine ⟨⟨by simp [emptyBoard], by simp, ?_, assignedOK_emptyBoard n, ?_⟩, h64⟩
  · show countAssigned n (emptyBoard n) ≤ d
    rw [countAssigned_emptyBoard]
    exact Nat.zero_le _
  · intro r c hr _ hb
    have hb' : ((List.replicate n (fullMask n)).getD r 0).testBit c = true := hb
    rw [getD_replicate_lt _ _ _ hr] at hb'
    exact ⟨((testBit_fullMask_gen n c).mp hb').1,
      fun i hi hne => absurd (getD_emptyBoard n i hi) hne⟩

theorem btfcdvo_reach_seed (n d : Nat) (hd1 : 1 ≤ d) (hdn : d ≤ n) (x : DVOSearchState)
    (hx : Reach (BTFCDVOSolver.policy n (precomputeAttackMasks n) (d : Int))
      (BTFCDVOSolver.initialNode n (precomputeAttackMasks n) (emptyBoard n)) x) :
    DVOInv n d x ∧ (∀ r c, (x.domains.getD r 0).testBit c = true → c < 64) := by
  refine Reach.inv (fun x => DVOInv n d x ∧
    (∀ r c, (x.domains.getD r 0).testBit c = true → c < 64)) (dvo_seed_start n d) ?_ x hx
  intro y succs hJ hcut hsol hexp c hc
  obtain ⟨hinv, h64⟩ := hJ
  obtain ⟨_, hcm⟩ := dvo_count_lt (cutoffFits_seed hd1 hdn) (countAssigned_le n y.board)
    hinv.2.2.1 hcut hsol
  obtain ⟨r0, col, hr0, _, hun0, _, hbit, _, rfl⟩ := btfcdvo_child hexp hc
  refine ⟨dvo_child_inv64 hinv h64 hr0 hun0 hcm (bit_of_and_shl1 hbit).2 (by
      unfold BTFCDVOSolver.pruneOthers; simp) ?_, ?_⟩
  · intro r' c' hr' hne hun' hb
    rw [getD_pruneOthers _ _ _ _ _ hr'] at hb
    have h1 : (r' == r0) = false := by simpa using hne
    have h2 : (y.board.getD r' 0 != -1) = false := by rw [hun']; rfl
    rw [h1, h2] at hb
    simpa using hb
  · intro r c' hb
    exact h64 r c' (pruneOthers_subset n _ y.board y.domains r0 col r c' hb)

theorem ac3dvo_reach_seed (n d : Nat) (hd1 : 1 ≤ d) (hdn : d ≤ n) (x : DVOSearchState)
    (hx : Reach (AC3DVOSolver.policy n (precomputeAttackMasks n) (d : Int))
      (BTFCDVOSolver.initialNode n (precomputeAttackMasks n) (emptyBoard n)) x) :
    DVOInv n d x ∧ (∀ r c, (x.domains.getD r 0).testBit c = true → c < 64) := by
  refine Reach.inv (fun x => DVOInv n d x ∧
    (∀ r c, (x.domains.getD r 0).testBit c = true → c < 64)) (dvo_seed_start n d) ?_ x hx
  intro y succs hJ hcut hsol hexp c hc
  obtain ⟨hinv, h64⟩ := hJ
  obtain ⟨_, hcm⟩ := dvo_count_lt (cutoffFits_seed hd1 hdn) (countAssigned_le n y.board)
    hinv.2.2.1 hcut hsol
  obtain ⟨r0, col, D', hr0, _, hun0, _, hbit, henf, rfl⟩ := ac3dvo_child hexp hc
  obtain ⟨hl, hsub⟩ :=
    ac3dvo_enforce_subset (length_pruneOthers_ac3 n _ y.domains r0 col) henf
  refine ⟨dvo_child_inv64 hinv h64 hr0 hun0 hcm (bit_of_and_shl1 hbit).2 hl ?_, ?_⟩
  · intro r' c' hr' hne _ hb
    have := hsub r' c' hb
    rwa [getD_pruneOthers_ac3 _ _ _ _ hr' hne] at this
  · intro r c' hb
    exact h64 r c' (pruneOthers_ac3_subset n _ y.domains r0 col r c' (hsub r c' hb))
/-! ## Claim C15: the seed run -/

theorem static_queue_board {n d : Nat} {b : Solution} (hp : PrefixOK n b d)
    (ht : TailUnassigned n b d) :
    AssignedOK n b ∧ ∀ i, i < n → (b.getD i 0 ≠ -1 ↔ i < d) := by
  refine ⟨assignedOK_of_prefixOK hp ht, fun i hi => ⟨fun hb => ?_, fun hid => ?_⟩⟩
  · by_contra h
    exact hb (ht i (by omega) hi)
  · have := (hp.1 i hid).1
    omega

theorem nil_of_no_mem {α : Type} {l : List α} (h : ∀ a, a ∈ l → False) : l = [] :=
  List.eq_nil_iff_forall_not_mem.mpr (fun a ha => h a ha)

theorem bt_seed_facts (n d : Nat) (hd1 : 1 ≤ d) (hdn : d ≤ n) :
    ∃ e, BTSolver.solve n (emptyBoard n) (d : Int) Engine.fresh = some e ∧
      e.solutions = [] ∧
      ∀ b, b ∈ e.workQueue → b.length = n ∧ countAssigned n b = d ∧ AssignedOK n b ∧
        ∀ i, i < n → (b.getD i 0 ≠ -1 ↔ i < d) := by
  obtain ⟨e, he⟩ := bt_solve_total n (emptyBoard n) (d : Int) Engine.fresh
  obtain ⟨hS, hQ⟩ := fresh_solutions _ _ _ e he
  refine ⟨e, he, nil_of_no_mem (fun s hs => ?_), fun b hb => ?_⟩
  · obtain ⟨x, hx, hcut, hsol, _⟩ := hS s hs
    obtain ⟨⟨_, _, hrd, _⟩, _, _⟩ := bt_reach_seed n d hd1 hdn x hx
    have := seed_nosol hd1 hdn hrd hcut
    rw [show (BTSolver.policy n (d : Int)).isSolution x = (x.row == n) from rfl, this] at hsol
    exact Bool.noConfusion hsol
  · obtain ⟨x, hx, hcut, rfl⟩ := hQ b hb
    obtain ⟨⟨hlen, _, _, hp⟩, ht, hc⟩ := bt_reach_seed n d hd1 hdn x hx
    have hrow : x.row = d := row_of_cutoff hcut
    rw [hrow] at hp ht hc
    exact ⟨hlen, hc, static_queue_board hp ht⟩

theorem btfc_seed_facts (n d : Nat) (hd1 : 1 ≤ d) (hdn : d ≤ n) :
    ∃ e, BTFCSolver.solve n (emptyBoard n) (d : Int) Engine.fresh = some e ∧
      e.solutions = [] ∧
      ∀ b, b ∈ e.workQueue → b.length = n ∧ countAssigned n b = d ∧ AssignedOK n b ∧
        ∀ i, i < n → (b.getD i 0 ≠ -1 ↔ i < d) := by
  obtain ⟨e, he⟩ := btfc_solve_total n (emptyBoard n) (d : Int) Engine.fresh
  obtain ⟨hS, hQ⟩ := fresh_solutions _ _ _ e he
  refine ⟨e, he, nil_of_no_mem (fun s hs => ?_), fun b hb => ?_⟩
  · obtain ⟨x, hx, hcut, hsol, _⟩ := hS s hs
    obtain ⟨hinv, _, _, _⟩ := btfc_reach_seed n d hd1 hdn x hx
    have := seed_nosol hd1 hdn hinv.2.2.2.1 hcut
    rw [show (BTFCSolver.policy n (precomputeAttackMasks n) (d : Int)).isSolution x
      = (x.row == n) from rfl, this] at hsol
    exact Bool.noConfusion hsol
  · obtain ⟨x, hx, hcut, rfl⟩ := hQ b hb
    obtain ⟨hinv, ht, _, hc⟩ := btfc_reach_seed n d hd1 hdn x hx
    have hp := hinv.2.2.2.2.1
    have hrow : x.row = d := row_of_cutoff hcut
    rw [hrow] at hp ht hc
    exact ⟨hinv.1, hc, static_queue_board hp ht⟩

theorem ac3_seed_facts (n d : Nat) (hd1 : 1 ≤ d) (hdn : d ≤ n) :
    ∃ e, AC3Solver.solve n (emptyBoard n) (d : Int) Engine.fresh = some e ∧
      e.solutions = [] ∧
      ∀ b, b ∈ e.workQueue → b.length = n ∧ countAssigned n b = d ∧ AssignedOK n b ∧
        ∀ i, i < n → (b.getD i 0 ≠ -1 ↔ i < d) := by
  obtain ⟨e, he⟩ := ac3_solve_total n (emptyBoard n) (d : Int) Engine.fresh
  obtain ⟨hS, hQ⟩ := fresh_solutions _ _ _ e he
  refine ⟨e, he, nil_of_no_mem (fun s hs => ?_), fun b hb => ?_⟩
  · obtain ⟨x, hx, hcut, hsol, _⟩ := hS s hs
    obtain ⟨hinv, _, _, _⟩ := ac3_reach_seed n d hd1 hdn x hx
    have := seed_nosol hd1 hdn hinv.2.2.2.1 hcut
    rw [show (AC3Solver.policy n (precomputeAttackMasks n) (d : Int)).isSolution x
      = (x.row == n) from rfl, this] at hsol
    exact Bool.noConfusion hsol
  · obtain ⟨x, hx, hcut, rfl⟩ := hQ b hb
    obtain ⟨hinv, ht, _, hc⟩ := ac3_reach_seed n d hd1 hdn x hx
    have hp := hinv.2.2.2.2.1
    have hrow : x.row = d := row_of_cutoff hcut
    rw [hrow] at hp ht hc
    exact ⟨hinv.1, hc, static_queue_board hp ht⟩

theorem btfcdvo_seed_facts (n d : Nat) (hd1 : 1 ≤ d) (hdn : d ≤ n) :
    ∃ e, BTFCDVOSolver.solve n (emptyBoard n) (d : Int) Engine.fresh = some e ∧
      e.solutions = [] ∧
      ∀ b, b ∈ e.workQueue → b.length = n ∧ countAssigned n b = d ∧ AssignedOK n b := by
  obtain ⟨e, he⟩ := btfcdvo_solve_total n (emptyBoard n) (by simp [emptyBoard]) (d : Int)
    Engine.fresh
  obtain ⟨hS, hQ⟩ := fresh_solutions _ _ _ e he
  refine ⟨e, he, nil_of_no_mem (fun s hs => ?_), fun b hb => ?_⟩
  · obtain ⟨x, hx, hcut, hsol, _⟩ := hS s hs
    obtain ⟨hinv, _⟩ := btfcdvo_reach_seed n d hd1 hdn x hx
    have := seed_nosol hd1 hdn hinv.2.2.1 hcut
    rw [show (BTFCDVOSolver.policy n (precomputeAttackMasks n) (d : Int)).isSolution x
      = (countAssigned n x.board == n) from rfl, this] at hsol
    exact Bool.noConfusion hsol
  · obtain ⟨x, hx, hcut, rfl⟩ := hQ b hb
    obtain ⟨hinv, _⟩ := btfcdvo_reach_seed n d hd1 hdn x hx
    exact ⟨hinv.1, row_of_cutoff hcut, hinv.2.2.2.1⟩

theorem ac3dvo_seed_facts (n d : Nat) (hd1 : 1 ≤ d) (hdn : d ≤ n) :
    ∃ e, AC3DVOSolver.solve n (emptyBoard n) (d : Int) Engine.fresh = some e ∧
      e.solutions = [] ∧
      ∀ b, b ∈ e.workQueue → b.length = n ∧ countAssigned n b = d ∧ AssignedOK n b := by
  obtain ⟨e, he⟩ := ac3dvo_solve_total n (emptyBoard n) (by simp [emptyBoard]) (d : Int)
    Engine.fresh
  obtain ⟨hS, hQ⟩ := fresh_solutions _ _ _ e he
  refine ⟨e, he, nil_of_no_mem (fun s hs => ?_), fun b hb => ?_⟩
  · obtain ⟨x, hx, hcut, hsol, _⟩ := hS s hs
    obtain ⟨hinv, _⟩ := ac3dvo_reach_seed n d hd1 hdn x hx
    have := seed_nosol hd1 hdn hinv.2.2.1 hcut
    rw [show (AC3DVOSolver.policy n (precomputeAttackMasks n) (d : Int)).isSolution x
      = (countAssigned n x.board == n) from rfl, this] at hsol
    exact Bool.noConfusion hsol
  · obtain ⟨x, hx, hcut, rfl⟩ := hQ b hb
    obtain ⟨hinv, _⟩ := ac3dvo_reach_seed n d hd1 hdn x hx
    exact ⟨hinv.1, row_of_cutoff hcut, hinv.2.2.2.1⟩

/-- What a seed run leaves, engine by engine. -/
theorem seed_facts (kind : SolverKind) (n d : Nat) (hd1 : 1 ≤ d) (hdn : d ≤ n) :
    ∃ e, kind.solve n (emptyBoard n) (d : Int) Engine.fresh = some e ∧
      e.solutions = [] ∧
      ∀ b, b ∈ e.workQueue → b.length = n ∧ countAssigned n b = d ∧ AssignedOK n b ∧
        (kind = SolverKind.BT ∨ kind = SolverKind.BTFC ∨ kind = SolverKind.AC3 →
          ∀ i, i < n → (b.getD i 0 ≠ -1 ↔ i < d)) := by
  cases kind
  · obtain ⟨e, h1, h2, h3⟩ := bt_seed_facts n d hd1 hdn
    exact ⟨e, h1, h2, fun b hb => ⟨(h3 b hb).1, (h3 b hb).2.1, (h3 b hb).2.2.1,
      fun _ => (h3 b hb).2.2.2⟩⟩
  · obtain ⟨e, h1, h2, h3⟩ := btfc_seed_facts n d hd1 hdn
    exact ⟨e, h1, h2, fun b hb => ⟨(h3 b hb).1, (h3 b hb).2.1, (h3 b hb).2.2.1,
      fun _ => (h3 b hb).2.2.2⟩⟩
  · obtain ⟨e, h1, h2, h3⟩ := btfcdvo_seed_facts n d hd1 hdn
    refine ⟨e, h1, h2, fun b hb => ⟨(h3 b hb).1, (h3 b hb).2.1, (h3 b hb).2.2, ?_⟩⟩
    rintro (h | h | h) <;> exact SolverKind.noConfusion h
  · obtain ⟨e, h1, h2, h3⟩ := ac3_seed_facts n d hd1 hdn
    exact ⟨e, h1, h2, fun b hb => ⟨(h3 b hb).1, (h3 b hb).2.1, (h3 b hb).2.2.1,
      fun _ => (h3 b hb).2.2.2⟩⟩
  · obtain ⟨e, h1, h2, h3⟩ := ac3dvo_seed_facts n d hd1 hdn
    refine ⟨e, h1, h2, fun b hb => ⟨(h3 b hb).1, (h3 b hb).2.1, (h3 b hb).2.2, ?_⟩⟩
    rintro (h | h | h) <;> exact SolverKind.noConfusion h

/-- C15: the seed run.  For every strategy, every board size n and every depthCutoff d
with 1 ≤ d ≤ n (so n ≥ 1), `solve()` from the all-unassigned board returns and leaves the
engine's own solution list empty; every board it pushes to the queue has length n and
exactly d assigned rows (the rows 0..d-1 for the static-order strategies), with columns
in [0, n) and pairwise non-attacking; and no pushed board is a successor of another
pushed board (a pushed board with one more row assigned). -/
theorem C15_seed_run (kind : SolverKind) (n d : Nat) (hd1 : 1 ≤ d) (hdn : d ≤ n) :
    ∃ e, kind.solve n (emptyBoard n) (d : Int) Engine.fresh = some e ∧
      e.solutions = [] ∧
      (∀ b, b ∈ e.workQueue →
        b.length = n ∧ countAssigned n b = d ∧
        (kind = SolverKind.BT ∨ kind = SolverKind.BTFC ∨ kind = SolverKind.AC3 →
          ∀ i, i < n → (b.getD i 0 ≠ -1 ↔ i < d)) ∧
        (∀ i, i < n → b.getD i 0 ≠ -1 → 0 ≤ b.getD i 0 ∧ b.getD i 0 < (n : Int)) ∧
        ∀ i j, i < n → j < n → i ≠ j → b.getD i 0 ≠ -1 → b.getD j 0 ≠ -1 →
          b.getD i 0 ≠ b.getD j 0 ∧
          (b.getD i 0 - b.getD j 0).natAbs ≠ ((i : Int) - (j : Int)).natAbs) ∧
      ∀ b1 b2, b1 ∈ e.workQueue → b2 ∈ e.workQueue →
        ∀ r col : Nat, r < n → b1.getD r 0 = -1 → b2 ≠ b1.set r (col : Int) := by
  obtain ⟨e, he, hsol, hq⟩ := seed_facts kind n d hd1 hdn
  refine ⟨e, he, hsol, fun b hb => ?_, fun b1 b2 hb1 hb2 r col hr hun heq => ?_⟩
  · obtain ⟨hlen, hc, hok, hst⟩ := hq b hb
    exact ⟨hlen, hc, hst, hok.1, fun i j hi hj hij hbi hbj =>
      (not_attacks_iff _ _ _ _).mp (hok.2 i j hi hj hij hbi hbj)⟩
  · have h1 := (hq b1 hb1)
    have h2 := (hq b2 hb2).2.1
    rw [heq, countAssigned_set hr h1.1 hun (int_natCast_ne_neg_one col), h1.2.1] at h2
    omega

theorem C15_seed_run_witness :
    (1 ≤ 2) ∧ (2 ≤ 4) ∧
    ∃ e, SolverKind.AC3DVO.solve 4 (emptyBoard 4) ((2 : Nat) : Int) Engine.fresh = some e ∧
      e.solutions = [] ∧
      (∀ b, b ∈ e.workQueue →
        b.length = 4 ∧ countAssigned 4 b = 2 ∧
        (SolverKind.AC3DVO = SolverKind.BT ∨ SolverKind.AC3DVO = SolverKind.BTFC ∨
            SolverKind.AC3DVO = SolverKind.AC3 →
          ∀ i, i < 4 → (b.getD i 0 ≠ -1 ↔ i < 2)) ∧
        (∀ i, i < 4 → b.getD i 0 ≠ -1 → 0 ≤ b.getD i 0 ∧ b.getD i 0 < ((4 : Nat) : Int)) ∧
        ∀ i j, i < 4 → j < 4 → i ≠ j → b.getD i 0 ≠ -1 → b.getD j 0 ≠ -1 →
          b.getD i 0 ≠ b.getD j 0 ∧
          (b.getD i 0 - b.getD j 0).natAbs ≠ ((i : Int) - (j : Int)).natAbs) ∧
      ∀ b1 b2, b1 ∈ e.workQueue → b2 ∈ e.workQueue →
        ∀ r col : Nat, r < 4 → b1.getD r 0 = -1 → b2 ≠ b1.set r (col : Int) :=
  ⟨by decide, by decide, C15_seed_run SolverKind.AC3DVO 4 2 (by decide) (by decide)⟩
/-! ## Claim C20: the order of the successors and of the solutions -/

/-- Two boards that agree before row `k` and differ at row `k` compare as their columns
at row `k` do. -/
theorem lex_of_getD : ∀ (k : Nat) (s t : Solution), k < s.length → k < t.length →
    (∀ i, i < k → s.getD i 0 = t.getD i 0) → s.getD k 0 < t.getD k 0 →
    List.Lex (fun (a b : Int) => a < b) s t := by
  intro k
  induction k with
  | zero =>
    intro s t hs ht _ hlt
    cases s with
    | nil => exact absurd hs (Nat.lt_irrefl 0)
    | cons a as =>
      cases t with
      | nil => exact absurd ht (Nat.lt_irrefl 0)
      | cons b bs => exact List.Lex.rel hlt
  | succ k ih =>
    intro s t hs ht heq hlt
    cases s with
    | nil => exact absurd hs (Nat.not_lt_zero _)
    | cons a as =>
      cases t with
      | nil => exact absurd ht (Nat.not_lt_zero _)
      | cons b bs =>
        have hab : a = b := heq 0 (Nat.succ_pos k)
        subst hab
        apply List.Lex.cons
        apply ih as bs (by simpa using hs) (by simpa using ht)
        · intro i hi
          exact heq (i + 1) (by omega)
        · exact hlt

/-- The order in which the loop records solutions: the completions of a node nearer the
top of the stack come first. -/
theorem searchLoop_sorted {σ : Type} (P : Policy σ) (J : σ → Prop)
    (Below : σ → Solution → Prop) (R : Solution → Solution → Prop)
    (hleaf : ∀ x, J x → P.atCutoff x = false → P.isSolution x = true → Below x (P.board x))
    (hstep : ∀ x succs, J x → P.atCutoff x = false → P.isSolution x = false →
      P.expand x = some succs →
      (∀ c, c ∈ succs → J c ∧ ∀ s, Below c s → Below x s) ∧
      succs.Pairwise (fun a b => ∀ s t, Below a s → Below b t → R t s)) :
    ∀ (fuel : Nat) (stack : List σ) (e e' : Engine), searchLoop P fuel stack e = some e' →
      (∀ x, x ∈ stack → J x) →
      stack.Pairwise (fun a b => ∀ s t, Below a s → Below b t → R s t) →
      ∃ L, e'.solutions = e.solutions ++ L ∧ (∀ s, s ∈ L → ∃ x, x ∈ stack ∧ Below x s) ∧
        L.Pairwise R := by
  intro fuel
  induction fuel with
  | zero =>
    intro stack e e' hrun _ _
    cases stack with
    | nil =>
      have : e' = e := by simpa [searchLoop] using hrun.symm
      subst this
      exact ⟨[], by simp, by simp, List.Pairwise.nil⟩
    | cons x rest => simp [searchLoop] at hrun
  | succ fuel ih =>
    intro stack e e' hrun hJ hpw
    cases stack with
    | nil =>
      have : e' = e := by simpa [searchLoop] using hrun.symm
      subst this
      exact ⟨[], by simp, by simp, List.Pairwise.nil⟩
    | cons x rest =>
      have hx := hJ x (List.mem_cons_self _ _)
      have hrest : ∀ y, y ∈ rest → J y := fun y hy => hJ y (List.mem_cons_of_mem _ hy)
      obtain ⟨hxrest, hpwrest⟩ := List.pairwise_cons.mp hpw
      rw [searchLoop_cons] at hrun
      by_cases hc : P.atCutoff x = true
      · rw [if_pos hc] at hrun
        obtain ⟨L, hsol, hmem, hsorted⟩ := ih rest _ e' hrun hrest hpwrest
        refine ⟨L, by rw [hsol, pushWork_solutions], fun s hs => ?_, hsorted⟩
        obtain ⟨y, hy, hb⟩ := hmem s hs
        exact ⟨y, List.mem_cons_of_mem _ hy, hb⟩
      · rw [if_neg hc] at hrun
        have hc' : P.atCutoff x = false := by simpa using hc
        by_cases hs : P.isSolution x = true
        · rw [if_pos hs] at hrun
          obtain ⟨L, hsol, hmem, hsorted⟩ := ih rest _ e' hrun hrest hpwrest
          have hbx := hleaf x hx hc' hs
          refine ⟨P.board x :: L, ?_, ?_, ?_⟩
          · rw [hsol, recordSolution_solutions, List.append_assoc]; rfl
          · intro s hs'
            rcases List.mem_cons.mp hs' with h | h
            · exact ⟨x, List.mem_cons_self _ _, h ▸ hbx⟩
            · obtain ⟨y, hy, hb⟩ := hmem s h
              exact ⟨y, List.mem_cons_of_mem _ hy, hb⟩
          · refine List.pairwise_cons.mpr ⟨fun t ht => ?_, hsorted⟩
            obtain ⟨y, hy, hb⟩ := hmem t ht
            exact hxrest y hy _ _ hbx hb
        · rw [if_neg hs] at hrun
          have hs' : P.isSolution x = false := by simpa using hs
          cases hexp : P.expand x with
          | none => rw [hexp] at hrun; exact absurd hrun (by simp)
          | some succs =>
            rw [hexp] at hrun
            simp only [] at hrun
            obtain ⟨hsucc, hpws⟩ := hstep x succs hx hc' hs' hexp
            have hJ2 : ∀ y, y ∈ succs.reverse ++ rest → J y := by
              intro y hy
              rcases List.mem_append.mp hy with h | h
              · exact (hsucc y (List.mem_reverse.mp h)).1
              · exact hrest y h
            have hpw2 : (succs.reverse ++ rest).Pairwise
                (fun a b => ∀ s t, Below a s → Below b t → R s t) := by
              rw [List.pairwise_append]
              refine ⟨?_, hpwrest, ?_⟩
              · rw [List.pairwise_reverse]
                exact hpws.imp (fun {a b} h s t hbs hat => h t s hat hbs)
              · intro c hc2 y hy s t hcs hyt
                exact hxrest y hy s t ((hsucc c (List.mem_reverse.mp hc2)).2 s hcs) hyt
            obtain ⟨L, hsol, hmem, hsorted⟩ := ih _ e e' hrun hJ2 hpw2
            refine ⟨L, hsol, fun s hs2 => ?_, hsorted⟩
            obtain ⟨y, hy, hb⟩ := hmem s hs2
            rcases List.mem_append.mp hy with h | h
            · exact ⟨x, List.mem_cons_self _ _, (hsucc y (List.mem_reverse.mp h)).2 s hb⟩
            · exact ⟨y, List.mem_cons_of_mem _ h, hb⟩

/-- The completions below two successors of a static-order node compare as the columns
of the successors do. -/
theorem static_below_lt {n : Nat} {xb : Solution} {xr col1 col2 : Nat} {s t : Solution}
    (hlen : xb.length = n) (hrow : xr < n) (hlt : col1 < col2)
    (hs : s.length = n ∧ ∀ i, i < xr + 1 → s.getD i 0 = (xb.set xr (col1 : Int)).getD i 0)
    (ht : t.length = n ∧ ∀ i, i < xr + 1 → t.getD i 0 = (xb.set xr (col2 : Int)).getD i 0) :
    List.Lex (fun (a b : Int) => a < b) s t := by
  apply lex_of_getD xr s t (by omega) (by omega)
  · intro i hi
    rw [hs.2 i (by omega), ht.2 i (by omega), getD_set_ne _ _ _ (by omega),
      getD_set_ne _ _ _ (by omega)]
  · rw [hs.2 xr (by omega), ht.2 xr (by omega), getD_set_eq _ _ _ (by omega),
      getD_set_eq _ _ _ (by omega)]
    omega

theorem static_below_up {n : Nat} {xb : Solution} {xr : Nat} (col : Int) {s : Solution}
    (hs : s.length = n ∧ ∀ i, i < xr + 1 → s.getD i 0 = (xb.set xr col).getD i 0) :
    s.length = n ∧ ∀ i, i < xr → s.getD i 0 = xb.getD i 0 := by
  refine ⟨hs.1, fun i hi => ?_⟩
  rw [hs.2 i (by omega), getD_set_ne _ _ _ (by omega)]

/-! ### Push order, engine by engine -/

theorem bt_push_order (n : Nat) (maxDepth : Int) (x : SearchState)
    (succs : List SearchState) (hexp : (BTSolver.policy n maxDepth).expand x = some succs) :
    succs.Pairwise (fun a b => ∃ col1 col2 : Nat, col1 < col2 ∧
      a = { board := x.board.set x.row (col1 : Int), row := x.row + 1 } ∧
      b = { board := x.board.set x.row (col2 : Int), row := x.row + 1 }) := by
  refine (pairwise_pushColumns _ _ _ (range_pairwise_lt n) hexp).imp ?_
  rintro a b ⟨col1, col2, hlt, h1, h2⟩
  refine ⟨col1, col2, hlt, ?_, ?_⟩
  · split at h1
    · exact (Option.some.inj (Option.some.inj h1)).symm
    · exact Option.noConfusion (Option.some.inj h1)
  · split at h2
    · exact (Option.some.inj (Option.some.inj h2)).symm
    · exact Option.noConfusion (Option.some.inj h2)

theorem btfc_push_order (n : Nat) (am : List (List (List Nat))) (maxDepth : Int)
    (x : FCSearchState) (succs : List FCSearchState)
    (hexp : (BTFCSolver.policy n am maxDepth).expand x = some succs) :
    succs.Pairwise (fun a b => ∃ col1 col2 : Nat, col1 < col2 ∧
      a.board = x.board.set x.row (col1 : Int) ∧ b.board = x.board.set x.row (col2 : Int)) := by
  refine (pairwise_pushColumns _ _ _ (range_pairwise_lt n) hexp).imp ?_
  rintro a b ⟨col1, col2, hlt, h1, h2⟩
  refine ⟨col1, col2, hlt, ?_, ?_⟩
  · split at h1
    · exact Option.noConfusion (Option.some.inj h1)
    · split at h1
      · exact Option.noConfusion (Option.some.inj h1)
      · rw [← Option.some.inj (Option.some.inj h1)]
  · split at h2
    · exact Option.noConfusion (Option.some.inj h2)
    · split at h2
      · exact Option.noConfusion (Option.some.inj h2)
      · rw [← Option.some.inj (Option.some.inj h2)]

theorem ac3_push_order (n : Nat) (am : List (List (List Nat))) (maxDepth : Int)
    (x : FCSearchState) (succs : List FCSearchState)
    (hexp : (AC3Solver.policy n am maxDepth).expand x = some succs) :
    succs.Pairwise (fun a b => ∃ col1 col2 : Nat, col1 < col2 ∧
      a.board = x.board.set x.row (col1 : Int) ∧ b.board = x.board.set x.row (col2 : Int)) := by
  refine (pairwise_pushColumns _ _ _ (range_pairwise_lt n) hexp).imp ?_
  rintro a b ⟨col1, col2, hlt, h1, h2⟩
  refine ⟨col1, col2, hlt, ?_, ?_⟩
  · split at h1
    · exact Option.noConfusion (Option.some.inj h1)
    · dsimp only at h1
      split at h1
      · exact Option.noConfusion h1
      · rw [← Option.some.inj (Option.some.inj h1)]
      · exact Option.noConfusion (Option.some.inj h1)
  · split at h2
    · exact Option.noConfusion (Option.some.inj h2)
    · dsimp only at h2
      split at h2
      · exact Option.noConfusion h2
      · rw [← Option.some.inj (Option.some.inj h2)]
      · exact Option.noConfusion (Option.some.inj h2)

theorem btfcdvo_push_order (n : Nat) (am : List (List (List Nat))) (maxDepth : Int)
    (x : DVOSearchState) (succs : List DVOSearchState)
    (hexp : (BTFCDVOSolver.policy n am maxDepth).expand x = some succs) :
    succs.Pairwise (fun a b => ∃ col1 col2 : Nat, col1 < col2 ∧
      a.board = x.board.set (selectMRVRow n x.board x.domains).toNat (col1 : Int) ∧
      b.board = x.board.set (selectMRVRow n x.board x.domains).toNat (col2 : Int)) := by
  by_cases hsel : (selectMRVRow n x.board x.domains == -1) = true
  · simp only [BTFCDVOSolver.policy, hsel, if_true] at hexp
    have : succs = [] := by simpa using hexp.symm
    subst this
    exact List.Pairwise.nil
  · simp only [BTFCDVOSolver.policy, hsel, Bool.false_eq_true, if_false] at hexp
    refine (pairwise_pushColumns _ _ _ (range_pairwise_lt n) hexp).imp ?_
    rintro a b ⟨col1, col2, hlt, h1, h2⟩
    refine ⟨col1, col2, hlt, ?_, ?_⟩
    · split at h1
      · exact Option.noConfusion (Option.some.inj h1)
      · split at h1
        · exact Option.noConfusion (Option.some.inj h1)
        · rw [← Option.some.inj (Option.some.inj h1)]
    · split at h2
      · exact Option.noConfusion (Option.some.inj h2)
      · split at h2
        · exact Option.noConfusion (Option.some.inj h2)
        · rw [← Option.some.inj (Option.some.inj h2)]

theorem ac3dvo_push_order (n : Nat) (am : List (List (List Nat))) (maxDepth : Int)
    (x : DVOSearchState) (succs : List DVOSearchState)
    (hexp : (AC3DVOSolver.policy n am maxDepth).expand x = some succs) :
    succs.Pairwise (fun a b => ∃ col1 col2 : Nat, col1 < col2 ∧
      a.board = x.board.set (selectMRVRow n x.board x.domains).toNat (col1 : Int) ∧
      b.board = x.board.set (selectMRVRow n x.board x.domains).toNat (col2 : Int)) := by
  by_cases hsel : (selectMRVRow n x.board x.domains == -1) = true
  · simp only [AC3DVOSolver.policy, hsel, if_true] at hexp
    have : succs = [] := by simpa using hexp.symm
    subst this
    exact List.Pairwise.nil
  · simp only [AC3DVOSolver.policy, hsel, Bool.false_eq_true, if_false] at hexp
    refine (pairwise_pushColumns _ _ _ (range_pairwise_lt n) hexp).imp ?_
    rintro a b ⟨col1, col2, hlt, h1, h2⟩
    refine ⟨col1, col2, hlt, ?_, ?_⟩
    · split at h1
      · exact Option.noConfusion (Option.some.inj h1)
      · split at h1
        · exact Option.noConfusion h1
        · rw [← Option.some.inj (Option.some.inj h1)]
        · exact Option.noConfusion (Option.some.inj h1)
    · split at h2
      · exact Option.noConfusion (Option.some.inj h2)
      · split at h2
        · exact Option.noConfusion h2
        · rw [← Option.some.inj (Option.some.inj h2)]
        · exact Option.noConfusion (Option.some.inj h2)

/-! ### The solution lists of the static-order engines -/

theorem bt_sorted (n : Nat) (b : Solution) (hlen : b.length = n) (maxDepth : Int) (e : Engine)
    (hrun : BTSolver.solve n b maxDepth Engine.fresh = some e) :
    e.solutions.Pairwise (fun s t => List.Lex (fun (a b : Int) => a < b) t s) := by
  obtain ⟨L, hsol, _, hsorted⟩ := searchLoop_sorted (BTSolver.policy n maxDepth)
    (fun x => x.board.length = n ∧ x.row ≤ n)
    (fun x s => s.length = n ∧ ∀ i, i < x.row → s.getD i 0 = x.board.getD i 0)
    (fun s t => List.Lex (fun (a b : Int) => a < b) t s)
    (fun x hJ _ _ => ⟨hJ.1, fun _ _ => rfl⟩)
    (by
      intro x succs hJ _ hsol hexp
      have hrow : x.row ≠ n := by simpa [BTSolver.policy] using hsol
      have hJ2 : x.row ≤ n := hJ.2
      refine ⟨fun c hc => ?_, ?_⟩
      · obtain ⟨col, _, _, rfl⟩ := bt_child hexp hc
        exact ⟨⟨by show (x.board.set x.row (col : Int)).length = n
                   rw [List.length_set]; exact hJ.1,
          by show x.row + 1 ≤ n; omega⟩, fun s hs => static_below_up _ hs⟩
      · refine (bt_push_order n maxDepth x succs hexp).imp ?_
        rintro a c ⟨col1, col2, hlt, rfl, rfl⟩ s t hs ht
        exact static_below_lt hJ.1 (by omega) hlt hs ht)
    (searchFuel n) [BTSolver.initialNode n b] Engine.fresh e hrun
    (fun x hx => by
      rw [List.mem_singleton.mp hx]
      exact ⟨hlen, findStartRow_le n b⟩)
    (List.pairwise_singleton _ _)
  have : e.solutions = L := by rw [hsol]; rfl
  rw [this]
  exact hsorted

theorem btfc_sorted (n : Nat) (b : Solution) (hlen : b.length = n) (maxDepth : Int)
    (e : Engine) (hrun : BTFCSolver.solve n b maxDepth Engine.fresh = some e) :
    e.solutions.Pairwise (fun s t => List.Lex (fun (a b : Int) => a < b) t s) := by
  obtain ⟨L, hsol, _, hsorted⟩ := searchLoop_sorted
    (BTFCSolver.policy n (precomputeAttackMasks n) maxDepth)
    (fun x => x.board.length = n ∧ x.row ≤ n)
    (fun x s => s.length = n ∧ ∀ i, i < x.row → s.getD i 0 = x.board.getD i 0)
    (fun s t => List.Lex (fun (a b : Int) => a < b) t s)
    (fun x hJ _ _ => ⟨hJ.1, fun _ _ => rfl⟩)
    (by
      intro x succs hJ _ hsol hexp
      have hrow : x.row ≠ n := by simpa [BTFCSolver.policy] using hsol
      have hJ2 : x.row ≤ n := hJ.2
      refine ⟨fun c hc => ?_, ?_⟩
      · obtain ⟨col, _, _, _, rfl⟩ := btfc_child hexp hc
        exact ⟨⟨by show (x.board.set x.row (col : Int)).length = n
                   rw [List.length_set]; exact hJ.1,
          by show x.row + 1 ≤ n; omega⟩, fun s hs => static_below_up _ hs⟩
      · refine List.Pairwise.imp_of_mem ?_ (btfc_push_order n _ maxDepth x succs hexp)
        rintro a c ha hc ⟨col1, col2, hlt, h1, h2⟩ s t hs ht
        obtain ⟨_, _, _, _, rfl⟩ := btfc_child hexp ha
        obtain ⟨_, _, _, _, rfl⟩ := btfc_child hexp hc
        have h1' : x.board.set x.row _ = x.board.set x.row (col1 : Int) := h1
        have h2' : x.board.set x.row _ = x.board.set x.row (col2 : Int) := h2
        have hs' : s.length = n ∧ ∀ i, i < x.row + 1 →
            s.getD i 0 = (x.board.set x.row (col1 : Int)).getD i 0 := by
          rw [← h1']; exact hs
        have ht' : t.length = n ∧ ∀ i, i < x.row + 1 →
            t.getD i 0 = (x.board.set x.row (col2 : Int)).getD i 0 := by
          rw [← h2']; exact ht
        exact static_below_lt hJ.1 (by omega) hlt hs' ht')
    (searchFuel n) [BTFCSolver.initialNode n (precomputeAttackMasks n) b] Engine.fresh e hrun
    (fun x hx => by
      rw [List.mem_singleton.mp hx]
      exact ⟨hlen, findStartRow_le n b⟩)
    (List.pairwise_singleton _ _)
  have : e.solutions = L := by rw [hsol]; rfl
  rw [this]
  exact hsorted

theorem ac3_sorted (n : Nat) (b : Solution) (hlen : b.length = n) (maxDepth : Int)
    (e : Engine) (hrun : AC3Solver.solve n b maxDepth Engine.fresh = some e) :
    e.solutions.Pairwise (fun s t => List.Lex (fun (a b : Int) => a < b) t s) := by
  obtain ⟨L, hsol, _, hsorted⟩ := searchLoop_sorted
    (AC3Solver.policy n (precomputeAttackMasks n) maxDepth)
    (fun x => x.board.length = n ∧ x.row ≤ n)
    (fun x s => s.length = n ∧ ∀ i, i < x.row → s.getD i 0 = x.board.getD i 0)
    (fun s t => List.Lex (fun (a b : Int) => a < b) t s)
    (fun x hJ _ _ => ⟨hJ.1, fun _ _ => rfl⟩)
    (by
      intro x succs hJ _ hsol hexp
      have hrow : x.row ≠ n := by simpa [AC3Solver.policy] using hsol
      have hJ2 : x.row ≤ n := hJ.2
      refine ⟨fun c hc => ?_, ?_⟩
      · obtain ⟨col, D', _, _, _, rfl⟩ := ac3_child hexp hc
        exact ⟨⟨by show (x.board.set x.row (col : Int)).length = n
                   rw [List.length_set]; exact hJ.1,
          by show x.row + 1 ≤ n; omega⟩, fun s hs => static_below_up _ hs⟩
      · refine List.Pairwise.imp_of_mem ?_ (ac3_push_order n _ maxDepth x succs hexp)
        rintro a c ha hc ⟨col1, col2, hlt, h1, h2⟩ s t hs ht
        obtain ⟨_, _, _, _, _, rfl⟩ := ac3_child hexp ha
        obtain ⟨_, _, _, _, _, rfl⟩ := ac3_child hexp hc
        have h1' : x.board.set x.row _ = x.board.set x.row (col1 : Int) := h1
        have h2' : x.board.set x.row _ = x.board.set x.row (col2 : Int) := h2
        have hs' : s.length = n ∧ ∀ i, i < x.row + 1 →
            s.getD i 0 = (x.board.set x.row (col1 : Int)).getD i 0 := by
          rw [← h1']; exact hs
        have ht' : t.length = n ∧ ∀ i, i < x.row + 1 →
            t.getD i 0 = (x.board.set x.row (col2 : Int)).getD i 0 := by
          rw [← h2']; exact ht
        exact static_below_lt hJ.1 (by omega) hlt hs' ht')
    (searchFuel n) [AC3Solver.initialNode n (precomputeAttackMasks n) b] Engine.fresh e hrun
    (fun x hx => by
      rw [List.mem_singleton.mp hx]
      exact ⟨hlen, findStartRow_le n b⟩)
    (List.pairwise_singleton _ _)
  have : e.solutions = L := by rw [hsol]; rfl
  rw [this]
  exact hsorted

/-- C20, as stated, fails: the successors are pushed on a stack in ascending column
order, so the one pushed last is popped first.  On the 4 × 4 board `BTSolver` records
`[2, 0, 3, 1]` (below the successor of the first node with column 2) before
`[1, 3, 0, 2]` (below the one with column 1), and the list is not in ascending
lexicographic order. -/
theorem C20_counterexample :
    (BTSolver.solve 4 (emptyBoard 4) 0 Engine.fresh).map (fun e => e.solutions)
      = some [[2, 0, 3, 1], [1, 3, 0, 2]] ∧
    ¬ List.Lex (fun (a b : Int) => a < b) [2, 0, 3, 1] [1, 3, 0, 2] ∧
    ¬ ([[2, 0, 3, 1], [1, 3, 0, 2]] : List Solution).Pairwise
        (fun s t => List.Lex (fun (a b : Int) => a < b) s t) := by
  refine ⟨by decide!, by decide, by decide⟩

/-- C20, amended.  In every strategy the successors of an expanded node are pushed in
ascending column order, and the loop pops the successor pushed last first (of two
accepted successors of the same node, the one with the larger column is processed
first); so for the static-order strategies run from the all-unassigned board with
depthCutoff 0 the solution list is in strictly descending lexicographic order of the
column tuples. -/
theorem C20_descending_order (n : Nat) :
    (∀ (maxDepth : Int) (x : SearchState) (succs : List SearchState),
      (BTSolver.policy n maxDepth).expand x = some succs →
      succs.Pairwise (fun a b => ∃ col1 col2 : Nat, col1 < col2 ∧
        a.board = x.board.set x.row (col1 : Int) ∧
        b.board = x.board.set x.row (col2 : Int))) ∧
    (∀ (attackMask : List (List (List Nat))) (maxDepth : Int) (x : FCSearchState)
        (succs : List FCSearchState),
      (BTFCSolver.policy n attackMask maxDepth).expand x = some succs →
      succs.Pairwise (fun a b => ∃ col1 col2 : Nat, col1 < col2 ∧
        a.board = x.board.set x.row (col1 : Int) ∧
        b.board = x.board.set x.row (col2 : Int))) ∧
    (∀ (attackMask : List (List (List Nat))) (maxDepth : Int) (x : FCSearchState)
        (succs : List FCSearchState),
      (AC3Solver.policy n attackMask maxDepth).expand x = some succs →
      succs.Pairwise (fun a b => ∃ col1 col2 : Nat, col1 < col2 ∧
        a.board = x.board.set x.row (col1 : Int) ∧
        b.board = x.board.set x.row (col2 : Int))) ∧
    (∀ (attackMask : List (List (List Nat))) (maxDepth : Int) (x : DVOSearchState)
        (succs : List DVOSearchState),
      (BTFCDVOSolver.policy n attackMask maxDepth).expand x = some succs →
      succs.Pairwise (fun a b => ∃ col1 col2 : Nat, col1 < col2 ∧
        a.board = x.board.set (selectMRVRow n x.board x.domains).toNat (col1 : Int) ∧
        b.board = x.board.set (selectMRVRow n x.board x.domains).toNat (col2 : Int))) ∧
    (∀ (attackMask : List (List (List Nat))) (maxDepth : Int) (x : DVOSearchState)
        (succs : List DVOSearchState),
      (AC3DVOSolver.policy n attackMask maxDepth).expand x = some succs →
      succs.Pairwise (fun a b => ∃ col1 col2 : Nat, col1 < col2 ∧
        a.board = x.board.set (selectMRVRow n x.board x.domains).toNat (col1 : Int) ∧
        b.board = x.board.set (selectMRVRow n x.board x.domains).toNat (col2 : Int))) ∧
    (∀ (σ : Type) (P : Policy σ) (fuel : Nat) (x : σ) (rest succs : List σ) (e : Engine),
      P.atCutoff x = false → P.isSolution x = false → P.expand x = some succs →
      searchLoop P (fuel + 1) (x :: rest) e = searchLoop P fuel (succs.reverse ++ rest) e) ∧
    (∃ e, BTSolver.solve n (emptyBoard n) 0 Engine.fresh = some e ∧
      e.solutions.Pairwise (fun s t => List.Lex (fun (a b : Int) => a < b) t s)) ∧
    (∃ e, BTFCSolver.solve n (emptyBoard n) 0 Engine.fresh = some e ∧
      e.solutions.Pairwise (fun s t => List.Lex (fun (a b : Int) => a < b) t s)) ∧
    (∃ e, AC3Solver.solve n (emptyBoard n) 0 Engine.fresh = some e ∧
      e.solutions.Pairwise (fun s t => List.Lex (fun (a b : Int) => a < b) t s)) := by
  have hlen : (emptyBoard n).length = n := by simp [emptyBoard]
  refine ⟨?_, fun am maxDepth x succs h => btfc_push_order n am maxDepth x succs h,
    fun am maxDepth x succs h => ac3_push_order n am maxDepth x succs h,
    fun am maxDepth x succs h => btfcdvo_push_order n am maxDepth x succs h,
    fun am maxDepth x succs h => ac3dvo_push_order n am maxDepth x succs h, ?_, ?_, ?_, ?_⟩
  · intro maxDepth x succs h
    refine (bt_push_order n maxDepth x succs h).imp ?_
    rintro a b ⟨col1, col2, hlt, rfl, rfl⟩
    exact ⟨col1, col2, hlt, rfl, rfl⟩
  · intro σ P fuel x rest succs e hc hs hexp
    rw [searchLoop_cons, hc, hs, hexp]
    rfl
  · obtain ⟨e, he⟩ := bt_solve_total n (emptyBoard n) 0 Engine.fresh
    exact ⟨e, he, bt_sorted n _ hlen 0 e he⟩
  · obtain ⟨e, he⟩ := btfc_solve_total n (emptyBoard n) 0 Engine.fresh
    exact ⟨e, he, btfc_sorted n _ hlen 0 e he⟩
  · obtain ⟨e, he⟩ := ac3_solve_total n (emptyBoard n) 0 Engine.fresh
    exact ⟨e, he, ac3_sorted n _ hlen 0 e he⟩

theorem C20_descending_order_witness :
    ∃ e, AC3Solver.solve 5 (emptyBoard 5) 0 Engine.fresh = some e ∧
      e.solutions.Pairwise (fun s t => List.Lex (fun (a b : Int) => a < b) t s) :=
  (C20_descending_order 5).2.2.2.2.2.2.2.2

/-! ## One engine object across calls of `solve()` -/

/-- What a run of the loop appends to the solution list and to the queue does not depend
on the engine it starts on. -/
theorem searchLoop_append {σ : Type} (P : Policy σ) :
    ∀ (fuel : Nat) (stack : List σ) (e e' : Engine), searchLoop P fuel stack e = some e' →
      ∃ L Q, e'.solutions = e.solutions ++ L ∧ e'.workQueue = e.workQueue ++ Q ∧
        ∀ e0, ∃ e0', searchLoop P fuel stack e0 = some e0' ∧
          e0'.solutions = e0.solutions ++ L ∧ e0'.workQueue = e0.workQueue ++ Q := by
  intro fuel
  induction fuel with
  | zero =>
    intro stack e e' hrun
    cases stack with
    | nil =>
      have : e' = e := by simpa [searchLoop] using hrun.symm
      subst this
      exact ⟨[], [], by simp, by simp, fun e0 => ⟨e0, rfl, by simp, by simp⟩⟩
    | cons x rest => simp [searchLoop] at hrun
  | succ fuel ih =>
    intro stack e e' hrun
    cases stack with
    | nil =>
      have : e' = e := by simpa [searchLoop] using hrun.symm
      subst this
      exact ⟨[], [], by simp, by simp, fun e0 => ⟨e0, rfl, by simp, by simp⟩⟩
    | cons x rest =>
      rw [searchLoop_cons] at hrun
      by_cases hc : P.atCutoff x = true
      · rw [if_pos hc] at hrun
        obtain ⟨L, Q, hsol, hq, hall⟩ := ih rest _ e' hrun
        refine ⟨L, P.board x :: Q, ?_, ?_, fun e0 => ?_⟩
        · rw [hsol, pushWork_solutions]
        · rw [hq, pushWork_workQueue, List.append_assoc]; rfl
        · obtain ⟨e0', h1, h2, h3⟩ := hall (pushWork e0 (P.board x))
          refine ⟨e0', ?_, ?_, ?_⟩
          · rw [searchLoop_cons, if_pos hc]; exact h1
          · rw [h2, pushWork_solutions]
          · rw [h3, pushWork_workQueue, List.append_assoc]; rfl
      · rw [if_neg hc] at hrun
        by_cases hs : P.isSolution x = true
        · rw [if_pos hs] at hrun
          obtain ⟨L, Q, hsol, hq, hall⟩ := ih rest _ e' hrun
          refine ⟨P.board x :: L, Q, ?_, ?_, fun e0 => ?_⟩
          · rw [hsol, recordSolution_solutions, List.append_assoc]; rfl
          · rw [hq, recordSolution_workQueue]
          · obtain ⟨e0', h1, h2, h3⟩ := hall (recordSolution e0 (P.board x))
            refine ⟨e0', ?_, ?_, ?_⟩
            · rw [searchLoop_cons, if_neg hc, if_pos hs]; exact h1
            · rw [h2, recordSolution_solutions, List.append_assoc]; rfl
            · rw [h3, recordSolution_workQueue]
        · rw [if_neg hs] at hrun
          cases hexp : P.expand x with
          | none => rw [hexp] at hrun; exact absurd hrun (by simp)
          | some succs =>
            rw [hexp] at hrun
            simp only [] at hrun
            obtain ⟨L, Q, hsol, hq, hall⟩ := ih _ e e' hrun
            refine ⟨L, Q, hsol, hq, fun e0 => ?_⟩
            obtain ⟨e0', h1, h2, h3⟩ := hall e0
            refine ⟨e0', ?_, h2, h3⟩
            rw [searchLoop_cons, if_neg hc, if_neg hs, hexp]
            exact h1

/-- The five `solve` bodies are one stack loop each, started on the node of the initial
board. -/
theorem solve_eq_loop (kind : SolverKind) (n : Nat) (b : Solution) (maxDepth : Int) :
    ∃ (σ : Type) (P : Policy σ) (stack : List σ),
      ∀ e, kind.solve n b maxDepth e = searchLoop P (searchFuel n) stack e := by
  cases kind
  · exact ⟨_, BTSolver.policy n maxDepth, _, fun _ => rfl⟩
  · exact ⟨_, BTFCSolver.policy n (precomputeAttackMasks n) maxDepth, _, fun _ => rfl⟩
  · exact ⟨_, BTFCDVOSolver.policy n (precomputeAttackMasks n) maxDepth, _, fun _ => rfl⟩
  · exact ⟨_, AC3Solver.policy n (precomputeAttackMasks n) maxDepth, _, fun _ => rfl⟩
  · exact ⟨_, AC3DVOSolver.policy n (precomputeAttackMasks n) maxDepth, _, fun _ => rfl⟩

/-- The members touched by the block that records a solution. -/
theorem recordSolution_stamp (e : Engine) (b : Solution) :
    (recordSolution e b).foundFirst = true ∧
    (e.foundFirst = true → (recordSolution e b).stampWrites = e.stampWrites ∧
      (recordSolution e b).firstSolutionTime = e.firstSolutionTime) ∧
    (e.foundFirst = false → (recordSolution e b).stampWrites = e.stampWrites + 1 ∧
      (recordSolution e b).firstSolutionTime = some (e.solutions.length + 1)) := by
  unfold recordSolution
  by_cases h : e.foundFirst = true
  · simp [h]
  · have h' : e.foundFirst = false := by simpa using h
    simp [h']

/-- The time stamp along a run of the loop: untouched once `foundFirst` is set; otherwise
written once, by the first append of the run, or not at all when the run appends
nothing. -/
theorem searchLoop_stamp {σ : Type} (P : Policy σ) :
    ∀ (fuel : Nat) (stack : List σ) (e e' : Engine), searchLoop P fuel stack e = some e' →
      (e.foundFirst = true → e'.foundFirst = true ∧ e'.stampWrites = e.stampWrites ∧
        e'.firstSolutionTime = e.firstSolutionTime) ∧
      (e.foundFirst = false →
        (e'.solutions = e.solutions ∧ e'.foundFirst = false ∧
          e'.stampWrites = e.stampWrites ∧ e'.firstSolutionTime = e.firstSolutionTime) ∨
        (e.solutions.length < e'.solutions.length ∧ e'.foundFirst = true ∧
          e'.stampWrites = e.stampWrites + 1 ∧
          e'.firstSolutionTime = some (e.solutions.length + 1))) := by
  intro fuel
  induction fuel with
  | zero =>
    intro stack e e' hrun
    cases stack with
    | nil =>
      have : e' = e := by simpa [searchLoop] using hrun.symm
      subst this
      exact ⟨fun h => ⟨h, rfl, rfl⟩, fun h => Or.inl ⟨rfl, h, rfl, rfl⟩⟩
    | cons x rest => simp [searchLoop] at hrun
  | succ fuel ih =>
    intro stack e e' hrun
    cases stack with
    | nil =>
      have : e' = e := by simpa [searchLoop] using hrun.symm
      subst this
      exact ⟨fun h => ⟨h, rfl, rfl⟩, fun h => Or.inl ⟨rfl, h, rfl, rfl⟩⟩
    | cons x rest =>
      rw [searchLoop_cons] at hrun
      by_cases hc : P.atCutoff x = true
      · rw [if_pos hc] at hrun
        exact ih rest (pushWork e (P.board x)) e' hrun
      · rw [if_neg hc] at hrun
        by_cases hs : P.isSolution x = true
        · rw [if_pos hs] at hrun
          obtain ⟨hff, hst, hfs⟩ := recordSolution_stamp e (P.board x)
          obtain ⟨h1, _⟩ := ih rest _ e' hrun
          obtain ⟨g1, g2, g3⟩ := h1 hff
          refine ⟨fun h => ⟨g1, ?_, ?_⟩, fun h => Or.inr ⟨?_, g1, ?_, ?_⟩⟩
          · rw [g2, (hst h).1]
          · rw [g3, (hst h).2]
          · obtain ⟨L, _, hsol, _, _⟩ := searchLoop_append P fuel rest _ e' hrun
            rw [hsol, recordSolution_solutions]
            simp only [List.length_append, List.length_cons, List.length_nil]
            omega
          · rw [g2, (hfs h).1]
          · rw [g3, (hfs h).2]
        · rw [if_neg hs] at hrun
          cases hexp : P.expand x with
          | none => rw [hexp] at hrun; exact absurd hrun (by simp)
          | some succs =>
            rw [hexp] at hrun
            exact ih _ e e' hrun

/-- Claim C21: calling `solve()` twice on one engine object (any strategy, any board of
length `n`, any cutoff, in particular cutoff 0) leaves the solution list equal to
`L ++ L`, where `L` is the list after the first call: the second call appends the same
boards in the same order and removes nothing. -/
theorem C21_solve_twice (kind : SolverKind) (n : Nat) (initialState : Solution)
    (hlen : initialState.length = n) (maxDepth : Int) :
    ∃ e1 e2, kind.solve n initialState maxDepth Engine.fresh = some e1 ∧
      kind.solve n initialState maxDepth e1 = some e2 ∧
      e2.solutions = e1.solutions ++ e1.solutions := by
  obtain ⟨e1, h1⟩ := solve_total kind n initialState hlen maxDepth Engine.fresh
  obtain ⟨σ, P, stack, hloop⟩ := solve_eq_loop kind n initialState maxDepth
  rw [hloop] at h1
  obtain ⟨L, _, hsol, _, hall⟩ := searchLoop_append P _ _ _ _ h1
  obtain ⟨e2, h2, hsol2, _⟩ := hall e1
  refine ⟨e1, e2, by rw [hloop]; exact h1, by rw [hloop]; exact h2, ?_⟩
  have hL : e1.solutions = L := by rw [hsol]; rfl
  rw [hsol2, hL]

theorem C21_solve_twice_witness :
    ([-1, -1, -1, -1] : Solution).length = 4 ∧
    ∃ e1 e2, SolverKind.BT.solve 4 [-1, -1, -1, -1] 0 Engine.fresh = some e1 ∧
      SolverKind.BT.solve 4 [-1, -1, -1, -1] 0 e1 = some e2 ∧
      e2.solutions = e1.solutions ++ e1.solutions :=
  ⟨rfl, C21_solve_twice SolverKind.BT 4 [-1, -1, -1, -1] rfl 0⟩

/-- Claim C22: in every strategy, `solve()` on a fresh engine writes the first-solution
time stamp exactly once if it records a solution, at the append of the first one (the
list then holds one board), and never if it records none; afterwards `foundFirst` is true
iff the solution list is non-empty, and the stamp still has its default value when the
list is empty.  On an engine whose `foundFirst` is already set a call writes nothing. -/
theorem C22_first_solution_stamp (kind : SolverKind) (n : Nat) (initialState : Solution)
    (hlen : initialState.length = n) (maxDepth : Int) :
    (∃ e, kind.solve n initialState maxDepth Engine.fresh = some e ∧
      (e.foundFirst = true ↔ e.solutions ≠ []) ∧
      (e.solutions = [] → e.firstSolutionTime = none ∧ e.stampWrites = 0) ∧
      (e.solutions ≠ [] → e.firstSolutionTime = some 1 ∧ e.stampWrites = 1)) ∧
    (∀ e0 : Engine, ∃ e, kind.solve n initialState maxDepth e0 = some e ∧
      (e0.foundFirst = true → e.foundFirst = true ∧ e.stampWrites = e0.stampWrites ∧
        e.firstSolutionTime = e0.firstSolutionTime) ∧
      (e0.foundFirst = false → e.solutions = e0.solutions →
        e.foundFirst = false ∧ e.stampWrites = e0.stampWrites ∧
        e.firstSolutionTime = e0.firstSolutionTime) ∧
      (e0.foundFirst = false → e.solutions ≠ e0.solutions →
        e.foundFirst = true ∧ e.stampWrites = e0.stampWrites + 1 ∧
        e.firstSolutionTime = some (e0.solutions.length + 1))) := by
  obtain ⟨σ, P, stack, hloop⟩ := solve_eq_loop kind n initialState maxDepth
  have hgen : ∀ e0 : Engine, ∃ e, kind.solve n initialState maxDepth e0 = some e ∧
      (e0.foundFirst = true → e.foundFirst = true ∧ e.stampWrites = e0.stampWrites ∧
        e.firstSolutionTime = e0.firstSolutionTime) ∧
      (e0.foundFirst = false → e.solutions = e0.solutions →
        e.foundFirst = false ∧ e.stampWrites = e0.stampWrites ∧
        e.firstSolutionTime = e0.firstSolutionTime) ∧
      (e0.foundFirst = false → e.solutions ≠ e0.solutions →
        e.foundFirst = true ∧ e.stampWrites = e0.stampWrites + 1 ∧
        e.firstSolutionTime = some (e0.solutions.length + 1)) := by
    intro e0
    obtain ⟨e, he⟩ := solve_total kind n initialState hlen maxDepth e0
    refine ⟨e, he, ?_⟩
    rw [hloop] at he
    obtain ⟨h1, h2⟩ := searchLoop_stamp P _ _ _ _ he
    refine ⟨h1, fun hf hsame => ?_, fun hf hne => ?_⟩
    · rcases h2 hf with h | h
      · exact h.2
      · rw [hsame] at h; exact absurd h.1 (Nat.lt_irrefl _)
    · rcases h2 hf with h | h
      · exact absurd h.1 hne
      · exact h.2
  refine ⟨?_, hgen⟩
  obtain ⟨e, he, _, h2, h3⟩ := hgen Engine.fresh
  have h2' := h2 rfl
  have h3' := h3 rfl
  refine ⟨e, he, ⟨fun hf hnil => ?_, fun hne => (h3' hne).1⟩, fun hnil => ?_, fun hne => ?_⟩
  · have := (h2' hnil).1
    rw [hf] at this
    exact Bool.noConfusion this
  · exact ⟨(h2' hnil).2.2, (h2' hnil).2.1⟩
  · exact ⟨(h3' hne).2.2, (h3' hne).2.1⟩

theorem C22_first_solution_stamp_witness :
    ([-1, -1, -1] : Solution).length = 3 ∧
    ∃ e, SolverKind.BTFCDVO.solve 3 [-1, -1, -1] 0 Engine.fresh = some e ∧
      (e.foundFirst = true ↔ e.solutions ≠ []) ∧
      (e.solutions = [] → e.firstSolutionTime = none ∧ e.stampWrites = 0) ∧
      (e.solutions ≠ [] → e.firstSolutionTime = some 1 ∧ e.stampWrites = 1) :=
  ⟨rfl, (C22_first_solution_stamp SolverKind.BTFCDVO 3 [-1, -1, -1] rfl 0).1⟩

/-! ## The factory, and the row order of the attack table -/

/-- Claim C23: `spawnSolver` returns an engine iff the identifier is one of `"BT"`,
`"BT-FC"`, `"BT-FC-DVO"`, `"AC3"`, `"AC3-DVO"`, and then the engine of the class of that
name; for every other identifier it returns no engine. -/
theorem C23_strategy_factory (solverType : String) :
    (spawnSolver solverType = some SolverKind.BT ↔ solverType = "BT") ∧
    (spawnSolver solverType = some SolverKind.BTFC ↔ solverType = "BT-FC") ∧
    (spawnSolver solverType = some SolverKind.BTFCDVO ↔ solverType = "BT-FC-DVO") ∧
    (spawnSolver solverType = some SolverKind.AC3 ↔ solverType = "AC3") ∧
    (spawnSolver solverType = some SolverKind.AC3DVO ↔ solverType = "AC3-DVO") ∧
    ((spawnSolver solverType).isSome = true ↔
      solverType ∈ ["BT", "BT-FC", "BT-FC-DVO", "AC3", "AC3-DVO"]) ∧
    (spawnSolver solverType = none ↔
      solverType ∉ ["BT", "BT-FC", "BT-FC-DVO", "AC3", "AC3-DVO"]) := by
  unfold spawnSolver
  by_cases h1 : solverType = "BT"
  · subst h1; simp
  by_cases h2 : solverType = "BT-FC"
  · subst h2; simp
  by_cases h3 : solverType = "BT-FC-DVO"
  · subst h3; simp
  by_cases h4 : solverType = "AC3"
  · subst h4; simp
  by_cases h5 : solverType = "AC3-DVO"
  · subst h5; simp
  simp [h1, h2, h3, h4, h5]

/-- The entry of the attack table at any three indices: zero off the table and on the
diagonal `r1 = r2`. -/
theorem attackAt_precompute_gen (n r1 r2 c : Nat) :
    attackAt (precomputeAttackMasks n) r1 r2 c =
      if r1 < n ∧ r2 < n ∧ c < n ∧ r1 ≠ r2 then attackMaskEntry n r1 r2 c else 0 := by
  by_cases h1 : r1 < n
  · by_cases h2 : r2 < n
    · by_cases hne : r1 = r2
      · subst hne
        rw [if_neg (by simp)]
        unfold attackAt precomputeAttackMasks
        rw [getD_map_range _ h1, getD_map_range _ h1]
        simp only [beq_self_eq_true, if_true]
        by_cases hc : c < n
        · rw [List.getD_eq_getElem _ _ (by simpa using hc)]
          simp
        · rw [List.getD_eq_default _ _ (by simpa using hc)]
      · by_cases hc : c < n
        · rw [if_pos ⟨h1, h2, hc, hne⟩]
          exact attackAt_precompute h1 h2 hc hne
        · rw [if_neg (fun h => hc h.2.2.1)]
          unfold attackAt precomputeAttackMasks
          rw [getD_map_range _ h1, getD_map_range _ h2]
          have hb : (r1 == r2) = false := by simpa using hne
          simp only [hb, Bool.false_eq_true, if_false]
          exact getD_map_range_ge _ (by omega) _
    · rw [if_neg (fun h => h2 h.2.1)]
      unfold attackAt precomputeAttackMasks
      rw [getD_map_range _ h1, getD_map_range_ge _ (by omega)]
      rfl
  · rw [if_neg (fun h => h1 h.1)]
    unfold attackAt precomputeAttackMasks
    rw [getD_map_range_ge _ (by omega)]
    rfl

/-- The mask stored for `(r1, r2, col)` depends on the two rows through their distance
only. -/
theorem attackMaskEntry_swap (n r1 r2 col : Nat) :
    attackMaskEntry n r1 r2 col = attackMaskEntry n r2 r1 col := by
  unfold attackMaskEntry
  have h : ((r2 : Int) - (r1 : Int)).natAbs = ((r1 : Int) - (r2 : Int)).natAbs := by omega
  rw [h]

theorem attackAt_swap (n r1 r2 c : Nat) :
    attackAt (precomputeAttackMasks n) r1 r2 c = attackAt (precomputeAttackMasks n) r2 r1 c := by
  rw [attackAt_precompute_gen, attackAt_precompute_gen, attackMaskEntry_swap n r1 r2 c]
  by_cases h : r1 < n ∧ r2 < n ∧ c < n ∧ r1 ≠ r2
  · rw [if_pos h, if_pos ⟨h.2.1, h.1, h.2.2.1, fun e => h.2.2.2 e.symm⟩]
  · rw [if_neg h, if_neg (fun g => h ⟨g.2.1, g.1, g.2.2.1, fun e => g.2.2.2 e.symm⟩)]

/-- Claim C24, refuted: there is no board size `n`, no pair of distinct rows and no
column in `[0, n)` at which the attack table holds different masks for the two orders of
the rows. -/
theorem C24_counterexample :
    ¬ ∃ n r1 r2 c : Nat, r1 ≠ r2 ∧ r1 < n ∧ r2 < n ∧ c < n ∧
      attackAt (precomputeAttackMasks n) r1 r2 c ≠
        attackAt (precomputeAttackMasks n) r2 r1 c := by
  rintro ⟨n, r1, r2, c, _, _, _, _, hne⟩
  exact hne (attackAt_swap n r1 r2 c)

/-- Claim C24, amended: swapping the row order in the attack table yields the same mask,
`attackMask[r1][r2][c] = attackMask[r2][r1][c]` for every board size, every two rows and
every column; the mask is the column `c` together with the columns `c - |r1 - r2|` and
`c + |r1 - r2|` that lie on the board. -/
theorem C24_row_swap_same_mask (n r1 r2 c : Nat) :
    attackAt (precomputeAttackMasks n) r1 r2 c = attackAt (precomputeAttackMasks n) r2 r1 c ∧
    attackMaskEntry n r1 r2 c = attackMaskEntry n r2 r1 c ∧
    (r1 < n → r2 < n → c < n → r1 ≠ r2 →
      attackAt (precomputeAttackMasks n) r1 r2 c = attackMaskEntry n r1 r2 c) :=
  ⟨attackAt_swap n r1 r2 c, attackMaskEntry_swap n r1 r2 c,
    fun h1 h2 hc hne => attackAt_precompute h1 h2 hc hne⟩

theorem C24_row_swap_same_mask_witness :
    attackAt (precomputeAttackMasks 4) 0 2 1 = 10 ∧
    attackAt (precomputeAttackMasks 4) 2 0 1 = 10 ∧
    attackAt (precomputeAttackMasks 4) 0 2 1 = attackAt (precomputeAttackMasks 4) 2 0 1 :=
  ⟨by decide, by decide, (C24_row_swap_same_mask 4 0 2 1).1⟩

/-! ## `revise`, exactly -/

theorem testBit_lt_word {x c : Nat} (hx : x < 2 ^ 64) (h : x.testBit c = true) : c < 64 := by
  by_contra hc
  have h2 : x < 2 ^ c := Nat.lt_of_lt_of_le hx (Nat.pow_le_pow_right (by decide) (by omega))
  rw [Nat.testBit_lt_two_pow h2] at h
  exact Bool.noConfusion h

theorem eq_zero_of_bitCount_zero {x : Nat} (hx : x < 2 ^ 64) (h : bitCount x = 0) : x = 0 := by
  by_contra h0
  have := bitCount_clear h0 hx
  omega

/-- The loop of `revise` collects in `toRemove` exactly the columns of `testDomain` that
have no support in `domain2`. -/
theorem reviseLoop_exact (am : List (List (List Nat))) (row1 row2 domain2 : Nat) :
    ∀ (fuel td tr : Nat), td < 2 ^ 64 → bitCount td ≤ fuel → ∀ c,
      ((reviseLoop am row1 row2 domain2 fuel td tr).testBit c = true ↔
        tr.testBit c = true ∨
          (td.testBit c = true ∧ domain2 &&& not64 (attackAt am row1 row2 c) = 0)) := by
  intro fuel
  induction fuel with
  | zero =>
    intro td tr htd hfuel c
    have h0 : td = 0 := eq_zero_of_bitCount_zero htd (by omega)
    subst h0
    simp [reviseLoop]
  | succ fuel ih =>
    intro td tr htd hfuel c
    unfold reviseLoop
    by_cases h0 : td = 0
    · subst h0
      simp
    · rw [if_neg h0]
      simp only []
      obtain ⟨hk, hbit, _⟩ := ctz64_spec h0 htd
      have hcnt := bitCount_clear h0 htd
      rw [ih _ _ (and_pred_lt_two_pow htd) (by omega) c, testBit_clear_ctz h0 htd c]
      by_cases hck : c = ctz64 td
      · subst hck
        by_cases hcomp : domain2 &&& not64 (attackAt am row1 row2 (ctz64 td)) = 0
        · rw [if_pos hcomp, Nat.testBit_lor, testBit_shl1 hk]
          simp [hbit, hcomp]
        · rw [if_neg hcomp]
          simp [hcomp]
      · have hne : ctz64 td ≠ c := fun h => hck h.symm
        by_cases hcomp : domain2 &&& not64 (attackAt am row1 row2 (ctz64 td)) = 0
        · rw [if_pos hcomp, Nat.testBit_lor, testBit_shl1 hk]
          simp [hck, hne]
        · rw [if_neg hcomp]
          simp [hck]

/-- The word `toRemove` that `revise` ends with. -/
theorem revise_toRemove (am : List (List (List Nat))) (row1 row2 : Nat) (D : List Nat)
    (hword : D.getD row1 0 < 2 ^ 64) (c : Nat) :
    (reviseLoop am row1 row2 (D.getD row2 0) 64 (D.getD row1 0) 0).testBit c = true ↔
      (D.getD row1 0).testBit c = true ∧
        D.getD row2 0 &&& not64 (attackAt am row1 row2 c) = 0 := by
  rw [reviseLoop_exact am row1 row2 _ 64 _ 0 hword (bitCount_le_64 _) c]
  simp

/-- The effect of `AC3Solver::revise` on `domains[row1]`, on the other rows, and its
result. -/
theorem revise_exact (am : List (List (List Nat))) (row1 row2 : Nat) (D : List Nat)
    (hword : D.getD row1 0 < 2 ^ 64) :
    (∀ c, ((AC3Solver.revise am row1 row2 D).2.getD row1 0).testBit c = true ↔
      (D.getD row1 0).testBit c = true ∧
        D.getD row2 0 &&& not64 (attackAt am row1 row2 c) ≠ 0) ∧
    ((AC3Solver.revise am row1 row2 D).1 = true ↔
      ∃ c, (D.getD row1 0).testBit c = true ∧
        D.getD row2 0 &&& not64 (attackAt am row1 row2 c) = 0) := by
  have htr := revise_toRemove am row1 row2 D hword
  rcases revise_changed am row1 row2 D with ⟨h, hne⟩ | h
  · obtain ⟨c0, hc0⟩ := Nat.ne_zero_implies_bit_true hne
    have hc0' := (htr c0).mp hc0
    have hlen : row1 < D.length := by
      by_contra hge
      rw [List.getD_eq_default _ _ (by omega)] at hc0'
      simp at hc0'
    rw [h]
    refine ⟨fun c => ?_, ?_⟩
    · simp only []
      rw [getD_set_eq _ _ _ hlen]
      by_cases hc : c < 64
      · rw [testBit_and_not64 _ _ _ hc]
        constructor
        · intro hb
          have hb' := Bool.and_eq_true _ _ |>.mp hb
          refine ⟨hb'.1, fun hz => ?_⟩
          have := (htr c).mpr ⟨hb'.1, hz⟩
          rw [this] at hb'
          simp at hb'
        · rintro ⟨hb, hnz⟩
          have : (reviseLoop am row1 row2 (D.getD row2 0) 64 (D.getD row1 0) 0).testBit c
              = false := by
            rw [← Bool.not_eq_true]
            exact fun ht => hnz ((htr c).mp ht).2
          rw [hb, this]
          rfl
      · rw [Nat.testBit_land]
        constructor
        · intro hb
          exact absurd (testBit_lt_word hword (Bool.and_eq_true _ _ |>.mp hb).1) hc
        · rintro ⟨hb, _⟩
          exact absurd (testBit_lt_word hword hb) hc
    · exact ⟨fun _ => ⟨c0, hc0'⟩, fun _ => rfl⟩
  · have hz : reviseLoop am row1 row2 (D.getD row2 0) 64 (D.getD row1 0) 0 = 0 := by
      by_contra hne
      have : AC3Solver.revise am row1 row2 D ≠ (false, D) := by
        unfold AC3Solver.revise
        simp only []
        rw [if_pos hne]
        intro heq
        exact Bool.noConfusion (congrArg Prod.fst heq)
      exact this h
    have hnone : ∀ c, ¬ ((D.getD row1 0).testBit c = true ∧
        D.getD row2 0 &&& not64 (attackAt am row1 row2 c) = 0) := by
      intro c hc
      have := (htr c).mpr hc
      rw [hz] at this
      simp at this
    rw [h]
    refine ⟨fun c => ⟨fun hb => ⟨hb, fun hz' => hnone c ⟨hb, hz'⟩⟩, fun hb => hb.1⟩, ?_⟩
    exact ⟨fun hf => Bool.noConfusion hf, fun ⟨c, hc⟩ => absurd hc (hnone c)⟩

/-- Claim C25: for a word `domains[row1]` and any rows `row1`, `row2`, `revise(row1, row2)`
clears from `domains[row1]` exactly the set columns `c` with
`domains[row2] & ~attackMask[row1][row2][c] = 0`, leaves the mask of every other row (so
`domains[row2]` too, for distinct rows) and the length of the vector unchanged, and
returns `true` iff at least one column was cleared.  `AC3DVOSolver::revise` does the same
when both rows are unassigned; when `row1` or `row2` is assigned it changes nothing and
returns `false`. -/
theorem C25_revise_step (attackMask : List (List (List Nat))) (row1 row2 : Nat)
    (domains : List Nat) (hword : domains.getD row1 0 < 2 ^ 64) :
    (∀ c, ((AC3Solver.revise attackMask row1 row2 domains).2.getD row1 0).testBit c = true ↔
      (domains.getD row1 0).testBit c = true ∧
        domains.getD row2 0 &&& not64 (attackAt attackMask row1 row2 c) ≠ 0) ∧
    (∀ k, k ≠ row1 →
      (AC3Solver.revise attackMask row1 row2 domains).2.getD k 0 = domains.getD k 0) ∧
    (AC3Solver.revise attackMask row1 row2 domains).2.length = domains.length ∧
    ((AC3Solver.revise attackMask row1 row2 domains).1 = true ↔
      ∃ c, (domains.getD row1 0).testBit c = true ∧
        domains.getD row2 0 &&& not64 (attackAt attackMask row1 row2 c) = 0) ∧
    (∀ board : Solution, board.getD row1 0 = -1 → board.getD row2 0 = -1 →
      AC3DVOSolver.revise attackMask board row1 row2 domains =
        AC3Solver.revise attackMask row1 row2 domains) ∧
    (∀ board : Solution, board.getD row1 0 ≠ -1 ∨ board.getD row2 0 ≠ -1 →
      AC3DVOSolver.revise attackMask board row1 row2 domains = (false, domains)) := by
  obtain ⟨h1, h2⟩ := revise_exact attackMask row1 row2 domains hword
  refine ⟨h1, ?_, ?_, h2, ?_, ?_⟩
  · exact fun k hk => (AC3Solver.revise_ok_ac3 attackMask).other row1 row2 domains k hk
  · exact (AC3Solver.revise_ok_ac3 attackMask).length row1 row2 domains
  · intro board hb1 hb2
    unfold AC3DVOSolver.revise
    rw [hb1, hb2]
    rfl
  · intro board hb
    unfold AC3DVOSolver.revise
    have : (board.getD row1 0 != -1 || board.getD row2 0 != -1) = true := by
      rw [Bool.or_eq_true, bne_iff_ne, bne_iff_ne]
      exact hb
    rw [if_pos this]

theorem C25_revise_step_witness :
    (([3, 8, 1, 5] : List Nat).getD 3 0 < 2 ^ 64) ∧
    AC3Solver.revise (precomputeAttackMasks 4) 3 2 [3, 8, 1, 5] = (true, [3, 8, 1, 4]) ∧
    (∀ c, ((AC3Solver.revise (precomputeAttackMasks 4) 3 2 [3, 8, 1, 5]).2.getD 3 0).testBit c
        = true ↔
      (([3, 8, 1, 5] : List Nat).getD 3 0).testBit c = true ∧
        ([3, 8, 1, 5] : List Nat).getD 2 0 &&&
          not64 (attackAt (precomputeAttackMasks 4) 3 2 c) ≠ 0) :=
  ⟨by decide, by decide, (C25_revise_step (precomputeAttackMasks 4) 3 2 [3, 8, 1, 5]
    (by decide)).1⟩

/-! ## `BTSolver::isSafe` -/

/-- The two scans of `isSafe` reject exactly when a row before `row` holds `col` or holds
a value as far from `col` as the row is from `row`. -/
theorem isSafe_false_iff (board : Solution) (row : Nat) (col : Int) :
    BTSolver.isSafe board row col = false ↔
      ∃ i, i < row ∧ (board.getD i 0 = col ∨ (board.getD i 0 - col).natAbs = row - i) := by
  unfold BTSolver.isSafe
  rw [Bool.and_eq_false_iff, List.all_eq_false, List.all_eq_false]
  constructor
  · rintro (⟨i, hi, h⟩ | ⟨i, hi, h⟩)
    · have hi' := List.mem_range.mp hi
      refine ⟨i, hi', Or.inl ?_⟩
      simpa using h
    · have hi' := List.mem_range.mp hi
      refine ⟨i, hi', Or.inr ?_⟩
      have h' : (board.getD i 0 - col).natAbs = ((i : Int) - (row : Int)).natAbs := by
        simpa using h
      rw [h']
      omega
  · rintro ⟨i, hi, h | h⟩
    · left
      refine ⟨i, List.mem_range.mpr hi, ?_⟩
      simpa using h
    · right
      refine ⟨i, List.mem_range.mpr hi, ?_⟩
      have h' : (board.getD i 0 - col).natAbs = ((i : Int) - (row : Int)).natAbs := by
        rw [h]
        omega
      simpa using h'

/-- The rows before the start row of `solve` are assigned. -/
theorem findStartRow_before (n : Nat) (b : Solution) :
    ∀ i, i < findStartRow n b → b.getD i 0 ≠ -1 := by
  intro i hi
  by_cases hex : ∃ j, j < n ∧ (b.getD j 0 == -1) = true
  · obtain ⟨k, hk, _, _, hlow⟩ := find_range_spec (fun j => b.getD j 0 == -1) n hex
    unfold findStartRow at hi
    rw [hk] at hi
    have := hlow i hi
    simpa using this
  · have hnone : (List.range n).find? (fun j => b.getD j 0 == -1) = none := by
      rw [List.find?_eq_none]
      intro j hj hp
      exact hex ⟨j, List.mem_range.mp hj, hp⟩
    unfold findStartRow at hi
    rw [hnone] at hi
    exact absurd hi (Nat.not_lt_zero _)

/-- On every node of a `BTSolver` run the rows before `row` are assigned. -/
theorem bt_reach_assigned (n : Nat) (maxDepth : Int) (b : Solution) (hlen : b.length = n)
    (x : SearchState)
    (hx : Reach (BTSolver.policy n maxDepth) (BTSolver.initialNode n b) x) :
    x.board.length = n ∧ x.row ≤ n ∧ ∀ i, i < x.row → x.board.getD i 0 ≠ -1 := by
  refine Reach.inv (fun x => x.board.length = n ∧ x.row ≤ n ∧
    ∀ i, i < x.row → x.board.getD i 0 ≠ -1) ?_ ?_ x hx
  · exact ⟨hlen, findStartRow_le n b, findStartRow_before n b⟩
  · rintro y succs ⟨hl, hr, ha⟩ _ hsol hexp c hc
    have hrow : y.row ≠ n := by simpa [BTSolver.policy] using hsol
    obtain ⟨col, _, _, rfl⟩ := bt_child hexp hc
    refine ⟨by show (y.board.set y.row (col : Int)).length = n; rw [List.length_set]; exact hl,
      by show y.row + 1 ≤ n; omega, fun i hi => ?_⟩
    have hi' : i < y.row + 1 := hi
    show (y.board.set y.row (col : Int)).getD i 0 ≠ -1
    by_cases hiy : i = y.row
    · subst hiy
      rw [getD_set_eq _ _ _ (by omega)]
      exact int_natCast_ne_neg_one col
    · rw [getD_set_ne _ _ _ (fun h => hiy h.symm)]
      exact ha i (by omega)

/-- Claim C26, refuted: on the board `[-1, -1]`, `isSafe(board, 1, 0)` returns `false`
although no row before row 1 is assigned: the unassigned row 0 holds `-1`, and
`|-1 - 0| = |0 - 1|`. -/
theorem C26_counterexample :
    BTSolver.isSafe [-1, -1] 1 0 = false ∧
    ¬ ∃ i, i < 1 ∧ ([-1, -1] : Solution).getD i 0 ≠ -1 ∧
      (([-1, -1] : Solution).getD i 0 = 0 ∨
        (([-1, -1] : Solution).getD i 0 - 0).natAbs = 1 - i) := by
  refine ⟨by decide, ?_⟩
  rintro ⟨i, hi, hne, _⟩
  have h0 : i = 0 := by omega
  subst h0
  exact hne (by decide)

/-- Claim C26, amended: for every board, row and column, `isSafe(board, row, col)` returns
`false` iff some row `i < row` has `board[i] = col` or `|board[i] - col| = row - i`,
whether or not that row is assigned; the rows from `row` on are not looked at.  When every
row before `row` is assigned, as on every node of a `BTSolver` run from a board of length
`n`, these rows are the previously assigned rows. -/
theorem C26_is_safe (board : Solution) (row : Nat) (col : Int) :
    (BTSolver.isSafe board row col = false ↔
      ∃ i, i < row ∧ (board.getD i 0 = col ∨ (board.getD i 0 - col).natAbs = row - i)) ∧
    ((∀ i, i < row → board.getD i 0 ≠ -1) →
      (BTSolver.isSafe board row col = false ↔
        ∃ i, i < row ∧ board.getD i 0 ≠ -1 ∧
          (board.getD i 0 = col ∨ (board.getD i 0 - col).natAbs = row - i))) ∧
    (∀ board' : Solution, (∀ i, i < row → board'.getD i 0 = board.getD i 0) →
      BTSolver.isSafe board' row col = BTSolver.isSafe board row col) ∧
    (∀ (n : Nat) (maxDepth : Int) (initialState : Solution), initialState.length = n →
      ∀ x, Reach (BTSolver.policy n maxDepth) (BTSolver.initialNode n initialState) x →
        ∀ i, i < x.row → x.board.getD i 0 ≠ -1) := by
  refine ⟨isSafe_false_iff board row col, fun hall => ?_, fun board' hsame => ?_,
    fun n maxDepth initialState hlen x hx => (bt_reach_assigned n maxDepth initialState hlen x
      hx).2.2⟩
  · rw [isSafe_false_iff]
    constructor
    · rintro ⟨i, hi, h⟩
      exact ⟨i, hi, hall i hi, h⟩
    · rintro ⟨i, hi, _, h⟩
      exact ⟨i, hi, h⟩
  · have hiff : BTSolver.isSafe board' row col = false ↔
        BTSolver.isSafe board row col = false := by
      rw [isSafe_false_iff, isSafe_false_iff]
      constructor
      · rintro ⟨i, hi, h⟩
        exact ⟨i, hi, by rw [← hsame i hi]; exact h⟩
      · rintro ⟨i, hi, h⟩
        exact ⟨i, hi, by rw [hsame i hi]; exact h⟩
    cases h1 : BTSolver.isSafe board' row col <;> cases h2 : BTSolver.isSafe board row col
    · rfl
    · rw [hiff.mp h1] at h2; exact Bool.noConfusion h2
    · rw [hiff.mpr h2] at h1; exact Bool.noConfusion h1
    · rfl

theorem C26_is_safe_witness :
    (∀ i, i < 2 → ([1, 3, -1, -1] : Solution).getD i 0 ≠ -1) ∧
    BTSolver.isSafe [1, 3, -1, -1] 2 2 = false ∧
    (BTSolver.isSafe [1, 3, -1, -1] 2 2 = false ↔
      ∃ i, i < 2 ∧ ([1, 3, -1, -1] : Solution).getD i 0 ≠ -1 ∧
        (([1, 3, -1, -1] : Solution).getD i 0 = 2 ∨
          (([1, 3, -1, -1] : Solution).getD i 0 - 2).natAbs = 2 - i)) :=
  ⟨by decide, by decide, (C26_is_safe [1, 3, -1, -1] 2 2).2.1 (by decide)⟩

/-! ## Forward checking: which successors are pushed -/

/-- The test `domain & (1ULL << col)` passes exactly for a set column of the word. -/
theorem and_shl1_ne_zero_iff (d col : Nat) :
    ((d &&& shl1 col) == 0) = false ↔ col < 64 ∧ d.testBit col = true := by
  constructor
  · exact bit_of_and_shl1
  · rintro ⟨hcol, hb⟩
    rw [and_shl1_eq_zero d hcol, hb]
    rfl

theorem fullMask_ne_zero {n : Nat} (hn : 0 < n) : fullMask n ≠ 0 := by
  apply ne_zero_of_testBit (c := 0)
  rw [testBit_fullMask_gen]
  exact ⟨hn, by decide⟩

/-- The successors pushed by one expansion of `BTFCSolver::solve`. -/
theorem btfc_expand_iff (n : Nat) (am : List (List (List Nat))) (maxDepth : Int)
    (x : FCSearchState) :
    ∃ succs, (BTFCSolver.policy n am maxDepth).expand x = some succs ∧
      ∀ s, s ∈ succs ↔ ∃ c, c < n ∧ c < 64 ∧ (x.domains.getD x.row 0).testBit c = true ∧
        (∀ f, x.row < f → f < n →
          x.domains.getD f 0 &&& not64 (attackAt am x.row f c) ≠ 0) ∧
        s = { board := x.board.set x.row (c : Int), row := x.row + 1,
              domains := pruneFuture n am x.domains x.row c } := by
  let g : Nat → Option FCSearchState := fun col =>
    if (x.domains.getD x.row 0 &&& shl1 col) == 0 then none
    else if BTFCSolver.causesWipeout n am x.domains x.row col then none
    else some { board := x.board.set x.row (col : Int), row := x.row + 1,
                domains := pruneFuture n am x.domains x.row col }
  have hexp : (BTFCSolver.policy n am maxDepth).expand x = some ((List.range n).filterMap g) :=
    pushColumns_total _ g _ (fun _ _ => rfl)
  refine ⟨_, hexp, fun s => ?_⟩
  rw [List.mem_filterMap]
  constructor
  · rintro ⟨c, hc, hg⟩
    simp only [g] at hg
    split at hg
    · exact Option.noConfusion hg
    · rename_i h1
      split at hg
      · exact Option.noConfusion hg
      · rename_i h2
        have hbit := (and_shl1_ne_zero_iff _ _).mp (Bool.eq_false_iff.mpr h1)
        have hw : BTFCSolver.causesWipeout n am x.domains x.row c = false := by simpa using h2
        exact ⟨c, List.mem_range.mp hc, hbit.1, hbit.2,
          (causesWipeout_false_iff n am x.domains x.row c).mp hw, (Option.some.inj hg).symm⟩
  · rintro ⟨c, hc, h64, hbit, hw, rfl⟩
    refine ⟨c, List.mem_range.mpr hc, ?_⟩
    simp only [g]
    rw [(and_shl1_ne_zero_iff _ _).mpr ⟨h64, hbit⟩,
      (causesWipeout_false_iff n am x.domains x.row c).mpr hw]
    rfl

/-- The successors pushed by one expansion of `BTFCDVOSolver::solve` on the row `r` that
`selectMRVRow` returned. -/
theorem btfcdvo_expand_iff (n : Nat) (am : List (List (List Nat))) (maxDepth : Int)
    (x : DVOSearchState) (r : Nat) (hsel : selectMRVRow n x.board x.domains = (r : Int)) :
    ∃ succs, (BTFCDVOSolver.policy n am maxDepth).expand x = some succs ∧
      ∀ s, s ∈ succs ↔ ∃ c, c < n ∧ c < 64 ∧ (x.domains.getD r 0).testBit c = true ∧
        (∀ f, f < n → x.board.getD f 0 = -1 → f ≠ r →
          x.domains.getD f 0 &&& not64 (attackAt am r f c) ≠ 0) ∧
        s = { board := x.board.set r (c : Int),
              domains := BTFCDVOSolver.pruneOthers n am x.board x.domains r c } := by
  let g : Nat → Option DVOSearchState := fun col =>
    if (x.domains.getD r 0 &&& shl1 col) == 0 then none
    else if BTFCDVOSolver.causesWipeout n am x.board x.domains r col then none
    else some { board := x.board.set r (col : Int),
                domains := BTFCDVOSolver.pruneOthers n am x.board x.domains r col }
  have hexp : (BTFCDVOSolver.policy n am maxDepth).expand x =
      some ((List.range n).filterMap g) := by
    have hne : (((r : Nat) : Int) == -1) = false := by
      rw [beq_eq_false_iff_ne]; omega
    simp only [BTFCDVOSolver.policy, hsel, hne, Int.toNat_ofNat, Bool.false_eq_true, if_false]
    exact pushColumns_total _ g _ (fun _ _ => rfl)
  refine ⟨_, hexp, fun s => ?_⟩
  rw [List.mem_filterMap]
  constructor
  · rintro ⟨c, hc, hg⟩
    simp only [g] at hg
    split at hg
    · exact Option.noConfusion hg
    · rename_i h1
      split at hg
      · exact Option.noConfusion hg
      · rename_i h2
        have hbit := (and_shl1_ne_zero_iff _ _).mp (Bool.eq_false_iff.mpr h1)
        have hw : BTFCDVOSolver.causesWipeout n am x.board x.domains r c = false := by
          simpa using h2
        exact ⟨c, List.mem_range.mp hc, hbit.1, hbit.2,
          (dvo_causesWipeout_false_iff n am x.board x.domains r c).mp hw,
          (Option.some.inj hg).symm⟩
  · rintro ⟨c, hc, h64, hbit, hw, rfl⟩
    refine ⟨c, List.mem_range.mpr hc, ?_⟩
    simp only [g]
    rw [(and_shl1_ne_zero_iff _ _).mpr ⟨h64, hbit⟩,
      (dvo_causesWipeout_false_iff n am x.board x.domains r c).mpr hw]
    rfl

/-- On every node of a `BTFCSolver` run from the all-unassigned board, the rows from
`row` on have a non-empty domain. -/
theorem btfc_reach_nonempty (n : Nat) (am : List (List (List Nat))) (maxDepth : Int)
    (x : FCSearchState)
    (hx : Reach (BTFCSolver.policy n am maxDepth) (BTFCSolver.initialNode n am (emptyBoard n))
      x) :
    ∀ r, x.row ≤ r → r < n → x.domains.getD r 0 ≠ 0 := by
  refine Reach.inv (fun x => ∀ r, x.row ≤ r → r < n → x.domains.getD r 0 ≠ 0) ?_ ?_ x hx
  · intro r _ hr
    show (BTFCSolver.initializeDomains n am (emptyBoard n)
      (findStartRow n (emptyBoard n))).getD r 0 ≠ 0
    rw [findStartRow_emptyBoard, btfc_init_empty n am hr]
    exact fullMask_ne_zero (by omega)
  · intro y succs _ _ _ hexp c hc r hr hrn
    obtain ⟨col, _, _, hw, rfl⟩ := btfc_child hexp hc
    have hr' : y.row + 1 ≤ r := hr
    show (pruneFuture n am y.domains y.row col).getD r 0 ≠ 0
    unfold pruneFuture
    rw [getD_map_range _ hrn, if_pos hr']
    exact (causesWipeout_false_iff n am y.domains y.row col).mp hw r (by omega) hrn

/-- On every node of a `BTFCDVOSolver` run from the all-unassigned board, the unassigned
rows have a non-empty domain. -/
theorem btfcdvo_reach_nonempty (n : Nat) (am : List (List (List Nat))) (maxDepth : Int)
    (x : DVOSearchState)
    (hx : Reach (BTFCDVOSolver.policy n am maxDepth)
      (BTFCDVOSolver.initialNode n am (emptyBoard n)) x) :
    ∀ r, r < n → x.board.getD r 0 = -1 → x.domains.getD r 0 ≠ 0 := by
  refine Reach.inv (fun x => ∀ r, r < n → x.board.getD r 0 = -1 → x.domains.getD r 0 ≠ 0)
    ?_ ?_ x hx
  · intro r hr _
    show (BTFCDVOSolver.initializeDomains n am (emptyBoard n)).getD r 0 ≠ 0
    rw [dvo_init_empty, List.getD_eq_getElem _ _ (by simpa using hr), List.getElem_replicate]
    exact fullMask_ne_zero (by omega)
  · intro y succs _ _ _ hexp c hc r hrn hun
    obtain ⟨r0, col, _, _, hun0, _, _, hw, rfl⟩ := btfcdvo_child hexp hc
    have hun' : (y.board.set r0 (col : Int)).getD r 0 = -1 := hun
    have hlen0 : r0 < y.board.length := by
      by_contra hge
      rw [List.getD_eq_default _ _ (by omega)] at hun0
      exact absurd hun0 (by decide)
    have hne : r ≠ r0 := by
      intro h
      subst h
      rw [getD_set_eq _ _ _ hlen0] at hun'
      exact int_natCast_ne_neg_one col hun'
    rw [getD_set_ne _ _ _ (fun h => hne h.symm)] at hun'
    show (BTFCDVOSolver.pruneOthers n am y.board y.domains r0 col).getD r 0 ≠ 0
    unfold BTFCDVOSolver.pruneOthers
    rw [getD_map_range _ hrn]
    have h1 : (r == r0) = false := by simpa using hne
    have h2 : (y.board.getD r 0 != -1) = false := by rw [hun']; rfl
    rw [h1, h2]
    simp only [Bool.false_eq_true, if_false]
    exact (dvo_causesWipeout_false_iff n am y.board y.domains r0 col).mp hw r hrn hun' hne

/-- Claim C27, for board sizes n ≤ 63 (the sizes for which the shifts `1ULL << n` and
`1ULL << col` of the engines are defined): while `BTFCSolver` expands a node on its row,
the successor for column `c` is pushed iff bit `c` is set in the row's domain and
`domains[f] & ~attackMask[row][f][c]` is non-zero for every row `f` after the row; while
`BTFCDVOSolver` expands a node on the row `r` returned by `selectMRVRow`, it is pushed iff
bit `c` is set in the domain of `r` and the same word is non-zero for every other
unassigned row `f`.  Hence on every node on the stack of a run from the all-unassigned
board, every row the node may still branch on (the rows from `row` on, resp. the
unassigned rows) has a non-empty domain. -/
theorem C27_forward_checking_acceptance (n : Nat) (hn : n ≤ 63)
    (attackMask : List (List (List Nat))) (maxDepth : Int) :
    (∀ x : FCSearchState, ∃ succs,
      (BTFCSolver.policy n attackMask maxDepth).expand x = some succs ∧
      ∀ s, s ∈ succs ↔ ∃ c, c < n ∧ (x.domains.getD x.row 0).testBit c = true ∧
        (∀ f, x.row < f → f < n →
          x.domains.getD f 0 &&& not64 (attackAt attackMask x.row f c) ≠ 0) ∧
        s = { board := x.board.set x.row (c : Int), row := x.row + 1,
              domains := pruneFuture n attackMask x.domains x.row c }) ∧
    (∀ (x : DVOSearchState) (r : Nat), selectMRVRow n x.board x.domains = (r : Int) →
      ∃ succs, (BTFCDVOSolver.policy n attackMask maxDepth).expand x = some succs ∧
      ∀ s, s ∈ succs ↔ ∃ c, c < n ∧ (x.domains.getD r 0).testBit c = true ∧
        (∀ f, f < n → x.board.getD f 0 = -1 → f ≠ r →
          x.domains.getD f 0 &&& not64 (attackAt attackMask r f c) ≠ 0) ∧
        s = { board := x.board.set r (c : Int),
              domains := BTFCDVOSolver.pruneOthers n attackMask x.board x.domains r c }) ∧
    (∀ x, Reach (BTFCSolver.policy n attackMask maxDepth)
        (BTFCSolver.initialNode n attackMask (emptyBoard n)) x →
      ∀ r, x.row ≤ r → r < n → x.domains.getD r 0 ≠ 0) ∧
    (∀ x, Reach (BTFCDVOSolver.policy n attackMask maxDepth)
        (BTFCDVOSolver.initialNode n attackMask (emptyBoard n)) x →
      ∀ r, r < n → x.board.getD r 0 = -1 → x.domains.getD r 0 ≠ 0) := by
  refine ⟨fun x => ?_, fun x r hsel => ?_, btfc_reach_nonempty n attackMask maxDepth,
    btfcdvo_reach_nonempty n attackMask maxDepth⟩
  · obtain ⟨succs, h1, h2⟩ := btfc_expand_iff n attackMask maxDepth x
    refine ⟨succs, h1, fun s => ?_⟩
    rw [h2]
    constructor
    · rintro ⟨c, hc, _, h⟩
      exact ⟨c, hc, h⟩
    · rintro ⟨c, hc, h⟩
      exact ⟨c, hc, by omega, h⟩
  · obtain ⟨succs, h1, h2⟩ := btfcdvo_expand_iff n attackMask maxDepth x r hsel
    refine ⟨succs, h1, fun s => ?_⟩
    rw [h2]
    constructor
    · rintro ⟨c, hc, _, h⟩
      exact ⟨c, hc, h⟩
    · rintro ⟨c, hc, h⟩
      exact ⟨c, hc, by omega, h⟩

theorem C27_forward_checking_acceptance_witness :
    (4 ≤ 63) ∧
    selectMRVRow 4 [-1, -1, -1, -1] [15, 15, 15, 15] = ((0 : Nat) : Int) ∧
    ∃ succs, (BTFCDVOSolver.policy 4 (precomputeAttackMasks 4) 0).expand
        { board := [-1, -1, -1, -1], domains := [15, 15, 15, 15] } = some succs ∧
      ∀ s, s ∈ succs ↔ ∃ c, c < 4 ∧
        (([15, 15, 15, 15] : List Nat).getD 0 0).testBit c = true ∧
        (∀ f, f < 4 → ([-1, -1, -1, -1] : Solution).getD f 0 = -1 → f ≠ 0 →
          ([15, 15, 15, 15] : List Nat).getD f 0 &&&
            not64 (attackAt (precomputeAttackMasks 4) 0 f c) ≠ 0) ∧
        s = { board := ([-1, -1, -1, -1] : Solution).set 0 (c : Int),
              domains := BTFCDVOSolver.pruneOthers 4 (precomputeAttackMasks 4)
                [-1, -1, -1, -1] [15, 15, 15, 15] 0 c } :=
  ⟨by decide, by decide,
    (C27_forward_checking_acceptance 4 (by decide) (precomputeAttackMasks 4) 0).2.1
      { board := [-1, -1, -1, -1], domains := [15, 15, 15, 15] } 0 (by decide)⟩

/-! ## The worklist loop, pop by pop -/

/-- A run of the loop function is a run of the relation, with at most `fuel` pops. -/
theorem enforceLoop_run (rev : Nat → Nat → List Nat → Bool × List Nat) (n : Nat)
    (board : Solution) (startRow : Nat) :
    ∀ (fuel : Nat) (w : List (Nat × Nat)) (D : List Nat) (r : Bool × List Nat),
      enforceLoop rev n board startRow fuel w D = some r →
      ∃ k, k ≤ fuel ∧ EnforceRun rev n board startRow w D k r := by
  intro fuel
  induction fuel with
  | zero =>
    intro w D r hrun
    cases w with
    | nil =>
      rw [enforceLoop_nil] at hrun
      rw [← Option.some.inj hrun]
      exact ⟨0, Nat.le_refl _, EnforceRun.done D⟩
    | cons a rest => exact Option.noConfusion hrun
  | succ fuel ih =>
    intro w D r hrun
    cases w with
    | nil =>
      rw [enforceLoop_nil] at hrun
      rw [← Option.some.inj hrun]
      exact ⟨0, Nat.zero_le _, EnforceRun.done D⟩
    | cons a rest =>
      obtain ⟨row1, row2⟩ := a
      rw [enforceLoop_cons] at hrun
      by_cases hch : (rev row1 row2 D).1 = true
      · rw [if_pos hch] at hrun
        by_cases hz : (rev row1 row2 D).2.getD row1 0 = 0
        · rw [if_pos hz] at hrun
          rw [← Option.some.inj hrun]
          exact ⟨1, by omega, EnforceRun.wipeout hch hz⟩
        · rw [if_neg hz] at hrun
          obtain ⟨k, hk, hr⟩ := ih _ _ r hrun
          exact ⟨k + 1, by omega, EnforceRun.requeue hch hz hr⟩
      · rw [if_neg hch] at hrun
        obtain ⟨k, hk, hr⟩ := ih _ _ r hrun
        exact ⟨k + 1, by omega, EnforceRun.unchanged (by simpa using hch) hr⟩

/-- A run of the relation is what the loop function computes, given fuel for its pops. -/
theorem EnforceRun.loop {rev : Nat → Nat → List Nat → Bool × List Nat} {n : Nat}
    {board : Solution} {startRow : Nat} {w : List (Nat × Nat)} {D : List Nat} {k : Nat}
    {r : Bool × List Nat} (h : EnforceRun rev n board startRow w D k r) :
    ∀ fuel, k ≤ fuel → enforceLoop rev n board startRow fuel w D = some r := by
  induction h with
  | done D => intro fuel _; exact enforceLoop_nil rev n board startRow fuel D
  | wipeout hch hz =>
    intro fuel hf
    obtain ⟨fuel', rfl⟩ : ∃ f, fuel = f + 1 := ⟨fuel - 1, by omega⟩
    rw [enforceLoop_cons, if_pos hch, if_pos hz]
  | requeue hch hz _ ih =>
    intro fuel hf
    obtain ⟨fuel', rfl⟩ : ∃ f, fuel = f + 1 := ⟨fuel - 1, by omega⟩
    rw [enforceLoop_cons, if_pos hch, if_neg hz]
    exact ih fuel' (by omega)
  | unchanged hch _ ih =>
    intro fuel hf
    obtain ⟨fuel', rfl⟩ : ∃ f, fuel = f + 1 := ⟨fuel - 1, by omega⟩
    rw [enforceLoop_cons, if_neg (by rw [hch]; exact Bool.noConfusion)]
    exact ih fuel' (by omega)

/-- A run that returns `false` ends at a `revise` that reported a change and left the
domain of its first row empty; its worklist was not empty. -/
theorem EnforceRun.false_last {rev : Nat → Nat → List Nat → Bool × List Nat} {n : Nat}
    {board : Solution} {startRow : Nat} {w : List (Nat × Nat)} {D : List Nat} {k : Nat}
    {r : Bool × List Nat} (h : EnforceRun rev n board startRow w D k r) :
    r.1 = false → w ≠ [] ∧ ∃ row1 row2 D0, (rev row1 row2 D0).1 = true ∧
      r.2 = (rev row1 row2 D0).2 ∧ r.2.getD row1 0 = 0 := by
  induction h with
  | done D => intro hf; exact Bool.noConfusion hf
  | wipeout hch hz =>
    intro _
    exact ⟨List.cons_ne_nil _ _, _, _, _, hch, rfl, hz⟩
  | requeue _ _ _ ih =>
    intro hf
    exact ⟨List.cons_ne_nil _ _, (ih hf).2⟩
  | unchanged _ _ ih =>
    intro hf
    exact ⟨List.cons_ne_nil _ _, (ih hf).2⟩

/-- A run that returns `true` has emptied its worklist: every arc it was given or pushed
has been popped, and no `revise` on the way emptied a domain it had changed. -/
theorem EnforceRun.true_pops {rev : Nat → Nat → List Nat → Bool × List Nat} {n : Nat}
    {board : Solution} {startRow : Nat} {w : List (Nat × Nat)} {D : List Nat} {k : Nat}
    {r : Bool × List Nat} (h : EnforceRun rev n board startRow w D k r) :
    r.1 = true → w.length ≤ k ∧ (w = [] → r = (true, D)) := by
  induction h with
  | done D => intro _; exact ⟨Nat.le_refl _, fun _ => rfl⟩
  | wipeout hch hz => intro hf; exact Bool.noConfusion hf
  | requeue _ _ _ ih =>
    intro hf
    have := (ih hf).1
    rw [List.length_append] at this
    exact ⟨by rw [List.length_cons]; omega, fun h => absurd h (List.cons_ne_nil _ _)⟩
  | unchanged _ _ ih =>
    intro hf
    have := (ih hf).1
    exact ⟨by rw [List.length_cons]; omega, fun h => absurd h (List.cons_ne_nil _ _)⟩

theorem bitCount_lt_of_cleared {a b c : Nat}
    (hsub : ∀ i, a.testBit i = true → b.testBit i = true) (hc : c < 64)
    (hb : b.testBit c = true) (ha : a.testBit c = false) : bitCount a < bitCount b := by
  unfold bitCount
  have h1 := countP_range_clear (fun i => b.testBit i)
    (fun i => b.testBit i && !decide (i = c)) c (by simp)
    (by
      intro i
      by_cases hi : i = c
      · subst hi; simp [hb]
      · simp [hi]) 64 hc
  have h2 : (List.range 64).countP (fun i => a.testBit i) ≤
      (List.range 64).countP (fun i => b.testBit i && !decide (i = c)) := by
    apply List.countP_mono_left
    intro i _ hi
    have hne : i ≠ c := by
      intro h
      subst h
      rw [ha] at hi
      exact Bool.noConfusion hi
    simp [hsub i hi, hne]
  omega

/-- A `revise` that reports a change has cleared at least one bit of `domains[row1]`. -/
theorem revise_pays (am : List (List (List Nat))) (row1 row2 : Nat) (D : List Nat)
    (h : (AC3Solver.revise am row1 row2 D).1 = true) :
    bitCount ((AC3Solver.revise am row1 row2 D).2.getD row1 0) < bitCount (D.getD row1 0) := by
  rcases revise_changed am row1 row2 D with ⟨heq, hne⟩ | heq
  · obtain ⟨c, hc⟩ := Nat.ne_zero_implies_bit_true hne
    rcases reviseLoop_sound am row1 row2 _ 64 _ 0 c hc with h0 | ⟨h64, hb, _⟩
    · simp at h0
    · have hlen : row1 < D.length := by
        by_contra hge
        rw [List.getD_eq_default _ _ (by omega)] at hb
        simp at hb
      rw [heq]
      simp only []
      rw [getD_set_eq _ _ _ hlen]
      apply bitCount_lt_of_cleared (maskSubset_and _ _) h64 hb
      rw [testBit_and_not64 _ _ _ h64, hb, hc]
      rfl
  · rw [heq] at h
    exact Bool.noConfusion h

theorem revise_pays_dvo (am : List (List (List Nat))) (board : Solution) (row1 row2 : Nat)
    (D : List Nat) (h : (AC3DVOSolver.revise am board row1 row2 D).1 = true) :
    bitCount ((AC3DVOSolver.revise am board row1 row2 D).2.getD row1 0)
      < bitCount (D.getD row1 0) := by
  unfold AC3DVOSolver.revise at h ⊢
  split at h
  · exact Bool.noConfusion h
  · rename_i hg
    rw [if_neg hg]
    exact revise_pays am row1 row2 D h

/-- Claim C28: for both AC-3 variants, every board and every domain vector of length `n`,
the worklist loop of `enforceArcConsistency` ends after finitely many pops (at most the
length of the initial worklist plus `n` times the sum of the domain words), returning
`true` from an empty worklist or `false` at the first `revise` that reports a change and
leaves the domain of `row1` empty.  Arcs are pushed only after a `revise` that reports a
change, and such a `revise` has cleared at least one bit of `domains[row1]`. -/
theorem C28_ac3_terminates (n : Nat) (attackMask : List (List (List Nat)))
    (domains : List Nat) (board : Solution) (startRow : Nat) (hlen : domains.length = n) :
    (∃ k r, k ≤ enforceFuel n (initialWorklist n board startRow) domains ∧
      EnforceRun (AC3Solver.revise attackMask) n board startRow
        (initialWorklist n board startRow) domains k r ∧
      AC3Solver.enforceArcConsistency n attackMask domains board startRow = some r ∧
      (r.1 = true → (initialWorklist n board startRow).length ≤ k) ∧
      (r.1 = false → ∃ row1 row2 D0, (AC3Solver.revise attackMask row1 row2 D0).1 = true ∧
        r.2 = (AC3Solver.revise attackMask row1 row2 D0).2 ∧ r.2.getD row1 0 = 0)) ∧
    (∃ k r, k ≤ enforceFuel n (initialWorklist n board 0) domains ∧
      EnforceRun (AC3DVOSolver.revise attackMask board) n board 0
        (initialWorklist n board 0) domains k r ∧
      AC3DVOSolver.enforceArcConsistency n attackMask domains board = some r ∧
      (r.1 = true → (initialWorklist n board 0).length ≤ k) ∧
      (r.1 = false → ∃ row1 row2 D0,
        (AC3DVOSolver.revise attackMask board row1 row2 D0).1 = true ∧
        r.2 = (AC3DVOSolver.revise attackMask board row1 row2 D0).2 ∧
        r.2.getD row1 0 = 0)) ∧
    (∀ row1 row2 D, (AC3Solver.revise attackMask row1 row2 D).1 = true →
      bitCount ((AC3Solver.revise attackMask row1 row2 D).2.getD row1 0)
        < bitCount (D.getD row1 0)) ∧
    (∀ row1 row2 D, (AC3DVOSolver.revise attackMask board row1 row2 D).1 = true →
      bitCount ((AC3DVOSolver.revise attackMask board row1 row2 D).2.getD row1 0)
        < bitCount (D.getD row1 0)) := by
  refine ⟨?_, ?_, revise_pays attackMask, revise_pays_dvo attackMask board⟩
  · obtain ⟨ok, D', hrun, _, _⟩ := enforceLoop_terminates (AC3Solver.revise_ok_ac3 attackMask)
      n board startRow (enforceFuel n (initialWorklist n board startRow) domains)
      (initialWorklist n board startRow) domains hlen
      (fun a ha => (mem_initialWorklist.mp ha).2.1) (Nat.le_refl _)
    obtain ⟨k, hk, hr⟩ := enforceLoop_run _ n board startRow _ _ _ _ hrun
    exact ⟨k, (ok, D'), hk, hr, hrun, fun ht => (hr.true_pops ht).1,
      fun hf => (hr.false_last hf).2⟩
  · obtain ⟨ok, D', hrun, _, _⟩ := enforceLoop_terminates
      (AC3DVOSolver.revise_ok_ac3dvo attackMask board)
      n board 0 (enforceFuel n (initialWorklist n board 0) domains)
      (initialWorklist n board 0) domains hlen
      (fun a ha => (mem_initialWorklist.mp ha).2.1) (Nat.le_refl _)
    obtain ⟨k, hk, hr⟩ := enforceLoop_run _ n board 0 _ _ _ _ hrun
    exact ⟨k, (ok, D'), hk, hr, hrun, fun ht => (hr.true_pops ht).1,
      fun hf => (hr.false_last hf).2⟩

theorem C28_ac3_terminates_witness :
    ([3, 8, 1, 5] : List Nat).length = 4 ∧
    AC3Solver.enforceArcConsistency 4 (precomputeAttackMasks 4) [3, 8, 1, 5] [1, 3, -1, -1] 2
      = some (true, [3, 8, 1, 4]) ∧
    ∃ k r, k ≤ enforceFuel 4 (initialWorklist 4 [1, 3, -1, -1] 2) [3, 8, 1, 5] ∧
      EnforceRun (AC3Solver.revise (precomputeAttackMasks 4)) 4 [1, 3, -1, -1] 2
        (initialWorklist 4 [1, 3, -1, -1] 2) [3, 8, 1, 5] k r ∧
      AC3Solver.enforceArcConsistency 4 (precomputeAttackMasks 4) [3, 8, 1, 5]
        [1, 3, -1, -1] 2 = some r ∧
      (r.1 = true → (initialWorklist 4 [1, 3, -1, -1] 2).length ≤ k) ∧
      (r.1 = false → ∃ row1 row2 D0,
        (AC3Solver.revise (precomputeAttackMasks 4) row1 row2 D0).1 = true ∧
        r.2 = (AC3Solver.revise (precomputeAttackMasks 4) row1 row2 D0).2 ∧
        r.2.getD row1 0 = 0) :=
  ⟨rfl, by decide, (C28_ac3_terminates 4 (precomputeAttackMasks 4) [3, 8, 1, 5]
    [1, 3, -1, -1] 2 rfl).1⟩

/-! ## Termination of the stack loop, and the row chosen by `selectMRVRow` -/

theorem foldl_maskSubset {α : Type} (step : Nat → α → Nat)
    (hstep : ∀ v a, MaskSubset (step v a) v) :
    ∀ (l : List α) (v : Nat), MaskSubset (l.foldl step v) v := by
  intro l
  induction l with
  | nil => intro v; exact maskSubset_refl v
  | cons a l ih =>
    intro v
    rw [List.foldl_cons]
    exact (ih (step v a)).trans (hstep v a)

/-- Every mask returned by the `initializeDomains` of the dynamic-order engines lies
within `(1ULL << n) - 1`. -/
theorem dvo_init_subset (n : Nat) (am : List (List (List Nat))) (b : Solution) (r : Nat) :
    MaskSubset ((BTFCDVOSolver.initializeDomains n am b).getD r 0) (fullMask n) := by
  by_cases hr : r < n
  · unfold BTFCDVOSolver.initializeDomains
    obtain ⟨_, h2⟩ := getD_foldl_rows n (fun row => b.getD row 0 != -1)
      (fun row otherRow v => if otherRow == row then 0 else
        v &&& not64 (attackAt am row otherRow (b.getD row 0).toNat))
      (List.range n) (List.replicate n (fullMask n)) (by simp)
    rw [h2 r hr, getD_replicate_lt _ _ _ hr]
    apply foldl_maskSubset
    intro v a
    by_cases hc : (b.getD a 0 != -1) = true
    · rw [if_pos hc]
      by_cases hra : (r == a) = true
      · rw [if_pos hra]; exact maskSubset_zero v
      · rw [if_neg hra]; exact maskSubset_and _ _
    · rw [if_neg hc]; exact maskSubset_refl v
  · rw [List.getD_eq_default _ _
      (by rw [BTFCDVOSolver.length_initializeDomains_btfcdvo]; omega)]
    exact maskSubset_zero _

/-- A mask within `(1ULL << n) - 1` has at most `n` set bits, and `popcount` counts
them. -/
theorem popcount_le_of_subset {x n : Nat} (h : MaskSubset x (fullMask n)) : popcount x ≤ n := by
  have hbits : ∀ i, x.testBit i = true → i < n ∧ i < 64 :=
    fun i hi => (testBit_fullMask_gen n i).mp (h i hi)
  have hx : x < 2 ^ 64 := by
    apply Nat.lt_pow_two_of_testBit
    intro i hi
    by_contra hc
    have := (hbits i ((Bool.not_eq_false _).mp hc)).2
    omega
  rw [popcount_eq hx]
  exact bitCount_le (fun i hi => (hbits i hi).1)

/-- On every node of a `BTFCDVOSolver` run the board has length `n` and every mask lies
within `(1ULL << n) - 1`. -/
theorem btfcdvo_reach_masks (n : Nat) (am : List (List (List Nat))) (maxDepth : Int)
    (b : Solution) (hlen : b.length = n) (x : DVOSearchState)
    (hx : Reach (BTFCDVOSolver.policy n am maxDepth) (BTFCDVOSolver.initialNode n am b) x) :
    x.board.length = n ∧ ∀ r, MaskSubset (x.domains.getD r 0) (fullMask n) := by
  refine Reach.inv (fun x => x.board.length = n ∧
    ∀ r, MaskSubset (x.domains.getD r 0) (fullMask n)) ?_ ?_ x hx
  · exact ⟨hlen, dvo_init_subset n am b⟩
  · rintro y succs ⟨hl, hm⟩ _ _ hexp c hc
    obtain ⟨r0, col, _, _, _, _, _, _, rfl⟩ := btfcdvo_child hexp hc
    refine ⟨by show (y.board.set r0 (col : Int)).length = n; rw [List.length_set]; exact hl,
      fun r => ?_⟩
    exact (pruneOthers_subset n am y.board y.domains r0 col r).trans (hm r)

/-- On every node of an `AC3DVOSolver` run the board and the domain vector have length `n`
and every mask lies within `(1ULL << n) - 1`. -/
theorem ac3dvo_reach_masks (n : Nat) (am : List (List (List Nat))) (maxDepth : Int)
    (b : Solution) (hlen : b.length = n) (x : DVOSearchState)
    (hx : Reach (AC3DVOSolver.policy n am maxDepth) (BTFCDVOSolver.initialNode n am b) x) :
    x.board.length = n ∧ ∀ r, MaskSubset (x.domains.getD r 0) (fullMask n) := by
  refine Reach.inv (fun x => x.board.length = n ∧
    ∀ r, MaskSubset (x.domains.getD r 0) (fullMask n)) ?_ ?_ x hx
  · exact ⟨hlen, dvo_init_subset n am b⟩
  · rintro y succs ⟨hl, hm⟩ _ _ hexp c hc
    obtain ⟨r0, col, D', _, _, _, _, _, henf, rfl⟩ := ac3dvo_child hexp hc
    refine ⟨by show (y.board.set r0 (col : Int)).length = n; rw [List.length_set]; exact hl,
      fun r => ?_⟩
    have hsub := (ac3dvo_enforce_subset (length_pruneOthers_ac3 n am y.domains r0 col) henf).2 r
    exact (hsub.trans (pruneOthers_ac3_subset n am y.domains r0 col r)).trans (hm r)

/-- A node whose masks lie within `(1ULL << n) - 1` and whose board is not complete gets a
row from `selectMRVRow`. -/
theorem select_of_masks {n : Nat} {x : DVOSearchState}
    (hm : ∀ r, MaskSubset (x.domains.getD r 0) (fullMask n))
    (hcnt : countAssigned n x.board ≠ n) :
    countAssigned n x.board < n ∧
    ∃ r : Nat, selectMRVRow n x.board x.domains = (r : Int) ∧ r < n ∧ x.board.getD r 0 = -1 := by
  have hle := countAssigned_le n x.board
  refine ⟨by omega, ?_⟩
  exact selectMRVRow_spec (fun r _ _ => popcount_le_of_subset (hm r)) (exists_unassigned hcnt)

/-- Claim C29: for every strategy, every board size `n` and every initial board of length
`n`, the stack loop of `solve()` empties its stack within the `(n+1)^(n+1)` pops that the
fuel of the model allows, whatever the cutoff and the engine state.  Every successor
pushed by a static-order engine has the row index of its parent plus one, and every
successor pushed by a dynamic-order engine has one more assigned row than its parent. -/
theorem C29_search_terminates (kind : SolverKind) (n : Nat) (initialState : Solution)
    (hlen : initialState.length = n) (maxDepth : Int) (e0 : Engine) :
    (∃ e, kind.solve n initialState maxDepth e0 = some e) ∧
    (∀ (x : SearchState) succs, (BTSolver.policy n maxDepth).expand x = some succs →
      ∀ c, c ∈ succs → c.row = x.row + 1) ∧
    (∀ am (x : FCSearchState) succs, (BTFCSolver.policy n am maxDepth).expand x = some succs →
      ∀ c, c ∈ succs → c.row = x.row + 1) ∧
    (∀ am (x : FCSearchState) succs, (AC3Solver.policy n am maxDepth).expand x = some succs →
      ∀ c, c ∈ succs → c.row = x.row + 1) ∧
    (∀ am (x : DVOSearchState) succs, x.board.length = n →
      (BTFCDVOSolver.policy n am maxDepth).expand x = some succs →
      ∀ c, c ∈ succs → c.board.length = n ∧
        countAssigned n c.board = countAssigned n x.board + 1) ∧
    (∀ am (x : DVOSearchState) succs, x.board.length = n →
      (AC3DVOSolver.policy n am maxDepth).expand x = some succs →
      ∀ c, c ∈ succs → c.board.length = n ∧
        countAssigned n c.board = countAssigned n x.board + 1) := by
  refine ⟨solve_total kind n initialState hlen maxDepth e0, ?_, ?_, ?_, ?_, ?_⟩
  · intro x succs hexp c hc
    obtain ⟨col, _, _, rfl⟩ := bt_child hexp hc
    rfl
  · intro am x succs hexp c hc
    obtain ⟨col, _, _, _, rfl⟩ := btfc_child hexp hc
    rfl
  · intro am x succs hexp c hc
    obtain ⟨col, D', _, _, _, rfl⟩ := ac3_child hexp hc
    rfl
  · intro am x succs hl hexp c hc
    obtain ⟨r, col, hr, _, hun, _, _, _, rfl⟩ := btfcdvo_child hexp hc
    exact ⟨by show (x.board.set r (col : Int)).length = n; rw [List.length_set]; exact hl,
      countAssigned_set hr hl hun (int_natCast_ne_neg_one col)⟩
  · intro am x succs hl hexp c hc
    obtain ⟨r, col, D', hr, _, hun, _, _, _, rfl⟩ := ac3dvo_child hexp hc
    exact ⟨by show (x.board.set r (col : Int)).length = n; rw [List.length_set]; exact hl,
      countAssigned_set hr hl hun (int_natCast_ne_neg_one col)⟩

theorem C29_search_terminates_witness :
    ([-1, 3, -1, -1] : Solution).length = 4 ∧
    ∃ e, SolverKind.AC3DVO.solve 4 [-1, 3, -1, -1] 0 Engine.fresh = some e :=
  ⟨rfl, (C29_search_terminates SolverKind.AC3DVO 4 [-1, 3, -1, -1] rfl 0 Engine.fresh).1⟩

/-- Claim C30: in `BTFCDVOSolver::solve` and `AC3DVOSolver::solve`, a node for which
`selectMRVRow` returns `-1` is skipped, nothing being pushed for it and no vector being
indexed; and for every initial board of length `n` the case does not arise: every node on
the stack that fails the solution test has fewer than `n` assigned rows, and
`selectMRVRow` returns one of its unassigned rows, a row in `[0, n)`. -/
theorem C30_mrv_no_row_dead (n : Nat) (attackMask : List (List (List Nat))) (maxDepth : Int)
    (initialState : Solution) (hlen : initialState.length = n) :
    (∀ x : DVOSearchState, selectMRVRow n x.board x.domains = -1 →
      (BTFCDVOSolver.policy n attackMask maxDepth).expand x = some [] ∧
      (AC3DVOSolver.policy n attackMask maxDepth).expand x = some []) ∧
    (∀ x, Reach (BTFCDVOSolver.policy n attackMask maxDepth)
        (BTFCDVOSolver.initialNode n attackMask initialState) x →
      (BTFCDVOSolver.policy n attackMask maxDepth).isSolution x = false →
      countAssigned n x.board < n ∧
      ∃ r : Nat, selectMRVRow n x.board x.domains = (r : Int) ∧ r < n ∧
        x.board.getD r 0 = -1) ∧
    (∀ x, Reach (AC3DVOSolver.policy n attackMask maxDepth)
        (BTFCDVOSolver.initialNode n attackMask initialState) x →
      (AC3DVOSolver.policy n attackMask maxDepth).isSolution x = false →
      countAssigned n x.board < n ∧
      ∃ r : Nat, selectMRVRow n x.board x.domains = (r : Int) ∧ r < n ∧
        x.board.getD r 0 = -1) := by
  refine ⟨fun x hsel => ?_, fun x hx hsol => ?_, fun x hx hsol => ?_⟩
  · constructor
    · simp only [BTFCDVOSolver.policy, hsel]
      rfl
    · simp only [AC3DVOSolver.policy, hsel]
      rfl
  · have hcnt : countAssigned n x.board ≠ n := by simpa [BTFCDVOSolver.policy] using hsol
    exact select_of_masks (btfcdvo_reach_masks n attackMask maxDepth initialState hlen x hx).2
      hcnt
  · have hcnt : countAssigned n x.board ≠ n := by simpa [AC3DVOSolver.policy] using hsol
    exact select_of_masks (ac3dvo_reach_masks n attackMask maxDepth initialState hlen x hx).2
      hcnt

theorem C30_mrv_no_row_dead_witness :
    ([-1, 3, -1, -1] : Solution).length = 4 ∧
    (BTFCDVOSolver.initialNode 4 (precomputeAttackMasks 4) [-1, 3, -1, -1]).domains
      = [3, 0, 3, 5] ∧
    selectMRVRow 4 [-1, 3, -1, -1] [3, 0, 3, 5] = ((0 : Nat) : Int) ∧
    (countAssigned 4 (BTFCDVOSolver.initialNode 4 (precomputeAttackMasks 4)
        [-1, 3, -1, -1]).board < 4 ∧
      ∃ r : Nat, selectMRVRow 4
          (BTFCDVOSolver.initialNode 4 (precomputeAttackMasks 4) [-1, 3, -1, -1]).board
          (BTFCDVOSolver.initialNode 4 (precomputeAttackMasks 4) [-1, 3, -1, -1]).domains
          = (r : Int) ∧ r < 4 ∧
        (BTFCDVOSolver.initialNode 4 (precomputeAttackMasks 4) [-1, 3, -1, -1]).board.getD r 0
          = -1) :=
  ⟨rfl, by decide, by decide,
    (C30_mrv_no_row_dead 4 (precomputeAttackMasks 4) 0 [-1, 3, -1, -1] rfl).2.1 _ Reach.root
      (by decide)⟩

/-! ## Symmetry of the attack relation, and the order of the static-order engines -/

/-- Claim C31: for `n ≤ 64`, distinct rows `r1`, `r2` and columns `c1`, `c2` in `[0, n)`,
bit `c2` is set in `attackMask[r1][r2][c1]` iff bit `c1` is set in
`attackMask[r2][r1][c2]`: a column of one row supports a column of the other row iff it
is supported by it.  The arcs pushed after `revise(row1, row2)` never include
`(row2, row1)`. -/
theorem C31_attack_symmetric (n : Nat) (hn : n ≤ 64) (r1 r2 c1 c2 : Nat) (h1 : r1 < n)
    (h2 : r2 < n) (hne : r1 ≠ r2) (hc1 : c1 < n) (hc2 : c2 < n) :
    ((attackAt (precomputeAttackMasks n) r1 r2 c1).testBit c2 = true ↔
      (attackAt (precomputeAttackMasks n) r2 r1 c2).testBit c1 = true) ∧
    ((attackAt (precomputeAttackMasks n) r1 r2 c1).testBit c2 = true ↔
      Attacks r1 (c1 : Int) r2 (c2 : Int)) ∧
    (∀ (board : Solution) (startRow : Nat) (a : Nat × Nat),
      a ∈ requeueArcs n board startRow r1 r2 → a ≠ (r2, r1)) := by
  have e1 := testBit_attackAt hn h1 h2 hc1 hne c2
  have e2 := testBit_attackAt hn h2 h1 hc2 (fun h => hne h.symm) c1
  refine ⟨?_, ?_, ?_⟩
  · rw [e1, e2]
    exact ⟨fun h => ⟨hc1, h.2.symm⟩, fun h => ⟨hc2, h.2.symm⟩⟩
  · rw [e1]
    exact ⟨fun h => h.2, fun h => ⟨hc2, h⟩⟩
  · intro board startRow a ha heq
    have := (mem_requeueArcs ha).2.2.2.2.1
    rw [heq] at this
    exact this rfl

theorem C31_attack_symmetric_witness :
    (4 ≤ 64) ∧ (0 < 4) ∧ (2 < 4) ∧ (0 ≠ 2) ∧ (1 < 4) ∧ (3 < 4) ∧
    ((attackAt (precomputeAttackMasks 4) 0 2 1).testBit 3 = true ↔
      (attackAt (precomputeAttackMasks 4) 2 0 3).testBit 1 = true) :=
  ⟨by decide, by decide, by decide, by decide, by decide, by decide,
    (C31_attack_symmetric 4 (by decide) 0 2 1 3 (by decide) (by decide) (by decide)
      (by decide) (by decide)).1⟩

/-- Two lists in strictly descending lexicographic order with the same members are the
same list. -/
theorem eq_of_descending {L1 L2 : List Solution}
    (h1 : L1.Pairwise (fun s t => List.Lex (fun (a b : Int) => a < b) t s))
    (h2 : L2.Pairwise (fun s t => List.Lex (fun (a b : Int) => a < b) t s))
    (d1 : L1.Nodup) (d2 : L2.Nodup) (hm : ∀ s, s ∈ L1 ↔ s ∈ L2) : L1 = L2 := by
  haveI : IsAntisymm Solution (fun s t => List.Lex (fun (a b : Int) => a < b) t s) :=
    ⟨fun a b hab hba =>
      absurd hab ((List.Lex.isAsymm (fun (a b : Int) => a < b)).asymm _ _ hba)⟩
  exact List.eq_of_perm_of_sorted ((List.perm_ext_iff_of_nodup d1 d2).mpr hm) h1 h2

/-- Claim C32: for every `n ≤ 63`, `BTSolver`, `BTFCSolver` and `AC3Solver` run from the
all-unassigned board with cutoff 0 return, and their solution lists are equal as lists:
the same boards at the same positions. -/
theorem C32_static_same_list (n : Nat) (hn : n ≤ 63) :
    ∃ e1 e2 e3, BTSolver.solve n (emptyBoard n) 0 Engine.fresh = some e1 ∧
      BTFCSolver.solve n (emptyBoard n) 0 Engine.fresh = some e2 ∧
      AC3Solver.solve n (emptyBoard n) 0 Engine.fresh = some e3 ∧
      e1.solutions = e2.solutions ∧ e2.solutions = e3.solutions := by
  have hlen : (emptyBoard n).length = n := by simp [emptyBoard]
  obtain ⟨e1, L1, r1, s1, _, d1, m1⟩ := SolverKind.BT.solve_spec_all n hn Engine.fresh
  obtain ⟨e2, L2, r2, s2, _, d2, m2⟩ := SolverKind.BTFC.solve_spec_all n hn Engine.fresh
  obtain ⟨e3, L3, r3, s3, _, d3, m3⟩ := SolverKind.AC3.solve_spec_all n hn Engine.fresh
  have r1' : BTSolver.solve n (emptyBoard n) 0 Engine.fresh = some e1 := r1
  have r2' : BTFCSolver.solve n (emptyBoard n) 0 Engine.fresh = some e2 := r2
  have r3' : AC3Solver.solve n (emptyBoard n) 0 Engine.fresh = some e3 := r3
  have q1 : e1.solutions = L1 := by rw [s1]; rfl
  have q2 : e2.solutions = L2 := by rw [s2]; rfl
  have q3 : e3.solutions = L3 := by rw [s3]; rfl
  have o1 := bt_sorted n _ hlen 0 e1 r1'
  have o2 := btfc_sorted n _ hlen 0 e2 r2'
  have o3 := ac3_sorted n _ hlen 0 e3 r3'
  refine ⟨e1, e2, e3, r1', r2', r3', ?_, ?_⟩
  · apply eq_of_descending o1 o2 (q1 ▸ d1) (q2 ▸ d2)
    intro s
    rw [q1, q2, m1, m2]
  · apply eq_of_descending o2 o3 (q2 ▸ d2) (q3 ▸ d3)
    intro s
    rw [q2, q3, m2, m3]

theorem C32_static_same_list_witness :
    (4 ≤ 63) ∧
    ∃ e1 e2 e3, BTSolver.solve 4 (emptyBoard 4) 0 Engine.fresh = some e1 ∧
      BTFCSolver.solve 4 (emptyBoard 4) 0 Engine.fresh = some e2 ∧
      AC3Solver.solve 4 (emptyBoard 4) 0 Engine.fresh = some e3 ∧
      e1.solutions = e2.solutions ∧ e2.solutions = e3.solutions :=
  ⟨by decide, C32_static_same_list 4 (by decide)⟩

/-! ## Hand-off: the domains a worker rebuilds from a queued board -/

theorem list_ext_getD {n : Nat} {l1 l2 : List Nat} (h1 : l1.length = n) (h2 : l2.length = n)
    (h : ∀ r, r < n → l1.getD r 0 = l2.getD r 0) : l1 = l2 := by
  apply List.ext_getElem (by rw [h1, h2])
  intro i hi1 hi2
  have := h i (by omega)
  rwa [List.getD_eq_getElem _ _ hi1, List.getD_eq_getElem _ _ hi2] at this

/-- On every node of a `BTFCDVOSolver` run from the all-unassigned board the domain vector
has length `n` and the assigned rows hold columns in `[0, n)`. -/
theorem btfcdvo_reach_range (n : Nat) (am : List (List (List Nat))) (maxDepth : Int)
    (x : DVOSearchState)
    (hx : Reach (BTFCDVOSolver.policy n am maxDepth)
      (BTFCDVOSolver.initialNode n am (emptyBoard n)) x) :
    x.domains.length = n ∧
    ∀ i, i < n → x.board.getD i 0 ≠ -1 → 0 ≤ x.board.getD i 0 ∧ x.board.getD i 0 < (n : Int) := by
  refine Reach.inv (fun x => x.domains.length = n ∧
    ∀ i, i < n → x.board.getD i 0 ≠ -1 →
      0 ≤ x.board.getD i 0 ∧ x.board.getD i 0 < (n : Int)) ?_ ?_ x hx
  · refine ⟨BTFCDVOSolver.length_initializeDomains_btfcdvo n am _, fun i hi hb => ?_⟩
    exact absurd (getD_emptyBoard n i hi) hb
  · rintro y succs ⟨_, hr⟩ _ _ hexp c hc
    obtain ⟨r0, col, _, _, hun0, hcol, _, _, rfl⟩ := btfcdvo_child hexp hc
    have hlen0 : r0 < y.board.length := by
      by_contra hge
      rw [List.getD_eq_default _ _ (by omega)] at hun0
      exact absurd hun0 (by decide)
    refine ⟨by simp [BTFCDVOSolver.pruneOthers], fun i hi hb => ?_⟩
    have hb' : (y.board.set r0 (col : Int)).getD i 0 ≠ -1 := hb
    show 0 ≤ (y.board.set r0 (col : Int)).getD i 0 ∧
      (y.board.set r0 (col : Int)).getD i 0 < (n : Int)
    by_cases h : i = r0
    · subst h
      rw [getD_set_eq _ _ _ hlen0]
      omega
    · rw [getD_set_ne _ _ _ (fun h' => h h'.symm)] at hb' ⊢
      exact hr i hi hb'

/-- Claim C33: for `BTFCDVOSolver`, every `n ≤ 63` and every node on the stack of a run
from the all-unassigned board (any cutoff), `initializeDomains` applied to the board of
the node returns the domain vector of the node, so the first node of a worker engine
built on that board is the node itself. -/
theorem C33_handoff_reconstructs_domains (n : Nat) (hn : n ≤ 63) (maxDepth : Int)
    (x : DVOSearchState)
    (hx : Reach (BTFCDVOSolver.policy n (precomputeAttackMasks n) maxDepth)
      (BTFCDVOSolver.initialNode n (precomputeAttackMasks n) (emptyBoard n)) x) :
    BTFCDVOSolver.initializeDomains n (precomputeAttackMasks n) x.board = x.domains ∧
    (∀ r, (BTFCDVOSolver.initializeDomains n (precomputeAttackMasks n) x.board).getD r 0
      = x.domains.getD r 0) ∧
    BTFCDVOSolver.initialNode n (precomputeAttackMasks n) x.board = x := by
  obtain ⟨hlenD, hrange⟩ := btfcdvo_reach_range n _ maxDepth x hx
  obtain ⟨_, hdom⟩ := btfcdvo_reach_exact n hn maxDepth x hx
  have hzero := btfcdvo_reach_zero n _ maxDepth _ x hx
  have heq : BTFCDVOSolver.initializeDomains n (precomputeAttackMasks n) x.board
      = x.domains := by
    apply list_ext_getD (BTFCDVOSolver.length_initializeDomains_btfcdvo n _ _) hlenD
    intro r hr
    by_cases hb : x.board.getD r 0 = -1
    · apply Nat.eq_of_testBit_eq
      intro c
      rw [Bool.eq_iff_iff,
        (BTFCDVOSolver.testBit_initializeDomains_btfcdvo hn _ x.board hr c).2,
        hdom r c hr hb]
      constructor
      · rintro ⟨hc, h⟩
        refine ⟨hc, fun i hi hbi hatt => ?_⟩
        obtain ⟨hne, hbit⟩ := h i hi hbi
        obtain ⟨h0, hlt⟩ := hrange i hi hbi
        have hcol : (x.board.getD i 0).toNat < n := by omega
        have := (testBit_attackAt (by omega) hi hr hcol hne c).mpr
          ⟨hc, by rw [Int.toNat_of_nonneg h0]; exact hatt⟩
        rw [this] at hbit
        exact Bool.noConfusion hbit
      · rintro ⟨hc, h⟩
        refine ⟨hc, fun i hi hbi => ?_⟩
        have hne : i ≠ r := fun e => hbi (e ▸ hb)
        obtain ⟨h0, hlt⟩ := hrange i hi hbi
        have hcol : (x.board.getD i 0).toNat < n := by omega
        refine ⟨hne, ?_⟩
        rw [← Bool.not_eq_true]
        intro hbit
        have := ((testBit_attackAt (by omega) hi hr hcol hne c).mp hbit).2
        rw [Int.toNat_of_nonneg h0] at this
        exact h i hi hbi this
    · rw [dvo_init_zero n _ x.board hr hb, hzero r hr hb]
  refine ⟨heq, fun r => by rw [heq], ?_⟩
  unfold BTFCDVOSolver.initialNode
  rw [heq]

theorem C33_handoff_reconstructs_domains_witness :
    (4 ≤ 63) ∧
    BTFCDVOSolver.initializeDomains 4 (precomputeAttackMasks 4) [1, -1, -1, -1]
      = [0, 8, 5, 13] :=
  ⟨by decide, (C33_handoff_reconstructs_domains 4 (by decide) 0
    { board := [1, -1, -1, -1], domains := [0, 8, 5, 13] }
    (@Reach.push _ _ _ _ _
      [{ board := [0, -1, -1, -1], domains := [0, 12, 10, 6] },
       { board := [1, -1, -1, -1], domains := [0, 8, 5, 13] },
       { board := [2, -1, -1, -1], domains := [0, 1, 10, 11] },
       { board := [3, -1, -1, -1], domains := [0, 3, 5, 6] }]
      Reach.root (by decide) (by decide) (by decide) (by decide))).1⟩

/-! ## Boards on the queue of a seed run exclude one another -/

theorem Clash.flip {n : Nat} {b b' : Solution} (h : Clash n b b') : Clash n b' b := by
  obtain ⟨r, hr, h1, h2, h3⟩ := h
  exact ⟨r, hr, h2, h1, fun e => h3 e.symm⟩

/-- No placement agrees with two boards that clash. -/
theorem Clash.no_common {n : Nat} {b b' s : Solution} (h : Clash n b b') (h1 : Agrees n b s)
    (h2 : Agrees n b' s) : False := by
  obtain ⟨r, hr, hb, hb', hne⟩ := h
  exact hne ((h1 r hr hb).symm.trans (h2 r hr hb'))

/-- Assigning an unassigned row keeps every clash. -/
theorem Clash.set {n : Nat} {a xb : Solution} {r : Nat} (col : Int) (h : Clash n a xb)
    (hun : xb.getD r 0 = -1) : Clash n a (xb.set r col) := by
  obtain ⟨r', hr', h1, h2, h3⟩ := h
  have hne : r ≠ r' := fun e => h2 (e ▸ hun)
  refine ⟨r', hr', h1, ?_, ?_⟩
  · rw [getD_set_ne _ _ _ hne]; exact h2
  · rw [getD_set_ne _ _ _ hne]; exact h3

/-- Two successors of a node for different columns of the same row clash. -/
theorem clash_siblings {n : Nat} {xb : Solution} {r col1 col2 : Nat} (hr : r < n)
    (hlen : r < xb.length) (hlt : col1 < col2) :
    Clash n (xb.set r (col1 : Int)) (xb.set r (col2 : Int)) := by
  refine ⟨r, hr, ?_, ?_, ?_⟩
  · rw [getD_set_eq _ _ _ hlen]; omega
  · rw [getD_set_eq _ _ _ hlen]; omega
  · rw [getD_set_eq _ _ _ hlen, getD_set_eq _ _ _ hlen]; omega

/-- The boards that a run pushes to the queue are pairwise related by `R`, when `R` is
symmetric, relates the boards of any two successors of a node, and is handed from a node
to its successors. -/
theorem searchLoop_clash {σ : Type} (P : Policy σ) (J : σ → Prop)
    (R : Solution → Solution → Prop) (hsym : ∀ a b, R a b → R b a)
    (hstep : ∀ x succs, J x → P.atCutoff x = false → P.isSolution x = false →
      P.expand x = some succs →
      (∀ c, c ∈ succs → J c ∧ ∀ a, R a (P.board x) → R a (P.board c)) ∧
      succs.Pairwise (fun a b => R (P.board a) (P.board b))) :
    ∀ (fuel : Nat) (stack : List σ) (e e' : Engine), searchLoop P fuel stack e = some e' →
      (∀ x, x ∈ stack → J x) →
      stack.Pairwise (fun a b => R (P.board a) (P.board b)) →
      ∃ Q, e'.workQueue = e.workQueue ++ Q ∧ Q.Pairwise R ∧
        ∀ a, (∀ y, y ∈ stack → R a (P.board y)) → ∀ q, q ∈ Q → R a q := by
  intro fuel
  induction fuel with
  | zero =>
    intro stack e e' hrun _ _
    cases stack with
    | nil =>
      have : e' = e := by simpa [searchLoop] using hrun.symm
      subst this
      exact ⟨[], by simp, List.Pairwise.nil, fun _ _ q hq => absurd hq (List.not_mem_nil _)⟩
    | cons x rest => simp [searchLoop] at hrun
  | succ fuel ih =>
    intro stack e e' hrun hJ hpw
    cases stack with
    | nil =>
      have : e' = e := by simpa [searchLoop] using hrun.symm
      subst this
      exact ⟨[], by simp, List.Pairwise.nil, fun _ _ q hq => absurd hq (List.not_mem_nil _)⟩
    | cons x rest =>
      have hx := hJ x (List.mem_cons_self _ _)
      have hrest : ∀ y, y ∈ rest → J y := fun y hy => hJ y (List.mem_cons_of_mem _ hy)
      obtain ⟨hxrest, hpwrest⟩ := List.pairwise_cons.mp hpw
      rw [searchLoop_cons] at hrun
      by_cases hc : P.atCutoff x = true
      · rw [if_pos hc] at hrun
        obtain ⟨Q, hq, hQ, hall⟩ := ih rest _ e' hrun hrest hpwrest
        refine ⟨P.board x :: Q, ?_, ?_, ?_⟩
        · rw [hq, pushWork_workQueue, List.append_assoc]; rfl
        · exact List.pairwise_cons.mpr ⟨fun q hq' => hall _ hxrest q hq', hQ⟩
        · intro a ha q hq'
          rcases List.mem_cons.mp hq' with h | h
          · rw [h]; exact ha x (List.mem_cons_self _ _)
          · exact hall a (fun y hy => ha y (List.mem_cons_of_mem _ hy)) q h
      · rw [if_neg hc] at hrun
        have hc' : P.atCutoff x = false := by simpa using hc
        by_cases hs : P.isSolution x = true
        · rw [if_pos hs] at hrun
          obtain ⟨Q, hq, hQ, hall⟩ := ih rest _ e' hrun hrest hpwrest
          refine ⟨Q, ?_, hQ, ?_⟩
          · rw [hq, recordSolution_workQueue]
          · intro a ha q hq'
            exact hall a (fun y hy => ha y (List.mem_cons_of_mem _ hy)) q hq'
        · rw [if_neg hs] at hrun
          have hs' : P.isSolution x = false := by simpa using hs
          cases hexp : P.expand x with
          | none => rw [hexp] at hrun; exact absurd hrun (by simp)
          | some succs =>
            rw [hexp] at hrun
            simp only [] at hrun
            obtain ⟨hch, hsib⟩ := hstep x succs hx hc' hs' hexp
            obtain ⟨Q, hq, hQ, hall⟩ := ih _ e e' hrun
              (by
                intro y hy
                rcases List.mem_append.mp hy with h | h
                · exact (hch y (List.mem_reverse.mp h)).1
                · exact hrest y h)
              (by
                rw [List.pairwise_append]
                refine ⟨?_, hpwrest, ?_⟩
                · rw [List.pairwise_reverse]
                  exact hsib.imp (fun {a b} h => hsym _ _ h)
                · intro c hc2 y hy
                  have hc3 := List.mem_reverse.mp hc2
                  exact hsym _ _ ((hch c hc3).2 _ (hsym _ _ (hxrest y hy))))
            refine ⟨Q, hq, hQ, ?_⟩
            intro a ha q hq'
            apply hall a _ q hq'
            intro y hy
            rcases List.mem_append.mp hy with h | h
            · exact (hch y (List.mem_reverse.mp h)).2 a (ha x (List.mem_cons_self _ _))
            · exact ha y (List.mem_cons_of_mem _ h)

/-- The queue left by a run from one node, on a fresh engine. -/
theorem queue_clash {σ : Type} (P : Policy σ) (root : σ) (n : Nat)
    (hstep : ∀ x succs, Reach P root x → P.atCutoff x = false → P.isSolution x = false →
      P.expand x = some succs →
      (∀ c, c ∈ succs → ∀ a, Clash n a (P.board x) → Clash n a (P.board c)) ∧
      succs.Pairwise (fun a b => Clash n (P.board a) (P.board b)))
    (fuel : Nat) (e : Engine) (hrun : searchLoop P fuel [root] Engine.fresh = some e) :
    e.workQueue.Pairwise (Clash n) := by
  obtain ⟨Q, hq, hQ, _⟩ := searchLoop_clash P (fun x => Reach P root x) (Clash n)
    (fun _ _ h => h.flip)
    (fun x succs hx hc hs hexp =>
      ⟨fun c hcm => ⟨Reach.push hx hc hs hexp hcm, (hstep x succs hx hc hs hexp).1 c hcm⟩,
        (hstep x succs hx hc hs hexp).2⟩)
    fuel [root] Engine.fresh e hrun
    (fun x hx => by rw [List.mem_singleton.mp hx]; exact Reach.root)
    (List.pairwise_singleton _ _)
  have : e.workQueue = Q := by rw [hq]; rfl
  rw [this]
  exact hQ

theorem bt_seed_clash (n d : Nat) (hd1 : 1 ≤ d) (hdn : d ≤ n) (e : Engine)
    (hrun : BTSolver.solve n (emptyBoard n) (d : Int) Engine.fresh = some e) :
    e.workQueue.Pairwise (Clash n) := by
  apply queue_clash (BTSolver.policy n (d : Int)) (BTSolver.initialNode n (emptyBoard n)) n
    _ (searchFuel n) e hrun
  intro x succs hx _ hsol hexp
  obtain ⟨⟨hlen, hrn, _, _⟩, htail, _⟩ := bt_reach_seed n d hd1 hdn x hx
  have hrow : x.row ≠ n := by simpa [BTSolver.policy] using hsol
  have hun : x.board.getD x.row 0 = -1 := htail x.row (Nat.le_refl _) (by omega)
  refine ⟨fun c hc a ha => ?_, ?_⟩
  · obtain ⟨col, _, _, rfl⟩ := bt_child hexp hc
    exact ha.set _ hun
  · refine (bt_push_order n _ x succs hexp).imp ?_
    rintro a b ⟨col1, col2, hlt, rfl, rfl⟩
    exact clash_siblings (by omega) (by omega) hlt

theorem btfc_seed_clash (n d : Nat) (hd1 : 1 ≤ d) (hdn : d ≤ n) (e : Engine)
    (hrun : BTFCSolver.solve n (emptyBoard n) (d : Int) Engine.fresh = some e) :
    e.workQueue.Pairwise (Clash n) := by
  apply queue_clash (BTFCSolver.policy n (precomputeAttackMasks n) (d : Int))
    (BTFCSolver.initialNode n (precomputeAttackMasks n) (emptyBoard n)) n
    _ (searchFuel n) e hrun
  intro x succs hx _ hsol hexp
  obtain ⟨⟨hlen, _, hrn, _, _⟩, htail, _, _⟩ := btfc_reach_seed n d hd1 hdn x hx
  have hrow : x.row ≠ n := by simpa [BTFCSolver.policy] using hsol
  have hun : x.board.getD x.row 0 = -1 := htail x.row (Nat.le_refl _) (by omega)
  refine ⟨fun c hc a ha => ?_, ?_⟩
  · obtain ⟨col, _, _, _, rfl⟩ := btfc_child hexp hc
    exact ha.set _ hun
  · refine (btfc_push_order n _ _ x succs hexp).imp ?_
    rintro a b ⟨col1, col2, hlt, h1, h2⟩
    show Clash n a.board b.board
    rw [h1, h2]
    exact clash_siblings (by omega) (by omega) hlt

theorem ac3_seed_clash (n d : Nat) (hd1 : 1 ≤ d) (hdn : d ≤ n) (e : Engine)
    (hrun : AC3Solver.solve n (emptyBoard n) (d : Int) Engine.fresh = some e) :
    e.workQueue.Pairwise (Clash n) := by
  apply queue_clash (AC3Solver.policy n (precomputeAttackMasks n) (d : Int))
    (AC3Solver.initialNode n (precomputeAttackMasks n) (emptyBoard n)) n
    _ (searchFuel n) e hrun
  intro x succs hx _ hsol hexp
  obtain ⟨⟨hlen, _, hrn, _, _⟩, htail, _, _⟩ := ac3_reach_seed n d hd1 hdn x hx
  have hrow : x.row ≠ n := by simpa [AC3Solver.policy] using hsol
  have hun : x.board.getD x.row 0 = -1 := htail x.row (Nat.le_refl _) (by omega)
  refine ⟨fun c hc a ha => ?_, ?_⟩
  · obtain ⟨col, D', _, _, _, rfl⟩ := ac3_child hexp hc
    exact ha.set _ hun
  · refine (ac3_push_order n _ _ x succs hexp).imp ?_
    rintro a b ⟨col1, col2, hlt, h1, h2⟩
    show Clash n a.board b.board
    rw [h1, h2]
    exact clash_siblings (by omega) (by omega) hlt

theorem btfcdvo_seed_clash (n d : Nat) (hd1 : 1 ≤ d) (hdn : d ≤ n) (e : Engine)
    (hrun : BTFCDVOSolver.solve n (emptyBoard n) (d : Int) Engine.fresh = some e) :
    e.workQueue.Pairwise (Clash n) := by
  apply queue_clash (BTFCDVOSolver.policy n (precomputeAttackMasks n) (d : Int))
    (BTFCDVOSolver.initialNode n (precomputeAttackMasks n) (emptyBoard n)) n
    _ (searchFuel n) e hrun
  intro x succs hx _ _ hexp
  obtain ⟨⟨hlen, _, _, _, _⟩, _⟩ := btfcdvo_reach_seed n d hd1 hdn x hx
  refine ⟨fun c hc a ha => ?_, ?_⟩
  · obtain ⟨r, col, _, _, hun, _, _, _, rfl⟩ := btfcdvo_child hexp hc
    exact ha.set _ hun
  · refine ((btfcdvo_push_order n _ _ x succs hexp).imp_of_mem ?_)
    rintro a b ha _ ⟨col1, col2, hlt, h1, h2⟩
    obtain ⟨r, _, hr, hsel, _, _, _, _, _⟩ := btfcdvo_child hexp ha
    rw [hsel, Int.toNat_ofNat] at h1 h2
    show Clash n a.board b.board
    rw [h1, h2]
    exact clash_siblings hr (by omega) hlt

theorem ac3dvo_seed_clash (n d : Nat) (hd1 : 1 ≤ d) (hdn : d ≤ n) (e : Engine)
    (hrun : AC3DVOSolver.solve n (emptyBoard n) (d : Int) Engine.fresh = some e) :
    e.workQueue.Pairwise (Clash n) := by
  apply queue_clash (AC3DVOSolver.policy n (precomputeAttackMasks n) (d : Int))
    (BTFCDVOSolver.initialNode n (precomputeAttackMasks n) (emptyBoard n)) n
    _ (searchFuel n) e hrun
  intro x succs hx _ _ hexp
  obtain ⟨⟨hlen, _, _, _, _⟩, _⟩ := ac3dvo_reach_seed n d hd1 hdn x hx
  refine ⟨fun c hc a ha => ?_, ?_⟩
  · obtain ⟨r, col, D', _, _, hun, _, _, _, rfl⟩ := ac3dvo_child hexp hc
    exact ha.set _ hun
  · refine ((ac3dvo_push_order n _ _ x succs hexp).imp_of_mem ?_)
    rintro a b ha _ ⟨col1, col2, hlt, h1, h2⟩
    obtain ⟨r, _, _, hr, hsel, _, _, _, _, _⟩ := ac3dvo_child hexp ha
    rw [hsel, Int.toNat_ofNat] at h1 h2
    show Clash n a.board b.board
    rw [h1, h2]
    exact clash_siblings hr (by omega) hlt

/-- The boards on the queue of a seed run clash pairwise. -/
theorem seed_clash (kind : SolverKind) (n d : Nat) (hd1 : 1 ≤ d) (hdn : d ≤ n) (e : Engine)
    (hrun : kind.solve n (emptyBoard n) (d : Int) Engine.fresh = some e) :
    e.workQueue.Pairwise (Clash n) := by
  cases kind
  · exact bt_seed_clash n d hd1 hdn e hrun
  · exact btfc_seed_clash n d hd1 hdn e hrun
  · exact btfcdvo_seed_clash n d hd1 hdn e hrun
  · exact ac3_seed_clash n d hd1 hdn e hrun
  · exact ac3dvo_seed_clash n d hd1 hdn e hrun

/-! ## Parallel mode: no board twice -/

/-- A board whose assigned rows are the rows before `d < n` has its first unassigned row at
`d`, and nothing assigned from there on. -/
theorem static_tail {n d : Nat} {b : Solution} (hd : d < n)
    (hst : ∀ i, i < n → (b.getD i 0 ≠ -1 ↔ i < d)) :
    TailUnassigned n b (findStartRow n b) := by
  have hbd : b.getD d 0 = -1 := by
    by_contra h
    have := (hst d hd).mp h
    omega
  rw [findStartRow_of_tail hd (fun i hi => (hst i (by omega)).mpr hi) hbd]
  intro i hdi hi
  by_contra h
  have := (hst i hi).mp h
  omega

/-- Every board a worker engine returns agrees with the queued board it was built on; for
`BTSolver` this needs an unassigned row in the queued board (`d < n`). -/
theorem worker_agrees (kind : SolverKind) (n : Nat) (hn : n ≤ 63) (d : Nat) (hdn : d ≤ n)
    (hbt : kind = SolverKind.BT → d < n) (b : Solution) (hlen : b.length = n)
    (hok : AssignedOK n b)
    (hst : kind = SolverKind.BT ∨ kind = SolverKind.BTFC ∨ kind = SolverKind.AC3 →
      ∀ i, i < n → (b.getD i 0 ≠ -1 ↔ i < d))
    (e : Engine) (hrun : kind.solve n b 0 Engine.fresh = some e) :
    ∀ s, s ∈ e.solutions → Agrees n b s := by
  cases kind
  · have hd := hbt rfl
    have ht := static_tail hd (hst (Or.inl rfl))
    intro s hs
    obtain ⟨x, hx, _, _, rfl⟩ := (fresh_solutions (BTSolver.policy n 0)
      (BTSolver.initialNode n b) (searchFuel n) e hrun).1 s hs
    exact agrees_of_static ht (bt_reach_static n 0 b x hx).2.2
  · by_cases hd : d < n
    · have ht := static_tail hd (hst (Or.inr (Or.inl rfl)))
      intro s hs
      obtain ⟨x, hx, _, _, rfl⟩ := (fresh_solutions
        (BTFCSolver.policy n (precomputeAttackMasks n) 0)
        (BTFCSolver.initialNode n (precomputeAttackMasks n) b) (searchFuel n) e hrun).1 s hs
      exact agrees_of_static ht (btfc_reach_static n _ 0 b x hx).2.2
    · obtain ⟨e', h1, h2⟩ := btfc_agrees_complete n hn b hlen hok
        (fun i hi => (hst (Or.inr (Or.inl rfl)) i hi).mpr (by omega))
      have : e' = e := Option.some.inj (h1.symm.trans hrun)
      rw [← this]
      exact h2
  · intro s hs
    obtain ⟨x, hx, _, _, rfl⟩ := (fresh_solutions
      (BTFCDVOSolver.policy n (precomputeAttackMasks n) 0)
      (BTFCDVOSolver.initialNode n (precomputeAttackMasks n) b) (searchFuel n) e hrun).1 s hs
    exact btfcdvo_reach_agrees n _ 0 b x hx
  · obtain ⟨e', h1, h2⟩ := ac3_agrees_all n hn b hlen hok
    have : e' = e := Option.some.inj (h1.symm.trans hrun)
    rw [← this]
    exact h2
  · intro s hs
    obtain ⟨x, hx, _, _, rfl⟩ := (fresh_solutions
      (AC3DVOSolver.policy n (precomputeAttackMasks n) 0)
      (BTFCDVOSolver.initialNode n (precomputeAttackMasks n) b) (searchFuel n) e hrun).1 s hs
    exact ac3dvo_reach_agrees n _ 0 b x hx

/-- Workers built on boards that clash pairwise, each returning a duplicate-free list of
boards that agree with its own board, return no board twice between them. -/
theorem workerThread_nodup (kind : SolverKind) (n : Nat) :
    ∀ (Q : List Solution), Q.Pairwise (Clash n) →
      (∀ b, b ∈ Q → ∃ e, kind.solve n b 0 Engine.fresh = some e ∧ e.solutions.Nodup ∧
        ∀ s, s ∈ e.solutions → Agrees n b s) →
      ∃ solvers, workerThread kind n Q = some solvers ∧
        (solvers.flatMap (fun solver => solver.solutions)).Nodup ∧
        ∀ s, s ∈ solvers.flatMap (fun solver => solver.solutions) →
          ∃ b, b ∈ Q ∧ Agrees n b s := by
  intro Q
  induction Q with
  | nil => intro _ _; exact ⟨[], rfl, by simp, by simp⟩
  | cons b Q ih =>
    intro hpw hQ
    obtain ⟨hb, hpwQ⟩ := List.pairwise_cons.mp hpw
    obtain ⟨e, h1, h2, h3⟩ := hQ b (List.mem_cons_self _ _)
    obtain ⟨solvers, g1, g2, g3⟩ := ih hpwQ (fun b' hb' => hQ b' (List.mem_cons_of_mem _ hb'))
    refine ⟨e :: solvers, ?_, ?_, ?_⟩
    · unfold workerThread
      rw [h1, g1]
    · rw [List.flatMap_cons]
      apply List.Nodup.append h2 g2
      intro s hs1 hs2
      obtain ⟨b', hb', hag⟩ := g3 s hs2
      exact (hb b' hb').no_common (h3 s hs1) hag
    · intro s hs
      rw [List.flatMap_cons, List.mem_append] at hs
      rcases hs with h | h
      · exact ⟨b, List.mem_cons_self _ _, h3 s h⟩
      · obtain ⟨b', hb', hag⟩ := g3 s h
        exact ⟨b', List.mem_cons_of_mem _ hb', hag⟩

/-- Claim C34 fails in the code for `BTSolver` with cutoff `d = n`: for `n = 4`, `d = 4`
the seed engine queues the two complete placements; each worker engine finds no
unassigned row, keeps `startRow = 0`, searches the whole board again and returns both
placements, so the merged list holds four boards, each placement twice, against the two
of a single engine. -/
theorem C34_counterexample :
    parallelSolutions SolverKind.BT 4 ((4 : Nat) : Int)
      = some [[2, 0, 3, 1], [1, 3, 0, 2], [2, 0, 3, 1], [1, 3, 0, 2]] ∧
    singleSolutions SolverKind.BT 4 = some [[2, 0, 3, 1], [1, 3, 0, 2]] ∧
    ¬ ([[2, 0, 3, 1], [1, 3, 0, 2], [2, 0, 3, 1], [1, 3, 0, 2]] : List Solution).Nodup := by
  refine ⟨by decide!, by decide!, by decide⟩

/-- Claim C34 where the code meets it: in the sequential model of parallel mode, for
every strategy, every `n ≤ 63` and every cutoff `d` with `1 ≤ d ≤ n` (for `BTSolver`:
`1 ≤ d < n`), the merged solution list has no duplicate boards, holds the same boards as
the list of a single engine, and has the same length. -/
theorem C34_parallel_no_duplicates (kind : SolverKind) (n : Nat) (hn : n ≤ 63) (d : Nat)
    (hd1 : 1 ≤ d) (hdn : d ≤ n) (hbt : kind = SolverKind.BT → d < n) :
    ∃ merged single, parallelSolutions kind n (d : Int) = some merged ∧
      singleSolutions kind n = some single ∧ merged.Nodup ∧
      (∀ s, s ∈ merged ↔ s ∈ single) ∧ merged.length = single.length := by
  obtain ⟨e, he, _, hq⟩ := seed_facts kind n d hd1 hdn
  have hclash := seed_clash kind n d hd1 hdn e he
  obtain ⟨solvers, g1, g2, _⟩ := workerThread_nodup kind n e.workQueue hclash
    (by
      intro b hb
      obtain ⟨hlen, _, hok, hst⟩ := hq b hb
      obtain ⟨e', L, r1, r2, _, r4, _, _⟩ := kind.worker_spec_all n hn b hlen hok Engine.fresh
      have hL : e'.solutions = L := by rw [r2]; rfl
      exact ⟨e', r1, hL ▸ r4, worker_agrees kind n hn d hdn hbt b hlen hok hst e' r1⟩)
  obtain ⟨merged', p1, p2⟩ := parallel_spec kind n hn d hd1 hdn
  obtain ⟨single, s1, s2, s3⟩ := single_spec kind n hn
  have hpar : parallelSolutions kind n (d : Int)
      = some (solvers.flatMap (fun solver => solver.solutions)) := by
    unfold parallelSolutions
    rw [he]
    show (match workerThread kind n e.workQueue with
      | none => none
      | some solvers => some (solvers.flatMap (fun solver => solver.solutions))) = _
    rw [g1]
  have hm : merged' = solvers.flatMap (fun solver => solver.solutions) :=
    Option.some.inj (p1.symm.trans hpar)
  rw [hm] at p2
  have hmem : ∀ s, s ∈ solvers.flatMap (fun solver => solver.solutions) ↔ s ∈ single :=
    fun s => (p2 s).trans (s3 s).symm
  exact ⟨_, single, hpar, s1, g2, hmem,
    ((List.perm_ext_iff_of_nodup g2 s2).mpr hmem).length_eq⟩

theorem C34_parallel_no_duplicates_witness :
    (4 ≤ 63) ∧ (1 ≤ 4) ∧ (4 ≤ 4) ∧ (SolverKind.BTFC = SolverKind.BT → 4 < 4) ∧
    ∃ merged single, parallelSolutions SolverKind.BTFC 4 ((4 : Nat) : Int) = some merged ∧
      singleSolutions SolverKind.BTFC 4 = some single ∧ merged.Nodup ∧
      (∀ s, s ∈ merged ↔ s ∈ single) ∧ merged.length = single.length :=
  ⟨by decide, by decide, by decide, by decide,
    C34_parallel_no_duplicates SolverKind.BTFC 4 (by decide) 4 (by decide) (by decide)
      (by decide)⟩

end NQueens
